import Mathlib

/-!
# Verification of the msft-todo-backup streaming JSON token pipeline

This file gives a shallow embedding, in Lean 4, of the core token-pipeline
library of the repository (the token model, the depth/stack key trackers, the
`FullAssembler`, the `packEntry` / `omitEntry` / `selectEntry` / `injectEntry` /
`objectSieve` filters, the `InflationStream.pushMany` primitive, and the
`makeSafeCallback` wrapper), together with proofs about that embedding.

Conventions used throughout:

* JavaScript `null`-able fields are modeled with `Option`.
* JS arrays used as stacks (push/pop at the end) are modeled as Lean lists with
  the *top at the head*; this is noted at each such definition.
* `parseFloat` on the decimal text of a number is modeled as the identity on
  that text: `JVal.jnum` carries the decimal text itself, and tokenizations emit
  exactly that text, mirroring the bit-exact lexer/emitter contract of the spec.
* Streams are modeled synchronously: a transformer is a state machine
  `State → Chunk → State × List Chunk`, and `push`/`pushMany` append to the
  output list.  Backpressure suspensions (`flow` events) do not change which
  chunks are emitted in which order, only when; the sequential model records
  the eventual outcome.
-/

namespace MsftTodo

/-! ## Token model (src/unnamed/part_001, the JsonToken declarations) -/

/-- The names of the eighteen `JsonToken` variants. -/
inductive TokName
  | startObject | endObject | startArray | endArray
  | startKey | endKey
  | startString | endString | stringChunk
  | startNumber | endNumber | numberChunk
  | keyValue | stringValue | numberValue
  | trueValue | falseValue | nullValue
deriving DecidableEq, Repr

/-- A `JsonToken`: a token name plus its (string) payload.  Tokens whose
variants carry no payload (or a boolean/null payload ignored by every consumer
in this library) use the default `""`. -/
structure JsonToken where
  name : TokName
  value : String := ""
deriving DecidableEq, Repr

/-! ## JSON values -/

/-- A JSON value.  `jnum` carries the decimal text of the number (see the
`parseFloat` convention in the file header). -/
inductive JVal
  | jnull
  | jbool (b : Bool)
  | jnum (text : String)
  | jstr (s : String)
  | jarr (elements : List JVal)
  | jobj (entries : List (String × JVal))
deriving Repr

/-! ## FullAssembler
(src/lib/stream-json-extended/sink/full-assembler.ts; the superclass methods
`startObject`/`endObject`/`startArray`/`endArray`/`keyValue`/`stringValue`/
`numberValue`/`nullValue`/`trueValue`/`falseValue`/`_saveValue` are those of the
stream-json `Assembler` the class extends, as described by spec section 4.3:
ordinary assembler logic maintaining `current`, `key`, a stack of
`[parent, key]` pairs and the `done` flag). -/

/-- The three packed token names that require de-duplication tracking
(`JsonStreamedAssembledTokenName`). -/
inductive PackedName
  | keyValue | stringValue | numberValue
deriving DecidableEq, Repr

/-- The state of a `FullAssembler`.  The JS superclass keeps `stack` as a flat
array alternating parent/key; it is modeled here as a list of
(parent, key) pairs, top at the head. -/
structure FAState where
  current : Option JVal := none
  key : Option String := none
  stack : List (Option JVal × Option String) := []
  done : Bool := true
  previouslyAssembledStreamedToken : Option PackedName := none
  assembledString : String := ""
  wasDone : Bool := true
  sparseMode : Bool := false
deriving Repr

/-- In sparse mode the `current` property setter is a no-op (the black-hole
Proxy absorbs all writes); otherwise the write lands. -/
def setCurrent (s : FAState) (v : Option JVal) : FAState :=
  if s.sparseMode then s else { s with current := v }

/-- JS object property assignment `obj[k] = v`: overwrite in place when the key
exists, else append (insertion order preserved). -/
def objAssign (es : List (String × JVal)) (k : String) (v : JVal) :
    List (String × JVal) :=
  if es.any (fun e => e.1 = k) then
    es.map (fun e => if e.1 = k then (k, v) else e)
  else es ++ [(k, v)]

/-- The superclass `_saveValue`.  In sparse mode with `done = false` the proxy
absorbs the property assignment but `this.key = null` still executes.  The
final catch-all covers grammar-violating inputs on which the source may throw
(spec section 4.3 failure semantics); it is never reached on valid streams. -/
def saveValue (s : FAState) (v : JVal) : FAState :=
  if s.done then setCurrent s (some v)
  else if s.sparseMode then { s with key := none }
  else
    match s.current with
    | some (.jarr xs) => setCurrent s (some (.jarr (xs ++ [v])))
    | some (.jobj es) =>
        match s.key with
        | some k => { setCurrent s (some (.jobj (objAssign es k v))) with key := none }
        | none => s
    | _ => s

/-- `beginAssemblingToken`. -/
def beginAssemblingToken (s : FAState) : FAState :=
  { s with wasDone := s.done, done := false }

/-- `appendToAssembledString`. -/
def appendToAssembledString (v : String) (s : FAState) : FAState :=
  { s with assembledString := s.assembledString ++ v }

/-- Superclass `keyValue`. -/
def superKeyValue (v : String) (s : FAState) : FAState :=
  { s with key := some v }

/-- Superclass `stringValue` (alias of `_saveValue`). -/
def superStringValue (v : String) (s : FAState) : FAState :=
  saveValue s (.jstr v)

/-- Superclass `numberValue` (`_saveValue(parseFloat(value))`; see the
`parseFloat` convention in the file header). -/
def superNumberValue (v : String) (s : FAState) : FAState :=
  saveValue s (.jnum v)

/-- Superclass `nullValue`. -/
def superNullValue (s : FAState) : FAState := saveValue s .jnull

/-- Superclass `trueValue`. -/
def superTrueValue (s : FAState) : FAState := saveValue s (.jbool true)

/-- Superclass `falseValue`. -/
def superFalseValue (s : FAState) : FAState := saveValue s (.jbool false)

/-- Superclass `startObject`/`startArray` (parameterized by the fresh empty
container): if `done` clear it, otherwise push the `(current, key)` pair; then
install the fresh container and clear `key`. -/
def superStartContainer (empty : JVal) (s : FAState) : FAState :=
  { setCurrent
      (if s.done then { s with done := false }
       else { s with stack := (s.current, s.key) :: s.stack })
      (some empty) with key := none }

/-- Superclass `endObject` (also `endArray`): with a nonempty stack, pop
`key` and `current` back and `_saveValue` the finished container; with an empty
stack, set `done`. -/
def superEndContainer (s : FAState) : FAState :=
  match s.stack with
  | [] => { s with done := true }
  | (c, k) :: rest =>
      saveValue (setCurrent { s with key := k, stack := rest } c)
        (s.current.getD .jnull)

/-- Dispatch one of the three parameterized packed-value superclass methods. -/
def packedDispatch (m : PackedName) (v : String) (s : FAState) : FAState :=
  match m with
  | .keyValue => superKeyValue v s
  | .stringValue => superStringValue v s
  | .numberValue => superNumberValue v s

/-- `skipMethodCallIfPreviouslyAssembled`. -/
def skipIfPreviouslyAssembled (m : PackedName) (superMethod : FAState → FAState)
    (s : FAState) : FAState :=
  if s.previouslyAssembledStreamedToken = some m then s else superMethod s

/-- `withPreviousTokenTracking`: run the wrapped behavior, then clear the
previously-assembled marker. -/
def withPreviousTokenTracking (fn : FAState → FAState) (s : FAState) : FAState :=
  { fn s with previouslyAssembledStreamedToken := none }

/-- The instance methods `this.keyValue` / `this.stringValue` /
`this.numberValue` as wired in the constructor:
`withPreviousTokenTracking (skipMethodCallIfPreviouslyAssembled (super method))`. -/
def wrappedPacked (m : PackedName) (v : String) (s : FAState) : FAState :=
  withPreviousTokenTracking (skipIfPreviouslyAssembled m (packedDispatch m v)) s

/-- `finalizeAssembledToken`: restore `done` from `wasDone` *before* invoking
the (wrapped) packed method with the assembled string, then record the marker
and reset the buffer. -/
def finalizeAssembledToken (s : FAState) (m : PackedName) : FAState :=
  { wrappedPacked m s.assembledString { s with done := s.wasDone } with
    previouslyAssembledStreamedToken := some m, assembledString := "" }

/-- `FullAssembler.consume`, dispatching on the token name exactly as the
constructor wires the eighteen instance methods. -/
def FAState.consume (s : FAState) (t : JsonToken) : FAState :=
  match t.name with
  | .startKey => withPreviousTokenTracking beginAssemblingToken s
  | .startString => withPreviousTokenTracking beginAssemblingToken s
  | .startNumber => withPreviousTokenTracking beginAssemblingToken s
  | .stringChunk => withPreviousTokenTracking (appendToAssembledString t.value) s
  | .numberChunk => withPreviousTokenTracking (appendToAssembledString t.value) s
  | .endKey => finalizeAssembledToken s .keyValue
  | .endString => finalizeAssembledToken s .stringValue
  | .endNumber => finalizeAssembledToken s .numberValue
  | .keyValue => wrappedPacked .keyValue t.value s
  | .stringValue => wrappedPacked .stringValue t.value s
  | .numberValue => wrappedPacked .numberValue t.value s
  | .startObject => withPreviousTokenTracking (superStartContainer (.jobj [])) s
  | .startArray => withPreviousTokenTracking (superStartContainer (.jarr [])) s
  | .endObject => withPreviousTokenTracking superEndContainer s
  | .endArray => withPreviousTokenTracking superEndContainer s
  | .nullValue => withPreviousTokenTracking superNullValue s
  | .trueValue => withPreviousTokenTracking superTrueValue s
  | .falseValue => withPreviousTokenTracking superFalseValue s

/-- A freshly constructed `FullAssembler`. -/
def initFA (sparse : Bool) : FAState := { sparseMode := sparse }

/-- Feed a whole token list to a `FullAssembler`. -/
def consumeAll (s : FAState) (ts : List JsonToken) : FAState :=
  ts.foldl FAState.consume s

end MsftTodo



namespace MsftTodo

/-! ## Sparse-mode simulation (claim C3)

In sparse mode only the `current` property differs (its setter is a no-op and
its getter returns the black-hole proxy, modeled by the frozen initial `none`);
`done`, the stack length, the assembled-string buffer, the de-duplication
marker and `wasDone` evolve identically for *every* input token. -/

@[simp] theorem saveValue_done (s : FAState) (v : JVal) :
    (saveValue s v).done = s.done := by
  unfold saveValue setCurrent; repeat first | rfl | split

@[simp] theorem saveValue_stack (s : FAState) (v : JVal) :
    (saveValue s v).stack = s.stack := by
  unfold saveValue setCurrent; repeat first | rfl | split

@[simp] theorem saveValue_prev (s : FAState) (v : JVal) :
    (saveValue s v).previouslyAssembledStreamedToken
      = s.previouslyAssembledStreamedToken := by
  unfold saveValue setCurrent; repeat first | rfl | split

@[simp] theorem saveValue_assembled (s : FAState) (v : JVal) :
    (saveValue s v).assembledString = s.assembledString := by
  unfold saveValue setCurrent; repeat first | rfl | split

@[simp] theorem saveValue_wasDone (s : FAState) (v : JVal) :
    (saveValue s v).wasDone = s.wasDone := by
  unfold saveValue setCurrent; repeat first | rfl | split

@[simp] theorem saveValue_sparseMode (s : FAState) (v : JVal) :
    (saveValue s v).sparseMode = s.sparseMode := by
  unfold saveValue setCurrent; repeat first | rfl | split

@[simp] theorem saveValue_current_sparse (s : FAState) (v : JVal)
    (h : s.sparseMode = true) : (saveValue s v).current = s.current := by
  unfold saveValue setCurrent
  simp only [h, if_true]
  repeat first | rfl | split

/-- The simulation relation between a non-sparse and a sparse assembler
state. -/
def SparseSim (ns sp : FAState) : Prop :=
  ns.sparseMode = false ∧ sp.sparseMode = true ∧ sp.current = none ∧
  ns.done = sp.done ∧ ns.stack.length = sp.stack.length ∧
  ns.previouslyAssembledStreamedToken = sp.previouslyAssembledStreamedToken ∧
  ns.assembledString = sp.assembledString ∧ ns.wasDone = sp.wasDone

theorem sparseSim_saveValue {ns sp : FAState} (h : SparseSim ns sp) (v w : JVal) :
    SparseSim (saveValue ns v) (saveValue sp w) := by
  obtain ⟨h1, h2, h3, h4, h5, h6, h7, h8⟩ := h
  exact ⟨by simp [h1], by simp [h2], by rw [saveValue_current_sparse _ _ h2]; exact h3,
    by simp [h4], by simp [h5], by simp [h6], by simp [h7], by simp [h8]⟩

theorem sparseSim_packedDispatch {ns sp : FAState} (h : SparseSim ns sp)
    (m : PackedName) (v w : String) :
    SparseSim (packedDispatch m v ns) (packedDispatch m w sp) := by
  cases m <;>
    simp only [packedDispatch, superKeyValue, superStringValue, superNumberValue]
  · obtain ⟨h1, h2, h3, h4, h5, h6, h7, h8⟩ := h
    exact ⟨h1, h2, h3, h4, h5, h6, h7, h8⟩
  · exact sparseSim_saveValue h _ _
  · exact sparseSim_saveValue h _ _

theorem sparseSim_wrappedPacked {ns sp : FAState} (h : SparseSim ns sp)
    (m : PackedName) (v w : String) :
    SparseSim (wrappedPacked m v ns) (wrappedPacked m w sp) := by
  unfold wrappedPacked withPreviousTokenTracking skipIfPreviouslyAssembled
  have h6 := h.2.2.2.2.2.1
  by_cases hp : ns.previouslyAssembledStreamedToken = some m
  · rw [if_pos hp, if_pos (h6 ▸ hp)]
    obtain ⟨h1, h2, h3, h4, h5, _, h7, h8⟩ := h
    exact ⟨h1, h2, h3, h4, h5, rfl, h7, h8⟩
  · rw [if_neg hp, if_neg (h6 ▸ hp)]
    obtain ⟨g1, g2, g3, g4, g5, _, g7, g8⟩ := sparseSim_packedDispatch h m v w
    exact ⟨g1, g2, g3, g4, g5, rfl, g7, g8⟩

theorem sparseSim_finalize {ns sp : FAState} (h : SparseSim ns sp)
    (m : PackedName) :
    SparseSim (finalizeAssembledToken ns m) (finalizeAssembledToken sp m) := by
  unfold finalizeAssembledToken
  obtain ⟨h1, h2, h3, h4, h5, h6, h7, h8⟩ := h
  have base : SparseSim { ns with done := ns.wasDone } { sp with done := sp.wasDone } :=
    ⟨h1, h2, h3, by simp [h8], h5, h6, h7, h8⟩
  obtain ⟨g1, g2, g3, g4, g5, g6, g7, g8⟩ :=
    sparseSim_wrappedPacked base m ns.assembledString sp.assembledString
  exact ⟨g1, g2, g3, g4, g5, rfl, rfl, g8⟩

theorem sparseSim_consume {ns sp : FAState} (h : SparseSim ns sp) (t : JsonToken) :
    SparseSim (ns.consume t) (sp.consume t) := by
  obtain ⟨nm, v⟩ := t
  obtain ⟨h1, h2, h3, h4, h5, h6, h7, h8⟩ := h
  have hsim : SparseSim ns sp := ⟨h1, h2, h3, h4, h5, h6, h7, h8⟩
  cases nm
  case endKey => exact sparseSim_finalize hsim .keyValue
  case endString => exact sparseSim_finalize hsim .stringValue
  case endNumber => exact sparseSim_finalize hsim .numberValue
  case keyValue => exact sparseSim_wrappedPacked hsim .keyValue v v
  case stringValue => exact sparseSim_wrappedPacked hsim .stringValue v v
  case numberValue => exact sparseSim_wrappedPacked hsim .numberValue v v
  case startKey | startString | startNumber =>
    exact ⟨h1, h2, h3, rfl, h5, rfl, h7, h4⟩
  case stringChunk | numberChunk =>
    refine ⟨h1, h2, h3, h4, h5, rfl, ?_, h8⟩
    show ns.assembledString ++ v = sp.assembledString ++ v
    rw [h7]
  case nullValue =>
    obtain ⟨g1, g2, g3, g4, g5, _, g7, g8⟩ := sparseSim_saveValue hsim .jnull .jnull
    exact ⟨g1, g2, g3, g4, g5, rfl, g7, g8⟩
  case trueValue =>
    obtain ⟨g1, g2, g3, g4, g5, _, g7, g8⟩ :=
      sparseSim_saveValue hsim (.jbool true) (.jbool true)
    exact ⟨g1, g2, g3, g4, g5, rfl, g7, g8⟩
  case falseValue =>
    obtain ⟨g1, g2, g3, g4, g5, _, g7, g8⟩ :=
      sparseSim_saveValue hsim (.jbool false) (.jbool false)
    exact ⟨g1, g2, g3, g4, g5, rfl, g7, g8⟩
  case startObject | startArray =>
    all_goals {
      show SparseSim
        { superStartContainer _ ns with previouslyAssembledStreamedToken := none }
        { superStartContainer _ sp with previouslyAssembledStreamedToken := none }
      unfold superStartContainer setCurrent
      simp only [h1, h2]
      refine ⟨?_, ?_, ?_, ?_, ?_, rfl, ?_, ?_⟩ <;> simp only [← h4] <;>
        rcases hd : ns.done with _ | _ <;>
        simp [h1, h2, h3, h4, h5, h6, h7, h8] }
  case endObject | endArray =>
    all_goals {
      show SparseSim
        { superEndContainer ns with previouslyAssembledStreamedToken := none }
        { superEndContainer sp with previouslyAssembledStreamedToken := none }
      unfold superEndContainer
      rcases hns : ns.stack with _ | ⟨⟨c, k⟩, rest⟩ <;>
        rcases hsp : sp.stack with _ | ⟨⟨c2, k2⟩, rest2⟩
      · dsimp only
        exact ⟨h1, h2, h3, rfl, rfl, rfl, h7, h8⟩
      · rw [hns, hsp] at h5; simp at h5
      · rw [hns, hsp] at h5; simp at h5
      · have hlen : rest.length = rest2.length := by
          rw [hns, hsp] at h5; simpa using h5
        have base : SparseSim (setCurrent { ns with key := k, stack := rest } c)
            (setCurrent { sp with key := k2, stack := rest2 } c2) := by
          unfold setCurrent
          simp only [h1, h2]
          exact ⟨rfl, rfl, h3, h4, hlen, h6, h7, h8⟩
        obtain ⟨g1, g2, g3, g4, g5, _, g7, g8⟩ :=
          sparseSim_saveValue base (ns.current.getD .jnull) (sp.current.getD .jnull)
        exact ⟨g1, g2, g3, g4, g5, rfl, g7, g8⟩ }

theorem sparseSim_consumeAll {ns sp : FAState} (h : SparseSim ns sp)
    (ts : List JsonToken) : SparseSim (consumeAll ns ts) (consumeAll sp ts) := by
  induction ts generalizing ns sp with
  | nil => exact h
  | cons t ts ih => exact ih (sparseSim_consume h t)

end MsftTodo

namespace MsftTodo

/-- **C3.** For the same input token sequence, a `FullAssembler` constructed
with `sparseMode = true` has its `done` flag equal, after every prefix (the
statement is universally quantified over token lists, hence applies to every
prefix), to that of a `FullAssembler` constructed with `sparseMode = false`,
and its construction stack has exactly the same length (it grows and shrinks
at the same tokens); only `current` differs: in sparse mode it remains the
black-hole proxy (modeled by the frozen initial `none`) instead of the
materialized value. -/
theorem C3_sparse_mode_equivalence (ts : List JsonToken) :
    (consumeAll (initFA false) ts).done = (consumeAll (initFA true) ts).done ∧
    (consumeAll (initFA false) ts).stack.length
      = (consumeAll (initFA true) ts).stack.length ∧
    (consumeAll (initFA true) ts).current = none := by
  have h := @sparseSim_consumeAll (initFA false) (initFA true)
    ⟨rfl, rfl, rfl, rfl, rfl, rfl, rfl, rfl⟩ ts
  exact ⟨h.2.2.2.1, h.2.2.2.2.1, h.2.2.1⟩

end MsftTodo

namespace MsftTodo

/-! ## makeSafeCallback (src/lib/make-safe-callback/index.ts)

The wrapper closes over a `calledCallback` flag.  On each invocation it first
logs when the flag is already set, then — `if (!calledCallback ||
!suppressExtraneousCalls)` — sets the flag and forwards to the underlying
callback.  An invocation is modeled by its first parameter (`Option ε`:
`none` = null, `some e` = an error). -/

/-- An observable effect of invoking the wrapper: forwarding to the underlying
callback, or logging an extraneous call to the console. -/
inductive SafeCbEffect (ε : Type)
  | invokeUnderlying (arg : Option ε)
  | logExtraneous (arg : Option ε)
deriving DecidableEq, Repr

/-- One invocation of the wrapper returned by `makeSafeCallback`: produces the
invocation's effects and the updated `calledCallback` flag. -/
def safeCallbackStep (suppress : Bool) (called : Bool) (arg : Option ε) :
    Bool × List (SafeCbEffect ε) :=
  if !called || !suppress then
    (true,
      (if called then [SafeCbEffect.logExtraneous arg] else [])
        ++ [SafeCbEffect.invokeUnderlying arg])
  else (called, if called then [SafeCbEffect.logExtraneous arg] else [])

/-- Invoke the wrapper once per argument in the list, threading the flag. -/
def safeCallbackRun (suppress : Bool) : Bool → List (Option ε) → List (SafeCbEffect ε)
  | _, [] => []
  | called, a :: rest =>
      (safeCallbackStep suppress called a).2
        ++ safeCallbackRun suppress (safeCallbackStep suppress called a).1 rest

/-- The arguments with which the underlying callback was actually invoked. -/
def underlyingCalls (effs : List (SafeCbEffect ε)) : List (Option ε) :=
  effs.filterMap fun e =>
    match e with
    | .invokeUnderlying a => some a
    | _ => none

/-- The arguments of the extraneous invocations that were logged. -/
def loggedCalls (effs : List (SafeCbEffect ε)) : List (Option ε) :=
  effs.filterMap fun e =>
    match e with
    | .logExtraneous a => some a
    | _ => none

theorem safeCallbackRun_called_true (suppress : Bool) (args : List (Option ε)) :
    underlyingCalls (safeCallbackRun suppress true args)
        = (if suppress then [] else args) ∧
      loggedCalls (safeCallbackRun suppress true args) = args := by
  induction args with
  | nil => cases suppress <;> simp [safeCallbackRun, underlyingCalls, loggedCalls]
  | cons a rest ih =>
      cases suppress <;>
        simpa [safeCallbackRun, safeCallbackStep, underlyingCalls, loggedCalls]
          using ih

/-- Behavior from the freshly constructed wrapper (flag initially false):
with `suppressExtraneousCalls = true` only the first invocation reaches the
underlying callback; with the default `false`, every invocation does.  In
both modes every invocation after the first is logged. -/
theorem safeCallbackRun_characterization (suppress : Bool)
    (args : List (Option ε)) :
    underlyingCalls (safeCallbackRun suppress false args)
        = (if suppress then args.take 1 else args) ∧
      loggedCalls (safeCallbackRun suppress false args) = args.drop 1 := by
  cases args with
  | nil => cases suppress <;> simp [safeCallbackRun, underlyingCalls, loggedCalls]
  | cons a rest =>
      have h := safeCallbackRun_called_true (ε := ε) suppress rest
      cases suppress <;>
        simpa [safeCallbackRun, safeCallbackStep, underlyingCalls, loggedCalls]
          using h

/-- **C9 (counterexample).** With `suppressExtraneousCalls` unset (the
default `false`), a second invocation of the wrapper is logged *and still
forwarded* to the underlying callback: after two invocations the underlying
callback has run twice, contradicting the claim that later invocations never
reach it regardless of the option. -/
theorem C9_counterexample :
    underlyingCalls (safeCallbackRun false false [(none : Option Nat), none])
        = [none, none] ∧
      loggedCalls (safeCallbackRun false false [(none : Option Nat), none])
        = [none] := by
  constructor <;> rfl

/-- **C9 (amended).** The underlying callback is invoked on the first wrapper
invocation; an invocation after the first is always logged, but it is kept
from the underlying callback only when `suppressExtraneousCalls = true` — with
the default `false` it is logged and still forwarded. -/
theorem C9_safe_callback_amended (ε : Type) (suppress : Bool)
    (args : List (Option ε)) :
    underlyingCalls (safeCallbackRun suppress false args)
        = (if suppress then args.take 1 else args) ∧
      loggedCalls (safeCallbackRun suppress false args) = args.drop 1 :=
  safeCallbackRun_characterization suppress args

end MsftTodo

namespace MsftTodo

/-! ## InflationStream.pushMany (src/unnamed/part_010)

A chunk source is normalized to an iterator; it yields a finite list of chunks
and then either reports exhaustion or throws (covering both a synchronous
`next()` throw and an asynchronous rejection — both funnel into
`callback(error)` in the source).  A zero-argument producer is invoked first —
*outside* the try/catch (`chunks = chunks()` precedes the guarded
iteration), so an error thrown while producing the iterable propagates
synchronously to `pushMany`'s caller and the completion callback never runs. -/

/-- An iterator: the chunks its `next()` calls yield, then either exhaustion
(`none`) or an error thrown/rejected by the following `next()` (`some e`). -/
structure IterSpec (α ε : Type) where
  yields : List α
  thrown : Option ε
deriving DecidableEq, Repr

/-- The `iterateChunks`/`processChunk` pump: pushes each yielded chunk
downstream and finally invokes the completion callback with `none` (done) or
`some e` (iterator error).  `full n` is the value returned by the n-th
`this.push`; when it is `false` the pump re-arms on the next `flow` event
(`this.once` + `_read`), which delays but does not alter the emitted
sequence, so the sequential model continues either way (see file header). -/
def pushManyPump (full : Nat → Bool) : IterSpec α ε → Nat → List α × Option ε
  | ⟨[], none⟩, _ => ([], none)
  | ⟨[], some e⟩, _ => ([], some e)
  | ⟨c :: rest, th⟩, n =>
      ((c :: (pushManyPump full ⟨rest, th⟩ (n + 1)).1),
        (pushManyPump full ⟨rest, th⟩ (n + 1)).2)

/-- Top-level `pushMany`: a chunk source is either an already-built iterable
(`Except.ok`) or a zero-argument producer whose invocation throws
(`Except.error`).  In the latter case the exception escapes `pushMany`
uncaught. -/
def pushManyModel (full : Nat → Bool) (producer : Except ε (IterSpec α ε)) :
    Except ε (List α × Option ε) :=
  match producer with
  | .error e => .error e
  | .ok it => .ok (pushManyPump full it 0)

theorem pushManyPump_eq (full : Nat → Bool) (it : IterSpec α ε) (n : Nat) :
    pushManyPump full it n = (it.yields, it.thrown) := by
  obtain ⟨ys, th⟩ := it
  induction ys generalizing n with
  | nil => cases th <;> simp [pushManyPump]
  | cons c rest ih => simp [pushManyPump, ih]

/-- The property claim C8 asserts of a throwing producer: the chunks are
pushed and the completion callback receives the producer's error. -/
def C8ClaimAtThrowingProducer (e : Nat) : Prop :=
  pushManyModel (fun _ => false) (Except.error e : Except Nat (IterSpec Nat Nat))
    = Except.ok ([], some e)

/-- **C8 (counterexample).** A zero-argument producer that throws while being
invoked (`chunks = chunks()` runs before the guarded iteration) makes
`pushMany` itself throw: the completion callback is *not* invoked with the
error, contradicting the claim for the producer-of-iterables source kind. -/
theorem C8_counterexample :
    pushManyModel (fun _ => false)
        (Except.error 7 : Except Nat (IterSpec Nat Nat)) = Except.error 7 ∧
      ¬ C8ClaimAtThrowingProducer 7 := by
  constructor
  · rfl
  · intro h
    simp [C8ClaimAtThrowingProducer, pushManyModel] at h

/-- **C8 (amended).** For every chunk source whose iterable is produced
without throwing (arrays, iterators, and producers returning them — including
generator producers, whose bodies run inside `next()`), every yielded chunk is
pushed downstream in its original order regardless of backpressure; when the
iterator is exhausted the completion callback is invoked with no error, and
when `next()` throws or rejects the callback is invoked with that error.  An
error thrown by the producer function itself, however, propagates
synchronously to the caller and the callback is never invoked. -/
theorem C8_pushMany_amended (α ε : Type) (full : Nat → Bool)
    (it : IterSpec α ε) :
    pushManyModel full (Except.ok it) = Except.ok (it.yields, it.thrown) ∧
      ∀ e : ε, pushManyModel full (Except.error e : Except ε (IterSpec α ε))
        = Except.error e := by
  refine ⟨?_, fun e => rfl⟩
  simp [pushManyModel, pushManyPump_eq]

end MsftTodo

namespace MsftTodo

/-! ## Synthetic tokens and the stack key tracker
(src/unnamed/part_007 for the token kinds, src/unnamed/part_001 for
`useStackKeyTracking`). -/

/-- An element of the key stack: the current array index, the current object
key, or `null` (inside an object with no key assigned yet). -/
inductive StackElem
  | idx (n : Int)
  | key (s : String)
  | nul
deriving DecidableEq, Repr

/-- Identity of a synthetic-token owner (`ownerSymbol`): opaque process-wide
ids compared only by equality; `none` = no owner attached. -/
abbrev Owner := Option Nat

/-- Which configured key filter matched, recorded as its index in the filter
list.  The source stores the matcher object itself and later compares it by
reference identity (`key === chunk.matcher`); index identity models exactly
that. -/
abbrev MatcherId := Nat

/-- The metadata shared by the five synthetic token kinds (`getEntryTokenBase`
plus the owner): entry key, full key-path snapshot including the key, the
matched filter, and the owner symbol. -/
structure EntryBase where
  key : String
  stack : List StackElem
  matcher : MatcherId
  owner : Owner
deriving DecidableEq, Repr

/-- A pipeline chunk: an ordinary `JsonToken` or one of the five symbol-named
synthetic tokens (symbol names are never equal to string names). -/
inductive Chunk
  | tok (t : JsonToken)
  | packedEntry (base : EntryBase) (value : JVal)
  | sparseEntryKeyStart (base : EntryBase)
  | sparseEntryKeyEnd (base : EntryBase)
  | sparseEntryValueStart (base : EntryBase)
  | sparseEntryValueEnd (base : EntryBase)
deriving Repr

/-- The state of `useStackKeyTracking`.  The JS array pushes/pops at the end;
it is modeled top-at-head, and `getStack` below restores the JS (bottom-first)
order. -/
structure TrackerState where
  stack : List StackElem := []
  previousToken : Option Chunk := none
  keyBuffer : Option String := none
deriving Repr

/-- `getStack()`: a fresh shallow copy of the stack, bottom-first (JS
order). -/
def getStack (t : TrackerState) : List StackElem := t.stack.reverse

/-- `getHead(offset)`, i.e. `stack.at(-1 - offset)`. -/
def getHead (t : TrackerState) (offset : Nat := 0) : Option StackElem :=
  t.stack.get? offset

/-- The name of the previous token when it was an ordinary `JsonToken`
(`previousToken?.name` compared against string names; a symbol-named synthetic
token never equals them). -/
def prevTokName (t : TrackerState) : Option TokName :=
  match t.previousToken with
  | some (.tok tk) => some tk.name
  | _ => none

/-- `pushHead({incrementIfStackHeadIsArray: true})`: increment the head when
it is a number. -/
def incrementIfHeadIsArray (t : TrackerState) : TrackerState :=
  match t.stack with
  | .idx n :: rest => { t with stack := .idx (n + 1) :: rest }
  | _ => t

/-- `setHead({value})`: replace the head.  On an empty stack the JS write
(`stack[-1] = value`) does not create an element, hence the no-op. -/
def setHead (t : TrackerState) (v : StackElem) : TrackerState :=
  match t.stack with
  | _ :: rest => { t with stack := v :: rest }
  | [] => t

/-- The first `switch` of `updateStack`: new-value bookkeeping (array index
increments, packed keys), with the streamed-and-packed de-duplication checks
for `numberValue`/`stringValue`. -/
def updateStackIncrement (t : TrackerState) (c : Chunk) : TrackerState :=
  match c with
  | .tok tk =>
      match tk.name with
      | .startObject | .startArray | .startString | .startNumber
      | .nullValue | .trueValue | .falseValue => incrementIfHeadIsArray t
      | .keyValue => setHead t (.key tk.value)
      | .numberValue =>
          if prevTokName t = some .endNumber then t else incrementIfHeadIsArray t
      | .stringValue =>
          if prevTokName t = some .endString then t else incrementIfHeadIsArray t
      | _ => t
  | _ => t

/-- The second `switch` of `updateStack`: structural pushes and pops, and the
streamed-key buffer.  On `endKey` with no buffered key the source asserts;
valid streams never reach that, and it is modeled as a no-op. -/
def updateStackStructure (t : TrackerState) (c : Chunk) : TrackerState :=
  match c with
  | .tok tk =>
      match tk.name with
      | .startObject => { t with stack := .nul :: t.stack }
      | .startArray => { t with stack := .idx (-1) :: t.stack }
      | .startKey => { t with keyBuffer := some "" }
      | .stringChunk =>
          match t.keyBuffer with
          | some b => { t with keyBuffer := some (b ++ tk.value) }
          | none => t
      | .endKey =>
          match t.keyBuffer with
          | some b => { setHead t (.key b) with keyBuffer := none }
          | none => t
      | .endObject => { t with stack := t.stack.tail }
      | .endArray => { t with stack := t.stack.tail }
      | _ => t
  | _ => t

/-- `updateStack`: both switches in order, then record the current token as
the previous one. -/
def updateStack (t : TrackerState) (c : Chunk) : TrackerState :=
  { updateStackStructure (updateStackIncrement t c) c with previousToken := some c }

end MsftTodo

namespace MsftTodo

/-! ## Snapshot discipline of `getStack` (claim C10)

`getStack` returns `[...stack]` — a fresh shallow copy — so every returned
array is a heap cell distinct from the tracker's own array.  The heap model
below has one cell for the tracker and one cell per returned snapshot;
`updateStack` mutates only the tracker's cell, and client code mutating a
returned snapshot in place touches only that snapshot's cell.  (The elements
are primitives — numbers, strings, null — so a shallow copy fully decouples
the contents.) -/

/-- Replace the i-th element of a list by applying `f` (in-place mutation of
one heap cell). -/
def listModify (l : List α) (i : Nat) (f : α → α) : List α :=
  match l, i with
  | [], _ => []
  | x :: rest, 0 => f x :: rest
  | x :: rest, n + 1 => x :: listModify rest n f

/-- The heap: the tracker's own state plus every array `getStack` has
returned, in order of creation. -/
structure SnapHeap where
  tracker : TrackerState
  snaps : List (List StackElem)

/-- An operation touching the heap: a tracker update, taking a snapshot via
`getStack`, or client code mutating a previously returned snapshot array in
place. -/
inductive SnapOp
  | update (c : Chunk)
  | snapshot
  | mutate (i : Nat) (f : List StackElem → List StackElem)

/-- One heap step.  `getStack` allocates a fresh cell holding a copy of the
tracker's stack; `updateStack` rewrites the tracker's cell only; `mutate i f`
rewrites snapshot cell `i` only. -/
def snapStep (h : SnapHeap) : SnapOp → SnapHeap
  | .update c => { h with tracker := updateStack h.tracker c }
  | .snapshot => { h with snaps := h.snaps ++ [getStack h.tracker] }
  | .mutate i f => { h with snaps := listModify h.snaps i f }

/-- Run a sequence of heap operations. -/
def snapRun (h : SnapHeap) (ops : List SnapOp) : SnapHeap :=
  ops.foldl snapStep h

/-- Does an operation sequence ever mutate snapshot cell `i`? -/
def mutatesSnap (i : Nat) : List SnapOp → Bool
  | [] => false
  | .mutate j _ :: rest => j = i || mutatesSnap i rest
  | _ :: rest => mutatesSnap i rest

theorem listModify_get_ne (l : List α) (i j : Nat) (f : α → α) (hij : i ≠ j) :
    (listModify l i f).get? j = l.get? j := by
  induction l generalizing i j with
  | nil => simp [listModify]
  | cons x rest ih =>
      cases i with
      | zero =>
          cases j with
          | zero => exact absurd rfl hij
          | succ j2 => simp [listModify]
      | succ i2 =>
          cases j with
          | zero => simp [listModify]
          | succ j2 => simpa [listModify] using ih i2 j2 (by omega)

theorem listModify_length (l : List α) (i : Nat) (f : α → α) :
    (listModify l i f).length = l.length := by
  induction l generalizing i with
  | nil => simp [listModify]
  | cons x rest ih => cases i <;> simp [listModify, ih]

/-- Client mutation of one snapshot never changes the tracker state. -/
theorem snapRun_mutate_tracker (h : SnapHeap) (ops : List SnapOp)
    (hops : ∀ op ∈ ops, ∀ c, op ≠ SnapOp.update c) :
    (snapRun h ops).tracker = h.tracker := by
  induction ops generalizing h with
  | nil => rfl
  | cons op rest ih =>
      have hrest : ∀ op2 ∈ rest, ∀ c, op2 ≠ SnapOp.update c :=
        fun op2 hm c => hops op2 (List.mem_cons_of_mem _ hm) c
      cases op with
      | update c => exact absurd rfl (hops _ (List.mem_cons_self _ _) c)
      | snapshot => exact ih { h with snaps := h.snaps ++ [getStack h.tracker] } hrest
      | mutate i f => exact ih { h with snaps := listModify h.snaps i f } hrest

/-- An already-created snapshot cell that the operation sequence never
mutates keeps its exact contents, no matter how many `updateStack` calls,
further snapshots, or mutations of *other* snapshots follow. -/
theorem snapRun_stable (h : SnapHeap) (ops : List SnapOp) (i : Nat)
    (hi : i < h.snaps.length) (hmut : mutatesSnap i ops = false) :
    (snapRun h ops).snaps.get? i = h.snaps.get? i := by
  induction ops generalizing h with
  | nil => rfl
  | cons op rest ih =>
      cases op with
      | update c =>
          have := ih { h with tracker := updateStack h.tracker c } hi
            (by simpa [mutatesSnap] using hmut)
          simpa [snapRun, snapStep] using this
      | snapshot =>
          have hi2 : i < (h.snaps ++ [getStack h.tracker]).length := by
            simp; omega
          have := ih { h with snaps := h.snaps ++ [getStack h.tracker] } hi2
            (by simpa [mutatesSnap] using hmut)
          simp only [snapRun, List.foldl_cons, snapStep] at this ⊢
          rw [this]
          simp [List.getElem?_append, hi]
      | mutate j f =>
          simp only [mutatesSnap, Bool.or_eq_false_iff, decide_eq_false_iff_not] at hmut
          have hj : j ≠ i := hmut.1
          have hi2 : i < (listModify h.snaps j f).length := by
            rw [listModify_length]; exact hi
          have := ih { h with snaps := listModify h.snaps j f } hi2 hmut.2
          simp only [snapRun, List.foldl_cons, snapStep] at this ⊢
          rw [this]
          exact listModify_get_ne _ _ _ _ hj

/-- **C10.** Every `getStack()` call returns a fresh shallow copy of the
internal stack: in the heap model, (a) operation sequences containing no
tracker update — in particular, arbitrary client mutations of returned
arrays — leave the tracker's internal state untouched, and (b) a snapshot
already returned is never changed by later `updateStack` calls, later
snapshots, or mutations of other snapshots; so the `stack` recorded on each
emitted entry token (`getEntryTokenBase` calls `getStack()`) is a stable
image of the key path at the moment of emission. -/
theorem C10_getStack_snapshot_stability (h : SnapHeap) (ops : List SnapOp)
    (i : Nat) (hi : i < h.snaps.length) (hmut : mutatesSnap i ops = false)
    (ops2 : List SnapOp) (hops2 : ∀ op ∈ ops2, ∀ c, op ≠ SnapOp.update c) :
    (snapRun h ops).snaps.get? i = h.snaps.get? i ∧
      (snapRun h ops2).tracker = h.tracker :=
  ⟨snapRun_stable h ops i hi hmut, snapRun_mutate_tracker h ops2 hops2⟩

/-- **C10 (witness).** A concrete instantiation: one snapshot taken, then the
tracker is updated and another snapshot is mutated; the first snapshot is
untouched and pure mutations leave the tracker unchanged. -/
theorem C10_getStack_snapshot_stability_witness :
    ((snapRun ⟨{ stack := [.key "name"] }, [[.key "name"], []]⟩
        [.update (.tok ⟨.endObject, ""⟩), .snapshot,
          .mutate 1 (fun l => .nul :: l)]).snaps.get? 0
      = some [.key "name"]) ∧
    ((snapRun ⟨{ stack := [.key "name"] }, [[.key "name"], []]⟩
        [.mutate 0 (fun _ => [])]).tracker
      = { stack := [.key "name"] }) := by
  have h := C10_getStack_snapshot_stability
    ⟨{ stack := [.key "name"] }, [[.key "name"], []]⟩
    [.update (.tok ⟨.endObject, ""⟩), .snapshot, .mutate 1 (fun l => .nul :: l)]
    0 (by simp) (by simp [mutatesSnap])
    [.mutate 0 (fun _ => [])]
    (by intro op hm c; simp at hm; subst hm; exact fun hc => SnapOp.noConfusion hc)
  exact ⟨h.1, h.2⟩
end MsftTodo

namespace MsftTodo

/-! ## Tokenization
(the external lexer interface of spec sections 3 and 6: streamed-only,
packed-only, or streamed-immediately-followed-by-packed forms for keys,
strings and numbers; booleans and null are always packed; structural tokens
delimit containers). -/

/-- One lexer knob: how a token category is emitted. -/
inductive TokMode
  | streamedOnly | packedOnly | both
deriving DecidableEq, Repr

/-- The lexer configuration: one mode per assembled category (cf. the parser
options `streamKeys`/`packKeys`, `streamStrings`/`packStrings`,
`streamNumbers`/`packNumbers`). -/
structure Flags where
  keys : TokMode
  strings : TokMode
  numbers : TokMode
deriving DecidableEq, Repr

/-- The `stringChunk` fragments of a streamed key or string. -/
def chunkToks (cs : List String) : List JsonToken :=
  cs.map fun c => ⟨.stringChunk, c⟩

/-- The `numberChunk` fragments of a streamed number. -/
def numChunkToks (cs : List String) : List JsonToken :=
  cs.map fun c => ⟨.numberChunk, c⟩

/-- The token sequences a key `k` may lex to under mode `m` (chunking is
arbitrary: any fragment list joining to `k`). -/
def KeyTokens (m : TokMode) (k : String) (ts : List JsonToken) : Prop :=
  match m with
  | .streamedOnly => ∃ cs, String.join cs = k ∧
      ts = ⟨.startKey, ""⟩ :: (chunkToks cs ++ [⟨.endKey, ""⟩])
  | .packedOnly => ts = [⟨.keyValue, k⟩]
  | .both => ∃ cs, String.join cs = k ∧
      ts = ⟨.startKey, ""⟩ :: (chunkToks cs ++ [⟨.endKey, ""⟩, ⟨.keyValue, k⟩])

/-- The token sequences a string value may lex to under mode `m`. -/
def StrTokens (m : TokMode) (v : String) (ts : List JsonToken) : Prop :=
  match m with
  | .streamedOnly => ∃ cs, String.join cs = v ∧
      ts = ⟨.startString, ""⟩ :: (chunkToks cs ++ [⟨.endString, ""⟩])
  | .packedOnly => ts = [⟨.stringValue, v⟩]
  | .both => ∃ cs, String.join cs = v ∧
      ts = ⟨.startString, ""⟩ :: (chunkToks cs ++ [⟨.endString, ""⟩, ⟨.stringValue, v⟩])

/-- The token sequences a number value (decimal text `v`) may lex to under
mode `m`. -/
def NumTokens (m : TokMode) (v : String) (ts : List JsonToken) : Prop :=
  match m with
  | .streamedOnly => ∃ cs, String.join cs = v ∧
      ts = ⟨.startNumber, ""⟩ :: (numChunkToks cs ++ [⟨.endNumber, ""⟩])
  | .packedOnly => ts = [⟨.numberValue, v⟩]
  | .both => ∃ cs, String.join cs = v ∧
      ts = ⟨.startNumber, ""⟩ :: (numChunkToks cs ++ [⟨.endNumber, ""⟩, ⟨.numberValue, v⟩])

mutual

/-- The valid token sequences of a JSON value under lexer configuration
`f`. -/
def ValueTokens (f : Flags) : JVal → List JsonToken → Prop
  | .jnull, ts => ts = [⟨.nullValue, ""⟩]
  | .jbool true, ts => ts = [⟨.trueValue, ""⟩]
  | .jbool false, ts => ts = [⟨.falseValue, ""⟩]
  | .jstr s, ts => StrTokens f.strings s ts
  | .jnum n, ts => NumTokens f.numbers n ts
  | .jarr xs, ts => ∃ inner, ElemsTokens f xs inner ∧
      ts = ⟨.startArray, ""⟩ :: (inner ++ [⟨.endArray, ""⟩])
  | .jobj es, ts => ∃ inner, EntriesTokens f es inner ∧
      ts = ⟨.startObject, ""⟩ :: (inner ++ [⟨.endObject, ""⟩])

/-- Valid token sequences of consecutive array elements. -/
def ElemsTokens (f : Flags) : List JVal → List JsonToken → Prop
  | [], ts => ts = []
  | x :: xs, ts => ∃ ts1 ts2, ValueTokens f x ts1 ∧ ElemsTokens f xs ts2 ∧
      ts = ts1 ++ ts2

/-- Valid token sequences of consecutive object entries (key then value). -/
def EntriesTokens (f : Flags) : List (String × JVal) → List JsonToken → Prop
  | [], ts => ts = []
  | (k, v) :: es, ts => ∃ kts vts rest, KeyTokens f.keys k kts ∧
      ValueTokens f v vts ∧ EntriesTokens f es rest ∧ ts = kts ++ (vts ++ rest)

end

mutual

/-- The tokenizations claim C1 quantifies over: each key, string and number
occurrence *independently* picks streamed-only, packed-only, or
streamed-followed-by-packed form. -/
def ValueTokensAny : JVal → List JsonToken → Prop
  | .jnull, ts => ts = [⟨.nullValue, ""⟩]
  | .jbool true, ts => ts = [⟨.trueValue, ""⟩]
  | .jbool false, ts => ts = [⟨.falseValue, ""⟩]
  | .jstr s, ts => ∃ m, StrTokens m s ts
  | .jnum n, ts => ∃ m, NumTokens m n ts
  | .jarr xs, ts => ∃ inner, ElemsTokensAny xs inner ∧
      ts = ⟨.startArray, ""⟩ :: (inner ++ [⟨.endArray, ""⟩])
  | .jobj es, ts => ∃ inner, EntriesTokensAny es inner ∧
      ts = ⟨.startObject, ""⟩ :: (inner ++ [⟨.endObject, ""⟩])

/-- Per-occurrence tokenizations of consecutive array elements. -/
def ElemsTokensAny : List JVal → List JsonToken → Prop
  | [], ts => ts = []
  | x :: xs, ts => ∃ ts1 ts2, ValueTokensAny x ts1 ∧ ElemsTokensAny xs ts2 ∧
      ts = ts1 ++ ts2

/-- Per-occurrence tokenizations of consecutive object entries. -/
def EntriesTokensAny : List (String × JVal) → List JsonToken → Prop
  | [], ts => ts = []
  | (k, v) :: es, ts => ∃ m kts vts rest, KeyTokens m k kts ∧
      ValueTokensAny v vts ∧ EntriesTokensAny es rest ∧ ts = kts ++ (vts ++ rest)

end

mutual

/-- Well-formed JSON values: every object's keys are pairwise distinct. -/
def wfV : JVal → Prop
  | .jarr xs => wfL xs
  | .jobj es => (es.map Prod.fst).Nodup ∧ wfE es
  | _ => True

/-- Well-formedness of a list of values. -/
def wfL : List JVal → Prop
  | [] => True
  | x :: xs => wfV x ∧ wfL xs

/-- Well-formedness of the values of a list of entries. -/
def wfE : List (String × JVal) → Prop
  | [] => True
  | e :: es => wfV e.2 ∧ wfE es

end

end MsftTodo

namespace MsftTodo

/-! ## Consumption lemmas for `FullAssembler` -/

theorem consumeAll_append (s : FAState) (ts1 ts2 : List JsonToken) :
    consumeAll s (ts1 ++ ts2) = consumeAll (consumeAll s ts1) ts2 :=
  List.foldl_append _ _ _ _

theorem prefix_append_cases {α : Type} {p ts1 ts2 : List α}
    (h : p <+: ts1 ++ ts2) :
    p <+: ts1 ∨ ∃ p2, p = ts1 ++ p2 ∧ p2 <+: ts2 := by
  induction ts1 generalizing p with
  | nil => exact Or.inr ⟨p, by simpa using h⟩
  | cons a ts1 ih =>
      cases p with
      | nil => exact Or.inl (List.nil_prefix)
      | cons b p2 =>
          obtain ⟨r, hr⟩ := h
          simp only [List.cons_append, List.cons.injEq] at hr
          obtain ⟨rfl, hr2⟩ := hr
          rcases ih ⟨r, hr2⟩ with h2 | ⟨p3, rfl, h3⟩
          · exact Or.inl (List.cons_prefix_cons.mpr ⟨rfl, h2⟩)
          · exact Or.inr ⟨p3, rfl, h3⟩

/-- `done` is false after every prefix of `ts` starting from `s`. -/
def PreFalse (s : FAState) (ts : List JsonToken) : Prop :=
  ∀ p, p <+: ts → (consumeAll s p).done = false

theorem preFalse_append {s : FAState} {ts1 ts2 : List JsonToken}
    (h1 : PreFalse s ts1) (h2 : PreFalse (consumeAll s ts1) ts2) :
    PreFalse s (ts1 ++ ts2) := by
  intro p hp
  rcases prefix_append_cases hp with hp1 | ⟨p2, rfl, hp2⟩
  · exact h1 p hp1
  · rw [consumeAll_append]
    exact h2 p2 hp2

theorem preFalse_nil {s : FAState} (h : s.done = false) : PreFalse s [] := by
  intro p hp
  rw [List.prefix_nil.mp hp]
  exact h

/-- Marker state after a value's tokens: the packed name a directly following
duplicate would be de-duplicated against. -/
def postPrev (f : Flags) : JVal → Option PackedName
  | .jstr _ => match f.strings with | .streamedOnly => some .stringValue | _ => none
  | .jnum _ => match f.numbers with | .streamedOnly => some .numberValue | _ => none
  | _ => none

/-- Marker state after a key's tokens. -/
def postKeyPrev : TokMode → Option PackedName
  | .streamedOnly => some .keyValue
  | _ => none

/-- The marker is safe ahead of a value's tokens: if a category is
packed-only (so a value can begin with its packed token), the marker is not
that category's name. -/
def PrevSafeV (f : Flags) (p : Option PackedName) : Prop :=
  (f.strings = .packedOnly → p ≠ some .stringValue) ∧
  (f.numbers = .packedOnly → p ≠ some .numberValue)

theorem postPrev_safeV (f : Flags) (V : JVal) : PrevSafeV f (postPrev f V) := by
  constructor <;> intro hm <;> cases V <;> simp [postPrev, hm] <;> split <;> simp_all

theorem postPrev_ne_keyValue (f : Flags) (V : JVal) :
    postPrev f V ≠ some .keyValue := by
  cases V <;> simp [postPrev] <;> split <;> simp

theorem postKeyPrev_safeV (f : Flags) (m : TokMode) :
    PrevSafeV f (postKeyPrev m) := by
  cases m <;> exact ⟨by simp [postKeyPrev], by simp [postKeyPrev]⟩

theorem objAssign_append (es : List (String × JVal)) (k : String) (v : JVal)
    (h : k ∉ es.map Prod.fst) : objAssign es k v = es ++ [(k, v)] := by
  unfold objAssign
  have hfalse : (es.any fun e => e.1 = k) = false := by
    simp only [List.any_eq_false, decide_eq_true_eq]
    intro e he hek
    exact h (List.mem_map.mpr ⟨e, he, hek⟩)
  simp [hfalse]

theorem saveValue_root_proj (s : FAState) (v : JVal) (hd : s.done = true)
    (hsp : s.sparseMode = false) :
    (saveValue s v).current = some v ∧ (saveValue s v).key = s.key := by
  unfold saveValue setCurrent
  simp [hd, hsp]

theorem saveValue_arr_proj (s : FAState) (v : JVal) (acc : List JVal)
    (hd : s.done = false) (hsp : s.sparseMode = false)
    (hc : s.current = some (.jarr acc)) :
    (saveValue s v).current = some (.jarr (acc ++ [v])) ∧
      (saveValue s v).key = s.key := by
  unfold saveValue setCurrent
  simp [hd, hsp, hc]

theorem saveValue_obj_proj (s : FAState) (v : JVal) (acc : List (String × JVal))
    (k : String) (hd : s.done = false) (hsp : s.sparseMode = false)
    (hc : s.current = some (.jobj acc)) (hk : s.key = some k) :
    (saveValue s v).current = some (.jobj (objAssign acc k v)) ∧
      (saveValue s v).key = none := by
  unfold saveValue setCurrent
  simp [hd, hsp, hc, hk]

theorem saveValue_proj_congr (s1 s2 : FAState) (v : JVal)
    (h1 : s1.done = s2.done) (h2 : s1.sparseMode = s2.sparseMode)
    (h3 : s1.current = s2.current) (h4 : s1.key = s2.key) :
    (saveValue s1 v).current = (saveValue s2 v).current ∧
      (saveValue s1 v).key = (saveValue s2 v).key := by
  unfold saveValue setCurrent
  rw [h1, h2, h3, h4]
  constructor <;> (repeat first | rfl | exact h3 | exact h4 | split)

end MsftTodo

namespace MsftTodo

theorem strJoin_cons (c : String) (cs : List String) :
    String.join (c :: cs) = c ++ String.join cs := by
  apply String.ext
  simp [String.join_eq, String.data_append]

/-- Consuming a run of `stringChunk` tokens only appends to the assembly
buffer (the marker is cleared by every chunk, hence stays `none`). -/
theorem consume_chunkToks (cs : List String) (s : FAState)
    (hp : s.previouslyAssembledStreamedToken = none) :
    consumeAll s (chunkToks cs)
      = { s with assembledString := s.assembledString ++ String.join cs } := by
  induction cs generalizing s with
  | nil =>
      show s = _
      cases s
      simp_all [String.join]
  | cons c cs ih =>
      show consumeAll (s.consume ⟨.stringChunk, c⟩) (chunkToks cs) = _
      have hs : s.consume ⟨.stringChunk, c⟩ = { s with previouslyAssembledStreamedToken := none, assembledString := s.assembledString ++ c } := rfl
      rw [hs, ih _ rfl]
      obtain ⟨c1, k1, st1, d1, p1, a1, w1, sp1⟩ := s
      simp only [] at hp
      subst hp
      simp [strJoin_cons, String.append_assoc]

/-- Consuming a run of `numberChunk` tokens, likewise. -/
theorem consume_numChunkToks (cs : List String) (s : FAState)
    (hp : s.previouslyAssembledStreamedToken = none) :
    consumeAll s (numChunkToks cs)
      = { s with assembledString := s.assembledString ++ String.join cs } := by
  induction cs generalizing s with
  | nil =>
      show s = _
      cases s
      simp_all [String.join]
  | cons c cs ih =>
      show consumeAll (s.consume ⟨.numberChunk, c⟩) (numChunkToks cs) = _
      have hs : s.consume ⟨.numberChunk, c⟩ = { s with previouslyAssembledStreamedToken := none, assembledString := s.assembledString ++ c } := rfl
      rw [hs, ih _ rfl]
      obtain ⟨c1, k1, st1, d1, p1, a1, w1, sp1⟩ := s
      simp only [] at hp
      subst hp
      simp [strJoin_cons, String.append_assoc]

theorem prefix_map {α β : Type} (f : α → β) {p : List β} {cs : List α}
    (h : p <+: cs.map f) : ∃ cs2, cs2 <+: cs ∧ p = cs2.map f := by
  induction cs generalizing p with
  | nil =>
      have hp : p = [] := List.prefix_nil.mp (by simpa using h)
      subst hp
      exact ⟨[], List.nil_prefix, rfl⟩
  | cons a cs ih =>
      cases p with
      | nil => exact ⟨[], List.nil_prefix, rfl⟩
      | cons b p2 =>
          obtain ⟨r, hr⟩ := h
          simp only [List.map_cons, List.cons_append, List.cons.injEq] at hr
          obtain ⟨rfl, hr2⟩ := hr
          obtain ⟨cs2, hpre, rfl⟩ := ih ⟨r, hr2⟩
          exact ⟨a :: cs2, List.cons_prefix_cons.mpr ⟨rfl, hpre⟩, rfl⟩

/-- `wasDone` left by a key's tokens. -/
def postKeyWasDone (m : TokMode) (w : Bool) : Bool :=
  match m with
  | .packedOnly => w
  | _ => false

theorem consumeKey (m : TokMode) (k : String) (kts : List JsonToken) (s : FAState)
    (h : KeyTokens m k kts) (hd : s.done = false) (ha : s.assembledString = "")
    (hsp : s.sparseMode = false)
    (hprev : m = .packedOnly → s.previouslyAssembledStreamedToken ≠ some .keyValue) :
    consumeAll s kts
        = { s with
              key := some k, previouslyAssembledStreamedToken := postKeyPrev m,
              wasDone := postKeyWasDone m s.wasDone, done := false,
              assembledString := "" } ∧
      PreFalse s kts := by
  cases m with
  | packedOnly =>
      rw [h]
      constructor
      · show wrappedPacked .keyValue k s = _
        unfold wrappedPacked withPreviousTokenTracking skipIfPreviouslyAssembled
          packedDispatch superKeyValue
        rw [if_neg (hprev rfl)]
        obtain ⟨c1, k1, st1, d1, p1, a1, w1, sp1⟩ := s
        simp only [] at hd ha
        subst hd ha
        simp [postKeyPrev, postKeyWasDone]
      · intro p hp
        rcases List.prefix_cons_iff.mp hp with rfl | ⟨p2, rfl, hp2⟩
        · exact hd
        · rw [List.prefix_nil.mp hp2]
          show (wrappedPacked .keyValue k s).done = false
          unfold wrappedPacked withPreviousTokenTracking skipIfPreviouslyAssembled
            packedDispatch superKeyValue
          rw [if_neg (hprev rfl)]
          exact hd
  | streamedOnly =>
      obtain ⟨cs, hcs, rfl⟩ := h
      have h1 : s.consume ⟨.startKey, ""⟩
          = { s with
                done := false, previouslyAssembledStreamedToken := none,
                wasDone := s.done } := rfl
      have h2 : consumeAll { s with
            done := false, previouslyAssembledStreamedToken := none,
            wasDone := s.done } (chunkToks cs)
          = { s with
              done := false, previouslyAssembledStreamedToken := none,
              wasDone := s.done,
              assembledString := s.assembledString ++ String.join cs } :=
        consume_chunkToks cs _ rfl
      constructor
      · show consumeAll (s.consume ⟨.startKey, ""⟩) (chunkToks cs ++ [⟨.endKey, ""⟩]) = _
        rw [consumeAll_append, h1, h2]
        show finalizeAssembledToken _ .keyValue = _
        unfold finalizeAssembledToken wrappedPacked withPreviousTokenTracking
          skipIfPreviouslyAssembled packedDispatch superKeyValue
        obtain ⟨c1, k1, st1, d1, p1, a1, w1, sp1⟩ := s
        simp only [] at hd ha
        subst hd ha
        simp [postKeyPrev, postKeyWasDone, hcs]
      · intro p hp
        rcases List.prefix_cons_iff.mp hp with rfl | ⟨p2, rfl, hp2⟩
        · exact hd
        · show (consumeAll (s.consume ⟨.startKey, ""⟩) p2).done = false
          rw [h1]
          rcases prefix_append_cases hp2 with hc | ⟨p3, rfl, hp3⟩
          · obtain ⟨cs2, _, rfl⟩ := prefix_map _ hc
            show (consumeAll _ (chunkToks cs2)).done = false
            rw [consume_chunkToks cs2 _ rfl]
          · rw [consumeAll_append, h2]
            rcases List.prefix_cons_iff.mp hp3 with rfl | ⟨p4, rfl, hp4⟩
            · rfl
            · rw [List.prefix_nil.mp hp4]
              show (finalizeAssembledToken _ .keyValue).done = false
              unfold finalizeAssembledToken wrappedPacked withPreviousTokenTracking
                skipIfPreviouslyAssembled packedDispatch superKeyValue
              simp [hd]
  | both =>
      obtain ⟨cs, hcs, rfl⟩ := h
      have h1 : s.consume ⟨.startKey, ""⟩
          = { s with
                done := false, previouslyAssembledStreamedToken := none,
                wasDone := s.done } := rfl
      have h2 : consumeAll { s with
            done := false, previouslyAssembledStreamedToken := none,
            wasDone := s.done } (chunkToks cs)
          = { s with
              done := false, previouslyAssembledStreamedToken := none,
              wasDone := s.done,
              assembledString := s.assembledString ++ String.join cs } :=
        consume_chunkToks cs _ rfl
      have h3 : finalizeAssembledToken { s with
            done := false, previouslyAssembledStreamedToken := none,
            wasDone := s.done,
            assembledString := s.assembledString ++ String.join cs } .keyValue
          = { s with
              key := some (String.join cs), done := false,
              previouslyAssembledStreamedToken := some .keyValue,
              wasDone := false, assembledString := "" } := by
        unfold finalizeAssembledToken wrappedPacked withPreviousTokenTracking
          skipIfPreviouslyAssembled packedDispatch superKeyValue
        obtain ⟨c1, k1, st1, d1, p1, a1, w1, sp1⟩ := s
        simp only [] at hd ha
        subst hd ha
        simp
      constructor
      · show consumeAll (s.consume ⟨.startKey, ""⟩)
            (chunkToks cs ++ [⟨.endKey, ""⟩, ⟨.keyValue, k⟩]) = _
        have : (⟨.endKey, ""⟩ : JsonToken) :: [⟨.keyValue, k⟩]
            = [(⟨.endKey, ""⟩ : JsonToken)] ++ [⟨.keyValue, k⟩] := rfl
        rw [h1, show (chunkToks cs ++ [(⟨.endKey, ""⟩ : JsonToken), ⟨.keyValue, k⟩])
            = (chunkToks cs ++ [(⟨.endKey, ""⟩ : JsonToken)]) ++ [⟨.keyValue, k⟩] by simp,
          consumeAll_append, consumeAll_append, h2]
        show (wrappedPacked .keyValue k (finalizeAssembledToken _ .keyValue)) = _
        rw [h3]
        unfold wrappedPacked withPreviousTokenTracking skipIfPreviouslyAssembled
        rw [if_pos rfl]
        rw [hcs]
        simp [postKeyPrev, postKeyWasDone]
      · intro p hp
        rcases List.prefix_cons_iff.mp hp with rfl | ⟨p2, rfl, hp2⟩
        · exact hd
        · show (consumeAll (s.consume ⟨.startKey, ""⟩) p2).done = false
          rw [h1]
          rcases prefix_append_cases hp2 with hc | ⟨p3, rfl, hp3⟩
          · obtain ⟨cs2, _, rfl⟩ := prefix_map _ hc
            show (consumeAll _ (chunkToks cs2)).done = false
            rw [consume_chunkToks cs2 _ rfl]
          · rcases List.prefix_cons_iff.mp hp3 with rfl | ⟨p4, rfl, hp4⟩
            · rw [consumeAll_append, h2]
              rfl
            · rw [show (chunkToks cs ++ ⟨.endKey, ""⟩ :: p4)
                  = (chunkToks cs ++ [(⟨.endKey, ""⟩ : JsonToken)]) ++ p4 by simp,
                consumeAll_append, consumeAll_append, h2]
              show (consumeAll (finalizeAssembledToken _ .keyValue) p4).done = false
              rw [h3]
              rcases List.prefix_cons_iff.mp hp4 with rfl | ⟨p5, rfl, hp5⟩
              · rfl
              · rw [List.prefix_nil.mp hp5]
                show ((wrappedPacked .keyValue k _)).done = false
                unfold wrappedPacked withPreviousTokenTracking skipIfPreviouslyAssembled
                rw [if_pos rfl]



end MsftTodo

namespace MsftTodo

attribute [ext] FAState

/-- Marker left by a string value's tokens. -/
def postStrPrev : TokMode → Option PackedName
  | .streamedOnly => some .stringValue
  | _ => none

/-- Marker left by a number value's tokens. -/
def postNumPrev : TokMode → Option PackedName
  | .streamedOnly => some .numberValue
  | _ => none

theorem consumeStr (m : TokMode) (v : String) (ts : List JsonToken) (s : FAState)
    (h : StrTokens m v ts) (hd : s.done = false) (ha : s.assembledString = "")
    (hsp : s.sparseMode = false)
    (hprev : m = .packedOnly →
      s.previouslyAssembledStreamedToken ≠ some .stringValue) :
    consumeAll s ts
        = { s with
              current := (saveValue s (.jstr v)).current,
              key := (saveValue s (.jstr v)).key,
              previouslyAssembledStreamedToken := postStrPrev m,
              wasDone := postKeyWasDone m s.wasDone,
              done := false, assembledString := "" } ∧
      PreFalse s ts := by
  cases m with
  | packedOnly =>
      rw [h]
      constructor
      · show wrappedPacked .stringValue v s = _
        unfold wrappedPacked withPreviousTokenTracking skipIfPreviouslyAssembled
          packedDispatch superStringValue
        rw [if_neg (hprev rfl)]
        ext <;> simp [hd, ha, postStrPrev, postKeyWasDone]
      · intro p hp
        rcases List.prefix_cons_iff.mp hp with rfl | ⟨p2, rfl, hp2⟩
        · exact hd
        · rw [List.prefix_nil.mp hp2]
          show (wrappedPacked .stringValue v s).done = false
          unfold wrappedPacked withPreviousTokenTracking skipIfPreviouslyAssembled
            packedDispatch superStringValue
          rw [if_neg (hprev rfl)]
          simp [hd]
  | streamedOnly =>
      obtain ⟨cs, hcs, rfl⟩ := h
      have h1 : s.consume ⟨.startString, ""⟩
          = { s with
                done := false, previouslyAssembledStreamedToken := none,
                wasDone := s.done } := rfl
      have h2 : consumeAll { s with
            done := false, previouslyAssembledStreamedToken := none,
            wasDone := s.done } (chunkToks cs)
          = { s with
              done := false, previouslyAssembledStreamedToken := none,
              wasDone := s.done,
              assembledString := s.assembledString ++ String.join cs } :=
        consume_chunkToks cs _ rfl
      have hcg := saveValue_proj_congr { s with
            done := s.done, previouslyAssembledStreamedToken := none,
            wasDone := s.done,
            assembledString := s.assembledString ++ String.join cs } s
          (.jstr v) rfl rfl rfl rfl
      have h3 : finalizeAssembledToken { s with
            done := false, previouslyAssembledStreamedToken := none,
            wasDone := s.done,
            assembledString := s.assembledString ++ String.join cs } .stringValue
          = { s with
              current := (saveValue s (.jstr v)).current,
              key := (saveValue s (.jstr v)).key,
              done := false, previouslyAssembledStreamedToken := some .stringValue,
              wasDone := false, assembledString := "" } := by
        unfold finalizeAssembledToken wrappedPacked withPreviousTokenTracking
          skipIfPreviouslyAssembled packedDispatch superStringValue
        rw [ha] at hcg ⊢
        simp only [String.empty_append] at hcg ⊢
        rw [hcs] at hcg ⊢
        simp only [hd] at hcg ⊢
        ext <;> simp [hcg.1, hcg.2]
      constructor
      · show consumeAll (s.consume ⟨.startString, ""⟩)
            (chunkToks cs ++ [⟨.endString, ""⟩]) = _
        rw [consumeAll_append, h1, h2]
        show finalizeAssembledToken _ .stringValue = _
        rw [h3]
        simp [postStrPrev, postKeyWasDone]
      · intro p hp
        rcases List.prefix_cons_iff.mp hp with rfl | ⟨p2, rfl, hp2⟩
        · exact hd
        · show (consumeAll (s.consume ⟨.startString, ""⟩) p2).done = false
          rw [h1]
          rcases prefix_append_cases hp2 with hc | ⟨p3, rfl, hp3⟩
          · obtain ⟨cs2, _, rfl⟩ := prefix_map _ hc
            show (consumeAll _ (chunkToks cs2)).done = false
            rw [consume_chunkToks cs2 _ rfl]
          · rw [consumeAll_append, h2]
            rcases List.prefix_cons_iff.mp hp3 with rfl | ⟨p4, rfl, hp4⟩
            · rfl
            · rw [List.prefix_nil.mp hp4]
              show (finalizeAssembledToken _ .stringValue).done = false
              rw [h3]
  | both =>
      obtain ⟨cs, hcs, rfl⟩ := h
      have h1 : s.consume ⟨.startString, ""⟩
          = { s with
                done := false, previouslyAssembledStreamedToken := none,
                wasDone := s.done } := rfl
      have h2 : consumeAll { s with
            done := false, previouslyAssembledStreamedToken := none,
            wasDone := s.done } (chunkToks cs)
          = { s with
              done := false, previouslyAssembledStreamedToken := none,
              wasDone := s.done,
              assembledString := s.assembledString ++ String.join cs } :=
        consume_chunkToks cs _ rfl
      have hcg := saveValue_proj_congr { s with
            done := s.done, previouslyAssembledStreamedToken := none,
            wasDone := s.done,
            assembledString := s.assembledString ++ String.join cs } s
          (.jstr v) rfl rfl rfl rfl
      have h3 : finalizeAssembledToken { s with
            done := false, previouslyAssembledStreamedToken := none,
            wasDone := s.done,
            assembledString := s.assembledString ++ String.join cs } .stringValue
          = { s with
              current := (saveValue s (.jstr v)).current,
              key := (saveValue s (.jstr v)).key,
              done := false, previouslyAssembledStreamedToken := some .stringValue,
              wasDone := false, assembledString := "" } := by
        unfold finalizeAssembledToken wrappedPacked withPreviousTokenTracking
          skipIfPreviouslyAssembled packedDispatch superStringValue
        rw [ha] at hcg ⊢
        simp only [String.empty_append] at hcg ⊢
        rw [hcs] at hcg ⊢
        simp only [hd] at hcg ⊢
        ext <;> simp [hcg.1, hcg.2]
      have h4 : wrappedPacked .stringValue v { s with
            current := (saveValue s (.jstr v)).current,
            key := (saveValue s (.jstr v)).key,
            done := false, previouslyAssembledStreamedToken := some .stringValue,
            wasDone := false, assembledString := "" }
          = { s with
              current := (saveValue s (.jstr v)).current,
              key := (saveValue s (.jstr v)).key,
              done := false, previouslyAssembledStreamedToken := none,
              wasDone := false, assembledString := "" } := by
        unfold wrappedPacked withPreviousTokenTracking skipIfPreviouslyAssembled
        rw [if_pos rfl]
      constructor
      · show consumeAll (s.consume ⟨.startString, ""⟩)
            (chunkToks cs ++ [⟨.endString, ""⟩, ⟨.stringValue, v⟩]) = _
        rw [h1, show (chunkToks cs
              ++ [(⟨.endString, ""⟩ : JsonToken), ⟨.stringValue, v⟩])
            = (chunkToks cs ++ [(⟨.endString, ""⟩ : JsonToken)])
              ++ [⟨.stringValue, v⟩] by simp,
          consumeAll_append, consumeAll_append, h2]
        show wrappedPacked .stringValue v (finalizeAssembledToken _ .stringValue) = _
        rw [h3, h4]
        simp [postStrPrev, postKeyWasDone]
      · intro p hp
        rcases List.prefix_cons_iff.mp hp with rfl | ⟨p2, rfl, hp2⟩
        · exact hd
        · show (consumeAll (s.consume ⟨.startString, ""⟩) p2).done = false
          rw [h1]
          rcases prefix_append_cases hp2 with hc | ⟨p3, rfl, hp3⟩
          · obtain ⟨cs2, _, rfl⟩ := prefix_map _ hc
            show (consumeAll _ (chunkToks cs2)).done = false
            rw [consume_chunkToks cs2 _ rfl]
          · rcases List.prefix_cons_iff.mp hp3 with rfl | ⟨p4, rfl, hp4⟩
            · rw [consumeAll_append, h2]
              rfl
            · rw [show (chunkToks cs ++ ⟨.endString, ""⟩ :: p4)
                  = (chunkToks cs ++ [(⟨.endString, ""⟩ : JsonToken)]) ++ p4
                  by simp,
                consumeAll_append, consumeAll_append, h2]
              show (consumeAll (finalizeAssembledToken _ .stringValue) p4).done
                  = false
              rw [h3]
              rcases List.prefix_cons_iff.mp hp4 with rfl | ⟨p5, rfl, hp5⟩
              · rfl
              · rw [List.prefix_nil.mp hp5]
                show (wrappedPacked .stringValue v _).done = false
                rw [h4]

theorem consumeNum (m : TokMode) (v : String) (ts : List JsonToken) (s : FAState)
    (h : NumTokens m v ts) (hd : s.done = false) (ha : s.assembledString = "")
    (hsp : s.sparseMode = false)
    (hprev : m = .packedOnly →
      s.previouslyAssembledStreamedToken ≠ some .numberValue) :
    consumeAll s ts
        = { s with
              current := (saveValue s (.jnum v)).current,
              key := (saveValue s (.jnum v)).key,
              previouslyAssembledStreamedToken := postNumPrev m,
              wasDone := postKeyWasDone m s.wasDone,
              done := false, assembledString := "" } ∧
      PreFalse s ts := by
  cases m with
  | packedOnly =>
      rw [h]
      constructor
      · show wrappedPacked .numberValue v s = _
        unfold wrappedPacked withPreviousTokenTracking skipIfPreviouslyAssembled
          packedDispatch superNumberValue
        rw [if_neg (hprev rfl)]
        ext <;> simp [hd, ha, postNumPrev, postKeyWasDone]
      · intro p hp
        rcases List.prefix_cons_iff.mp hp with rfl | ⟨p2, rfl, hp2⟩
        · exact hd
        · rw [List.prefix_nil.mp hp2]
          show (wrappedPacked .numberValue v s).done = false
          unfold wrappedPacked withPreviousTokenTracking skipIfPreviouslyAssembled
            packedDispatch superNumberValue
          rw [if_neg (hprev rfl)]
          simp [hd]
  | streamedOnly =>
      obtain ⟨cs, hcs, rfl⟩ := h
      have h1 : s.consume ⟨.startNumber, ""⟩
          = { s with
                done := false, previouslyAssembledStreamedToken := none,
                wasDone := s.done } := rfl
      have h2 : consumeAll { s with
            done := false, previouslyAssembledStreamedToken := none,
            wasDone := s.done } (numChunkToks cs)
          = { s with
              done := false, previouslyAssembledStreamedToken := none,
              wasDone := s.done,
              assembledString := s.assembledString ++ String.join cs } :=
        consume_numChunkToks cs _ rfl
      have hcg := saveValue_proj_congr { s with
            done := s.done, previouslyAssembledStreamedToken := none,
            wasDone := s.done,
            assembledString := s.assembledString ++ String.join cs } s
          (.jnum v) rfl rfl rfl rfl
      have h3 : finalizeAssembledToken { s with
            done := false, previouslyAssembledStreamedToken := none,
            wasDone := s.done,
            assembledString := s.assembledString ++ String.join cs } .numberValue
          = { s with
              current := (saveValue s (.jnum v)).current,
              key := (saveValue s (.jnum v)).key,
              done := false, previouslyAssembledStreamedToken := some .numberValue,
              wasDone := false, assembledString := "" } := by
        unfold finalizeAssembledToken wrappedPacked withPreviousTokenTracking
          skipIfPreviouslyAssembled packedDispatch superNumberValue
        rw [ha] at hcg ⊢
        simp only [String.empty_append] at hcg ⊢
        rw [hcs] at hcg ⊢
        simp only [hd] at hcg ⊢
        ext <;> simp [hcg.1, hcg.2]
      constructor
      · show consumeAll (s.consume ⟨.startNumber, ""⟩)
            (numChunkToks cs ++ [⟨.endNumber, ""⟩]) = _
        rw [consumeAll_append, h1, h2]
        show finalizeAssembledToken _ .numberValue = _
        rw [h3]
        simp [postNumPrev, postKeyWasDone]
      · intro p hp
        rcases List.prefix_cons_iff.mp hp with rfl | ⟨p2, rfl, hp2⟩
        · exact hd
        · show (consumeAll (s.consume ⟨.startNumber, ""⟩) p2).done = false
          rw [h1]
          rcases prefix_append_cases hp2 with hc | ⟨p3, rfl, hp3⟩
          · obtain ⟨cs2, _, rfl⟩ := prefix_map _ hc
            show (consumeAll _ (numChunkToks cs2)).done = false
            rw [consume_numChunkToks cs2 _ rfl]
          · rw [consumeAll_append, h2]
            rcases List.prefix_cons_iff.mp hp3 with rfl | ⟨p4, rfl, hp4⟩
            · rfl
            · rw [List.prefix_nil.mp hp4]
              show (finalizeAssembledToken _ .numberValue).done = false
              rw [h3]
  | both =>
      obtain ⟨cs, hcs, rfl⟩ := h
      have h1 : s.consume ⟨.startNumber, ""⟩
          = { s with
                done := false, previouslyAssembledStreamedToken := none,
                wasDone := s.done } := rfl
      have h2 : consumeAll { s with
            done := false, previouslyAssembledStreamedToken := none,
            wasDone := s.done } (numChunkToks cs)
          = { s with
              done := false, previouslyAssembledStreamedToken := none,
              wasDone := s.done,
              assembledString := s.assembledString ++ String.join cs } :=
        consume_numChunkToks cs _ rfl
      have hcg := saveValue_proj_congr { s with
            done := s.done, previouslyAssembledStreamedToken := none,
            wasDone := s.done,
            assembledString := s.assembledString ++ String.join cs } s
          (.jnum v) rfl rfl rfl rfl
      have h3 : finalizeAssembledToken { s with
            done := false, previouslyAssembledStreamedToken := none,
            wasDone := s.done,
            assembledString := s.assembledString ++ String.join cs } .numberValue
          = { s with
              current := (saveValue s (.jnum v)).current,
              key := (saveValue s (.jnum v)).key,
              done := false, previouslyAssembledStreamedToken := some .numberValue,
              wasDone := false, assembledString := "" } := by
        unfold finalizeAssembledToken wrappedPacked withPreviousTokenTracking
          skipIfPreviouslyAssembled packedDispatch superNumberValue
        rw [ha] at hcg ⊢
        simp only [String.empty_append] at hcg ⊢
        rw [hcs] at hcg ⊢
        simp only [hd] at hcg ⊢
        ext <;> simp [hcg.1, hcg.2]
      have h4 : wrappedPacked .numberValue v { s with
            current := (saveValue s (.jnum v)).current,
            key := (saveValue s (.jnum v)).key,
            done := false, previouslyAssembledStreamedToken := some .numberValue,
            wasDone := false, assembledString := "" }
          = { s with
              current := (saveValue s (.jnum v)).current,
              key := (saveValue s (.jnum v)).key,
              done := false, previouslyAssembledStreamedToken := none,
              wasDone := false, assembledString := "" } := by
        unfold wrappedPacked withPreviousTokenTracking skipIfPreviouslyAssembled
        rw [if_pos rfl]
      constructor
      · show consumeAll (s.consume ⟨.startNumber, ""⟩)
            (numChunkToks cs ++ [⟨.endNumber, ""⟩, ⟨.numberValue, v⟩]) = _
        rw [h1, show (numChunkToks cs
              ++ [(⟨.endNumber, ""⟩ : JsonToken), ⟨.numberValue, v⟩])
            = (numChunkToks cs ++ [(⟨.endNumber, ""⟩ : JsonToken)])
              ++ [⟨.numberValue, v⟩] by simp,
          consumeAll_append, consumeAll_append, h2]
        show wrappedPacked .numberValue v (finalizeAssembledToken _ .numberValue) = _
        rw [h3, h4]
        simp [postNumPrev, postKeyWasDone]
      · intro p hp
        rcases List.prefix_cons_iff.mp hp with rfl | ⟨p2, rfl, hp2⟩
        · exact hd
        · show (consumeAll (s.consume ⟨.startNumber, ""⟩) p2).done = false
          rw [h1]
          rcases prefix_append_cases hp2 with hc | ⟨p3, rfl, hp3⟩
          · obtain ⟨cs2, _, rfl⟩ := prefix_map _ hc
            show (consumeAll _ (numChunkToks cs2)).done = false
            rw [consume_numChunkToks cs2 _ rfl]
          · rcases List.prefix_cons_iff.mp hp3 with rfl | ⟨p4, rfl, hp4⟩
            · rw [consumeAll_append, h2]
              rfl
            · rw [show (numChunkToks cs ++ ⟨.endNumber, ""⟩ :: p4)
                  = (numChunkToks cs ++ [(⟨.endNumber, ""⟩ : JsonToken)]) ++ p4
                  by simp,
                consumeAll_append, consumeAll_append, h2]
              show (consumeAll (finalizeAssembledToken _ .numberValue) p4).done
                  = false
              rw [h3]
              rcases List.prefix_cons_iff.mp hp4 with rfl | ⟨p5, rfl, hp5⟩
              · rfl
              · rw [List.prefix_nil.mp hp5]
                show (wrappedPacked .numberValue v _).done = false
                rw [h4]


theorem consumeNull (s : FAState) (hd : s.done = false)
    (ha : s.assembledString = "") :
    consumeAll s [⟨.nullValue, ""⟩]
        = { s with
              current := (saveValue s .jnull).current,
              key := (saveValue s .jnull).key,
              previouslyAssembledStreamedToken := none,
              done := false, assembledString := "" } ∧
      PreFalse s [⟨.nullValue, ""⟩] := by
  constructor
  · show { superNullValue s with previouslyAssembledStreamedToken := none } = _
    unfold superNullValue
    ext <;> simp [hd, ha]
  · intro p hp
    rcases List.prefix_cons_iff.mp hp with rfl | ⟨p2, rfl, hp2⟩
    · exact hd
    · rw [List.prefix_nil.mp hp2]
      show ({ superNullValue s with
          previouslyAssembledStreamedToken := none }).done = false
      unfold superNullValue
      simp [hd]

theorem consumeTrue (s : FAState) (hd : s.done = false)
    (ha : s.assembledString = "") :
    consumeAll s [⟨.trueValue, ""⟩]
        = { s with
              current := (saveValue s (.jbool true)).current,
              key := (saveValue s (.jbool true)).key,
              previouslyAssembledStreamedToken := none,
              done := false, assembledString := "" } ∧
      PreFalse s [⟨.trueValue, ""⟩] := by
  constructor
  · show { superTrueValue s with previouslyAssembledStreamedToken := none } = _
    unfold superTrueValue
    ext <;> simp [hd, ha]
  · intro p hp
    rcases List.prefix_cons_iff.mp hp with rfl | ⟨p2, rfl, hp2⟩
    · exact hd
    · rw [List.prefix_nil.mp hp2]
      show ({ superTrueValue s with
          previouslyAssembledStreamedToken := none }).done = false
      unfold superTrueValue
      simp [hd]

theorem consumeFalse (s : FAState) (hd : s.done = false)
    (ha : s.assembledString = "") :
    consumeAll s [⟨.falseValue, ""⟩]
        = { s with
              current := (saveValue s (.jbool false)).current,
              key := (saveValue s (.jbool false)).key,
              previouslyAssembledStreamedToken := none,
              done := false, assembledString := "" } ∧
      PreFalse s [⟨.falseValue, ""⟩] := by
  constructor
  · show { superFalseValue s with previouslyAssembledStreamedToken := none } = _
    unfold superFalseValue
    ext <;> simp [hd, ha]
  · intro p hp
    rcases List.prefix_cons_iff.mp hp with rfl | ⟨p2, rfl, hp2⟩
    · exact hd
    · rw [List.prefix_nil.mp hp2]
      show ({ superFalseValue s with
          previouslyAssembledStreamedToken := none }).done = false
      unfold superFalseValue
      simp [hd]

end MsftTodo

namespace MsftTodo

theorem prevSafeV_none (f : Flags) : PrevSafeV f none := ⟨by simp, by simp⟩

theorem postPrev_jstr (f : Flags) (x : String) :
    postPrev f (.jstr x) = postStrPrev f.strings := by
  show (match f.strings with | .streamedOnly => some PackedName.stringValue | _ => none) = _
  cases f.strings <;> rfl

theorem postPrev_jnum (f : Flags) (x : String) :
    postPrev f (.jnum x) = postNumPrev f.numbers := by
  show (match f.numbers with | .streamedOnly => some PackedName.numberValue | _ => none) = _
  cases f.numbers <;> rfl

theorem superEndContainer_eq (s2 : FAState) (c : Option JVal) (k : Option String)
    (rest : List (Option JVal × Option String))
    (hstack : s2.stack = (c, k) :: rest) (hsp2 : s2.sparseMode = false) :
    superEndContainer s2
      = saveValue { s2 with current := c, key := k, stack := rest }
          (s2.current.getD .jnull) := by
  unfold superEndContainer
  rw [hstack]
  unfold setCurrent
  simp [hsp2]

mutual

theorem consumeV (f : Flags) (V : JVal) (ts : List JsonToken) (s : FAState)
    (h : ValueTokens f V ts) (hw : wfV V) (hd : s.done = false)
    (ha : s.assembledString = "") (hsp : s.sparseMode = false)
    (hprev : PrevSafeV f s.previouslyAssembledStreamedToken) :
    (consumeAll s ts).current = (saveValue s V).current ∧
    (consumeAll s ts).key = (saveValue s V).key ∧
    (consumeAll s ts).done = false ∧
    (consumeAll s ts).stack = s.stack ∧
    (consumeAll s ts).assembledString = "" ∧
    (consumeAll s ts).sparseMode = false ∧
    (consumeAll s ts).previouslyAssembledStreamedToken = postPrev f V ∧
    PreFalse s ts := by
  cases V with
  | jnull =>
      simp only [ValueTokens] at h
      subst h
      obtain ⟨hrec, hpre⟩ := consumeNull s hd ha
      rw [hrec]
      exact ⟨rfl, rfl, rfl, rfl, rfl, hsp, rfl, hpre⟩
  | jbool b =>
      cases b with
      | true =>
          simp only [ValueTokens] at h
          subst h
          obtain ⟨hrec, hpre⟩ := consumeTrue s hd ha
          rw [hrec]
          exact ⟨rfl, rfl, rfl, rfl, rfl, hsp, rfl, hpre⟩
      | false =>
          simp only [ValueTokens] at h
          subst h
          obtain ⟨hrec, hpre⟩ := consumeFalse s hd ha
          rw [hrec]
          exact ⟨rfl, rfl, rfl, rfl, rfl, hsp, rfl, hpre⟩
  | jstr str =>
      simp only [ValueTokens] at h
      obtain ⟨hrec, hpre⟩ := consumeStr f.strings str ts s h hd ha hsp hprev.1
      rw [hrec, postPrev_jstr]
      exact ⟨rfl, rfl, rfl, rfl, rfl, hsp, rfl, hpre⟩
  | jnum n =>
      simp only [ValueTokens] at h
      obtain ⟨hrec, hpre⟩ := consumeNum f.numbers n ts s h hd ha hsp hprev.2
      rw [hrec, postPrev_jnum]
      exact ⟨rfl, rfl, rfl, rfl, rfl, hsp, rfl, hpre⟩
  | jarr xs =>
      simp only [ValueTokens] at h
      obtain ⟨inner, hinner, rfl⟩ := h
      simp only [wfV] at hw
      have h1 : s.consume ⟨.startArray, ""⟩
          = { s with
                stack := (s.current, s.key) :: s.stack,
                current := some (.jarr []), key := none,
                previouslyAssembledStreamedToken := none } := by
        show { superStartContainer (.jarr []) s with
            previouslyAssembledStreamedToken := none } = _
        unfold superStartContainer setCurrent
        rw [hd]
        ext <;> simp [hsp]
      obtain ⟨hc2, hd2, hst2, ha2, hsp2, hpre2⟩ :=
        consumeL f xs inner (s.consume ⟨.startArray, ""⟩) [] hinner hw
          (by rw [h1]; exact hd) (by rw [h1]; exact ha) (by rw [h1]; exact hsp)
          (by rw [h1]) (by rw [h1]; exact prevSafeV_none f)
      have hstack2 : (consumeAll (s.consume ⟨.startArray, ""⟩) inner).stack
          = (s.current, s.key) :: s.stack := by
        rw [hst2, h1]
      have hend := superEndContainer_eq
        (consumeAll (s.consume ⟨.startArray, ""⟩) inner) s.current s.key s.stack
        hstack2 hsp2
      have hcg := saveValue_proj_congr
        { (consumeAll (s.consume ⟨.startArray, ""⟩) inner) with
            current := s.current, key := s.key, stack := s.stack } s (.jarr xs)
        (by show (consumeAll (s.consume ⟨.startArray, ""⟩) inner).done = s.done
            rw [hd2, hd])
        (by show (consumeAll (s.consume ⟨.startArray, ""⟩) inner).sparseMode
              = s.sparseMode
            rw [hsp2, hsp])
        rfl rfl
      have hsplit : consumeAll s
            (⟨.startArray, ""⟩ :: (inner ++ [⟨.endArray, ""⟩]))
          = { superEndContainer
                (consumeAll (s.consume ⟨.startArray, ""⟩) inner) with
              previouslyAssembledStreamedToken := none } := by
        show consumeAll (s.consume ⟨.startArray, ""⟩) (inner ++ [⟨.endArray, ""⟩])
          = _
        rw [consumeAll_append]
        rfl
      rw [hsplit, hend]
      have hgetd : (consumeAll (s.consume ⟨.startArray, ""⟩) inner).current.getD
          .jnull = .jarr xs := by
        rw [hc2]
        simp
      rw [hgetd]
      refine ⟨by simpa using hcg.1, by simpa using hcg.2, by simp [hd2],
        by simp, by simpa using ha2, by simpa using hsp2, by simp [postPrev], ?_⟩
      intro p hp
      rcases List.prefix_cons_iff.mp hp with rfl | ⟨p2, rfl, hp2⟩
      · exact hd
      · show (consumeAll (s.consume ⟨.startArray, ""⟩) p2).done = false
        rcases prefix_append_cases hp2 with hpc | ⟨p3, rfl, hp3⟩
        · exact hpre2 p2 hpc
        · rcases List.prefix_cons_iff.mp hp3 with rfl | ⟨p4, rfl, hp4⟩
          · rw [List.append_nil]
            exact hpre2 inner List.prefix_rfl
          · rw [List.prefix_nil.mp hp4]
            show (consumeAll (s.consume ⟨.startArray, ""⟩)
              (inner ++ [⟨.endArray, ""⟩])).done = false
            rw [consumeAll_append]
            show ({ superEndContainer
                (consumeAll (s.consume ⟨.startArray, ""⟩) inner) with
              previouslyAssembledStreamedToken := none }).done = false
            rw [hend]
            simp [hd2]
  | jobj es =>
      simp only [ValueTokens] at h
      obtain ⟨inner, hinner, rfl⟩ := h
      simp only [wfV] at hw
      have h1 : s.consume ⟨.startObject, ""⟩
          = { s with
                stack := (s.current, s.key) :: s.stack,
                current := some (.jobj []), key := none,
                previouslyAssembledStreamedToken := none } := by
        show { superStartContainer (.jobj []) s with
            previouslyAssembledStreamedToken := none } = _
        unfold superStartContainer setCurrent
        rw [hd]
        ext <;> simp [hsp]
      obtain ⟨hc2, hd2, hst2, ha2, hsp2, hpre2⟩ :=
        consumeE f es inner (s.consume ⟨.startObject, ""⟩) [] hinner hw.2
          (by rw [h1]; exact hd) (by rw [h1]; exact ha) (by rw [h1]; exact hsp)
          (by rw [h1]) (by simpa using hw.1) (by rw [h1]; simp)
      have hstack2 : (consumeAll (s.consume ⟨.startObject, ""⟩) inner).stack
          = (s.current, s.key) :: s.stack := by
        rw [hst2, h1]
      have hend := superEndContainer_eq
        (consumeAll (s.consume ⟨.startObject, ""⟩) inner) s.current s.key s.stack
        hstack2 hsp2
      have hcg := saveValue_proj_congr
        { (consumeAll (s.consume ⟨.startObject, ""⟩) inner) with
            current := s.current, key := s.key, stack := s.stack } s (.jobj es)
        (by show (consumeAll (s.consume ⟨.startObject, ""⟩) inner).done = s.done
            rw [hd2, hd])
        (by show (consumeAll (s.consume ⟨.startObject, ""⟩) inner).sparseMode
              = s.sparseMode
            rw [hsp2, hsp])
        rfl rfl
      have hsplit : consumeAll s
            (⟨.startObject, ""⟩ :: (inner ++ [⟨.endObject, ""⟩]))
          = { superEndContainer
                (consumeAll (s.consume ⟨.startObject, ""⟩) inner) with
              previouslyAssembledStreamedToken := none } := by
        show consumeAll (s.consume ⟨.startObject, ""⟩) (inner ++ [⟨.endObject, ""⟩])
          = _
        rw [consumeAll_append]
        rfl
      rw [hsplit, hend]
      have hgetd : (consumeAll (s.consume ⟨.startObject, ""⟩) inner).current.getD
          .jnull = .jobj es := by
        rw [hc2]
        simp
      rw [hgetd]
      refine ⟨by simpa using hcg.1, by simpa using hcg.2, by simp [hd2],
        by simp, by simpa using ha2, by simpa using hsp2, by simp [postPrev], ?_⟩
      intro p hp
      rcases List.prefix_cons_iff.mp hp with rfl | ⟨p2, rfl, hp2⟩
      · exact hd
      · show (consumeAll (s.consume ⟨.startObject, ""⟩) p2).done = false
        rcases prefix_append_cases hp2 with hpc | ⟨p3, rfl, hp3⟩
        · exact hpre2 p2 hpc
        · rcases List.prefix_cons_iff.mp hp3 with rfl | ⟨p4, rfl, hp4⟩
          · rw [List.append_nil]
            exact hpre2 inner List.prefix_rfl
          · rw [List.prefix_nil.mp hp4]
            show (consumeAll (s.consume ⟨.startObject, ""⟩)
              (inner ++ [⟨.endObject, ""⟩])).done = false
            rw [consumeAll_append]
            show ({ superEndContainer
                (consumeAll (s.consume ⟨.startObject, ""⟩) inner) with
              previouslyAssembledStreamedToken := none }).done = false
            rw [hend]
            simp [hd2]

theorem consumeL (f : Flags) (xs : List JVal) (ts : List JsonToken) (s : FAState)
    (acc : List JVal) (h : ElemsTokens f xs ts) (hw : wfL xs)
    (hd : s.done = false) (ha : s.assembledString = "")
    (hsp : s.sparseMode = false) (hc : s.current = some (.jarr acc))
    (hprev : PrevSafeV f s.previouslyAssembledStreamedToken) :
    (consumeAll s ts).current = some (.jarr (acc ++ xs)) ∧
    (consumeAll s ts).done = false ∧
    (consumeAll s ts).stack = s.stack ∧
    (consumeAll s ts).assembledString = "" ∧
    (consumeAll s ts).sparseMode = false ∧
    PreFalse s ts := by
  cases xs with
  | nil =>
      simp only [ElemsTokens] at h
      subst h
      exact ⟨by simpa using hc, hd, rfl, ha, hsp, preFalse_nil hd⟩
  | cons x xs =>
      simp only [ElemsTokens] at h
      obtain ⟨ts1, ts2, hx, hxs, rfl⟩ := h
      simp only [wfL] at hw
      obtain ⟨hc1, hk1, hd1, hst1, ha1, hsp1, hp1, hpre1⟩ :=
        consumeV f x ts1 s hx hw.1 hd ha hsp hprev
      have harr := saveValue_arr_proj s x acc hd hsp hc
      obtain ⟨hc2, hd2, hst2, ha2, hsp2, hpre2⟩ :=
        consumeL f xs ts2 (consumeAll s ts1) (acc ++ [x]) hxs hw.2 hd1 ha1 hsp1
          (by rw [hc1, harr.1]) (by rw [hp1]; exact postPrev_safeV f x)
      rw [consumeAll_append]
      refine ⟨?_, hd2, ?_, ha2, hsp2, preFalse_append hpre1 hpre2⟩
      · rw [hc2]
        simp
      · rw [hst2, hst1]

theorem consumeE (f : Flags) (es : List (String × JVal)) (ts : List JsonToken)
    (s : FAState) (acc : List (String × JVal)) (h : EntriesTokens f es ts)
    (hw : wfE es) (hd : s.done = false) (ha : s.assembledString = "")
    (hsp : s.sparseMode = false) (hc : s.current = some (.jobj acc))
    (hnd : ((acc ++ es).map Prod.fst).Nodup)
    (hprevK : f.keys = .packedOnly →
      s.previouslyAssembledStreamedToken ≠ some .keyValue) :
    (consumeAll s ts).current = some (.jobj (acc ++ es)) ∧
    (consumeAll s ts).done = false ∧
    (consumeAll s ts).stack = s.stack ∧
    (consumeAll s ts).assembledString = "" ∧
    (consumeAll s ts).sparseMode = false ∧
    PreFalse s ts := by
  cases es with
  | nil =>
      simp only [EntriesTokens] at h
      subst h
      exact ⟨by simpa using hc, hd, rfl, ha, hsp, preFalse_nil hd⟩
  | cons e es =>
      obtain ⟨k, v⟩ := e
      simp only [EntriesTokens] at h
      obtain ⟨kts, vts, rest, hk, hv, hes, rfl⟩ := h
      simp only [wfE] at hw
      obtain ⟨hrec1, hpreK⟩ := consumeKey f.keys k kts s hk hd ha hsp hprevK
      obtain ⟨hc2, hk2, hd2, hst2, ha2, hsp2, hp2, hpre2⟩ :=
        consumeV f v vts (consumeAll s kts) hv hw.1 (by rw [hrec1])
          (by rw [hrec1]) (by rw [hrec1]; exact hsp)
          (by rw [hrec1]; exact postKeyPrev_safeV f f.keys)
      have hknotin : k ∉ acc.map Prod.fst := by
        simp only [List.map_append, List.map_cons] at hnd
        have hdis := List.disjoint_of_nodup_append hnd
        intro hmem
        exact hdis hmem (List.mem_cons_self _ _)
      have hobj := saveValue_obj_proj (consumeAll s kts) v acc k (by rw [hrec1])
        (by rw [hrec1]; exact hsp) (by rw [hrec1]; exact hc) (by rw [hrec1])
      obtain ⟨hc3, hd3, hst3, ha3, hsp3, hpre3⟩ :=
        consumeE f es rest (consumeAll (consumeAll s kts) vts) (acc ++ [(k, v)])
          hes hw.2 hd2 ha2 hsp2
          (by rw [hc2, hobj.1, objAssign_append acc k v hknotin])
          (by rw [List.append_assoc]; simpa using hnd)
          (by rw [hp2]; exact fun hpk => postPrev_ne_keyValue f v)
      rw [consumeAll_append, consumeAll_append]
      refine ⟨?_, hd3, ?_, ha3, hsp3, ?_⟩
      · rw [hc3]
        simp
      · rw [hst3, hst2, hrec1]
      · exact preFalse_append hpreK (preFalse_append hpre2 hpre3)

end

end MsftTodo


namespace MsftTodo

/-! ## Root-level consumption (claim C1) -/


theorem superEndContainer_nil (s2 : FAState) (hstack : s2.stack = []) :
    superEndContainer s2 = { s2 with done := true } := by
  unfold superEndContainer
  rw [hstack]

theorem single_token_no_split {α : Type} (t : α) (p q : List α)
    (hpq : [t] = p ++ q) (hp : p ≠ []) (hq : q ≠ []) : False := by
  have hlen := congrArg List.length hpq
  rcases p with _ | ⟨a, p⟩
  · exact hp rfl
  rcases q with _ | ⟨b, q⟩
  · exact hq rfl
  simp at hlen

/-- Feeding the tokens of one root value `V` to a fresh non-sparse
`FullAssembler`: `current` ends up structurally equal to `V`, `done` ends up
true, and `done` is false at every proper nonempty split of the token list
except when the root value is a streamed-and-packed primitive, where `done`
becomes true already at the `endString`/`endNumber` and the only remaining
token is the redundant packed duplicate. -/
theorem consumeRoot (f : Flags) (V : JVal) (ts : List JsonToken)
    (h : ValueTokens f V ts) (hw : wfV V) :
    (consumeAll (initFA false) ts).current = some V ∧
    (consumeAll (initFA false) ts).done = true ∧
    (∀ p q, ts = p ++ q → p ≠ [] → q ≠ [] →
      (consumeAll (initFA false) p).done = true →
      (∃ str, V = JVal.jstr str ∧ f.strings = .both ∧
        q = [⟨.stringValue, str⟩]) ∨
      (∃ n, V = JVal.jnum n ∧ f.numbers = .both ∧
        q = [⟨.numberValue, n⟩])) := by
  cases V with
  | jnull =>
      simp only [ValueTokens] at h
      subst h
      exact ⟨rfl, rfl, fun p q hpq hp hq _ =>
        (single_token_no_split _ p q hpq hp hq).elim⟩
  | jbool b =>
      cases b with
      | false =>
          simp only [ValueTokens] at h
          subst h
          exact ⟨rfl, rfl, fun p q hpq hp hq _ =>
            (single_token_no_split _ p q hpq hp hq).elim⟩
      | true =>
          simp only [ValueTokens] at h
          subst h
          exact ⟨rfl, rfl, fun p q hpq hp hq _ =>
            (single_token_no_split _ p q hpq hp hq).elim⟩
  | jstr str =>
      simp only [ValueTokens] at h
      rcases hm : f.strings with _ | _ | _ <;> rw [hm] at h <;>
        simp only [StrTokens] at h
      case packedOnly =>
        subst h
        refine ⟨rfl, rfl, fun p q hpq hp hq _ =>
          (single_token_no_split _ p q hpq hp hq).elim⟩
      case streamedOnly =>
        obtain ⟨cs, hcs, rfl⟩ := h
        have h1 : (initFA false).consume ⟨.startString, ""⟩
            = { initFA false with
                  done := false, previouslyAssembledStreamedToken := none,
                  wasDone := true } := rfl
        have h2 : consumeAll { initFA false with
              done := false, previouslyAssembledStreamedToken := none,
              wasDone := true } (chunkToks cs)
            = { initFA false with
                done := false, previouslyAssembledStreamedToken := none,
                wasDone := true, assembledString := String.join cs } := by
          rw [consume_chunkToks cs _ rfl]
          simp [initFA]
        have h3 : finalizeAssembledToken { initFA false with
              done := false, previouslyAssembledStreamedToken := none,
              wasDone := true, assembledString := String.join cs } .stringValue
            = { initFA false with
                current := some (.jstr str),
                previouslyAssembledStreamedToken := some .stringValue,
                wasDone := true } := by
          unfold finalizeAssembledToken wrappedPacked withPreviousTokenTracking
            skipIfPreviouslyAssembled packedDispatch superStringValue saveValue
            setCurrent
          rw [hcs]
          ext <;> simp [initFA]
        have hfull : consumeAll (initFA false)
              (⟨.startString, ""⟩ :: (chunkToks cs ++ [⟨.endString, ""⟩]))
            = { initFA false with
                current := some (.jstr str),
                previouslyAssembledStreamedToken := some .stringValue,
                wasDone := true } := by
          show consumeAll ((initFA false).consume ⟨.startString, ""⟩)
            (chunkToks cs ++ [⟨.endString, ""⟩]) = _
          rw [h1, consumeAll_append, h2]
          show finalizeAssembledToken _ .stringValue = _
          rw [h3]
        refine ⟨by rw [hfull], by rw [hfull]; rfl, ?_⟩
        intro p q hpq hp hq hdone
        exfalso
        rcases p with _ | ⟨a, p2⟩
        · exact hp rfl
        simp only [List.cons_append, List.cons.injEq] at hpq
        obtain ⟨rfl, hpq2⟩ := hpq
        have hfalse : (consumeAll ((initFA false).consume ⟨.startString, ""⟩)
            p2).done = false := by
          rw [h1]
          rcases prefix_append_cases (⟨q, hpq2.symm⟩ : p2 <+: chunkToks cs
            ++ [⟨.endString, ""⟩]) with hpc | ⟨p3, rfl, hp3⟩
          · obtain ⟨cs2, _, rfl⟩ := prefix_map _ hpc
            show (consumeAll _ (chunkToks cs2)).done = false
            rw [consume_chunkToks cs2 _ rfl]
          · rcases List.prefix_cons_iff.mp hp3 with rfl | ⟨p4, rfl, hp4⟩
            · rw [consumeAll_append, consume_chunkToks cs _ rfl]
              rfl
            · exfalso
              rw [List.prefix_nil.mp hp4] at hpq2
              have hq0 : q = [] := by
                have h5 : chunkToks cs ++ [(⟨.endString, ""⟩ : JsonToken)]
                    = (chunkToks cs ++ [(⟨.endString, ""⟩ : JsonToken)]) ++ q := by
                  simpa [List.append_assoc] using hpq2
                have h6 := List.append_cancel_left
                  ((List.append_nil (chunkToks cs
                    ++ [(⟨.endString, ""⟩ : JsonToken)])).trans h5)
                exact h6.symm
              exact hq hq0
        rw [show (consumeAll (initFA false) (⟨.startString, ""⟩ :: p2))
            = consumeAll ((initFA false).consume ⟨.startString, ""⟩) p2
            from rfl, hfalse] at hdone
        exact Bool.false_ne_true hdone
      case both =>
        obtain ⟨cs, hcs, rfl⟩ := h
        have h1 : (initFA false).consume ⟨.startString, ""⟩
            = { initFA false with
                  done := false, previouslyAssembledStreamedToken := none,
                  wasDone := true } := rfl
        have h2 : consumeAll { initFA false with
              done := false, previouslyAssembledStreamedToken := none,
              wasDone := true } (chunkToks cs)
            = { initFA false with
                done := false, previouslyAssembledStreamedToken := none,
                wasDone := true, assembledString := String.join cs } := by
          rw [consume_chunkToks cs _ rfl]
          simp [initFA]
        have h3 : finalizeAssembledToken { initFA false with
              done := false, previouslyAssembledStreamedToken := none,
              wasDone := true, assembledString := String.join cs } .stringValue
            = { initFA false with
                current := some (.jstr str),
                previouslyAssembledStreamedToken := some .stringValue,
                wasDone := true } := by
          unfold finalizeAssembledToken wrappedPacked withPreviousTokenTracking
            skipIfPreviouslyAssembled packedDispatch superStringValue saveValue
            setCurrent
          rw [hcs]
          ext <;> simp [initFA]
        have hmid : consumeAll (initFA false)
              (⟨.startString, ""⟩ :: (chunkToks cs ++ [⟨.endString, ""⟩]))
            = { initFA false with
                current := some (.jstr str),
                previouslyAssembledStreamedToken := some .stringValue,
                wasDone := true } := by
          show consumeAll ((initFA false).consume ⟨.startString, ""⟩)
            (chunkToks cs ++ [⟨.endString, ""⟩]) = _
          rw [h1, consumeAll_append, h2]
          show finalizeAssembledToken _ .stringValue = _
          rw [h3]
        have hfull : consumeAll (initFA false)
              (⟨.startString, ""⟩ :: (chunkToks cs
                ++ [⟨.endString, ""⟩, ⟨.stringValue, str⟩]))
            = { initFA false with
                current := some (.jstr str), wasDone := true } := by
          have hsplit : (⟨.startString, ""⟩ : JsonToken) :: (chunkToks cs
                ++ [⟨.endString, ""⟩, ⟨.stringValue, str⟩])
              = ((⟨.startString, ""⟩ : JsonToken) :: (chunkToks cs
                ++ [⟨.endString, ""⟩])) ++ [⟨.stringValue, str⟩] := by
            simp
          rw [hsplit, consumeAll_append, hmid]
          show wrappedPacked .stringValue str _ = _
          unfold wrappedPacked withPreviousTokenTracking skipIfPreviouslyAssembled
          rw [if_pos rfl]
          rfl
        refine ⟨by rw [hfull], by rw [hfull]; rfl, ?_⟩
        intro p q hpq hp hq hdone
        left
        refine ⟨str, rfl, rfl, ?_⟩
        rcases p with _ | ⟨a, p2⟩
        · exact absurd rfl hp
        simp only [List.cons_append, List.cons.injEq] at hpq
        obtain ⟨rfl, hpq2⟩ := hpq
        rcases prefix_append_cases (⟨q, hpq2.symm⟩ : p2 <+: chunkToks cs
            ++ [⟨.endString, ""⟩, ⟨.stringValue, str⟩])
          with hpc | ⟨p3, rfl, hp3⟩
        · exfalso
          have hfalse : (consumeAll ((initFA false).consume ⟨.startString, ""⟩)
              p2).done = false := by
            rw [h1]
            obtain ⟨cs2, _, rfl⟩ := prefix_map _ hpc
            show (consumeAll _ (chunkToks cs2)).done = false
            rw [consume_chunkToks cs2 _ rfl]
          rw [show (consumeAll (initFA false) (⟨.startString, ""⟩ :: p2))
              = consumeAll ((initFA false).consume ⟨.startString, ""⟩) p2
              from rfl, hfalse] at hdone
          exact Bool.false_ne_true hdone
        · rcases List.prefix_cons_iff.mp hp3 with rfl | ⟨p4, rfl, hp4⟩
          · exfalso
            have hfalse : (consumeAll ((initFA false).consume ⟨.startString, ""⟩)
                (chunkToks cs ++ [])).done = false := by
              rw [h1, List.append_nil, consume_chunkToks cs _ rfl]
            rw [show (consumeAll (initFA false)
                  (⟨.startString, ""⟩ :: (chunkToks cs ++ [])))
                = consumeAll ((initFA false).consume ⟨.startString, ""⟩)
                  (chunkToks cs ++ []) from rfl, hfalse] at hdone
            exact Bool.false_ne_true hdone
          · rcases List.prefix_cons_iff.mp hp4 with rfl | ⟨p5, rfl, hp5⟩
            · -- p = startString :: chunks ++ [endString]; q = [stringValue]
              have h5 : chunkToks cs
                    ++ [(⟨.endString, ""⟩ : JsonToken), ⟨.stringValue, str⟩]
                  = (chunkToks cs ++ [(⟨.endString, ""⟩ : JsonToken)] ++ [])
                    ++ [⟨.stringValue, str⟩] := by simp
              rw [h5] at hpq2
              have h6 : (chunkToks cs ++ [(⟨.endString, ""⟩ : JsonToken)] ++ [])
                    ++ [(⟨.stringValue, str⟩ : JsonToken)]
                  = (chunkToks cs ++ ([(⟨.endString, ""⟩ : JsonToken)] ++ []))
                    ++ q := by simpa [List.append_assoc] using hpq2
              have := List.append_cancel_left
                (((List.append_assoc _ _ _).symm.trans h6).symm)
              simpa using this
            · exfalso
              rw [List.prefix_nil.mp hp5] at hpq2
              have hq0 : q = [] := by
                have h5 : chunkToks cs
                      ++ [(⟨.endString, ""⟩ : JsonToken), ⟨.stringValue, str⟩]
                    = (chunkToks cs
                      ++ [(⟨.endString, ""⟩ : JsonToken), ⟨.stringValue, str⟩])
                      ++ q := by
                  simpa [List.append_assoc] using hpq2
                have h6 := List.append_cancel_left
                  ((List.append_nil _).trans h5)
                exact h6.symm
              exact hq hq0
  | jnum n =>
      simp only [ValueTokens] at h
      rcases hm : f.numbers with _ | _ | _ <;> rw [hm] at h <;>
        simp only [NumTokens] at h
      case packedOnly =>
        subst h
        refine ⟨rfl, rfl, fun p q hpq hp hq _ =>
          (single_token_no_split _ p q hpq hp hq).elim⟩
      case streamedOnly =>
        obtain ⟨cs, hcs, rfl⟩ := h
        have h1 : (initFA false).consume ⟨.startNumber, ""⟩
            = { initFA false with
                  done := false, previouslyAssembledStreamedToken := none,
                  wasDone := true } := rfl
        have h2 : consumeAll { initFA false with
              done := false, previouslyAssembledStreamedToken := none,
              wasDone := true } (numChunkToks cs)
            = { initFA false with
                done := false, previouslyAssembledStreamedToken := none,
                wasDone := true, assembledString := String.join cs } := by
          rw [consume_numChunkToks cs _ rfl]
          simp [initFA]
        have h3 : finalizeAssembledToken { initFA false with
              done := false, previouslyAssembledStreamedToken := none,
              wasDone := true, assembledString := String.join cs } .numberValue
            = { initFA false with
                current := some (.jnum n),
                previouslyAssembledStreamedToken := some .numberValue,
                wasDone := true } := by
          unfold finalizeAssembledToken wrappedPacked withPreviousTokenTracking
            skipIfPreviouslyAssembled packedDispatch superNumberValue saveValue
            setCurrent
          rw [hcs]
          ext <;> simp [initFA]
        have hfull : consumeAll (initFA false)
              (⟨.startNumber, ""⟩ :: (numChunkToks cs ++ [⟨.endNumber, ""⟩]))
            = { initFA false with
                current := some (.jnum n),
                previouslyAssembledStreamedToken := some .numberValue,
                wasDone := true } := by
          show consumeAll ((initFA false).consume ⟨.startNumber, ""⟩)
            (numChunkToks cs ++ [⟨.endNumber, ""⟩]) = _
          rw [h1, consumeAll_append, h2]
          show finalizeAssembledToken _ .numberValue = _
          rw [h3]
        refine ⟨by rw [hfull], by rw [hfull]; rfl, ?_⟩
        intro p q hpq hp hq hdone
        exfalso
        rcases p with _ | ⟨a, p2⟩
        · exact hp rfl
        simp only [List.cons_append, List.cons.injEq] at hpq
        obtain ⟨rfl, hpq2⟩ := hpq
        have hfalse : (consumeAll ((initFA false).consume ⟨.startNumber, ""⟩)
            p2).done = false := by
          rw [h1]
          rcases prefix_append_cases (⟨q, hpq2.symm⟩ : p2 <+: numChunkToks cs
            ++ [⟨.endNumber, ""⟩]) with hpc | ⟨p3, rfl, hp3⟩
          · obtain ⟨cs2, _, rfl⟩ := prefix_map _ hpc
            show (consumeAll _ (numChunkToks cs2)).done = false
            rw [consume_numChunkToks cs2 _ rfl]
          · rcases List.prefix_cons_iff.mp hp3 with rfl | ⟨p4, rfl, hp4⟩
            · rw [consumeAll_append, consume_numChunkToks cs _ rfl]
              rfl
            · exfalso
              rw [List.prefix_nil.mp hp4] at hpq2
              have hq0 : q = [] := by
                have h5 : numChunkToks cs ++ [(⟨.endNumber, ""⟩ : JsonToken)]
                    = (numChunkToks cs ++ [(⟨.endNumber, ""⟩ : JsonToken)]) ++ q := by
                  simpa [List.append_assoc] using hpq2
                have h6 := List.append_cancel_left
                  ((List.append_nil (numChunkToks cs
                    ++ [(⟨.endNumber, ""⟩ : JsonToken)])).trans h5)
                exact h6.symm
              exact hq hq0
        rw [show (consumeAll (initFA false) (⟨.startNumber, ""⟩ :: p2))
            = consumeAll ((initFA false).consume ⟨.startNumber, ""⟩) p2
            from rfl, hfalse] at hdone
        exact Bool.false_ne_true hdone
      case both =>
        obtain ⟨cs, hcs, rfl⟩ := h
        have h1 : (initFA false).consume ⟨.startNumber, ""⟩
            = { initFA false with
                  done := false, previouslyAssembledStreamedToken := none,
                  wasDone := true } := rfl
        have h2 : consumeAll { initFA false with
              done := false, previouslyAssembledStreamedToken := none,
              wasDone := true } (numChunkToks cs)
            = { initFA false with
                done := false, previouslyAssembledStreamedToken := none,
                wasDone := true, assembledString := String.join cs } := by
          rw [consume_numChunkToks cs _ rfl]
          simp [initFA]
        have h3 : finalizeAssembledToken { initFA false with
              done := false, previouslyAssembledStreamedToken := none,
              wasDone := true, assembledString := String.join cs } .numberValue
            = { initFA false with
                current := some (.jnum n),
                previouslyAssembledStreamedToken := some .numberValue,
                wasDone := true } := by
          unfold finalizeAssembledToken wrappedPacked withPreviousTokenTracking
            skipIfPreviouslyAssembled packedDispatch superNumberValue saveValue
            setCurrent
          rw [hcs]
          ext <;> simp [initFA]
        have hmid : consumeAll (initFA false)
              (⟨.startNumber, ""⟩ :: (numChunkToks cs ++ [⟨.endNumber, ""⟩]))
            = { initFA false with
                current := some (.jnum n),
                previouslyAssembledStreamedToken := some .numberValue,
                wasDone := true } := by
          show consumeAll ((initFA false).consume ⟨.startNumber, ""⟩)
            (numChunkToks cs ++ [⟨.endNumber, ""⟩]) = _
          rw [h1, consumeAll_append, h2]
          show finalizeAssembledToken _ .numberValue = _
          rw [h3]
        have hfull : consumeAll (initFA false)
              (⟨.startNumber, ""⟩ :: (numChunkToks cs
                ++ [⟨.endNumber, ""⟩, ⟨.numberValue, n⟩]))
            = { initFA false with
                current := some (.jnum n), wasDone := true } := by
          have hsplit : (⟨.startNumber, ""⟩ : JsonToken) :: (numChunkToks cs
                ++ [⟨.endNumber, ""⟩, ⟨.numberValue, n⟩])
              = ((⟨.startNumber, ""⟩ : JsonToken) :: (numChunkToks cs
                ++ [⟨.endNumber, ""⟩])) ++ [⟨.numberValue, n⟩] := by
            simp
          rw [hsplit, consumeAll_append, hmid]
          show wrappedPacked .numberValue n _ = _
          unfold wrappedPacked withPreviousTokenTracking skipIfPreviouslyAssembled
          rw [if_pos rfl]
          rfl
        refine ⟨by rw [hfull], by rw [hfull]; rfl, ?_⟩
        intro p q hpq hp hq hdone
        right
        refine ⟨n, rfl, rfl, ?_⟩
        rcases p with _ | ⟨a, p2⟩
        · exact absurd rfl hp
        simp only [List.cons_append, List.cons.injEq] at hpq
        obtain ⟨rfl, hpq2⟩ := hpq
        rcases prefix_append_cases (⟨q, hpq2.symm⟩ : p2 <+: numChunkToks cs
            ++ [⟨.endNumber, ""⟩, ⟨.numberValue, n⟩])
          with hpc | ⟨p3, rfl, hp3⟩
        · exfalso
          have hfalse : (consumeAll ((initFA false).consume ⟨.startNumber, ""⟩)
              p2).done = false := by
            rw [h1]
            obtain ⟨cs2, _, rfl⟩ := prefix_map _ hpc
            show (consumeAll _ (numChunkToks cs2)).done = false
            rw [consume_numChunkToks cs2 _ rfl]
          rw [show (consumeAll (initFA false) (⟨.startNumber, ""⟩ :: p2))
              = consumeAll ((initFA false).consume ⟨.startNumber, ""⟩) p2
              from rfl, hfalse] at hdone
          exact Bool.false_ne_true hdone
        · rcases List.prefix_cons_iff.mp hp3 with rfl | ⟨p4, rfl, hp4⟩
          · exfalso
            have hfalse : (consumeAll ((initFA false).consume ⟨.startNumber, ""⟩)
                (numChunkToks cs ++ [])).done = false := by
              rw [h1, List.append_nil, consume_numChunkToks cs _ rfl]
            rw [show (consumeAll (initFA false)
                  (⟨.startNumber, ""⟩ :: (numChunkToks cs ++ [])))
                = consumeAll ((initFA false).consume ⟨.startNumber, ""⟩)
                  (numChunkToks cs ++ []) from rfl, hfalse] at hdone
            exact Bool.false_ne_true hdone
          · rcases List.prefix_cons_iff.mp hp4 with rfl | ⟨p5, rfl, hp5⟩
            · -- p = startString :: chunks ++ [endString]; q = [stringValue]
              have h5 : numChunkToks cs
                    ++ [(⟨.endNumber, ""⟩ : JsonToken), ⟨.numberValue, n⟩]
                  = (numChunkToks cs ++ [(⟨.endNumber, ""⟩ : JsonToken)] ++ [])
                    ++ [⟨.numberValue, n⟩] := by simp
              rw [h5] at hpq2
              have h6 : (numChunkToks cs ++ [(⟨.endNumber, ""⟩ : JsonToken)] ++ [])
                    ++ [(⟨.numberValue, n⟩ : JsonToken)]
                  = (numChunkToks cs ++ ([(⟨.endNumber, ""⟩ : JsonToken)] ++ []))
                    ++ q := by simpa [List.append_assoc] using hpq2
              have := List.append_cancel_left
                (((List.append_assoc _ _ _).symm.trans h6).symm)
              simpa using this
            · exfalso
              rw [List.prefix_nil.mp hp5] at hpq2
              have hq0 : q = [] := by
                have h5 : numChunkToks cs
                      ++ [(⟨.endNumber, ""⟩ : JsonToken), ⟨.numberValue, n⟩]
                    = (numChunkToks cs
                      ++ [(⟨.endNumber, ""⟩ : JsonToken), ⟨.numberValue, n⟩])
                      ++ q := by
                  simpa [List.append_assoc] using hpq2
                have h6 := List.append_cancel_left
                  ((List.append_nil _).trans h5)
                exact h6.symm
              exact hq hq0
  | jarr xs =>
      simp only [ValueTokens] at h
      obtain ⟨inner, hin, rfl⟩ := h
      simp only [wfV] at hw
      have h1 : (initFA false).consume ⟨.startArray, ""⟩
          = { initFA false with
                current := some (.jarr []), done := false } := rfl
      obtain ⟨hc2, hd2, hst2, ha2, hsp2, hpre2⟩ :=
        consumeL f xs inner { initFA false with
            current := some (.jarr []), done := false } [] hin hw rfl rfl rfl rfl
          (prevSafeV_none f)
      have hfin : consumeAll (initFA false)
            (⟨.startArray, ""⟩ :: (inner ++ [⟨.endArray, ""⟩]))
          = ((consumeAll { initFA false with
                current := some (.jarr []), done := false } inner).consume
              ⟨.endArray, ""⟩) := by
        show consumeAll ((initFA false).consume ⟨.startArray, ""⟩)
            (inner ++ [⟨.endArray, ""⟩]) = _
        rw [h1, consumeAll_append]
        rfl
      have hend : ((consumeAll { initFA false with
                current := some (.jarr []), done := false } inner).consume
              ⟨.endArray, ""⟩)
          = { consumeAll { initFA false with
                current := some (.jarr []), done := false } inner with
              done := true, previouslyAssembledStreamedToken := none } := by
        show withPreviousTokenTracking superEndContainer _ = _
        unfold withPreviousTokenTracking
        rw [superEndContainer_nil _ (hst2.trans rfl)]
      refine ⟨?_, ?_, ?_⟩
      · rw [hfin, hend]
        show (consumeAll { initFA false with
            current := some (.jarr []), done := false } inner).current = _
        simpa using hc2
      · rw [hfin, hend]
      · intro p q hpq hp hq hdone
        exfalso
        rcases p with _ | ⟨a, p2⟩
        · exact hp rfl
        simp only [List.cons_append, List.cons.injEq] at hpq
        obtain ⟨rfl, hpq2⟩ := hpq
        have hfalse : (consumeAll ((initFA false).consume ⟨.startArray, ""⟩)
            p2).done = false := by
          rw [h1]
          rcases prefix_append_cases (⟨q, hpq2.symm⟩ : p2 <+: inner
            ++ [⟨.endArray, ""⟩]) with hpc | ⟨p3, rfl, hp3⟩
          · exact hpre2 p2 hpc
          · rcases List.prefix_cons_iff.mp hp3 with rfl | ⟨p4, rfl, hp4⟩
            · rw [consumeAll_append]
              exact hd2
            · exfalso
              rw [List.prefix_nil.mp hp4] at hpq2
              have hq0 : q = [] := by
                have h5 : inner ++ [(⟨.endArray, ""⟩ : JsonToken)]
                    = (inner ++ [(⟨.endArray, ""⟩ : JsonToken)]) ++ q := by
                  simpa [List.append_assoc] using hpq2
                have h6 := List.append_cancel_left
                  ((List.append_nil (inner
                    ++ [(⟨.endArray, ""⟩ : JsonToken)])).trans h5)
                exact h6.symm
              exact hq hq0
        rw [show (consumeAll (initFA false) (⟨.startArray, ""⟩ :: p2))
            = consumeAll ((initFA false).consume ⟨.startArray, ""⟩) p2
            from rfl, hfalse] at hdone
        exact Bool.false_ne_true hdone
  | jobj es =>
      simp only [ValueTokens] at h
      obtain ⟨inner, hin, rfl⟩ := h
      simp only [wfV] at hw
      have h1 : (initFA false).consume ⟨.startObject, ""⟩
          = { initFA false with
                current := some (.jobj []), done := false } := rfl
      obtain ⟨hc2, hd2, hst2, ha2, hsp2, hpre2⟩ :=
        consumeE f es inner { initFA false with
            current := some (.jobj []), done := false } [] hin hw.2 rfl rfl rfl rfl
          (by simpa using hw.1) (fun _ => by simp [initFA])
      have hfin : consumeAll (initFA false)
            (⟨.startObject, ""⟩ :: (inner ++ [⟨.endObject, ""⟩]))
          = ((consumeAll { initFA false with
                current := some (.jobj []), done := false } inner).consume
              ⟨.endObject, ""⟩) := by
        show consumeAll ((initFA false).consume ⟨.startObject, ""⟩)
            (inner ++ [⟨.endObject, ""⟩]) = _
        rw [h1, consumeAll_append]
        rfl
      have hend : ((consumeAll { initFA false with
                current := some (.jobj []), done := false } inner).consume
              ⟨.endObject, ""⟩)
          = { consumeAll { initFA false with
                current := some (.jobj []), done := false } inner with
              done := true, previouslyAssembledStreamedToken := none } := by
        show withPreviousTokenTracking superEndContainer _ = _
        unfold withPreviousTokenTracking
        rw [superEndContainer_nil _ (hst2.trans rfl)]
      refine ⟨?_, ?_, ?_⟩
      · rw [hfin, hend]
        show (consumeAll { initFA false with
            current := some (.jobj []), done := false } inner).current = _
        simpa using hc2
      · rw [hfin, hend]
      · intro p q hpq hp hq hdone
        exfalso
        rcases p with _ | ⟨a, p2⟩
        · exact hp rfl
        simp only [List.cons_append, List.cons.injEq] at hpq
        obtain ⟨rfl, hpq2⟩ := hpq
        have hfalse : (consumeAll ((initFA false).consume ⟨.startObject, ""⟩)
            p2).done = false := by
          rw [h1]
          rcases prefix_append_cases (⟨q, hpq2.symm⟩ : p2 <+: inner
            ++ [⟨.endObject, ""⟩]) with hpc | ⟨p3, rfl, hp3⟩
          · exact hpre2 p2 hpc
          · rcases List.prefix_cons_iff.mp hp3 with rfl | ⟨p4, rfl, hp4⟩
            · rw [consumeAll_append]
              exact hd2
            · exfalso
              rw [List.prefix_nil.mp hp4] at hpq2
              have hq0 : q = [] := by
                have h5 : inner ++ [(⟨.endObject, ""⟩ : JsonToken)]
                    = (inner ++ [(⟨.endObject, ""⟩ : JsonToken)]) ++ q := by
                  simpa [List.append_assoc] using hpq2
                have h6 := List.append_cancel_left
                  ((List.append_nil (inner
                    ++ [(⟨.endObject, ""⟩ : JsonToken)])).trans h5)
                exact h6.symm
              exact hq hq0
        rw [show (consumeAll (initFA false) (⟨.startObject, ""⟩ :: p2))
            = consumeAll ((initFA false).consume ⟨.startObject, ""⟩) p2
            from rfl, hfalse] at hdone
        exact Bool.false_ne_true hdone

end MsftTodo


namespace MsftTodo

/-! ## Claim C1 -/


/-- The token list of the claim C1 ambiguity counterexample: it is a valid
per-occurrence tokenization of `["a","a"]` (first element streamed-only,
second element packed-only) as well as of `["a"]` (single element streamed
and packed), and the assembler necessarily reconstructs the latter. -/
def c1BadTokens : List JsonToken :=
  [⟨.startArray, ""⟩, ⟨.startString, ""⟩, ⟨.stringChunk, "a"⟩,
   ⟨.endString, ""⟩, ⟨.stringValue, "a"⟩, ⟨.endArray, ""⟩]

/-- Claim C1 as written is false: with per-occurrence streaming/packing
choices the token language is ambiguous, so `current` cannot be structurally
equal to every value the tokens derive from; moreover for a root
streamed-then-packed scalar, `done` becomes true one token *before* the last
token. -/
theorem C1_counterexample :
    ValueTokensAny (JVal.jarr [JVal.jstr "a", JVal.jstr "a"]) c1BadTokens ∧
    (consumeAll (initFA false) c1BadTokens).current
      ≠ some (JVal.jarr [JVal.jstr "a", JVal.jstr "a"]) ∧
    ValueTokens ⟨.both, .both, .both⟩ (JVal.jstr "a")
      [⟨.startString, ""⟩, ⟨.stringChunk, "a"⟩, ⟨.endString, ""⟩,
       ⟨.stringValue, "a"⟩] ∧
    (consumeAll (initFA false)
      [⟨.startString, ""⟩, ⟨.stringChunk, "a"⟩, ⟨.endString, ""⟩]).done
      = true := by
  refine ⟨?_, ?_, ?_, ?_⟩
  · refine ⟨[⟨.startString, ""⟩, ⟨.stringChunk, "a"⟩, ⟨.endString, ""⟩,
      ⟨.stringValue, "a"⟩], ?_, rfl⟩
    refine ⟨[⟨.startString, ""⟩, ⟨.stringChunk, "a"⟩, ⟨.endString, ""⟩],
      [⟨.stringValue, "a"⟩], ⟨.streamedOnly, ["a"], rfl, rfl⟩,
      ⟨[⟨.stringValue, "a"⟩], [], ⟨.packedOnly, rfl⟩, rfl, rfl⟩, rfl⟩
  · intro hcontra
    have hval : (consumeAll (initFA false) c1BadTokens).current
        = some (JVal.jarr [JVal.jstr "a"]) := rfl
    rw [hval] at hcontra
    simp at hcontra
  · exact ⟨["a"], rfl, rfl⟩
  · rfl

end MsftTodo

namespace MsftTodo

/-- Claim C1, amended: fix one flag configuration per run (as the lexer
does). For every well-formed JSON value `V`, feeding a valid tokenization
of `V` under flags `f` to a fresh non-sparse `FullAssembler` reconstructs
`current` structurally equal to `V` with `done = true`; `done` is false at
every proper nonempty split of the token list, except that for a *root*
streamed-and-packed primitive `done` becomes true already at the
`endString`/`endNumber`, one token before the redundant trailing packed
duplicate. -/
theorem C1_full_assembler_amended (f : Flags) (V : JVal) (ts : List JsonToken)
    (h : ValueTokens f V ts) (hw : wfV V) :
    (consumeAll (initFA false) ts).current = some V ∧
    (consumeAll (initFA false) ts).done = true ∧
    (∀ p q, ts = p ++ q → p ≠ [] → q ≠ [] →
      (consumeAll (initFA false) p).done = true →
      (∃ str, V = JVal.jstr str ∧ f.strings = .both ∧
        q = [⟨.stringValue, str⟩]) ∨
      (∃ n, V = JVal.jnum n ∧ f.numbers = .both ∧
        q = [⟨.numberValue, n⟩])) :=
  consumeRoot f V ts h hw

/-- The spec's E5 scenario: `{"name":"object-3"}` with key and string both
streamed and packed assembles to the expected object with `done = true`. -/
def c1WitnessTokens : List JsonToken :=
  [⟨.startObject, ""⟩,
   ⟨.startKey, ""⟩, ⟨.stringChunk, "name"⟩, ⟨.endKey, ""⟩,
   ⟨.keyValue, "name"⟩,
   ⟨.startString, ""⟩, ⟨.stringChunk, "object-3"⟩, ⟨.endString, ""⟩,
   ⟨.stringValue, "object-3"⟩,
   ⟨.endObject, ""⟩]

theorem C1_full_assembler_amended_witness :
    (consumeAll (initFA false) c1WitnessTokens).current
      = some (JVal.jobj [("name", JVal.jstr "object-3")]) ∧
    (consumeAll (initFA false) c1WitnessTokens).done = true :=
  have h := C1_full_assembler_amended ⟨.both, .both, .both⟩
    (JVal.jobj [("name", JVal.jstr "object-3")]) c1WitnessTokens
    ⟨[⟨.startKey, ""⟩, ⟨.stringChunk, "name"⟩, ⟨.endKey, ""⟩,
      ⟨.keyValue, "name"⟩, ⟨.startString, ""⟩, ⟨.stringChunk, "object-3"⟩,
      ⟨.endString, ""⟩, ⟨.stringValue, "object-3"⟩],
     ⟨[⟨.startKey, ""⟩, ⟨.stringChunk, "name"⟩, ⟨.endKey, ""⟩,
       ⟨.keyValue, "name"⟩],
      [⟨.startString, ""⟩, ⟨.stringChunk, "object-3"⟩, ⟨.endString, ""⟩,
       ⟨.stringValue, "object-3"⟩], [],
      ⟨["name"], rfl, rfl⟩, ⟨["object-3"], rfl, rfl⟩, rfl, rfl⟩, rfl⟩
    (by constructor <;> simp [wfE, wfV])
  ⟨h.1, h.2.1⟩

end MsftTodo

namespace MsftTodo

/-! ## The `packEntry` machine (src/unnamed/part_007)

The live `packEntry` transformer: a five-state machine (`packingState`)
driving a `FullAssembler`, the stack key tracker, and a key-token buffer.
The JS `transform` reruns itself at most once per chunk (from the two
finalizing states, always into a non-finalizing state), so the rerun is
modeled by one nested dispatch.  `key` filters are modeled as exact
path-string matchers (the `typeof key === 'string'` arm of the source's
comparison).  A `typeSafeConsume` of a symbol-named synthetic token calls a
nonexistent method and throws; the `try`/`catch` then fails the stream, which
the model renders as `none`. -/

/-- JS `Array.prototype.join(sep)` on a key stack: `null` renders as the
empty string, numbers in decimal. -/
def joinSep (sep : String) : List StackElem → String
  | [] => ""
  | [e] =>
      (match e with
       | .key s => s
       | .idx n => toString n
       | .nul => "")
  | e :: rest =>
      (match e with
       | .key s => s
       | .idx n => toString n
       | .nul => "") ++ sep ++ joinSep sep rest

/-- `getStackPath`: the full key path joined with the path separator
(`pathSeparator` is left at its default `'.'` throughout). -/
def pathOf (l : List StackElem) : String := joinSep "." l

/-- The five `packingState` values. -/
inductive Packing
  | idle | packingKey | finalizingKey | packingValue | finalizingValue
deriving DecidableEq, Repr

/-- The `packEntry` configuration (string `key` filters, in order). -/
structure PEConfig where
  keys : List String
  discardComponentTokens : Bool := false
  owner : Owner := none
  sparseMode : Bool := false

/-- The mutable state closed over by `packEntry`'s `transform`. -/
structure PEState where
  asm : FAState
  tracker : TrackerState := {}
  keyTokenBuffer : List Chunk := []
  packingState : Packing := .idle
  matcher : MatcherId := 0
  sawFirstValueChunk : Bool := false
  entryTokenBase : EntryBase := ⟨"", [], 0, none⟩
deriving Repr

/-- A freshly created `packEntry` machine. -/
def initPE (cfg : PEConfig) : PEState := { asm := initFA cfg.sparseMode }

/-- `typeSafeConsume`: dispatch a `JsonToken` to the assembler's method of
the same name.  A symbol-named synthetic chunk reaches
`fullAssembler[name]()` with no such method and throws (`none`). -/
def typeSafeConsume (s : FAState) : Chunk → Option FAState
  | .tok t => some (s.consume t)
  | _ => none

/-- `keyTokenNames.includes(chunk.name)` (symbol names never match). -/
def isKeyChunk : Chunk → Bool
  | .tok t => t.name = .startKey || t.name = .endKey || t.name = .keyValue
  | _ => false

/-- `chunk.name === 'numberValue' || chunk.name === 'stringValue'`. -/
def isOurValueChunk : Chunk → Bool
  | .tok t => t.name = .numberValue || t.name = .stringValue
  | _ => false

/-- `chunk.name === 'keyValue'`. -/
def isKeyValueChunk : Chunk → Bool
  | .tok t => t.name = .keyValue
  | _ => false

/-- `getEntryTokenBase` (with `getEntryKey`'s `assert(typeof entryKey ===
'string')`: a non-key head throws, modeled as `none`). -/
def getEntryTokenBase (cfg : PEConfig) (s : PEState) (m : MatcherId) :
    Option EntryBase :=
  match getHead s.tracker with
  | some (.key k) => some ⟨k, getStack s.tracker, m, cfg.owner⟩
  | _ => none

/-- The end-of-entry token pushed by the `finalizing-value` state: the sparse
value-end marker, or the packed entry carrying `assembler.current` (JS `null`
and JSON `null` are the same value, hence `getD .jnull`). -/
def finalValueTok (cfg : PEConfig) (s : PEState) : Chunk :=
  if cfg.sparseMode then .sparseEntryValueEnd s.entryTokenBase
  else .packedEntry s.entryTokenBase (s.asm.current.getD .jnull)

/-- The dispatch on `packingState` for the three non-finalizing branches
(`packing-value`, key tokens / `packing-key`, `idle`).  Reruns from the two
finalizing states always land here. -/
def peDispatchBase (cfg : PEConfig) (s : PEState) (c : Chunk) :
    Option (PEState × List Chunk) :=
  if s.packingState = .packingValue then
    match typeSafeConsume s.asm c with
    | none => none
    | some asm2 =>
        some ({ s with
                  asm := asm2, sawFirstValueChunk := true,
                  packingState :=
                    if asm2.done then .finalizingValue else .packingValue },
          (if cfg.sparseMode && !s.sawFirstValueChunk then
            [.sparseEntryValueStart s.entryTokenBase] else [])
          ++ (if cfg.discardComponentTokens then [] else [c]))
  else if isKeyChunk c || s.packingState = .packingKey then
    match typeSafeConsume s.asm c with
    | none => none
    | some asm2 =>
        let buf := s.keyTokenBuffer ++ [c]
        if asm2.done then
          match cfg.keys.findIdx? (fun k => pathOf (getStack s.tracker) = k) with
          | some i =>
              match getEntryTokenBase cfg s i with
              | some base =>
                  some ({ s with
                            asm := asm2, keyTokenBuffer := buf, matcher := i,
                            entryTokenBase := base,
                            packingState := .finalizingKey }, [])
              | none => none
          | none =>
              some ({ s with
                        asm := asm2, keyTokenBuffer := [],
                        packingState := .idle }, buf)
        else
          some ({ s with
                    asm := asm2, keyTokenBuffer := buf,
                    packingState := .packingKey }, [])
  else
    some (s, [c])

/-- The `finalizing-key` buffer flush: append a `keyValue` chunk, drop the
buffer when discarding components, bracket it in sparse mode. -/
def finalKeyToks (cfg : PEConfig) (s : PEState) (c : Chunk) : List Chunk :=
  if cfg.sparseMode then
    .sparseEntryKeyStart s.entryTokenBase ::
      (if cfg.discardComponentTokens then []
       else s.keyTokenBuffer ++ (if isKeyValueChunk c then [c] else []))
      ++ [.sparseEntryKeyEnd s.entryTokenBase]
  else
    if cfg.discardComponentTokens then []
    else s.keyTokenBuffer ++ (if isKeyValueChunk c then [c] else [])

/-- The full dispatch: the two finalizing states first (each possibly
rerunning the chunk through `peDispatchBase` after its pushes), then the
base dispatch. -/
def peDispatch (cfg : PEConfig) (s : PEState) (c : Chunk) :
    Option (PEState × List Chunk) :=
  if s.packingState = .finalizingValue then
    let toks := (if isOurValueChunk c && !cfg.discardComponentTokens then [c]
                 else []) ++ [finalValueTok cfg s]
    if isOurValueChunk c then
      some ({ s with packingState := .idle }, toks)
    else
      match peDispatchBase cfg { s with packingState := .idle } c with
      | none => none
      | some (s2, out) => some (s2, toks ++ out)
  else if s.packingState = .finalizingKey then
    let toks := finalKeyToks cfg s c
    if isKeyValueChunk c then
      some ({ s with
                keyTokenBuffer := [], sawFirstValueChunk := false,
                packingState := .packingValue }, toks)
    else
      match peDispatchBase cfg { s with
          keyTokenBuffer := [], sawFirstValueChunk := false,
          packingState := .packingValue } c with
      | none => none
      | some (s2, out) => some (s2, toks ++ out)
  else
    peDispatchBase cfg s c

/-- One `transform` call: update the stack tracker (reruns do not), then
dispatch. -/
def peTransform (cfg : PEConfig) (s : PEState) (c : Chunk) :
    Option (PEState × List Chunk) :=
  peDispatch cfg { s with tracker := updateStack s.tracker c } c

/-- Feed a chunk list through the machine, concatenating the pushes; a
thrown error (`none`) fails the whole stream. -/
def peRun (cfg : PEConfig) (s : PEState) : List Chunk →
    Option (PEState × List Chunk)
  | [] => some (s, [])
  | c :: cs =>
      match peTransform cfg s c with
      | none => none
      | some (s2, out) =>
          match peRun cfg s2 cs with
          | none => none
          | some (s3, out2) => some (s3, out ++ out2)

end MsftTodo

namespace MsftTodo

/-! ## omitEntry (src/unnamed/part_003) and selectEntry
(src/lib/stream-json-extended/util/escape-regexp.ts, third segment) -/

/-- The owner attached to a synthetic chunk (`chunk.owner`; ordinary tokens
have no such property). -/
def chunkOwner : Chunk → Option Owner
  | .tok _ => none
  | .packedEntry b _ => some b.owner
  | .sparseEntryKeyStart b => some b.owner
  | .sparseEntryKeyEnd b => some b.owner
  | .sparseEntryValueStart b => some b.owner
  | .sparseEntryValueEnd b => some b.owner

/-- `typeof chunk.name !== 'string'`. -/
def isSynthetic : Chunk → Bool
  | .tok _ => false
  | _ => true

/-- `omitEntry`'s second pipeline stage: discard synthetic chunks owned by
its own `ownerSymbol`, forward everything else. -/
def omitKeep (o : Owner) (c : Chunk) : Bool :=
  !(isSynthetic c && chunkOwner c = some o)

/-- The `omitEntry` chain: `packEntry` with `discardComponentTokens` and
`sparseMode` on, then the owner filter.  The injected `ownerSymbol` is fresh,
modeled by an arbitrary id `o`. -/
def omitEntryRun (keys : List String) (o : Owner) (cs : List Chunk) :
    Option (List Chunk) :=
  match peRun ⟨keys, true, o, true⟩ (initPE ⟨keys, true, o, true⟩) cs with
  | none => none
  | some (_, out) => some (out.filter (omitKeep o))

/-- `useDepthTracking().updateDepth` (src/unnamed/part_001): container
starts/ends adjust the depth; everything else (symbol-named chunks included)
leaves it unchanged. -/
def updateDepth (d : Int) : Chunk → Int
  | .tok t =>
      match t.name with
      | .startObject | .startArray => d + 1
      | .endObject | .endArray => d - 1
      | _ => d
  | _ => d

/-- The state of `selectEntry`'s second pipeline stage. -/
structure SelState where
  depth : Int := 0
  discarding : Bool := true
deriving Repr

/-- Is this chunk a sparse value start/end marker owned by `o`? -/
def isOwnValueStart (o : Owner) : Chunk → Bool
  | .sparseEntryValueStart b => b.owner = o
  | _ => false

def isOwnValueEnd (o : Owner) : Chunk → Bool
  | .sparseEntryValueEnd b => b.owner = o
  | _ => false

/-- One step of `selectEntry`'s second stage: flip `discarding` at its own
sparse value brackets; while not discarding, forward ordinary tokens
(optionally dropping the enclosing array's brackets by depth); drop
everything else — including synthetic tokens it does not own. -/
def selStep (discardEnclosingArray : Bool) (o : Owner) (st : SelState)
    (c : Chunk) : SelState × Option Chunk :=
  let st1 := if isOwnValueStart o c then { st with discarding := false } else st
  let st2 := if isOwnValueEnd o c then { st1 with discarding := true } else st1
  if !st2.discarding && !(isSynthetic c) then
    if discardEnclosingArray then
      let d := updateDepth st2.depth c
      let keep :=
        !((d = 1 && (match c with | .tok t => t.name = .startArray | _ => false)) ||
          (d = 0 && (match c with | .tok t => t.name = .endArray | _ => false)))
      ({ st2 with depth := d }, if keep then some c else none)
    else (st2, some c)
  else (st2, none)

end MsftTodo

namespace MsftTodo

/-! ## injectEntry's injection stream
(src/lib/stream-json-extended/filter/inject-entry.ts, `injectionStream`)

`injectionPoint` is modeled as `Option String` (the string arm of the
source's comparison; `none` = `undefined`).  The per-object value token
stream produced by `valueTokenStreamFactory` is modeled by the constant
token list `vts` it emits.  `waitingForTheEndStack.toString() ===
stack.toString()` is JS array `toString`, i.e. a comma join. -/

/-- The state shared by `injectionStream`. -/
structure InjState where
  tracker : TrackerState := {}
  waiting : Option (List StackElem) := none
deriving Repr

/-- One `injectionStream` transform step. -/
def injStep (ip : Option String) (key : String)
    (streamKeys packKeys : Bool) (vts : List JsonToken)
    (st : InjState) (c : Chunk) : InjState × List Chunk :=
  let tr := updateStack st.tracker c
  let stack := getStack tr
  match st.waiting with
  | some w =>
      if (match c with | .tok t => t.name = .endObject | _ => false)
          && joinSep "," w = joinSep "," stack then
        (⟨tr, none⟩,
          ((if streamKeys || !packKeys then
              [(⟨.startKey, ""⟩ : JsonToken), ⟨.stringChunk, key⟩,
               ⟨.endKey, ""⟩] else [])
            ++ (if packKeys then [(⟨.keyValue, key⟩ : JsonToken)] else [])
            ++ vts).map Chunk.tok ++ [c])
      else (⟨tr, some w⟩, [c])
  | none =>
      let parentStack := stack.dropLast
      let isObjRoot := 1 ≤ stack.length
        && !(getHead tr = some (.key "number"))
      let w : Option (List StackElem) :=
        if isObjRoot then
          match ip with
          | none => if stack.length = 1 then some parentStack else none
          | some p => if pathOf parentStack = p then some parentStack else none
        else none
      (⟨tr, w⟩, [c])

/-- Run the injection stream over a chunk list. -/
def injRun (ip : Option String) (key : String)
    (streamKeys packKeys : Bool) (vts : List JsonToken) :
    InjState → List Chunk → InjState × List Chunk
  | st, [] => (st, [])
  | st, c :: cs =>
      let (st2, out) := injStep ip key streamKeys packKeys vts st c
      let (st3, out2) := injRun ip key streamKeys packKeys vts st2 cs
      (st3, out ++ out2)

/-- The full `injectEntry` pipeline on a token stream (the pass-through
first stage forwards every chunk unchanged): optionally the auto-omit
filter (for a root injection point its filter `^escapeRegExp(key)$` matches
exactly the path `key`), then the injection stream.  `o` is the omit
stage's fresh owner symbol. -/
def injectEntryRun (autoOmit : Bool) (key : String) (vts : List JsonToken)
    (o : Owner) (cs : List Chunk) : Option (List Chunk) :=
  if autoOmit then
    match omitEntryRun [key] o cs with
    | none => none
    | some mid => some (injRun none key true true vts ⟨{}, none⟩ mid).2
  else
    some (injRun none key true true vts ⟨{}, none⟩ cs).2

end MsftTodo

namespace MsftTodo

/-! ## objectSieve (src/lib/stream-json-extended/filter/object-sieve.ts)

The sieve's value-side decision — strict `===` against a primitive, a
`SieveFunction` call, or the external `lodash.ismatch` deep-subset test —
is abstracted as a boolean predicate on the packed value; the claim under
study (token accounting) is independent of the predicate's internals. -/

/-- The second-stage state. -/
structure SieveState where
  depth : Int := 0
  buffer : List Chunk := []
  isDiscarding : Bool := false
  isReleasing : Bool := true
deriving Repr

/-- `chunk.name === packedEntrySymbol && chunk.owner === ownerSymbol`. -/
def isOwnPackedEntry (o : Owner) : Chunk → Bool
  | .packedEntry b _ => b.owner = o
  | _ => false

/-- The sieve decision on an owned packed entry while undecided:
`filter.find(([key]) => key === chunk.matcher)`, then release on a value
match, or discard immediately under the single-string-filter optimization. -/
def sieveDecide (pairs : List (String × (JVal → Bool)))
    (b : EntryBase) (v : JVal) (st : SieveState) : SieveState :=
  match (pairs.map Prod.fst).get? b.matcher with
  | none => st
  | some mk =>
      match pairs.find? (fun p => p.1 = mk) with
      | none => st
      | some pr =>
          if pr.2 v then { st with isReleasing := true }
          else if pairs.length = 1 then { st with isDiscarding := true }
          else st

/-- One step of the sieve's second stage. -/
def sieveStep (pairs : List (String × (JVal → Bool))) (o : Owner)
    (st : SieveState) (c : Chunk) : SieveState × List Chunk :=
  let d := updateDepth st.depth c
  let isOwn := isOwnPackedEntry o c
  let isStart := d = 1
    && (match c with | .tok t => t.name = .startObject | _ => false)
  let isEnd := d = 0
    && (match c with | .tok t => t.name = .endObject | _ => false)
  let st1 : SieveState :=
    if isStart then { st with depth := d, isDiscarding := false, isReleasing := false }
    else if !st.isDiscarding && !st.isReleasing && isEnd then
      { st with depth := d, isDiscarding := true }
    else { st with depth := d }
  if st1.isDiscarding then
    ({ (if isEnd then { st1 with isDiscarding := false, isReleasing := true }
        else st1) with buffer := [] }, [])
  else if st1.isReleasing then
    (({ (if isEnd then { st1 with isDiscarding := false, isReleasing := true }
         else st1) with buffer := [] }),
      st1.buffer ++ (if isOwn then [] else [c]))
  else
    let st2 :=
      if isOwn then
        match c with
        | .packedEntry b v => sieveDecide pairs b v st1
        | _ => st1
      else { st1 with buffer := st1.buffer ++ [c] }
    ((if isEnd then { st2 with isDiscarding := false, isReleasing := true }
      else st2), [])

/-- Run the sieve stage. -/
def sieveRun (pairs : List (String × (JVal → Bool))) (o : Owner) :
    SieveState → List Chunk → SieveState × List Chunk
  | st, [] => (st, [])
  | st, c :: cs =>
      let (st2, out) := sieveStep pairs o st c
      let (st3, out2) := sieveRun pairs o st2 cs
      (st3, out ++ out2)

/-- The full `objectSieve` chain: `packEntry` over the filter keys (packed
mode, components kept), then the sieve stage. -/
def objectSieveRun (pairs : List (String × (JVal → Bool))) (o : Owner)
    (cs : List Chunk) : Option (List Chunk) :=
  match peRun ⟨pairs.map Prod.fst, false, o, false⟩
      (initPE ⟨pairs.map Prod.fst, false, o, false⟩) cs with
  | none => none
  | some (_, mid) => some (sieveRun pairs o {} mid).2

end MsftTodo

namespace MsftTodo

/-! ## Claim C7 -/

/-- Claim C7 as written is false: `selectEntry`'s second pipeline stage
drops every chunk while `discarding` (its initial state), including
synthetic tokens owned by other transformers, instead of forwarding them;
and `packEntry` caught mid-entry (`packing-value`) crashes on a foreign
synthetic token (`typeSafeConsume` calls a nonexistent assembler method)
rather than forwarding it. -/
theorem C7_counterexample :
    (selStep true (some 0) {}
      (.packedEntry ⟨"k", [], 0, some 1⟩ .jnull)).2 = none ∧
    chunkOwner (.packedEntry ⟨"k", [], 0, some 1⟩ .jnull) ≠ some (some 0) ∧
    peTransform ⟨["x"], false, some 0, false⟩
      { asm := initFA false, packingState := .packingValue }
      (.packedEntry ⟨"k", [], 0, some 1⟩ .jnull) = none := by
  refine ⟨rfl, ?_, rfl⟩
  simp [chunkOwner]

/-- Claim C7, amended: a `packEntry` transformer that is *idle* (not in the
middle of packing an entry) forwards every synthetic token — foreign or not
— downstream unchanged, and `omitEntry`'s owner filter keeps every
synthetic token whose owner differs from its own symbol.  (`selectEntry`
deliberately discards everything outside its selected values, foreign
synthetics included, and a non-idle `packEntry` fails on them.) -/
theorem C7_foreign_synthetics_amended (cfg : PEConfig) (s : PEState)
    (c : Chunk) (o : Owner) (hsyn : isSynthetic c = true)
    (hidle : s.packingState = .idle) (hne : chunkOwner c ≠ some o) :
    peTransform cfg s c
      = some ({ s with tracker := updateStack s.tracker c }, [c]) ∧
    omitKeep o c = true := by
  constructor
  · cases c with
    | tok t => simp [isSynthetic] at hsyn
    | packedEntry b v =>
        simp [peTransform, peDispatch, peDispatchBase, hidle, isKeyChunk]
    | sparseEntryKeyStart b =>
        simp [peTransform, peDispatch, peDispatchBase, hidle, isKeyChunk]
    | sparseEntryKeyEnd b =>
        simp [peTransform, peDispatch, peDispatchBase, hidle, isKeyChunk]
    | sparseEntryValueStart b =>
        simp [peTransform, peDispatch, peDispatchBase, hidle, isKeyChunk]
    | sparseEntryValueEnd b =>
        simp [peTransform, peDispatch, peDispatchBase, hidle, isKeyChunk]
  · cases c with
    | tok t => simp [omitKeep, isSynthetic]
    | packedEntry b v =>
        simp [omitKeep, isSynthetic, chunkOwner] at hne ⊢
        exact hne
    | sparseEntryKeyStart b =>
        simp [omitKeep, isSynthetic, chunkOwner] at hne ⊢
        exact hne
    | sparseEntryKeyEnd b =>
        simp [omitKeep, isSynthetic, chunkOwner] at hne ⊢
        exact hne
    | sparseEntryValueStart b =>
        simp [omitKeep, isSynthetic, chunkOwner] at hne ⊢
        exact hne
    | sparseEntryValueEnd b =>
        simp [omitKeep, isSynthetic, chunkOwner] at hne ⊢
        exact hne

theorem C7_foreign_synthetics_amended_witness :
    peTransform ⟨["x"], false, some 0, false⟩ (initPE ⟨["x"], false, some 0, false⟩)
      (.packedEntry ⟨"k", [], 0, some 1⟩ .jnull)
      = some ({ initPE ⟨["x"], false, some 0, false⟩ with
                  tracker := updateStack (initPE ⟨["x"], false, some 0, false⟩).tracker
                    (.packedEntry ⟨"k", [], 0, some 1⟩ .jnull) },
              [.packedEntry ⟨"k", [], 0, some 1⟩ .jnull]) ∧
    omitKeep (some 0) (.packedEntry ⟨"k", [], 0, some 1⟩ .jnull) = true :=
  C7_foreign_synthetics_amended ⟨["x"], false, some 0, false⟩ _ _ (some 0)
    rfl rfl (by simp [chunkOwner])

end MsftTodo

namespace MsftTodo

/-! ## Counterexamples for claims C2, C4, C5 -/

/-- The keys of the packed entry tokens in an output chunk list. -/
def packedEntryKeys (out : List Chunk) : List String :=
  out.filterMap fun c => match c with
    | .packedEntry b _ => some b.key
    | _ => none

/-- The all-packed flag configuration. -/
def fPacked : Flags := ⟨.packedOnly, .packedOnly, .packedOnly⟩

/-- The tokens of `{"a":{"b":1}}`, all packed. -/
def nestedToks : List JsonToken :=
  [⟨.startObject, ""⟩, ⟨.keyValue, "a"⟩, ⟨.startObject, ""⟩,
   ⟨.keyValue, "b"⟩, ⟨.numberValue, "1"⟩, ⟨.endObject, ""⟩, ⟨.endObject, ""⟩]

theorem nestedToks_valid :
    ValueTokens fPacked
      (.jobj [("a", .jobj [("b", .jnum "1")])]) nestedToks :=
  ⟨[⟨.keyValue, "a"⟩, ⟨.startObject, ""⟩, ⟨.keyValue, "b"⟩,
    ⟨.numberValue, "1"⟩, ⟨.endObject, ""⟩],
   ⟨[⟨.keyValue, "a"⟩],
    [⟨.startObject, ""⟩, ⟨.keyValue, "b"⟩, ⟨.numberValue, "1"⟩,
     ⟨.endObject, ""⟩], [],
    rfl,
    ⟨[⟨.keyValue, "b"⟩, ⟨.numberValue, "1"⟩],
     ⟨[⟨.keyValue, "b"⟩], [⟨.numberValue, "1"⟩], [], rfl, rfl, rfl, rfl⟩,
     rfl⟩,
    rfl, rfl⟩,
   rfl⟩

/-- Claim C2 as written is false: in `{"a":{"b":1}}` with filters
`["a", "a.b"]`, the entry at path `a.b` matches a configured filter, yet the
machine — busy packing the enclosing matched entry `a` — emits no
`packedEntry` token for it at all: the only packed entry in the output is
the one for `a`. -/
theorem C2_counterexample :
    ValueTokens fPacked (.jobj [("a", .jobj [("b", .jnum "1")])]) nestedToks ∧
    "a.b" ∈ (⟨["a", "a.b"], false, some 0, false⟩ : PEConfig).keys ∧
    (peRun ⟨["a", "a.b"], false, some 0, false⟩
        (initPE ⟨["a", "a.b"], false, some 0, false⟩)
        (nestedToks.map .tok)).map (fun r => packedEntryKeys r.2)
      = some ["a"] :=
  ⟨nestedToks_valid, by decide, rfl⟩

/-- Claim C4 as written is false: omitting key `"a"` from `{"a":{"b":1}}`
also removes the nested entry `"b": 1` (key path `a.b`), which matches no
configured key, leaving `{}` — so not every token of a non-matching entry
survives. -/
theorem C4_counterexample :
    ValueTokens fPacked (.jobj [("a", .jobj [("b", .jnum "1")])]) nestedToks ∧
    "a.b" ∉ (["a"] : List String) ∧
    omitEntryRun ["a"] (some 0) (nestedToks.map .tok)
      = some [.tok ⟨.startObject, ""⟩, .tok ⟨.endObject, ""⟩] :=
  ⟨nestedToks_valid, by decide, rfl⟩

/-- The tokens of `{"":{}}`, all packed. -/
def emptyKeyToks : List JsonToken :=
  [⟨.startObject, ""⟩, ⟨.keyValue, ""⟩, ⟨.startObject, ""⟩,
   ⟨.endObject, ""⟩, ⟨.endObject, ""⟩]

/-- What `injectEntry` actually produces on `{"":{}}`. -/
def emptyKeyOutToks : List JsonToken :=
  [⟨.startObject, ""⟩, ⟨.keyValue, ""⟩, ⟨.startObject, ""⟩,
   ⟨.startKey, ""⟩, ⟨.stringChunk, "children"⟩, ⟨.endKey, ""⟩,
   ⟨.keyValue, "children"⟩, ⟨.nullValue, ""⟩,
   ⟨.endObject, ""⟩, ⟨.endObject, ""⟩]

/-- Claim C5 as written is false: on the root object `{"":{}}` (which the
undefined injection point matches), `injectEntry` injects the new entry into
the *inner* object — `waitingForTheEndStack.toString() ===
stack.toString()` cannot tell the stack `[""]` from `[]` — so the root
object ends with *zero* top-level entries carrying the injected key. -/
theorem C5_counterexample :
    ValueTokens fPacked (.jobj [("", .jobj [])]) emptyKeyToks ∧
    injectEntryRun true "children" [⟨.nullValue, ""⟩] (some 0)
        (emptyKeyToks.map .tok)
      = some (emptyKeyOutToks.map .tok) ∧
    (consumeAll (initFA false) emptyKeyOutToks).current
      = some (.jobj [("", .jobj [("children", .jnull)])]) ∧
    "children" ∉
      ([("", JVal.jobj [("children", JVal.jnull)])].map Prod.fst) := by
  refine ⟨?_, rfl, rfl, by decide⟩
  exact ⟨[⟨.keyValue, ""⟩, ⟨.startObject, ""⟩, ⟨.endObject, ""⟩],
    ⟨[⟨.keyValue, ""⟩], [⟨.startObject, ""⟩, ⟨.endObject, ""⟩], [],
     rfl, ⟨[], rfl, rfl⟩, rfl, rfl⟩, rfl⟩

end MsftTodo

namespace MsftTodo

/-! ## Machine run algebra -/

/-- The key-buffer flush shape (`releaseKeyTokenBuffer` content in
`finalizing-key`, after the optional discard and sparse bracketing). -/
def keyFlush (cfg : PEConfig) (base : EntryBase) (buf : List Chunk) :
    List Chunk :=
  if cfg.sparseMode then
    .sparseEntryKeyStart base ::
      (if cfg.discardComponentTokens then [] else buf)
      ++ [.sparseEntryKeyEnd base]
  else if cfg.discardComponentTokens then [] else buf

theorem finalKeyToks_not_keyValue (cfg : PEConfig) (s : PEState) (c : Chunk)
    (hc : isKeyValueChunk c = false) :
    finalKeyToks cfg s c = keyFlush cfg s.entryTokenBase s.keyTokenBuffer := by
  simp [finalKeyToks, keyFlush, hc]

theorem peRun_append (cfg : PEConfig) (s : PEState) (a b : List Chunk) :
    peRun cfg s (a ++ b)
      = match peRun cfg s a with
        | none => none
        | some (s1, o1) =>
            match peRun cfg s1 b with
            | none => none
            | some (s2, o2) => some (s2, o1 ++ o2) := by
  induction a generalizing s with
  | nil =>
      simp only [List.nil_append, peRun]
      cases peRun cfg s b with
      | none => rfl
      | some r => rfl
  | cons c a ih =>
      simp only [List.cons_append, peRun]
      cases peTransform cfg s c with
      | none => rfl
      | some r =>
          obtain ⟨s1, o1⟩ := r
          simp only [List.append_eq]
          rw [ih s1]
          cases peRun cfg s1 a with
          | none => rfl
          | some r2 =>
              obtain ⟨s2, o2⟩ := r2
              simp only []
              cases peRun cfg s2 b with
              | none => rfl
              | some r3 => simp

/-- Idle pass-through of a non-key chunk. -/
theorem peIdle_pass (cfg : PEConfig) (s : PEState) (c : Chunk)
    (hps : s.packingState = .idle) (hk : isKeyChunk c = false) :
    peTransform cfg s c
      = some ({ s with tracker := updateStack s.tracker c }, [c]) := by
  simp [peTransform, peDispatch, peDispatchBase, hps, hk]

/-- A pending `finalizing-value` flush: on a chunk that is not a
`numberValue`/`stringValue`, the end-of-entry token is pushed and the chunk
reruns from the idle state. -/
theorem peRun_finalizingValue (cfg : PEConfig) (s : PEState) (c : Chunk)
    (cs : List Chunk) (hps : s.packingState = .finalizingValue)
    (hc : isOurValueChunk c = false) :
    peRun cfg s (c :: cs)
      = match peRun cfg { s with packingState := .idle } (c :: cs) with
        | none => none
        | some (s2, o2) => some (s2, finalValueTok cfg s :: o2) := by
  have e1 : peTransform cfg { s with packingState := .idle } c
      = peDispatchBase cfg { s with
          packingState := .idle,
          tracker := updateStack s.tracker c } c := by
    simp [peTransform, peDispatch]
  have e2 : peTransform cfg s c
      = match peDispatchBase cfg { s with
            packingState := .idle,
            tracker := updateStack s.tracker c } c with
        | none => none
        | some (s2, o2) => some (s2, finalValueTok cfg s :: o2) := by
    simp [peTransform, peDispatch, hps, hc, finalValueTok]
  have hdisp : peTransform cfg s c
      = match peTransform cfg { s with packingState := .idle } c with
        | none => none
        | some (s2, o2) => some (s2, finalValueTok cfg s :: o2) := by
    rw [e2, e1]
  simp only [peRun, hdisp]
  cases peTransform cfg { s with packingState := .idle } c with
  | none => rfl
  | some r =>
      obtain ⟨s2, o2⟩ := r
      simp only []
      cases peRun cfg s2 cs with
      | none => rfl
      | some r2 =>
          obtain ⟨s3, o3⟩ := r2
          simp

/-- A pending `finalizing-key` flush: on a chunk that is not a `keyValue`,
the bracketed key buffer is pushed and the chunk reruns from the
`packing-value` state. -/
theorem peRun_finalizingKey (cfg : PEConfig) (s : PEState) (c : Chunk)
    (cs : List Chunk) (hps : s.packingState = .finalizingKey)
    (hc : isKeyValueChunk c = false) :
    peRun cfg s (c :: cs)
      = match peRun cfg { s with
            keyTokenBuffer := [],
            sawFirstValueChunk := false,
            packingState := .packingValue } (c :: cs) with
        | none => none
        | some (s2, o2) =>
            some (s2, keyFlush cfg s.entryTokenBase s.keyTokenBuffer ++ o2) := by
  have e1 : peTransform cfg { s with
        keyTokenBuffer := [],
        sawFirstValueChunk := false, packingState := .packingValue } c
      = peDispatchBase cfg { s with
          keyTokenBuffer := [],
          sawFirstValueChunk := false, packingState := .packingValue,
          tracker := updateStack s.tracker c } c := by
    simp [peTransform, peDispatch]
  have e2 : peTransform cfg s c
      = match peDispatchBase cfg { s with
            keyTokenBuffer := [],
            sawFirstValueChunk := false, packingState := .packingValue,
            tracker := updateStack s.tracker c } c with
        | none => none
        | some (s2, o2) =>
            some (s2, keyFlush cfg s.entryTokenBase s.keyTokenBuffer ++ o2) := by
    simp [peTransform, peDispatch, hps, hc, finalKeyToks, keyFlush]
  have hdisp : peTransform cfg s c
      = match peTransform cfg { s with
            keyTokenBuffer := [],
            sawFirstValueChunk := false,
            packingState := .packingValue } c with
        | none => none
        | some (s2, o2) =>
            some (s2, keyFlush cfg s.entryTokenBase s.keyTokenBuffer ++ o2) := by
    rw [e2, e1]
  simp only [peRun, hdisp]
  cases peTransform cfg { s with
      keyTokenBuffer := [],
      sawFirstValueChunk := false, packingState := .packingValue } c with
  | none => rfl
  | some r =>
      obtain ⟨s2, o2⟩ := r
      simp only []
      cases peRun cfg s2 cs with
      | none => rfl
      | some r2 =>
          obtain ⟨s3, o3⟩ := r2
          simp

end MsftTodo

namespace MsftTodo

/-- Feeding value tokens in the `packing-value` state: each token is
consumed by the assembler and (unless discarding) forwarded; the sparse
value-start marker is emitted with the first chunk; the machine leaves
`packing-value` exactly when the assembler reports `done`. -/
theorem peRun_cons_some (cfg : PEConfig) (s : PEState) (c : Chunk)
    (cs : List Chunk) (s2 : PEState) (out : List Chunk)
    (h : peTransform cfg s c = some (s2, out)) :
    peRun cfg s (c :: cs)
      = match peRun cfg s2 cs with
        | none => none
        | some (s3, out2) => some (s3, out ++ out2) := by
  simp only [peRun, h]

theorem peValueSteps (cfg : PEConfig) (s : PEState) (toks : List JsonToken)
    (hps : s.packingState = .packingValue) (hne : toks ≠ [])
    (hpre : ∀ p, p <+: toks → p ≠ [] → p ≠ toks →
      (consumeAll s.asm p).done = false) :
    peRun cfg s (toks.map .tok)
      = some ({ s with
            asm := consumeAll s.asm toks,
            tracker := List.foldl updateStack s.tracker (toks.map .tok),
            sawFirstValueChunk := true,
            packingState :=
              if (consumeAll s.asm toks).done then .finalizingValue
              else .packingValue },
          (if cfg.sparseMode && !s.sawFirstValueChunk then
            [.sparseEntryValueStart s.entryTokenBase] else [])
          ++ (if cfg.discardComponentTokens then []
              else toks.map .tok)) := by
  induction toks generalizing s with
  | nil => exact absurd rfl hne
  | cons t rest ih =>
      have hstep : peTransform cfg s (.tok t)
          = some ({ s with
                asm := s.asm.consume t,
                tracker := updateStack s.tracker (.tok t),
                sawFirstValueChunk := true,
                packingState :=
                  if (s.asm.consume t).done then .finalizingValue
                  else .packingValue },
              (if cfg.sparseMode && !s.sawFirstValueChunk then
                [.sparseEntryValueStart s.entryTokenBase] else [])
              ++ (if cfg.discardComponentTokens then [] else [.tok t])) := by
        simp [peTransform, peDispatch, peDispatchBase, hps, typeSafeConsume]
      rcases rest with _ | ⟨t2, rest2⟩
      · simp only [List.map_cons, List.map_nil, peRun, hstep]
        simp [consumeAll]
      · have hd1 : (s.asm.consume t).done = false := by
          have := hpre [t] ⟨(t2 :: rest2), rfl⟩ (by simp) (by simp)
          simpa [consumeAll] using this
        have hstep2 : peTransform cfg s (.tok t)
            = some ({ s with
                  asm := s.asm.consume t,
                  tracker := updateStack s.tracker (.tok t),
                  sawFirstValueChunk := true,
                  packingState := .packingValue },
                (if cfg.sparseMode && !s.sawFirstValueChunk then
                  [.sparseEntryValueStart s.entryTokenBase] else [])
                ++ (if cfg.discardComponentTokens then [] else [.tok t])) := by
          rw [hstep, hd1]
          simp
        have ih2 := ih ({ s with
            asm := s.asm.consume t,
            tracker := updateStack s.tracker (.tok t),
            sawFirstValueChunk := true,
            packingState := .packingValue }) rfl (by simp)
          (by
            intro p hp hp0 hpt
            have := hpre (t :: p) (List.cons_prefix_cons.mpr ⟨rfl, hp⟩)
              (by simp) (by simpa using hpt)
            simpa [consumeAll] using this)
        simp only [List.map_cons] at ih2
        simp only [List.map_cons]
        rw [peRun_cons_some cfg s _ _ _ _ hstep2, ih2]
        simp [consumeAll, List.append_assoc]
        split <;> simp
  
end MsftTodo

namespace MsftTodo

/-! ## Tracker evolution over value and key token runs -/

theorem incr_keyBuffer (t : TrackerState) :
    (incrementIfHeadIsArray t).keyBuffer = t.keyBuffer := by
  unfold incrementIfHeadIsArray
  split <;> rfl

theorem incr_prev (t : TrackerState) :
    (incrementIfHeadIsArray t).previousToken = t.previousToken := by
  unfold incrementIfHeadIsArray
  split <;> rfl

theorem incr_stack_key (t : TrackerState) (k : String)
    (rest : List StackElem) (hst : t.stack = .key k :: rest) :
    (incrementIfHeadIsArray t).stack = t.stack := by
  unfold incrementIfHeadIsArray
  rw [hst]
  exact hst

theorem incr_stack_idx (t : TrackerState) (n : Int) (rest : List StackElem)
    (hst : t.stack = .idx n :: rest) :
    (incrementIfHeadIsArray t).stack = .idx (n + 1) :: rest := by
  unfold incrementIfHeadIsArray
  rw [hst]

/-- The tracker's previous token is safe ahead of a value: when a category
is packed-only (a value can begin with its bare packed token), the previous
token is not that category's streamed terminator, so the array-index
increment is not wrongly skipped. -/
def PrevTrackSafe (f : Flags) (t : TrackerState) : Prop :=
  (f.strings = .packedOnly → prevTokName t ≠ some .endString) ∧
  (f.numbers = .packedOnly → prevTokName t ≠ some .endNumber)

theorem prevTrackSafe_of_prev (f : Flags) (t : TrackerState)
    (n : TokName) (v : String)
    (h : t.previousToken = some (.tok ⟨n, v⟩))
    (hs : n ≠ .endString) (hn : n ≠ .endNumber) :
    PrevTrackSafe f t := by
  constructor <;> intro _ hcon <;> simp [prevTokName, h] at hcon
  · exact hs hcon
  · exact hn hcon

/-- Chunk runs with no key buffer only touch `previousToken`. -/
theorem track_chunks_nokb (cs : List String) (t : TrackerState)
    (hkb : t.keyBuffer = none) :
    (List.foldl updateStack t ((chunkToks cs).map .tok)).stack = t.stack ∧
    (List.foldl updateStack t ((chunkToks cs).map .tok)).keyBuffer = none ∧
    ((List.foldl updateStack t ((chunkToks cs).map .tok)).previousToken
        = t.previousToken ∨
      ∃ c, (List.foldl updateStack t ((chunkToks cs).map .tok)).previousToken
        = some (.tok ⟨.stringChunk, c⟩)) := by
  induction cs generalizing t with
  | nil => exact ⟨rfl, hkb, Or.inl rfl⟩
  | cons c cs ih =>
      have hstep : updateStack t (.tok ⟨.stringChunk, c⟩)
          = { t with previousToken := some (.tok ⟨.stringChunk, c⟩) } := by
        simp [updateStack, updateStackStructure, updateStackIncrement, hkb]
      have hgoal : (chunkToks (c :: cs)).map Chunk.tok
          = Chunk.tok ⟨.stringChunk, c⟩ :: (chunkToks cs).map Chunk.tok := rfl
      rw [hgoal, List.foldl_cons, hstep]
      obtain ⟨h1, h2, h3⟩ := ih { t with
        previousToken := some (.tok ⟨.stringChunk, c⟩) } hkb
      refine ⟨h1, h2, ?_⟩
      rcases h3 with h3 | ⟨c2, h3⟩
      · exact Or.inr ⟨c, h3⟩
      · exact Or.inr ⟨c2, h3⟩

/-- Chunk runs with a live key buffer append to it. -/
theorem track_chunks_kb (cs : List String) (t : TrackerState) (b : String)
    (hkb : t.keyBuffer = some b) :
    (List.foldl updateStack t ((chunkToks cs).map .tok)).stack = t.stack ∧
    (List.foldl updateStack t ((chunkToks cs).map .tok)).keyBuffer
      = some (b ++ String.join cs) := by
  induction cs generalizing t b with
  | nil =>
      refine ⟨rfl, ?_⟩
      show t.keyBuffer = some (b ++ String.join [])
      rw [hkb]
      simp [String.join]
  | cons c cs ih =>
      have hstep : updateStack t (.tok ⟨.stringChunk, c⟩)
          = { t with
                keyBuffer := some (b ++ c),
                previousToken := some (.tok ⟨.stringChunk, c⟩) } := by
        simp [updateStack, updateStackStructure, updateStackIncrement, hkb]
      have hgoal : (chunkToks (c :: cs)).map Chunk.tok
          = Chunk.tok ⟨.stringChunk, c⟩ :: (chunkToks cs).map Chunk.tok := rfl
      rw [hgoal, List.foldl_cons, hstep]
      obtain ⟨h1, h2⟩ := ih { t with
        keyBuffer := some (b ++ c),
        previousToken := some (.tok ⟨.stringChunk, c⟩) } (b ++ c) rfl
      refine ⟨h1, ?_⟩
      rw [h2, strJoin_cons, String.append_assoc]

/-- Tracker evolution over a streamed key run
`startKey :: chunks ++ [endKey]`. -/
theorem trackKeyStreamed (f : Flags) (k : String) (cs : List String)
    (t : TrackerState) (hcs : String.join cs = k) (hkb : t.keyBuffer = none)
    (h0 : StackElem) (rest : List StackElem) (hst : t.stack = h0 :: rest) :
    (List.foldl updateStack t
        (((⟨.startKey, ""⟩ : JsonToken) ::
          (chunkToks cs ++ [⟨.endKey, ""⟩])).map .tok)).stack
      = .key k :: rest ∧
    (List.foldl updateStack t
        (((⟨.startKey, ""⟩ : JsonToken) ::
          (chunkToks cs ++ [⟨.endKey, ""⟩])).map .tok)).keyBuffer = none ∧
    PrevTrackSafe f (List.foldl updateStack t
        (((⟨.startKey, ""⟩ : JsonToken) ::
          (chunkToks cs ++ [⟨.endKey, ""⟩])).map .tok)) := by
  have hstep : updateStack t (.tok ⟨.startKey, ""⟩)
      = { t with
            keyBuffer := some "",
            previousToken := some (.tok ⟨.startKey, ""⟩) } := by
    simp [updateStack, updateStackStructure, updateStackIncrement]
  simp only [List.map_cons, List.map_append, List.map_nil,
    List.foldl_cons, List.foldl_append, List.foldl_nil]
  rw [hstep]
  obtain ⟨h1, h2⟩ := track_chunks_kb cs
    { t with
      keyBuffer := some "",
      previousToken := some (.tok ⟨.startKey, ""⟩) } "" rfl
  set t2 := List.foldl updateStack { t with
    keyBuffer := some "",
    previousToken := some (.tok ⟨.startKey, ""⟩) } ((chunkToks cs).map .tok)
  have hstep2 : updateStack t2 (.tok ⟨.endKey, ""⟩)
      = { setHead t2 (.key ("" ++ String.join cs)) with
            keyBuffer := none,
            previousToken := some (.tok ⟨.endKey, ""⟩) } := by
    simp [updateStack, updateStackStructure, updateStackIncrement, h2]
  rw [hstep2]
  refine ⟨?_, rfl, ?_⟩
  · have : t2.stack = h0 :: rest := by rw [h1, hst]
    simp [setHead, this, hcs]
  · exact prevTrackSafe_of_prev f _ .endKey "" rfl (by simp) (by simp)

/-- Tracker evolution over a key's tokens: the head is replaced by the key;
the key buffer ends empty; the previous token is a key token (safe). -/
theorem trackKey (f : Flags) (m : TokMode) (k : String) (kts : List JsonToken)
    (t : TrackerState) (h : KeyTokens m k kts) (hkb : t.keyBuffer = none)
    (h0 : StackElem) (rest : List StackElem) (hst : t.stack = h0 :: rest) :
    (List.foldl updateStack t (kts.map .tok)).stack = .key k :: rest ∧
    (List.foldl updateStack t (kts.map .tok)).keyBuffer = none ∧
    PrevTrackSafe f (List.foldl updateStack t (kts.map .tok)) := by
  cases m with
  | packedOnly =>
      simp only [KeyTokens] at h
      subst h
      have hstep : updateStack t (.tok ⟨.keyValue, k⟩)
          = { setHead t (.key k) with
                previousToken := some (.tok ⟨.keyValue, k⟩) } := by
        simp [updateStack, updateStackStructure, updateStackIncrement]
      simp only [List.map_cons, List.map_nil, List.foldl_cons, List.foldl_nil]
      rw [hstep]
      refine ⟨?_, ?_, ?_⟩
      · simp [setHead, hst]
      · simp [setHead, hst, hkb]
      · exact prevTrackSafe_of_prev f _ .keyValue k rfl (by simp) (by simp)
  | streamedOnly =>
      simp only [KeyTokens] at h
      obtain ⟨cs, hcs, rfl⟩ := h
      exact trackKeyStreamed f k cs t hcs hkb h0 rest hst
  | both =>
      simp only [KeyTokens] at h
      obtain ⟨cs, hcs, rfl⟩ := h
      have hsplit : (⟨.startKey, ""⟩ : JsonToken) ::
            (chunkToks cs ++ [⟨.endKey, ""⟩, ⟨.keyValue, k⟩])
          = ((⟨.startKey, ""⟩ : JsonToken) ::
              (chunkToks cs ++ [⟨.endKey, ""⟩])) ++ [⟨.keyValue, k⟩] := by
        simp
      rw [hsplit]
      simp only [List.map_append, List.foldl_append]
      obtain ⟨g1, g2, _⟩ := trackKeyStreamed f k cs t hcs hkb h0 rest hst
      set t3 := List.foldl updateStack t
        (((⟨.startKey, ""⟩ : JsonToken) ::
          (chunkToks cs ++ [⟨.endKey, ""⟩])).map .tok)
      simp only [List.map_cons, List.map_nil, List.foldl_cons, List.foldl_nil]
      have hstep : updateStack t3 (.tok ⟨.keyValue, k⟩)
          = { setHead t3 (.key k) with
                previousToken := some (.tok ⟨.keyValue, k⟩) } := by
        simp [updateStack, updateStackStructure, updateStackIncrement]
      rw [hstep]
      refine ⟨?_, ?_, ?_⟩
      · simp [setHead, g1]
      · simp [setHead, g1, g2]
      · exact prevTrackSafe_of_prev f _ .keyValue k rfl (by simp) (by simp)

end MsftTodo

namespace MsftTodo

/-- Streamed-string tracker run (`startString :: chunks ++ [endString]`):
only `previousToken` changes (to `endString`). -/
theorem trackStrStreamed (cs : List String) (t : TrackerState)
    (hkb : t.keyBuffer = none) :
    (List.foldl updateStack t
        (((⟨.startString, ""⟩ : JsonToken) ::
          (chunkToks cs ++ [⟨.endString, ""⟩])).map .tok)).stack
      = (incrementIfHeadIsArray t).stack ∧
    (List.foldl updateStack t
        (((⟨.startString, ""⟩ : JsonToken) ::
          (chunkToks cs ++ [⟨.endString, ""⟩])).map .tok)).keyBuffer = none ∧
    (List.foldl updateStack t
        (((⟨.startString, ""⟩ : JsonToken) ::
          (chunkToks cs ++ [⟨.endString, ""⟩])).map .tok)).previousToken
      = some (.tok ⟨.endString, ""⟩) := by
  have hstep : updateStack t (.tok ⟨.startString, ""⟩)
      = { incrementIfHeadIsArray t with
            previousToken := some (.tok ⟨.startString, ""⟩) } := by
    simp [updateStack, updateStackStructure, updateStackIncrement]
  simp only [List.map_cons, List.map_append, List.map_nil,
    List.foldl_cons, List.foldl_append, List.foldl_nil]
  rw [hstep]
  obtain ⟨h1, h2, _⟩ := track_chunks_nokb cs
    { incrementIfHeadIsArray t with
      previousToken := some (.tok ⟨.startString, ""⟩) }
    (by simp [incr_keyBuffer, hkb])
  set t2 := List.foldl updateStack { incrementIfHeadIsArray t with
    previousToken := some (.tok ⟨.startString, ""⟩) } ((chunkToks cs).map .tok)
  have hstep2 : updateStack t2 (.tok ⟨.endString, ""⟩)
      = { t2 with previousToken := some (.tok ⟨.endString, ""⟩) } := by
    simp [updateStack, updateStackStructure, updateStackIncrement, h2]
  rw [hstep2]
  exact ⟨h1, h2, rfl⟩

/-- Streamed-number tracker run, likewise. -/
theorem trackNumStreamed (cs : List String) (t : TrackerState)
    (hkb : t.keyBuffer = none) :
    (List.foldl updateStack t
        (((⟨.startNumber, ""⟩ : JsonToken) ::
          (numChunkToks cs ++ [⟨.endNumber, ""⟩])).map .tok)).stack
      = (incrementIfHeadIsArray t).stack ∧
    (List.foldl updateStack t
        (((⟨.startNumber, ""⟩ : JsonToken) ::
          (numChunkToks cs ++ [⟨.endNumber, ""⟩])).map .tok)).keyBuffer
      = none ∧
    (List.foldl updateStack t
        (((⟨.startNumber, ""⟩ : JsonToken) ::
          (numChunkToks cs ++ [⟨.endNumber, ""⟩])).map .tok)).previousToken
      = some (.tok ⟨.endNumber, ""⟩) := by
  have hstep : updateStack t (.tok ⟨.startNumber, ""⟩)
      = { incrementIfHeadIsArray t with
            previousToken := some (.tok ⟨.startNumber, ""⟩) } := by
    simp [updateStack, updateStackStructure, updateStackIncrement]
  simp only [List.map_cons, List.map_append, List.map_nil,
    List.foldl_cons, List.foldl_append, List.foldl_nil]
  rw [hstep]
  have hchunks : ∀ (cs2 : List String) (t3 : TrackerState),
      t3.keyBuffer = none →
      (List.foldl updateStack t3 ((numChunkToks cs2).map .tok)).stack
          = t3.stack ∧
      (List.foldl updateStack t3 ((numChunkToks cs2).map .tok)).keyBuffer
          = none := by
    intro cs2
    induction cs2 with
    | nil => exact fun t3 h3 => ⟨rfl, h3⟩
    | cons c cs2 ih =>
        intro t3 h3
        have hs : updateStack t3 (.tok ⟨.numberChunk, c⟩)
            = { t3 with previousToken := some (.tok ⟨.numberChunk, c⟩) } := by
          simp [updateStack, updateStackStructure, updateStackIncrement]
        have hg : (numChunkToks (c :: cs2)).map Chunk.tok
            = Chunk.tok ⟨.numberChunk, c⟩ :: (numChunkToks cs2).map Chunk.tok :=
          rfl
        rw [hg, List.foldl_cons, hs]
        exact ih _ h3
  obtain ⟨h1, h2⟩ := hchunks cs
    { incrementIfHeadIsArray t with
      previousToken := some (.tok ⟨.startNumber, ""⟩) }
    (by simp [incr_keyBuffer, hkb])
  set t2 := List.foldl updateStack { incrementIfHeadIsArray t with
    previousToken := some (.tok ⟨.startNumber, ""⟩) }
    ((numChunkToks cs).map .tok)
  have hstep2 : updateStack t2 (.tok ⟨.endNumber, ""⟩)
      = { t2 with previousToken := some (.tok ⟨.endNumber, ""⟩) } := by
    simp [updateStack, updateStackStructure, updateStackIncrement, h2]
  rw [hstep2]
  exact ⟨h1, h2, rfl⟩

end MsftTodo

namespace MsftTodo

mutual

/-- Tracker evolution over one value's tokens: the array-index head (if
any) is incremented once, the key buffer stays empty, and the previous
token stays safe. -/
theorem trackV (f : Flags) (V : JVal) (ts : List JsonToken)
    (t : TrackerState) (h : ValueTokens f V ts) (hkb : t.keyBuffer = none)
    (hsafe : PrevTrackSafe f t) :
    (List.foldl updateStack t (ts.map .tok)).stack
      = (incrementIfHeadIsArray t).stack ∧
    (List.foldl updateStack t (ts.map .tok)).keyBuffer = none ∧
    PrevTrackSafe f (List.foldl updateStack t (ts.map .tok)) := by
  cases V with
  | jnull =>
      simp only [ValueTokens] at h
      subst h
      have hstep : updateStack t (.tok ⟨.nullValue, ""⟩)
          = { incrementIfHeadIsArray t with
                previousToken := some (.tok ⟨.nullValue, ""⟩) } := by
        simp [updateStack, updateStackStructure, updateStackIncrement]
      simp only [List.map_cons, List.map_nil, List.foldl_cons, List.foldl_nil]
      rw [hstep]
      exact ⟨rfl, by simp [incr_keyBuffer, hkb],
        prevTrackSafe_of_prev f _ .nullValue "" rfl (by simp) (by simp)⟩
  | jbool b =>
      cases b with
      | true =>
          simp only [ValueTokens] at h
          subst h
          have hstep : updateStack t (.tok ⟨.trueValue, ""⟩)
              = { incrementIfHeadIsArray t with
                    previousToken := some (.tok ⟨.trueValue, ""⟩) } := by
            simp [updateStack, updateStackStructure, updateStackIncrement]
          simp only [List.map_cons, List.map_nil, List.foldl_cons,
            List.foldl_nil]
          rw [hstep]
          exact ⟨rfl, by simp [incr_keyBuffer, hkb],
            prevTrackSafe_of_prev f _ .trueValue "" rfl (by simp) (by simp)⟩
      | false =>
          simp only [ValueTokens] at h
          subst h
          have hstep : updateStack t (.tok ⟨.falseValue, ""⟩)
              = { incrementIfHeadIsArray t with
                    previousToken := some (.tok ⟨.falseValue, ""⟩) } := by
            simp [updateStack, updateStackStructure, updateStackIncrement]
          simp only [List.map_cons, List.map_nil, List.foldl_cons,
            List.foldl_nil]
          rw [hstep]
          exact ⟨rfl, by simp [incr_keyBuffer, hkb],
            prevTrackSafe_of_prev f _ .falseValue "" rfl (by simp) (by simp)⟩
  | jstr v =>
      simp only [ValueTokens] at h
      rcases hm : f.strings with _ | _ | _ <;> rw [hm] at h <;>
        simp only [StrTokens] at h
      case streamedOnly =>
        obtain ⟨cs, hcs, rfl⟩ := h
        obtain ⟨h1, h2, h3⟩ := trackStrStreamed cs t hkb
        refine ⟨h1, h2, ?_⟩
        have hsafe2 : PrevTrackSafe f (List.foldl updateStack t
            (((⟨.startString, ""⟩ : JsonToken) ::
              (chunkToks cs ++ [⟨.endString, ""⟩])).map .tok)) := by
          have hpv : prevTokName (List.foldl updateStack t
              (((⟨.startString, ""⟩ : JsonToken) ::
                (chunkToks cs ++ [⟨.endString, ""⟩])).map .tok))
              = some TokName.endString := by
            unfold prevTokName
            rw [h3]
          constructor
          · intro hp
            rw [hm] at hp
            cases hp
          · intro _
            rw [hpv]
            simp
        exact hsafe2
      case packedOnly =>
        subst h
        have hstep : updateStack t (.tok ⟨.stringValue, v⟩)
            = { incrementIfHeadIsArray t with
                  previousToken := some (.tok ⟨.stringValue, v⟩) } := by
          simp only [updateStack, updateStackStructure, updateStackIncrement]
          rw [if_neg (hsafe.1 hm)]
        simp only [List.map_cons, List.map_nil, List.foldl_cons,
          List.foldl_nil]
        rw [hstep]
        exact ⟨rfl, by simp [incr_keyBuffer, hkb],
          prevTrackSafe_of_prev f _ .stringValue v rfl (by simp) (by simp)⟩
      case both =>
        obtain ⟨cs, hcs, rfl⟩ := h
        have hsplit : (⟨.startString, ""⟩ : JsonToken) ::
              (chunkToks cs ++ [⟨.endString, ""⟩, ⟨.stringValue, v⟩])
            = ((⟨.startString, ""⟩ : JsonToken) ::
                (chunkToks cs ++ [⟨.endString, ""⟩])) ++ [⟨.stringValue, v⟩] := by
          simp
        rw [hsplit]
        simp only [List.map_append, List.foldl_append]
        obtain ⟨h1, h2, h3⟩ := trackStrStreamed cs t hkb
        set t2 := List.foldl updateStack t
          (((⟨.startString, ""⟩ : JsonToken) ::
            (chunkToks cs ++ [⟨.endString, ""⟩])).map .tok)
        have hstep : updateStack t2 (.tok ⟨.stringValue, v⟩)
            = { t2 with previousToken := some (.tok ⟨.stringValue, v⟩) } := by
          simp only [updateStack, updateStackStructure, updateStackIncrement]
          rw [if_pos (by simp [prevTokName, h3])]
        simp only [List.map_cons, List.map_nil, List.foldl_cons,
          List.foldl_nil]
        rw [hstep]
        exact ⟨h1, h2,
          prevTrackSafe_of_prev f _ .stringValue v rfl (by simp) (by simp)⟩
  | jnum v =>
      simp only [ValueTokens] at h
      rcases hm : f.numbers with _ | _ | _ <;> rw [hm] at h <;>
        simp only [NumTokens] at h
      case streamedOnly =>
        obtain ⟨cs, hcs, rfl⟩ := h
        obtain ⟨h1, h2, h3⟩ := trackNumStreamed cs t hkb
        refine ⟨h1, h2, ?_⟩
        have hsafe2 : PrevTrackSafe f (List.foldl updateStack t
            (((⟨.startNumber, ""⟩ : JsonToken) ::
              (numChunkToks cs ++ [⟨.endNumber, ""⟩])).map .tok)) := by
          have hpv : prevTokName (List.foldl updateStack t
              (((⟨.startNumber, ""⟩ : JsonToken) ::
                (numChunkToks cs ++ [⟨.endNumber, ""⟩])).map .tok))
              = some TokName.endNumber := by
            unfold prevTokName
            rw [h3]
          constructor
          · intro _
            rw [hpv]
            simp
          · intro hp
            rw [hm] at hp
            cases hp
        exact hsafe2
      case packedOnly =>
        subst h
        have hstep : updateStack t (.tok ⟨.numberValue, v⟩)
            = { incrementIfHeadIsArray t with
                  previousToken := some (.tok ⟨.numberValue, v⟩) } := by
          simp only [updateStack, updateStackStructure, updateStackIncrement]
          rw [if_neg (hsafe.2 hm)]
        simp only [List.map_cons, List.map_nil, List.foldl_cons,
          List.foldl_nil]
        rw [hstep]
        exact ⟨rfl, by simp [incr_keyBuffer, hkb],
          prevTrackSafe_of_prev f _ .numberValue v rfl (by simp) (by simp)⟩
      case both =>
        obtain ⟨cs, hcs, rfl⟩ := h
        have hsplit : (⟨.startNumber, ""⟩ : JsonToken) ::
              (numChunkToks cs ++ [⟨.endNumber, ""⟩, ⟨.numberValue, v⟩])
            = ((⟨.startNumber, ""⟩ : JsonToken) ::
                (numChunkToks cs ++ [⟨.endNumber, ""⟩])) ++ [⟨.numberValue, v⟩] := by
          simp
        rw [hsplit]
        simp only [List.map_append, List.foldl_append]
        obtain ⟨h1, h2, h3⟩ := trackNumStreamed cs t hkb
        set t2 := List.foldl updateStack t
          (((⟨.startNumber, ""⟩ : JsonToken) ::
            (numChunkToks cs ++ [⟨.endNumber, ""⟩])).map .tok)
        have hstep : updateStack t2 (.tok ⟨.numberValue, v⟩)
            = { t2 with previousToken := some (.tok ⟨.numberValue, v⟩) } := by
          simp only [updateStack, updateStackStructure, updateStackIncrement]
          rw [if_pos (by simp [prevTokName, h3])]
        simp only [List.map_cons, List.map_nil, List.foldl_cons,
          List.foldl_nil]
        rw [hstep]
        exact ⟨h1, h2,
          prevTrackSafe_of_prev f _ .numberValue v rfl (by simp) (by simp)⟩
  | jarr xs =>
      simp only [ValueTokens] at h
      obtain ⟨inner, hin, rfl⟩ := h
      have hstep : updateStack t (.tok ⟨.startArray, ""⟩)
          = { incrementIfHeadIsArray t with
                stack := .idx (-1) :: (incrementIfHeadIsArray t).stack,
                previousToken := some (.tok ⟨.startArray, ""⟩) } := by
        simp [updateStack, updateStackStructure, updateStackIncrement]
      simp only [List.map_cons, List.map_append, List.map_nil,
        List.foldl_cons, List.foldl_append, List.foldl_nil]
      rw [hstep]
      obtain ⟨h1, h2, h3⟩ := trackL f xs inner
        { incrementIfHeadIsArray t with
          stack := .idx (-1) :: (incrementIfHeadIsArray t).stack,
          previousToken := some (.tok ⟨.startArray, ""⟩) }
        (-1) (incrementIfHeadIsArray t).stack hin
        (by simp [incr_keyBuffer, hkb])
        (prevTrackSafe_of_prev f _ .startArray "" rfl (by simp) (by simp))
        rfl
      set t2 := List.foldl updateStack
        { incrementIfHeadIsArray t with
          stack := .idx (-1) :: (incrementIfHeadIsArray t).stack,
          previousToken := some (.tok ⟨.startArray, ""⟩) } (inner.map .tok)
      have hstep2 : updateStack t2 (.tok ⟨.endArray, ""⟩)
          = { t2 with
                stack := t2.stack.tail,
                previousToken := some (.tok ⟨.endArray, ""⟩) } := by
        simp [updateStack, updateStackStructure, updateStackIncrement]
      rw [hstep2]
      refine ⟨?_, h2, ?_⟩
      · simp [h1]
      · exact prevTrackSafe_of_prev f _ .endArray "" rfl (by simp) (by simp)
  | jobj es =>
      simp only [ValueTokens] at h
      obtain ⟨inner, hin, rfl⟩ := h
      have hstep : updateStack t (.tok ⟨.startObject, ""⟩)
          = { incrementIfHeadIsArray t with
                stack := .nul :: (incrementIfHeadIsArray t).stack,
                previousToken := some (.tok ⟨.startObject, ""⟩) } := by
        simp [updateStack, updateStackStructure, updateStackIncrement]
      simp only [List.map_cons, List.map_append, List.map_nil,
        List.foldl_cons, List.foldl_append, List.foldl_nil]
      rw [hstep]
      obtain ⟨⟨h1x, h1⟩, h2, h3⟩ := trackE f es inner
        { incrementIfHeadIsArray t with
          stack := .nul :: (incrementIfHeadIsArray t).stack,
          previousToken := some (.tok ⟨.startObject, ""⟩) }
        .nul (incrementIfHeadIsArray t).stack hin
        (by simp [incr_keyBuffer, hkb])
        (prevTrackSafe_of_prev f _ .startObject "" rfl (by simp) (by simp))
        rfl
      set t2 := List.foldl updateStack
        { incrementIfHeadIsArray t with
          stack := .nul :: (incrementIfHeadIsArray t).stack,
          previousToken := some (.tok ⟨.startObject, ""⟩) } (inner.map .tok)
      have hstep2 : updateStack t2 (.tok ⟨.endObject, ""⟩)
          = { t2 with
                stack := t2.stack.tail,
                previousToken := some (.tok ⟨.endObject, ""⟩) } := by
        simp [updateStack, updateStackStructure, updateStackIncrement]
      rw [hstep2]
      refine ⟨?_, h2, ?_⟩
      · simp [h1]
      · exact prevTrackSafe_of_prev f _ .endObject "" rfl (by simp) (by simp)

/-- Tracker evolution over consecutive array elements from an index head. -/
theorem trackL (f : Flags) (xs : List JVal) (ts : List JsonToken)
    (t : TrackerState) (n : Int) (rest : List StackElem)
    (h : ElemsTokens f xs ts) (hkb : t.keyBuffer = none)
    (hsafe : PrevTrackSafe f t) (hst : t.stack = .idx n :: rest) :
    (List.foldl updateStack t (ts.map .tok)).stack
      = .idx (n + xs.length) :: rest ∧
    (List.foldl updateStack t (ts.map .tok)).keyBuffer = none ∧
    PrevTrackSafe f (List.foldl updateStack t (ts.map .tok)) := by
  cases xs with
  | nil =>
      simp only [ElemsTokens] at h
      subst h
      simpa [hst] using ⟨hkb, hsafe⟩
  | cons x xs =>
      simp only [ElemsTokens] at h
      obtain ⟨ts1, ts2, hx, hxs, rfl⟩ := h
      simp only [List.map_append, List.foldl_append]
      obtain ⟨h1, h2, h3⟩ := trackV f x ts1 t hx hkb hsafe
      rw [incr_stack_idx t n rest hst] at h1
      obtain ⟨g1, g2, g3⟩ := trackL f xs ts2
        (List.foldl updateStack t (ts1.map .tok)) (n + 1) rest hxs h2 h3 h1
      refine ⟨?_, g2, g3⟩
      rw [g1]
      have : n + 1 + (xs.length : Int) = n + ((xs.length : Int) + 1) := by ring
      simp [this]

/-- Tracker evolution over consecutive object entries: the head slot is
overwritten by each key, the tail is untouched. -/
theorem trackE (f : Flags) (es : List (String × JVal)) (ts : List JsonToken)
    (t : TrackerState) (h0 : StackElem) (rest : List StackElem)
    (h : EntriesTokens f es ts) (hkb : t.keyBuffer = none)
    (hsafe : PrevTrackSafe f t) (hst : t.stack = h0 :: rest) :
    (∃ h1, (List.foldl updateStack t (ts.map .tok)).stack = h1 :: rest) ∧
    (List.foldl updateStack t (ts.map .tok)).keyBuffer = none ∧
    PrevTrackSafe f (List.foldl updateStack t (ts.map .tok)) := by
  cases es with
  | nil =>
      simp only [EntriesTokens] at h
      subst h
      exact ⟨⟨h0, hst⟩, hkb, hsafe⟩
  | cons e es =>
      obtain ⟨k, v⟩ := e
      simp only [EntriesTokens] at h
      obtain ⟨kts, vts, rest2, hk, hv, hes, rfl⟩ := h
      simp only [List.map_append, List.foldl_append]
      obtain ⟨h1, h2, h3⟩ := trackKey f f.keys k kts t hk hkb h0 rest hst
      obtain ⟨g1, g2, g3⟩ := trackV f v vts
        (List.foldl updateStack t (kts.map .tok)) hv h2 h3
      rw [incr_stack_key _ k rest h1, h1] at g1
      exact trackE f es rest2 _ (.key k) rest hes g2 g3 g1

end

end MsftTodo

namespace MsftTodo

/-! ## Root-value consumption from an arbitrary ready assembler state -/

/-- The trailing packed duplicate of a root streamed-and-packed primitive
(the token the machine's `finalizing-value` state handles without
consuming). -/
def dupTail (f : Flags) : JVal → List JsonToken
  | .jstr v => match f.strings with | .both => [⟨.stringValue, v⟩] | _ => []
  | .jnum v => match f.numbers with | .both => [⟨.numberValue, v⟩] | _ => []
  | _ => []

theorem dupTail_shape (f : Flags) (V : JVal) :
    dupTail f V = [] ∨
    ∃ nm vv, dupTail f V = [⟨nm, vv⟩] ∧
      (nm = TokName.stringValue ∨ nm = TokName.numberValue) := by
  cases V <;> simp [dupTail]
  case jstr v => cases f.strings <;> simp
  case jnum v => cases f.numbers <;> simp

/-- Streamed string consumption from a ready state (`startString`, chunks,
`endString`): assembles and root-saves the joined string. -/
theorem rootStrCore (cs : List String) (a : FAState)
    (hd : a.done = true) (hass : a.assembledString = "")
    (hsp : a.sparseMode = false) :
    consumeAll a ((⟨.startString, ""⟩ : JsonToken) ::
        (chunkToks cs ++ [⟨.endString, ""⟩]))
      = { a with
            current := some (.jstr (String.join cs)),
            done := true,
            previouslyAssembledStreamedToken := some .stringValue,
            assembledString := "", wasDone := true } ∧
    (∀ p, p <+: ((⟨.startString, ""⟩ : JsonToken) ::
        (chunkToks cs ++ [⟨.endString, ""⟩])) → p ≠ [] →
      p ≠ ((⟨.startString, ""⟩ : JsonToken) ::
        (chunkToks cs ++ [⟨.endString, ""⟩])) →
      (consumeAll a p).done = false) := by
  have h1 : a.consume ⟨.startString, ""⟩
      = { a with
            done := false, previouslyAssembledStreamedToken := none,
            wasDone := true } := by
    show { beginAssemblingToken a with
      previouslyAssembledStreamedToken := none } = _
    unfold beginAssemblingToken
    rw [hd]
  have h2 : consumeAll { a with
        done := false, previouslyAssembledStreamedToken := none,
        wasDone := true } (chunkToks cs)
      = { a with
            done := false, previouslyAssembledStreamedToken := none,
            wasDone := true, assembledString := String.join cs } := by
    rw [consume_chunkToks _ _ rfl]
    ext <;> simp [hass]
  have h3 : ({ a with
        done := false, previouslyAssembledStreamedToken := none,
        wasDone := true,
        assembledString := String.join cs } : FAState).consume ⟨.endString, ""⟩
      = { a with
            current := some (.jstr (String.join cs)),
            done := true,
            previouslyAssembledStreamedToken := some .stringValue,
            assembledString := "", wasDone := true } := by
    show finalizeAssembledToken _ .stringValue = _
    unfold finalizeAssembledToken wrappedPacked withPreviousTokenTracking
      skipIfPreviouslyAssembled packedDispatch superStringValue saveValue
      setCurrent
    ext <;> simp [hsp]
  constructor
  · show consumeAll (a.consume ⟨.startString, ""⟩)
        (chunkToks cs ++ [⟨.endString, ""⟩]) = _
    rw [h1, consumeAll_append, h2]
    show FAState.consume _ ⟨.endString, ""⟩ = _
    rw [h3]
  · intro p hp hp0 hpc
    rcases p with _ | ⟨x, p2⟩
    · exact absurd rfl hp0
    have hx : x = ⟨.startString, ""⟩ := (List.cons_prefix_cons.mp hp).1
    subst hx
    have hp2 : p2 <+: chunkToks cs ++ [⟨.endString, ""⟩] :=
      (List.cons_prefix_cons.mp hp).2
    show (consumeAll (a.consume ⟨.startString, ""⟩) p2).done = false
    rw [h1]
    rcases prefix_append_cases hp2 with hpc2 | ⟨p3, rfl, hp3⟩
    · obtain ⟨cs2, _, rfl⟩ := prefix_map _ hpc2
      show (consumeAll _ (chunkToks cs2)).done = false
      rw [consume_chunkToks cs2 _ rfl]
    · rcases List.prefix_cons_iff.mp hp3 with rfl | ⟨p4, rfl, hp4⟩
      · rw [consumeAll_append, consume_chunkToks cs _ rfl]
        rfl
      · exfalso
        rw [List.prefix_nil.mp hp4] at hpc
        exact hpc rfl

/-- Streamed number consumption from a ready state (`startString`, chunks,
`endString`): assembles and root-saves the joined string. -/
theorem rootNumCore (cs : List String) (a : FAState)
    (hd : a.done = true) (hass : a.assembledString = "")
    (hsp : a.sparseMode = false) :
    consumeAll a ((⟨.startNumber, ""⟩ : JsonToken) ::
        (numChunkToks cs ++ [⟨.endNumber, ""⟩]))
      = { a with
            current := some (.jnum (String.join cs)),
            done := true,
            previouslyAssembledStreamedToken := some .numberValue,
            assembledString := "", wasDone := true } ∧
    (∀ p, p <+: ((⟨.startNumber, ""⟩ : JsonToken) ::
        (numChunkToks cs ++ [⟨.endNumber, ""⟩])) → p ≠ [] →
      p ≠ ((⟨.startNumber, ""⟩ : JsonToken) ::
        (numChunkToks cs ++ [⟨.endNumber, ""⟩])) →
      (consumeAll a p).done = false) := by
  have h1 : a.consume ⟨.startNumber, ""⟩
      = { a with
            done := false, previouslyAssembledStreamedToken := none,
            wasDone := true } := by
    show { beginAssemblingToken a with
      previouslyAssembledStreamedToken := none } = _
    unfold beginAssemblingToken
    rw [hd]
  have h2 : consumeAll { a with
        done := false, previouslyAssembledStreamedToken := none,
        wasDone := true } (numChunkToks cs)
      = { a with
            done := false, previouslyAssembledStreamedToken := none,
            wasDone := true, assembledString := String.join cs } := by
    rw [consume_numChunkToks _ _ rfl]
    ext <;> simp [hass]
  have h3 : ({ a with
        done := false, previouslyAssembledStreamedToken := none,
        wasDone := true,
        assembledString := String.join cs } : FAState).consume ⟨.endNumber, ""⟩
      = { a with
            current := some (.jnum (String.join cs)),
            done := true,
            previouslyAssembledStreamedToken := some .numberValue,
            assembledString := "", wasDone := true } := by
    show finalizeAssembledToken _ .numberValue = _
    unfold finalizeAssembledToken wrappedPacked withPreviousTokenTracking
      skipIfPreviouslyAssembled packedDispatch superNumberValue saveValue
      setCurrent
    ext <;> simp [hsp]
  constructor
  · show consumeAll (a.consume ⟨.startNumber, ""⟩)
        (numChunkToks cs ++ [⟨.endNumber, ""⟩]) = _
    rw [h1, consumeAll_append, h2]
    show FAState.consume _ ⟨.endNumber, ""⟩ = _
    rw [h3]
  · intro p hp hp0 hpc
    rcases p with _ | ⟨x, p2⟩
    · exact absurd rfl hp0
    have hx : x = ⟨.startNumber, ""⟩ := (List.cons_prefix_cons.mp hp).1
    subst hx
    have hp2 : p2 <+: numChunkToks cs ++ [⟨.endNumber, ""⟩] :=
      (List.cons_prefix_cons.mp hp).2
    show (consumeAll (a.consume ⟨.startNumber, ""⟩) p2).done = false
    rw [h1]
    rcases prefix_append_cases hp2 with hpc2 | ⟨p3, rfl, hp3⟩
    · obtain ⟨cs2, _, rfl⟩ := prefix_map _ hpc2
      show (consumeAll _ (numChunkToks cs2)).done = false
      rw [consume_numChunkToks cs2 _ rfl]
    · rcases List.prefix_cons_iff.mp hp3 with rfl | ⟨p4, rfl, hp4⟩
      · rw [consumeAll_append, consume_numChunkToks cs _ rfl]
        rfl
      · exfalso
        rw [List.prefix_nil.mp hp4] at hpc
        exact hpc rfl

/-- Consuming a root value's tokens (less the trailing packed duplicate,
when there is one) from a ready assembler: the value lands in `current`,
`done` returns to true exactly at the last consumed token, and the
buffer/stack/marker invariants are restored. -/
theorem rootCore (f : Flags) (V : JVal) (vts : List JsonToken) (a : FAState)
    (h : ValueTokens f V vts) (hw : wfV V) (hd : a.done = true)
    (hass : a.assembledString = "") (hstk : a.stack = [])
    (hsp : a.sparseMode = false)
    (hprev : PrevSafeV f a.previouslyAssembledStreamedToken) :
    ∃ cts, vts = cts ++ dupTail f V ∧ cts ≠ [] ∧
      (consumeAll a cts).done = true ∧
      (consumeAll a cts).current = some V ∧
      (consumeAll a cts).assembledString = "" ∧
      (consumeAll a cts).stack = [] ∧
      (consumeAll a cts).sparseMode = false ∧
      PrevSafeV f (consumeAll a cts).previouslyAssembledStreamedToken ∧
      (∀ p, p <+: cts → p ≠ [] → p ≠ cts →
        (consumeAll a p).done = false) := by
  cases V with
  | jnull =>
      simp only [ValueTokens] at h
      subst h
      refine ⟨[⟨.nullValue, ""⟩], by simp [dupTail], by simp, ?_⟩
      have hstep : a.consume ⟨.nullValue, ""⟩
          = { a with
                current := some .jnull,
                previouslyAssembledStreamedToken := none } := by
        show { superNullValue a with
          previouslyAssembledStreamedToken := none } = _
        unfold superNullValue saveValue setCurrent
        rw [hd]
        simp [hsp]
      simp only [consumeAll, List.foldl_cons, List.foldl_nil]
      rw [hstep]
      refine ⟨hd, rfl, hass, hstk, hsp, ⟨by simp, by simp⟩, ?_⟩
      intro p hp hp0 hpc
      rcases List.prefix_cons_iff.mp hp with rfl | ⟨p2, rfl, hp2⟩
      · exact absurd rfl hp0
      · rw [List.prefix_nil.mp hp2] at hpc
        exact absurd rfl hpc
  | jbool b =>
      cases b with
      | true =>
          simp only [ValueTokens] at h
          subst h
          refine ⟨[⟨.trueValue, ""⟩], by simp [dupTail], by simp, ?_⟩
          have hstep : a.consume ⟨.trueValue, ""⟩
              = { a with
                    current := some (.jbool true),
                    previouslyAssembledStreamedToken := none } := by
            show { superTrueValue a with
              previouslyAssembledStreamedToken := none } = _
            unfold superTrueValue saveValue setCurrent
            rw [hd]
            simp [hsp]
          simp only [consumeAll, List.foldl_cons, List.foldl_nil]
          rw [hstep]
          refine ⟨hd, rfl, hass, hstk, hsp, ⟨by simp, by simp⟩, ?_⟩
          intro p hp hp0 hpc
          rcases List.prefix_cons_iff.mp hp with rfl | ⟨p2, rfl, hp2⟩
          · exact absurd rfl hp0
          · rw [List.prefix_nil.mp hp2] at hpc
            exact absurd rfl hpc
      | false =>
          simp only [ValueTokens] at h
          subst h
          refine ⟨[⟨.falseValue, ""⟩], by simp [dupTail], by simp, ?_⟩
          have hstep : a.consume ⟨.falseValue, ""⟩
              = { a with
                    current := some (.jbool false),
                    previouslyAssembledStreamedToken := none } := by
            show { superFalseValue a with
              previouslyAssembledStreamedToken := none } = _
            unfold superFalseValue saveValue setCurrent
            rw [hd]
            simp [hsp]
          simp only [consumeAll, List.foldl_cons, List.foldl_nil]
          rw [hstep]
          refine ⟨hd, rfl, hass, hstk, hsp, ⟨by simp, by simp⟩, ?_⟩
          intro p hp hp0 hpc
          rcases List.prefix_cons_iff.mp hp with rfl | ⟨p2, rfl, hp2⟩
          · exact absurd rfl hp0
          · rw [List.prefix_nil.mp hp2] at hpc
            exact absurd rfl hpc
  | jstr v =>
      simp only [ValueTokens] at h
      rcases hm : f.strings with _ | _ | _ <;> rw [hm] at h <;>
        simp only [StrTokens] at h
      case packedOnly =>
        subst h
        refine ⟨[⟨.stringValue, v⟩], by simp [dupTail, hm], by simp, ?_⟩
        have hstep : a.consume ⟨.stringValue, v⟩
            = { a with
                  current := some (.jstr v),
                  previouslyAssembledStreamedToken := none } := by
          show wrappedPacked .stringValue v a = _
          unfold wrappedPacked withPreviousTokenTracking
            skipIfPreviouslyAssembled packedDispatch superStringValue
            saveValue setCurrent
          rw [if_neg (hprev.1 hm)]
          rw [hd]
          simp [hsp]
        simp only [consumeAll, List.foldl_cons, List.foldl_nil]
        rw [hstep]
        refine ⟨hd, rfl, hass, hstk, hsp, ⟨by simp, by simp⟩, ?_⟩
        intro p hp hp0 hpc
        rcases List.prefix_cons_iff.mp hp with rfl | ⟨p2, rfl, hp2⟩
        · exact absurd rfl hp0
        · rw [List.prefix_nil.mp hp2] at hpc
          exact absurd rfl hpc
      case streamedOnly =>
        obtain ⟨cs, hcs, rfl⟩ := h
        obtain ⟨hrun, hpre⟩ := rootStrCore cs a hd hass hsp
        refine ⟨(⟨.startString, ""⟩ : JsonToken) ::
          (chunkToks cs ++ [⟨.endString, ""⟩]),
          by simp [dupTail, hm], by simp, ?_⟩
        rw [hrun]
        refine ⟨rfl, by rw [hcs], rfl, hstk, hsp, ?_, hpre⟩
        constructor
        · intro hpk
          rw [hm] at hpk
          cases hpk
        · simp
      case both =>
        obtain ⟨cs, hcs, rfl⟩ := h
        obtain ⟨hrun, hpre⟩ := rootStrCore cs a hd hass hsp
        refine ⟨(⟨.startString, ""⟩ : JsonToken) ::
          (chunkToks cs ++ [⟨.endString, ""⟩]), by simp [dupTail, hm],
          by simp, ?_⟩
        rw [hrun]
        refine ⟨rfl, by rw [hcs], rfl, hstk, hsp, ?_, hpre⟩
        constructor
        · intro hpk
          rw [hm] at hpk
          cases hpk
        · simp
  | jnum v =>
      simp only [ValueTokens] at h
      rcases hm : f.numbers with _ | _ | _ <;> rw [hm] at h <;>
        simp only [NumTokens] at h
      case packedOnly =>
        subst h
        refine ⟨[⟨.numberValue, v⟩], by simp [dupTail, hm], by simp, ?_⟩
        have hstep : a.consume ⟨.numberValue, v⟩
            = { a with
                  current := some (.jnum v),
                  previouslyAssembledStreamedToken := none } := by
          show wrappedPacked .numberValue v a = _
          unfold wrappedPacked withPreviousTokenTracking
            skipIfPreviouslyAssembled packedDispatch superNumberValue
            saveValue setCurrent
          rw [if_neg (hprev.2 hm)]
          rw [hd]
          simp [hsp]
        simp only [consumeAll, List.foldl_cons, List.foldl_nil]
        rw [hstep]
        refine ⟨hd, rfl, hass, hstk, hsp, ⟨by simp, by simp⟩, ?_⟩
        intro p hp hp0 hpc
        rcases List.prefix_cons_iff.mp hp with rfl | ⟨p2, rfl, hp2⟩
        · exact absurd rfl hp0
        · rw [List.prefix_nil.mp hp2] at hpc
          exact absurd rfl hpc
      case streamedOnly =>
        obtain ⟨cs, hcs, rfl⟩ := h
        obtain ⟨hrun, hpre⟩ := rootNumCore cs a hd hass hsp
        refine ⟨(⟨.startNumber, ""⟩ : JsonToken) ::
          (numChunkToks cs ++ [⟨.endNumber, ""⟩]),
          by simp [dupTail, hm], by simp, ?_⟩
        rw [hrun]
        refine ⟨rfl, by rw [hcs], rfl, hstk, hsp, ?_, hpre⟩
        constructor
        · simp
        · intro hpk
          rw [hm] at hpk
          cases hpk
      case both =>
        obtain ⟨cs, hcs, rfl⟩ := h
        obtain ⟨hrun, hpre⟩ := rootNumCore cs a hd hass hsp
        refine ⟨(⟨.startNumber, ""⟩ : JsonToken) ::
          (numChunkToks cs ++ [⟨.endNumber, ""⟩]), by simp [dupTail, hm],
          by simp, ?_⟩
        rw [hrun]
        refine ⟨rfl, by rw [hcs], rfl, hstk, hsp, ?_, hpre⟩
        constructor
        · simp
        · intro hpk
          rw [hm] at hpk
          cases hpk
  | jarr xs =>
      simp only [ValueTokens] at h
      obtain ⟨inner, hin, rfl⟩ := h
      simp only [wfV] at hw
      have h1 : a.consume ⟨.startArray, ""⟩
          = { a with
                current := some (.jarr []), key := none, done := false,
                previouslyAssembledStreamedToken := none } := by
        show { superStartContainer (.jarr []) a with
          previouslyAssembledStreamedToken := none } = _
        unfold superStartContainer setCurrent
        ext <;> simp [hd, hsp]
      obtain ⟨hc2, hd2, hst2, ha2, hsp2, hpre2⟩ :=
        consumeL f xs inner { a with
            current := some (.jarr []), key := none, done := false,
            previouslyAssembledStreamedToken := none } [] hin hw rfl hass hsp
          rfl (prevSafeV_none f)
      have hend : ∀ s2 : FAState, s2.stack = [] →
          s2.consume ⟨.endArray, ""⟩
            = { s2 with
                  done := true, previouslyAssembledStreamedToken := none } := by
        intro s2 h2
        show { superEndContainer s2 with
          previouslyAssembledStreamedToken := none } = _
        rw [superEndContainer_nil _ h2]
      have hstk2 : (consumeAll { a with
          current := some (.jarr []), key := none, done := false,
          previouslyAssembledStreamedToken := none } inner).stack = [] := by
        rw [hst2]
        exact hstk
      have hfin : consumeAll a
            (⟨.startArray, ""⟩ :: (inner ++ [⟨.endArray, ""⟩]))
          = ((consumeAll { a with
                current := some (.jarr []), key := none, done := false,
                previouslyAssembledStreamedToken := none } inner).consume
              ⟨.endArray, ""⟩) := by
        show consumeAll (a.consume ⟨.startArray, ""⟩)
            (inner ++ [⟨.endArray, ""⟩]) = _
        rw [h1, consumeAll_append]
        rfl
      refine ⟨⟨.startArray, ""⟩ :: (inner ++ [⟨.endArray, ""⟩]),
        by simp [dupTail], by simp, ?_⟩
      rw [hfin, hend _ hstk2]
      refine ⟨rfl, by simpa using hc2, ha2, hstk2, hsp2,
        prevSafeV_none f, ?_⟩
      intro p hp hp0 hpc
      rcases p with _ | ⟨x, p2⟩
      · exact absurd rfl hp0
      have hx : x = ⟨.startArray, ""⟩ := (List.cons_prefix_cons.mp hp).1
      subst hx
      have hp2 : p2 <+: inner ++ [⟨.endArray, ""⟩] :=
        (List.cons_prefix_cons.mp hp).2
      show (consumeAll (a.consume ⟨.startArray, ""⟩) p2).done = false
      rw [h1]
      rcases prefix_append_cases hp2 with hpc2 | ⟨p3, rfl, hp3⟩
      · exact hpre2 p2 hpc2
      · rcases List.prefix_cons_iff.mp hp3 with rfl | ⟨p4, rfl, hp4⟩
        · rw [consumeAll_append]
          exact hd2
        · exfalso
          rw [List.prefix_nil.mp hp4] at hpc
          exact hpc rfl
  | jobj es =>
      simp only [ValueTokens] at h
      obtain ⟨inner, hin, rfl⟩ := h
      have h1 : a.consume ⟨.startObject, ""⟩
          = { a with
                current := some (.jobj []), key := none, done := false,
                previouslyAssembledStreamedToken := none } := by
        show { superStartContainer (.jobj []) a with
          previouslyAssembledStreamedToken := none } = _
        unfold superStartContainer setCurrent
        ext <;> simp [hd, hsp]
      obtain ⟨hc2, hd2, hst2, ha2, hsp2, hpre2⟩ :=
        consumeE f es inner { a with
            current := some (.jobj []), key := none, done := false,
            previouslyAssembledStreamedToken := none } [] hin hw.2 rfl hass hsp
          rfl (by simpa using hw.1) (fun _ => by simp)
      have hend : ∀ s2 : FAState, s2.stack = [] →
          s2.consume ⟨.endObject, ""⟩
            = { s2 with
                  done := true, previouslyAssembledStreamedToken := none } := by
        intro s2 h2
        show { superEndContainer s2 with
          previouslyAssembledStreamedToken := none } = _
        rw [superEndContainer_nil _ h2]
      have hstk2 : (consumeAll { a with
          current := some (.jobj []), key := none, done := false,
          previouslyAssembledStreamedToken := none } inner).stack = [] := by
        rw [hst2]
        exact hstk
      have hfin : consumeAll a
            (⟨.startObject, ""⟩ :: (inner ++ [⟨.endObject, ""⟩]))
          = ((consumeAll { a with
                current := some (.jobj []), key := none, done := false,
                previouslyAssembledStreamedToken := none } inner).consume
              ⟨.endObject, ""⟩) := by
        show consumeAll (a.consume ⟨.startObject, ""⟩)
            (inner ++ [⟨.endObject, ""⟩]) = _
        rw [h1, consumeAll_append]
        rfl
      refine ⟨⟨.startObject, ""⟩ :: (inner ++ [⟨.endObject, ""⟩]),
        by simp [dupTail], by simp, ?_⟩
      rw [hfin, hend _ hstk2]
      refine ⟨rfl, by simpa using hc2, ha2, hstk2, hsp2,
        prevSafeV_none f, ?_⟩
      intro p hp hp0 hpc
      rcases p with _ | ⟨x, p2⟩
      · exact absurd rfl hp0
      have hx : x = ⟨.startObject, ""⟩ := (List.cons_prefix_cons.mp hp).1
      subst hx
      have hp2 : p2 <+: inner ++ [⟨.endObject, ""⟩] :=
        (List.cons_prefix_cons.mp hp).2
      show (consumeAll (a.consume ⟨.startObject, ""⟩) p2).done = false
      rw [h1]
      rcases prefix_append_cases hp2 with hpc2 | ⟨p3, rfl, hp3⟩
      · exact hpre2 p2 hpc2
      · rcases List.prefix_cons_iff.mp hp3 with rfl | ⟨p4, rfl, hp4⟩
        · rw [consumeAll_append]
          exact hd2
        · exfalso
          rw [List.prefix_nil.mp hp4] at hpc
          exact hpc rfl

end MsftTodo

namespace MsftTodo

/-! ## The machine's matched-value phase -/

/-- The assembler-readiness invariant the machine maintains between
entries. -/
def AsmReady (f : Flags) (sp : Bool) (a : FAState) : Prop :=
  a.done = true ∧ a.assembledString = "" ∧ a.stack = [] ∧
  a.sparseMode = sp ∧ (sp = true → a.current = none) ∧
  PrevSafeV f a.previouslyAssembledStreamedToken

/-- `rootCore` from any ready assembler, sparse or not (the sparse run is
simulated by its non-sparse shadow, which shares the `done` trajectory). -/
theorem rootCoreReady (f : Flags) (sp : Bool) (V : JVal)
    (vts : List JsonToken) (a : FAState) (h : ValueTokens f V vts)
    (hw : wfV V) (ha : AsmReady f sp a) :
    ∃ cts, vts = cts ++ dupTail f V ∧ cts ≠ [] ∧
      (consumeAll a cts).done = true ∧
      (sp = false → (consumeAll a cts).current = some V) ∧
      AsmReady f sp (consumeAll a cts) ∧
      (∀ p, p <+: cts → p ≠ [] → p ≠ cts →
        (consumeAll a p).done = false) := by
  obtain ⟨hd, hass, hstk, hspm, hcurn, hprev⟩ := ha
  cases sp with
  | false =>
      obtain ⟨cts, h1, h2, h3, h4, h5, h6, h7, h8, h9⟩ :=
        rootCore f V vts a h hw hd hass hstk hspm hprev
      refine ⟨cts, h1, h2, h3, fun _ => h4, ?_, h9⟩
      exact ⟨h3, h5, h6, h7, by simp, h8⟩
  | true =>
      have hsim : SparseSim { a with sparseMode := false } a :=
        ⟨rfl, hspm, hcurn rfl, rfl, rfl, rfl, rfl, rfl⟩
      obtain ⟨cts, h1, h2, h3, h4, h5, h6, h7, h8, h9⟩ :=
        rootCore f V vts { a with sparseMode := false } h hw hd hass hstk
          rfl hprev
      have hsim2 := sparseSim_consumeAll hsim cts
      obtain ⟨g1, g2, g3, g4, g5, g6, g7, g8⟩ := hsim2
      refine ⟨cts, h1, h2, by rw [← g4]; exact h3, by simp, ?_, ?_⟩
      · refine ⟨by rw [← g4]; exact h3, by rw [← g7]; exact h5, ?_, g2,
          fun _ => g3, by rw [← g6]; exact h8⟩
        have := g5
        rw [h6] at this
        exact List.length_eq_zero.mp this.symm
      · intro p hp hp0 hpc
        have := (sparseSim_consumeAll hsim p).2.2.2.1
        rw [← this]
        exact h9 p hp hp0 hpc

/-- The chunks a matched entry's value contributes (sparse value brackets,
the component tokens unless discarded, and the end-of-entry token). -/
def matchedValOut (cfg : PEConfig) (base : EntryBase)
    (vts : List JsonToken) (v : JVal) : List Chunk :=
  (if cfg.sparseMode then [.sparseEntryValueStart base] else []) ++
  (if cfg.discardComponentTokens then [] else vts.map .tok) ++
  [if cfg.sparseMode then .sparseEntryValueEnd base
   else .packedEntry base v]

/-- The end-of-entry token still owed by a machine state (pushed by its
`finalizing-value` state on the next chunk). -/
def pendChunks (cfg : PEConfig) (s : PEState) : List Chunk :=
  if s.packingState = .finalizingValue then [finalValueTok cfg s] else []

/-- `finalizing-value` on a `numberValue`/`stringValue` chunk: forward it
(unless discarding), push the end-of-entry token, return to idle. -/
theorem peTransform_finalizingValue_our (cfg : PEConfig) (s : PEState)
    (c : Chunk) (hps : s.packingState = .finalizingValue)
    (hc : isOurValueChunk c = true) :
    peTransform cfg s c
      = some ({ s with
            tracker := updateStack s.tracker c, packingState := .idle },
          (if cfg.discardComponentTokens then [] else [c])
            ++ [finalValueTok cfg s]) := by
  simp only [peTransform, peDispatch, hps, hc]
  simp [finalValueTok]
  split <;> simp_all

end MsftTodo

namespace MsftTodo

/-- The machine's value phase for a matched entry: from `packing-value`
(first chunk not yet seen), the value's tokens are consumed and forwarded
per configuration; the end-of-entry token is either already pushed (after a
trailing packed duplicate) or still pending in `finalizing-value`. -/
theorem peRun_append_some (cfg : PEConfig) (s : PEState)
    (a b : List Chunk) (s1 : PEState) (o1 : List Chunk) (s2 : PEState)
    (o2 : List Chunk) (h1 : peRun cfg s a = some (s1, o1))
    (h2 : peRun cfg s1 b = some (s2, o2)) :
    peRun cfg s (a ++ b) = some (s2, o1 ++ o2) := by
  rw [peRun_append]
  simp [h1, h2]

theorem peMatchedValue (cfg : PEConfig) (f : Flags) (V : JVal)
    (vts : List JsonToken) (s : PEState)
    (h : ValueTokens f V vts) (hw : wfV V)
    (hps : s.packingState = .packingValue)
    (hsaw : s.sawFirstValueChunk = false)
    (hbuf : s.keyTokenBuffer = [])
    (ha : AsmReady f cfg.sparseMode s.asm) :
    ∃ s2 out, peRun cfg s (vts.map .tok) = some (s2, out) ∧
      out ++ pendChunks cfg s2
        = matchedValOut cfg s.entryTokenBase vts V ∧
      (s2.packingState = .idle ∨ s2.packingState = .finalizingValue) ∧
      s2.keyTokenBuffer = [] ∧
      s2.entryTokenBase = s.entryTokenBase ∧
      AsmReady f cfg.sparseMode s2.asm ∧
      s2.tracker = List.foldl updateStack s.tracker (vts.map .tok) := by
  obtain ⟨cts, hsplit, hne, hdone, hcur, haf, hpre⟩ :=
    rootCoreReady f cfg.sparseMode V vts s.asm h hw ha
  have hrun := peValueSteps cfg s cts hps hne hpre
  rw [hsaw] at hrun
  simp only [hdone, if_pos] at hrun
  have hfinal : finalValueTok cfg ({ s with
        asm := consumeAll s.asm cts,
        tracker := List.foldl updateStack s.tracker (cts.map .tok),
        sawFirstValueChunk := true,
        packingState := .finalizingValue })
      = (if cfg.sparseMode then Chunk.sparseEntryValueEnd s.entryTokenBase
         else .packedEntry s.entryTokenBase V) := by
    rcases hcfg : cfg.sparseMode with _ | _
    · simp only [finalValueTok, hcfg]
      rw [hcur hcfg]
      rfl
    · simp [finalValueTok, hcfg]
  rcases hdt : dupTail f V with _ | ⟨d, drest⟩
  · rw [hdt, List.append_nil] at hsplit
    subst hsplit
    refine ⟨_, _, hrun, ?_, Or.inr rfl, hbuf, rfl, haf, rfl⟩
    simp only [pendChunks, if_pos, hfinal, matchedValOut]
    simp [List.append_assoc]
  · have hd1 : drest = [] ∧ (d.name = TokName.stringValue ∨
        d.name = TokName.numberValue) := by
      rcases dupTail_shape f V with h0 | ⟨nm, vv, h0, h0n⟩
      · rw [h0] at hdt
        cases hdt
      · rw [h0] at hdt
        cases hdt
        exact ⟨rfl, by cases h0n <;> simp_all⟩
    obtain ⟨rfl, hdn⟩ := hd1
    subst hsplit
    have hour : isOurValueChunk (.tok d) = true := by
      rcases hdn with hdn | hdn <;> simp [isOurValueChunk, hdn]
    have hstep2 := peTransform_finalizingValue_our cfg
      ({ s with
        asm := consumeAll s.asm cts,
        tracker := List.foldl updateStack s.tracker (cts.map .tok),
        sawFirstValueChunk := true,
        packingState := .finalizingValue }) (.tok d) rfl hour
    rw [hfinal] at hstep2
    have hrun2 : peRun cfg ({ s with
          asm := consumeAll s.asm cts,
          tracker := List.foldl updateStack s.tracker (cts.map .tok),
          sawFirstValueChunk := true,
          packingState := .finalizingValue }) [.tok d]
        = some ({ s with
              asm := consumeAll s.asm cts,
              tracker := updateStack
                (List.foldl updateStack s.tracker (cts.map .tok)) (.tok d),
              sawFirstValueChunk := true,
              packingState := .idle },
            (if cfg.discardComponentTokens then [] else [.tok d])
              ++ [if cfg.sparseMode then
                    Chunk.sparseEntryValueEnd s.entryTokenBase
                  else .packedEntry s.entryTokenBase V]) := by
      simp only [peRun, hstep2]
      simp
    have hcomb := peRun_append_some cfg s (cts.map .tok) [Chunk.tok d]
      _ _ _ _ hrun hrun2
    rw [hdt]
    rw [show (cts ++ [d]).map Chunk.tok
      = cts.map Chunk.tok ++ [Chunk.tok d] by simp]
    refine ⟨_, _, hcomb, ?_, Or.inl rfl, hbuf, rfl, haf, ?_⟩
    · simp only [pendChunks, matchedValOut]
      simp [List.append_assoc]
      split <;> simp
    · simp [List.foldl_append]

end MsftTodo

namespace MsftTodo

/-! ## The machine's key phase -/

/-- `keyValue` on the assembler, from any state: sets `key` (unless the
de-duplication marker skips the call) and clears the marker; every other
field is untouched. -/
theorem consume_keyValue_any (a : FAState) (k : String) :
    ∃ ky, a.consume ⟨.keyValue, k⟩
      = { a with key := ky, previouslyAssembledStreamedToken := none } := by
  show ∃ ky, wrappedPacked .keyValue k a = _
  unfold wrappedPacked withPreviousTokenTracking skipIfPreviouslyAssembled
    packedDispatch superKeyValue
  by_cases h : a.previouslyAssembledStreamedToken = some PackedName.keyValue
  · exact ⟨a.key, by simp [h]⟩
  · exact ⟨some k, by simp [h]⟩

/-- `startKey` on the assembler. -/
theorem consume_startKey (a : FAState) :
    a.consume ⟨.startKey, ""⟩
      = { a with
            done := false, previouslyAssembledStreamedToken := none,
            wasDone := a.done } := rfl

/-- `stringChunk` on the assembler. -/
theorem consume_stringChunk (a : FAState) (c : String) :
    a.consume ⟨.stringChunk, c⟩
      = { a with
            assembledString := a.assembledString ++ c,
            previouslyAssembledStreamedToken := none } := rfl

/-- `endKey` on an assembler with a clear marker: finalize the buffered key. -/
theorem consume_endKey_record (a : FAState)
    (hmk : a.previouslyAssembledStreamedToken = none) :
    a.consume ⟨.endKey, ""⟩
      = { a with
            key := some a.assembledString, done := a.wasDone,
            previouslyAssembledStreamedToken := some PackedName.keyValue,
            assembledString := "" } := by
  show finalizeAssembledToken a .keyValue = _
  unfold finalizeAssembledToken wrappedPacked withPreviousTokenTracking
    skipIfPreviouslyAssembled packedDispatch superKeyValue
  simp [hmk]

/-- Composing a machine step with a machine run. -/
theorem peStepCons (cfg : PEConfig) (s : PEState) (c : Chunk)
    (cs : List Chunk) (s1 : PEState) (o1 : List Chunk) (s2 : PEState)
    (o2 : List Chunk) (h1 : peTransform cfg s c = some (s1, o1))
    (h2 : peRun cfg s1 cs = some (s2, o2)) :
    peRun cfg s (c :: cs) = some (s2, o1 ++ o2) := by
  simp [peRun, h1, h2]

/-- Key chunks fold into the buffer while the machine is `packing-key`: the
assembler appends them to its assembled string without finishing, so the
machine stays in `packing-key`, pushes nothing, and buffers every chunk. -/
theorem pePackingKeyChunks (cfg : PEConfig) (cs : List String) (s : PEState)
    (hps : s.packingState = .packingKey)
    (hd : s.asm.done = false)
    (hmk : s.asm.previouslyAssembledStreamedToken = none) :
    peRun cfg s ((chunkToks cs).map .tok)
      = some ({ s with
            asm := { s.asm with
              previouslyAssembledStreamedToken := none,
              assembledString := s.asm.assembledString ++ String.join cs },
            tracker := List.foldl updateStack s.tracker
              ((chunkToks cs).map .tok),
            keyTokenBuffer := s.keyTokenBuffer ++ (chunkToks cs).map .tok,
            packingState := .packingKey }, []) := by
  induction cs generalizing s with
  | nil =>
      have hasm : { s.asm with
            previouslyAssembledStreamedToken := none,
            assembledString := s.asm.assembledString ++ String.join [] }
          = s.asm := by
        rw [← hmk]
        simp [String.join]
      have hst2 : ({ s with
            asm := { s.asm with
              previouslyAssembledStreamedToken := none,
              assembledString := s.asm.assembledString ++ String.join [] },
            tracker := List.foldl updateStack s.tracker
              ((chunkToks []).map .tok),
            keyTokenBuffer := s.keyTokenBuffer ++ (chunkToks []).map .tok,
            packingState := .packingKey } : PEState) = s := by
        rw [hasm, ← hps]
        simp [chunkToks]
      rw [hst2]
      rfl
  | cons c cs ih =>
      have hstep : peTransform cfg s (.tok ⟨.stringChunk, c⟩)
          = some ({ s with
                asm := { s.asm with
                  previouslyAssembledStreamedToken := none,
                  assembledString := s.asm.assembledString ++ c },
                tracker := updateStack s.tracker (.tok ⟨.stringChunk, c⟩),
                keyTokenBuffer :=
                  s.keyTokenBuffer ++ [.tok ⟨.stringChunk, c⟩],
                packingState := .packingKey }, []) := by
        simp [peTransform, peDispatch, peDispatchBase, typeSafeConsume,
          isKeyChunk, hps, consume_stringChunk, hd]
      have ihs := ih ({ s with
          asm := { s.asm with
            previouslyAssembledStreamedToken := none,
            assembledString := s.asm.assembledString ++ c },
          tracker := updateStack s.tracker (.tok ⟨.stringChunk, c⟩),
          keyTokenBuffer := s.keyTokenBuffer ++ [.tok ⟨.stringChunk, c⟩],
          packingState := .packingKey }) rfl hd rfl
      have hgoal : (chunkToks (c :: cs)).map Chunk.tok
          = Chunk.tok ⟨.stringChunk, c⟩ :: (chunkToks cs).map Chunk.tok := rfl
      rw [hgoal]
      rw [peStepCons cfg s _ _ _ _ _ _ hstep ihs]
      simp only [List.nil_append]
      simp [strJoin_cons, String.append_assoc, List.append_assoc]

end MsftTodo


namespace MsftTodo

/-- The machine's streamed key episode `startKey :: chunks ++ [endKey]` from
idle: `startKey` starts the assembler (buffered, nothing pushed), chunks fold
into the buffer, and at `endKey` the assembler finishes, so the machine
checks the tracked path against the configured keys — an unmatched key
flushes the buffer back to idle, a matched key computes the entry token base
and holds the buffer in `finalizing-key`. -/
theorem peKeyStreamedRun (cfg : PEConfig) (f : Flags) (k : String)
    (cs : List String) (s : PEState) (hcs : String.join cs = k)
    (hps : s.packingState = .idle) (hbuf : s.keyTokenBuffer = [])
    (ha : AsmReady f cfg.sparseMode s.asm)
    (hkb : s.tracker.keyBuffer = none)
    (h0 : StackElem) (rest : List StackElem)
    (hst : s.tracker.stack = h0 :: rest) :
    peRun cfg s
        (((⟨.startKey, ""⟩ : JsonToken) ::
          (chunkToks cs ++ [⟨.endKey, ""⟩])).map .tok)
      = match cfg.keys.findIdx?
            (fun q => pathOf ((StackElem.key k :: rest).reverse) = q) with
        | none =>
            some ({ s with
                asm := { s.asm with
                  key := some k, done := true,
                  previouslyAssembledStreamedToken := some PackedName.keyValue,
                  assembledString := "", wasDone := true },
                tracker := List.foldl updateStack s.tracker
                  (((⟨.startKey, ""⟩ : JsonToken) ::
                    (chunkToks cs ++ [⟨.endKey, ""⟩])).map .tok),
                keyTokenBuffer := [],
                packingState := .idle },
              ((⟨.startKey, ""⟩ : JsonToken) ::
                (chunkToks cs ++ [⟨.endKey, ""⟩])).map .tok)
        | some i =>
            some ({ s with
                asm := { s.asm with
                  key := some k, done := true,
                  previouslyAssembledStreamedToken := some PackedName.keyValue,
                  assembledString := "", wasDone := true },
                tracker := List.foldl updateStack s.tracker
                  (((⟨.startKey, ""⟩ : JsonToken) ::
                    (chunkToks cs ++ [⟨.endKey, ""⟩])).map .tok),
                keyTokenBuffer := ((⟨.startKey, ""⟩ : JsonToken) ::
                  (chunkToks cs ++ [⟨.endKey, ""⟩])).map .tok,
                matcher := i,
                entryTokenBase :=
                  ⟨k, (StackElem.key k :: rest).reverse, i, cfg.owner⟩,
                packingState := .finalizingKey }, []) := by
  obtain ⟨hd, hass, hstk, hspm, hcurn, hprev⟩ := ha
  simp only [List.reverse_cons, List.map_cons, List.map_append, List.map_nil]
  have ha1 : s.asm.consume ⟨.startKey, ""⟩
      = { s.asm with
            done := false, previouslyAssembledStreamedToken := none,
            wasDone := true } := by
    rw [consume_startKey, hd]
  have hstep1 : peTransform cfg s (.tok ⟨.startKey, ""⟩)
      = some ({ s with
            asm := { s.asm with
              done := false, previouslyAssembledStreamedToken := none,
              wasDone := true },
            tracker := updateStack s.tracker (.tok ⟨.startKey, ""⟩),
            keyTokenBuffer := [.tok ⟨.startKey, ""⟩],
            packingState := .packingKey }, []) := by
    simp [peTransform, peDispatch, peDispatchBase, typeSafeConsume,
      isKeyChunk, hps, ha1, hbuf]
  have hstep2 := pePackingKeyChunks cfg cs ({ s with
      asm := { s.asm with
        done := false, previouslyAssembledStreamedToken := none,
        wasDone := true },
      tracker := updateStack s.tracker (.tok ⟨.startKey, ""⟩),
      keyTokenBuffer := [.tok ⟨.startKey, ""⟩],
      packingState := .packingKey }) rfl rfl rfl
  simp only [] at hstep2
  have ha3 : FAState.consume { s.asm with
        done := false, previouslyAssembledStreamedToken := none,
        wasDone := true,
        assembledString := s.asm.assembledString ++ String.join cs }
        ⟨.endKey, ""⟩
      = { s.asm with
            key := some k, done := true,
            previouslyAssembledStreamedToken := some PackedName.keyValue,
            assembledString := "", wasDone := true } := by
    rw [consume_endKey_record _ rfl]
    simp [hass, hcs]
  obtain ⟨g1, g2, g3⟩ := trackKeyStreamed f k cs s.tracker hcs hkb h0 rest hst
  have hT2 : List.foldl updateStack s.tracker
        (Chunk.tok ⟨.startKey, ""⟩ ::
          ((chunkToks cs).map Chunk.tok ++ [Chunk.tok ⟨.endKey, ""⟩]))
      = updateStack (List.foldl updateStack
          (updateStack s.tracker (.tok ⟨.startKey, ""⟩))
          ((chunkToks cs).map .tok)) (.tok ⟨.endKey, ""⟩) := by
    simp
  have hT2g : List.foldl updateStack s.tracker
        (((⟨.startKey, ""⟩ : JsonToken) ::
          (chunkToks cs ++ [⟨.endKey, ""⟩])).map .tok)
      = updateStack (List.foldl updateStack
          (updateStack s.tracker (.tok ⟨.startKey, ""⟩))
          ((chunkToks cs).map .tok)) (.tok ⟨.endKey, ""⟩) := by
    simp
  rw [hT2g] at g1
  have hgs : getStack (updateStack (List.foldl updateStack
        (updateStack s.tracker (.tok ⟨.startKey, ""⟩))
        ((chunkToks cs).map .tok)) (.tok ⟨.endKey, ""⟩))
      = rest.reverse ++ [StackElem.key k] := by
    unfold getStack
    rw [g1]
    simp
  have hhead : getHead (updateStack (List.foldl updateStack
        (updateStack s.tracker (.tok ⟨.startKey, ""⟩))
        ((chunkToks cs).map .tok)) (.tok ⟨.endKey, ""⟩)) = some (.key k) := by
    unfold getHead
    rw [g1]
    rfl
  rcases hfind : cfg.keys.findIdx?
      (fun q => pathOf (rest.reverse ++ [StackElem.key k]) = q) with _ | i
  · have hstep3 : peTransform cfg ({ s with
          asm := { s.asm with
            done := false, previouslyAssembledStreamedToken := none,
            wasDone := true,
            assembledString := s.asm.assembledString ++ String.join cs },
          tracker := List.foldl updateStack
            (updateStack s.tracker (.tok ⟨.startKey, ""⟩))
            ((chunkToks cs).map .tok),
          keyTokenBuffer := [.tok ⟨.startKey, ""⟩] ++ (chunkToks cs).map .tok,
          packingState := .packingKey }) (.tok ⟨.endKey, ""⟩)
        = some ({ s with
              asm := { s.asm with
                key := some k, done := true,
                previouslyAssembledStreamedToken := some PackedName.keyValue,
                assembledString := "", wasDone := true },
              tracker := updateStack (List.foldl updateStack
                (updateStack s.tracker (.tok ⟨.startKey, ""⟩))
                ((chunkToks cs).map .tok)) (.tok ⟨.endKey, ""⟩),
              keyTokenBuffer := [],
              packingState := .idle },
            ([.tok ⟨.startKey, ""⟩] ++ (chunkToks cs).map .tok)
              ++ [.tok ⟨.endKey, ""⟩]) := by
      simp [peTransform, peDispatch, peDispatchBase, typeSafeConsume,
        isKeyChunk, ha3, hgs, hfind]
    have hrun3 : peRun cfg ({ s with
          asm := { s.asm with
            done := false, previouslyAssembledStreamedToken := none,
            wasDone := true,
            assembledString := s.asm.assembledString ++ String.join cs },
          tracker := List.foldl updateStack
            (updateStack s.tracker (.tok ⟨.startKey, ""⟩))
            ((chunkToks cs).map .tok),
          keyTokenBuffer := [.tok ⟨.startKey, ""⟩] ++ (chunkToks cs).map .tok,
          packingState := .packingKey }) [.tok ⟨.endKey, ""⟩]
        = some ({ s with
              asm := { s.asm with
                key := some k, done := true,
                previouslyAssembledStreamedToken := some PackedName.keyValue,
                assembledString := "", wasDone := true },
              tracker := updateStack (List.foldl updateStack
                (updateStack s.tracker (.tok ⟨.startKey, ""⟩))
                ((chunkToks cs).map .tok)) (.tok ⟨.endKey, ""⟩),
              keyTokenBuffer := [],
              packingState := .idle },
            ([.tok ⟨.startKey, ""⟩] ++ (chunkToks cs).map .tok)
              ++ [.tok ⟨.endKey, ""⟩]) := by
      rw [peRun, hstep3]
      simp [peRun]
    have h23 := peRun_append_some cfg _ ((chunkToks cs).map .tok)
      [Chunk.tok ⟨.endKey, ""⟩] _ _ _ _ hstep2 hrun3
    have hfull := peStepCons cfg s (Chunk.tok ⟨.startKey, ""⟩)
      ((chunkToks cs).map .tok ++ [Chunk.tok ⟨.endKey, ""⟩]) _ _ _ _
      hstep1 h23
    rw [hT2, hfull]
    simp
  · have hstep3 : peTransform cfg ({ s with
          asm := { s.asm with
            done := false, previouslyAssembledStreamedToken := none,
            wasDone := true,
            assembledString := s.asm.assembledString ++ String.join cs },
          tracker := List.foldl updateStack
            (updateStack s.tracker (.tok ⟨.startKey, ""⟩))
            ((chunkToks cs).map .tok),
          keyTokenBuffer := [.tok ⟨.startKey, ""⟩] ++ (chunkToks cs).map .tok,
          packingState := .packingKey }) (.tok ⟨.endKey, ""⟩)
        = some ({ s with
              asm := { s.asm with
                key := some k, done := true,
                previouslyAssembledStreamedToken := some PackedName.keyValue,
                assembledString := "", wasDone := true },
              tracker := updateStack (List.foldl updateStack
                (updateStack s.tracker (.tok ⟨.startKey, ""⟩))
                ((chunkToks cs).map .tok)) (.tok ⟨.endKey, ""⟩),
              keyTokenBuffer := ([.tok ⟨.startKey, ""⟩]
                ++ (chunkToks cs).map .tok) ++ [.tok ⟨.endKey, ""⟩],
              matcher := i,
              entryTokenBase :=
                ⟨k, rest.reverse ++ [StackElem.key k], i, cfg.owner⟩,
              packingState := .finalizingKey }, []) := by
      simp [peTransform, peDispatch, peDispatchBase, typeSafeConsume,
        isKeyChunk, ha3, hgs, hfind, getEntryTokenBase, hhead]
    have hrun3 : peRun cfg ({ s with
          asm := { s.asm with
            done := false, previouslyAssembledStreamedToken := none,
            wasDone := true,
            assembledString := s.asm.assembledString ++ String.join cs },
          tracker := List.foldl updateStack
            (updateStack s.tracker (.tok ⟨.startKey, ""⟩))
            ((chunkToks cs).map .tok),
          keyTokenBuffer := [.tok ⟨.startKey, ""⟩] ++ (chunkToks cs).map .tok,
          packingState := .packingKey }) [.tok ⟨.endKey, ""⟩]
        = some ({ s with
              asm := { s.asm with
                key := some k, done := true,
                previouslyAssembledStreamedToken := some PackedName.keyValue,
                assembledString := "", wasDone := true },
              tracker := updateStack (List.foldl updateStack
                (updateStack s.tracker (.tok ⟨.startKey, ""⟩))
                ((chunkToks cs).map .tok)) (.tok ⟨.endKey, ""⟩),
              keyTokenBuffer := ([.tok ⟨.startKey, ""⟩]
                ++ (chunkToks cs).map .tok) ++ [.tok ⟨.endKey, ""⟩],
              matcher := i,
              entryTokenBase :=
                ⟨k, rest.reverse ++ [StackElem.key k], i, cfg.owner⟩,
              packingState := .finalizingKey }, []) := by
      rw [peRun, hstep3]
      simp [peRun]
    have h23 := peRun_append_some cfg _ ((chunkToks cs).map .tok)
      [Chunk.tok ⟨.endKey, ""⟩] _ _ _ _ hstep2 hrun3
    have hfull := peStepCons cfg s (Chunk.tok ⟨.startKey, ""⟩)
      ((chunkToks cs).map .tok ++ [Chunk.tok ⟨.endKey, ""⟩]) _ _ _ _
      hstep1 h23
    rw [hT2, hfull]
    simp

end MsftTodo

namespace MsftTodo

/-- The machine's whole key phase for one entry, from idle: the key's tokens
run through the tracker and the assembler; an unmatched key passes through
unchanged back to idle, while a matched key ends either holding its buffer in
`finalizing-key` (streamed-only and packed-only key modes) or — when the
trailing packed duplicate of a streamed-and-packed key has already released
the buffer — in `packing-value` with the bracketed buffer flushed. -/
theorem peKeyRun (cfg : PEConfig) (f : Flags) (k : String)
    (kts : List JsonToken) (s : PEState)
    (hk : KeyTokens f.keys k kts)
    (hps : s.packingState = .idle) (hbuf : s.keyTokenBuffer = [])
    (ha : AsmReady f cfg.sparseMode s.asm)
    (hkb : s.tracker.keyBuffer = none)
    (h0 : StackElem) (rest : List StackElem)
    (hst : s.tracker.stack = h0 :: rest) :
    ∃ s2 out, peRun cfg s (kts.map .tok) = some (s2, out) ∧
      s2.tracker = List.foldl updateStack s.tracker (kts.map .tok) ∧
      s2.tracker.stack = .key k :: rest ∧
      s2.tracker.keyBuffer = none ∧
      PrevTrackSafe f s2.tracker ∧
      AsmReady f cfg.sparseMode s2.asm ∧
      (match cfg.keys.findIdx?
          (fun q => pathOf ((StackElem.key k :: rest).reverse) = q) with
       | none =>
          s2.packingState = .idle ∧ s2.keyTokenBuffer = [] ∧
          out = kts.map .tok
       | some i =>
          s2.entryTokenBase
            = ⟨k, (StackElem.key k :: rest).reverse, i, cfg.owner⟩ ∧
          ((s2.packingState = .finalizingKey ∧ out = [] ∧
            s2.keyTokenBuffer = kts.map .tok) ∨
           (s2.packingState = .packingValue ∧ s2.sawFirstValueChunk = false ∧
            s2.keyTokenBuffer = [] ∧
            out = keyFlush cfg
              ⟨k, (StackElem.key k :: rest).reverse, i, cfg.owner⟩
              (kts.map .tok)))) := by
  rcases hfk : f.keys with _ | _ | _
  · rw [hfk] at hk
    simp only [KeyTokens] at hk
    obtain ⟨cs, hcs, rfl⟩ := hk
    have hfull := peKeyStreamedRun cfg f k cs s hcs hps hbuf ha hkb h0 rest hst
    obtain ⟨g1, g2, g3⟩ := trackKeyStreamed f k cs s.tracker hcs hkb h0 rest hst
    obtain ⟨hd, hass, hstk, hspm, hcurn, hprev⟩ := ha
    simp only [List.reverse_cons] at hfull ⊢
    rcases hfind : cfg.keys.findIdx?
        (fun q => pathOf (rest.reverse ++ [StackElem.key k]) = q) with _ | i
    · simp only [hfind] at hfull ⊢
      refine ⟨_, _, hfull, rfl, g1, g2, g3,
        ⟨rfl, rfl, hstk, hspm, hcurn, fun _ => by simp, fun _ => by simp⟩,
        rfl, rfl, rfl⟩
    · simp only [hfind] at hfull ⊢
      refine ⟨_, _, hfull, rfl, g1, g2, g3,
        ⟨rfl, rfl, hstk, hspm, hcurn, fun _ => by simp, fun _ => by simp⟩,
        rfl, Or.inl ⟨rfl, rfl, rfl⟩⟩
  · rw [hfk] at hk
    simp only [KeyTokens] at hk
    subst hk
    obtain ⟨hd, hass, hstk, hspm, hcurn, hprev⟩ := ha
    obtain ⟨ky, hky⟩ := consume_keyValue_any s.asm k
    obtain ⟨g1, g2, g3⟩ :=
      trackKey f .packedOnly k _ s.tracker rfl hkb h0 rest hst
    have hT2 : List.foldl updateStack s.tracker
          ([(⟨.keyValue, k⟩ : JsonToken)].map .tok)
        = updateStack s.tracker (.tok ⟨.keyValue, k⟩) := by
      simp
    rw [hT2] at g1 g2 g3
    have hgs : getStack (updateStack s.tracker (.tok ⟨.keyValue, k⟩))
        = rest.reverse ++ [StackElem.key k] := by
      unfold getStack
      rw [g1]
      simp
    have hhead : getHead (updateStack s.tracker (.tok ⟨.keyValue, k⟩))
        = some (.key k) := by
      unfold getHead
      rw [g1]
      rfl
    simp only [List.reverse_cons]
    rcases hfind : cfg.keys.findIdx?
        (fun q => pathOf (rest.reverse ++ [StackElem.key k]) = q) with _ | i
    · have hstep : peTransform cfg s (.tok ⟨.keyValue, k⟩)
          = some ({ s with
                asm := { s.asm with
                  key := ky, previouslyAssembledStreamedToken := none },
                tracker := updateStack s.tracker (.tok ⟨.keyValue, k⟩),
                keyTokenBuffer := [],
                packingState := .idle },
              [.tok ⟨.keyValue, k⟩]) := by
        simp [peTransform, peDispatch, peDispatchBase, typeSafeConsume,
          isKeyChunk, hps, hky, hd, hgs, hfind, hbuf]
      have hrun : peRun cfg s [Chunk.tok ⟨.keyValue, k⟩]
          = some ({ s with
                asm := { s.asm with
                  key := ky, previouslyAssembledStreamedToken := none },
                tracker := updateStack s.tracker (.tok ⟨.keyValue, k⟩),
                keyTokenBuffer := [],
                packingState := .idle },
              [.tok ⟨.keyValue, k⟩]) := by
        rw [peRun, hstep]
        simp [peRun]
      simp only [hfind, List.map_cons, List.map_nil]
      refine ⟨_, _, hrun, by simp, g1, g2, g3,
        ⟨hd, hass, hstk, hspm, hcurn, prevSafeV_none f⟩,
        rfl, rfl, rfl⟩
    · have hstep : peTransform cfg s (.tok ⟨.keyValue, k⟩)
          = some ({ s with
                asm := { s.asm with
                  key := ky, previouslyAssembledStreamedToken := none },
                tracker := updateStack s.tracker (.tok ⟨.keyValue, k⟩),
                keyTokenBuffer := [.tok ⟨.keyValue, k⟩],
                matcher := i,
                entryTokenBase :=
                  ⟨k, rest.reverse ++ [StackElem.key k], i, cfg.owner⟩,
                packingState := .finalizingKey }, []) := by
        simp [peTransform, peDispatch, peDispatchBase, typeSafeConsume,
          isKeyChunk, hps, hky, hd, hgs, hfind, hbuf, getEntryTokenBase,
          hhead]
      have hrun : peRun cfg s [Chunk.tok ⟨.keyValue, k⟩]
          = some ({ s with
                asm := { s.asm with
                  key := ky, previouslyAssembledStreamedToken := none },
                tracker := updateStack s.tracker (.tok ⟨.keyValue, k⟩),
                keyTokenBuffer := [.tok ⟨.keyValue, k⟩],
                matcher := i,
                entryTokenBase :=
                  ⟨k, rest.reverse ++ [StackElem.key k], i, cfg.owner⟩,
                packingState := .finalizingKey }, []) := by
        rw [peRun, hstep]
        simp [peRun]
      simp only [hfind, List.map_cons, List.map_nil]
      refine ⟨_, _, hrun, by simp, g1, g2, g3,
        ⟨hd, hass, hstk, hspm, hcurn, prevSafeV_none f⟩,
        rfl, Or.inl ⟨rfl, rfl, rfl⟩⟩
  · rw [hfk] at hk
    simp only [KeyTokens] at hk
    obtain ⟨cs, hcs, rfl⟩ := hk
    have hfirst := peKeyStreamedRun cfg f k cs s hcs hps hbuf ha hkb h0 rest hst
    obtain ⟨gb1, gb2, gb3⟩ := trackKey f .both k _ s.tracker
      ⟨cs, hcs, rfl⟩ hkb h0 rest hst
    obtain ⟨hd, hass, hstk, hspm, hcurn, hprev⟩ := ha
    have hsplit : ((⟨.startKey, ""⟩ : JsonToken) ::
          (chunkToks cs ++ [⟨.endKey, ""⟩, ⟨.keyValue, k⟩])).map Chunk.tok
        = ((⟨.startKey, ""⟩ : JsonToken) ::
            (chunkToks cs ++ [⟨.endKey, ""⟩])).map Chunk.tok
          ++ [Chunk.tok ⟨.keyValue, k⟩] := by
      simp
    have hT3 : List.foldl updateStack s.tracker
          (((⟨.startKey, ""⟩ : JsonToken) ::
            (chunkToks cs ++ [⟨.endKey, ""⟩, ⟨.keyValue, k⟩])).map .tok)
        = updateStack (List.foldl updateStack s.tracker
            (((⟨.startKey, ""⟩ : JsonToken) ::
              (chunkToks cs ++ [⟨.endKey, ""⟩])).map .tok))
            (.tok ⟨.keyValue, k⟩) := by
      simp
    rw [hT3] at gb1 gb2 gb3
    have hT2s : List.foldl updateStack s.tracker
          (((⟨.startKey, ""⟩ : JsonToken) ::
            (chunkToks cs ++ [⟨.endKey, ""⟩])).map .tok)
        = updateStack (List.foldl updateStack
            (updateStack s.tracker (.tok ⟨.startKey, ""⟩))
            ((chunkToks cs).map .tok)) (.tok ⟨.endKey, ""⟩) := by
      simp
    have gb1d := gb1
    rw [hT2s] at gb1d
    have hgs2 : getStack (updateStack (updateStack (List.foldl updateStack
          (updateStack s.tracker (.tok ⟨.startKey, ""⟩))
          ((chunkToks cs).map .tok)) (.tok ⟨.endKey, ""⟩))
          (.tok ⟨.keyValue, k⟩))
        = rest.reverse ++ [StackElem.key k] := by
      unfold getStack
      rw [gb1d]
      simp
    simp only [List.reverse_cons] at hfirst ⊢
    rcases hfind : cfg.keys.findIdx?
        (fun q => pathOf (rest.reverse ++ [StackElem.key k]) = q) with _ | i
    · simp only [hfind] at hfirst ⊢
      obtain ⟨ky, hky⟩ := consume_keyValue_any ({ s.asm with
        key := some k, done := true,
        previouslyAssembledStreamedToken := some PackedName.keyValue,
        assembledString := "", wasDone := true }) k
      have hstep4 : peTransform cfg ({ s with
            asm := { s.asm with
              key := some k, done := true,
              previouslyAssembledStreamedToken := some PackedName.keyValue,
              assembledString := "", wasDone := true },
            tracker := List.foldl updateStack s.tracker
              (((⟨.startKey, ""⟩ : JsonToken) ::
                (chunkToks cs ++ [⟨.endKey, ""⟩])).map .tok),
            keyTokenBuffer := [],
            packingState := .idle }) (.tok ⟨.keyValue, k⟩)
          = some ({ s with
                asm := { s.asm with
                  key := ky, done := true,
                  previouslyAssembledStreamedToken := none,
                  assembledString := "", wasDone := true },
                tracker := updateStack (List.foldl updateStack s.tracker
                  (((⟨.startKey, ""⟩ : JsonToken) ::
                    (chunkToks cs ++ [⟨.endKey, ""⟩])).map .tok))
                  (.tok ⟨.keyValue, k⟩),
                keyTokenBuffer := [],
                packingState := .idle },
              [.tok ⟨.keyValue, k⟩]) := by
        simp [peTransform, peDispatch, peDispatchBase, typeSafeConsume,
          isKeyChunk, hky, hgs2, hfind]
      have hrun4 : peRun cfg ({ s with
            asm := { s.asm with
              key := some k, done := true,
              previouslyAssembledStreamedToken := some PackedName.keyValue,
              assembledString := "", wasDone := true },
            tracker := List.foldl updateStack s.tracker
              (((⟨.startKey, ""⟩ : JsonToken) ::
                (chunkToks cs ++ [⟨.endKey, ""⟩])).map .tok),
            keyTokenBuffer := [],
            packingState := .idle }) [Chunk.tok ⟨.keyValue, k⟩]
          = some ({ s with
                asm := { s.asm with
                  key := ky, done := true,
                  previouslyAssembledStreamedToken := none,
                  assembledString := "", wasDone := true },
                tracker := updateStack (List.foldl updateStack s.tracker
                  (((⟨.startKey, ""⟩ : JsonToken) ::
                    (chunkToks cs ++ [⟨.endKey, ""⟩])).map .tok))
                  (.tok ⟨.keyValue, k⟩),
                keyTokenBuffer := [],
                packingState := .idle },
              [.tok ⟨.keyValue, k⟩]) := by
        rw [peRun, hstep4]
        simp [peRun]
      have hcomb := peRun_append_some cfg s _ [Chunk.tok ⟨.keyValue, k⟩]
        _ _ _ _ hfirst hrun4
      rw [← hsplit] at hcomb
      refine ⟨_, _, hcomb, hT3.symm, gb1, gb2, gb3,
        ⟨rfl, rfl, hstk, hspm, hcurn, prevSafeV_none f⟩,
        rfl, rfl, by simp⟩
    · simp only [hfind] at hfirst ⊢
      have hstep4 : peTransform cfg ({ s with
            asm := { s.asm with
              key := some k, done := true,
              previouslyAssembledStreamedToken := some PackedName.keyValue,
              assembledString := "", wasDone := true },
            tracker := List.foldl updateStack s.tracker
              (((⟨.startKey, ""⟩ : JsonToken) ::
                (chunkToks cs ++ [⟨.endKey, ""⟩])).map .tok),
            keyTokenBuffer := ((⟨.startKey, ""⟩ : JsonToken) ::
              (chunkToks cs ++ [⟨.endKey, ""⟩])).map .tok,
            matcher := i,
            entryTokenBase :=
              ⟨k, rest.reverse ++ [StackElem.key k], i, cfg.owner⟩,
            packingState := .finalizingKey }) (.tok ⟨.keyValue, k⟩)
          = some ({ s with
                asm := { s.asm with
                  key := some k, done := true,
                  previouslyAssembledStreamedToken := some PackedName.keyValue,
                  assembledString := "", wasDone := true },
                tracker := updateStack (List.foldl updateStack s.tracker
                  (((⟨.startKey, ""⟩ : JsonToken) ::
                    (chunkToks cs ++ [⟨.endKey, ""⟩])).map .tok))
                  (.tok ⟨.keyValue, k⟩),
                keyTokenBuffer := [],
                sawFirstValueChunk := false,
                matcher := i,
                entryTokenBase :=
                  ⟨k, rest.reverse ++ [StackElem.key k], i, cfg.owner⟩,
                packingState := .packingValue },
              keyFlush cfg ⟨k, rest.reverse ++ [StackElem.key k], i,
                cfg.owner⟩
                (((⟨.startKey, ""⟩ : JsonToken) ::
                  (chunkToks cs ++ [⟨.endKey, ""⟩])).map .tok
                  ++ [Chunk.tok ⟨.keyValue, k⟩])) := by
        simp [peTransform, peDispatch, isKeyValueChunk, finalKeyToks,
          keyFlush]
      have hrun4 : peRun cfg ({ s with
            asm := { s.asm with
              key := some k, done := true,
              previouslyAssembledStreamedToken := some PackedName.keyValue,
              assembledString := "", wasDone := true },
            tracker := List.foldl updateStack s.tracker
              (((⟨.startKey, ""⟩ : JsonToken) ::
                (chunkToks cs ++ [⟨.endKey, ""⟩])).map .tok),
            keyTokenBuffer := ((⟨.startKey, ""⟩ : JsonToken) ::
              (chunkToks cs ++ [⟨.endKey, ""⟩])).map .tok,
            matcher := i,
            entryTokenBase :=
              ⟨k, rest.reverse ++ [StackElem.key k], i, cfg.owner⟩,
            packingState := .finalizingKey }) [Chunk.tok ⟨.keyValue, k⟩]
          = some ({ s with
                asm := { s.asm with
                  key := some k, done := true,
                  previouslyAssembledStreamedToken := some PackedName.keyValue,
                  assembledString := "", wasDone := true },
                tracker := updateStack (List.foldl updateStack s.tracker
                  (((⟨.startKey, ""⟩ : JsonToken) ::
                    (chunkToks cs ++ [⟨.endKey, ""⟩])).map .tok))
                  (.tok ⟨.keyValue, k⟩),
                keyTokenBuffer := [],
                sawFirstValueChunk := false,
                matcher := i,
                entryTokenBase :=
                  ⟨k, rest.reverse ++ [StackElem.key k], i, cfg.owner⟩,
                packingState := .packingValue },
              keyFlush cfg ⟨k, rest.reverse ++ [StackElem.key k], i,
                cfg.owner⟩
                (((⟨.startKey, ""⟩ : JsonToken) ::
                  (chunkToks cs ++ [⟨.endKey, ""⟩])).map .tok
                  ++ [Chunk.tok ⟨.keyValue, k⟩])) := by
        rw [peRun, hstep4]
        simp [peRun]
      have hcomb := peRun_append_some cfg s _ [Chunk.tok ⟨.keyValue, k⟩]
        _ _ _ _ hfirst hrun4
      rw [← hsplit] at hcomb
      refine ⟨_, _, hcomb, hT3.symm, gb1, gb2, gb3,
        ⟨rfl, rfl, hstk, hspm, hcurn, fun _ => by simp, fun _ => by simp⟩,
        rfl, Or.inr ⟨rfl, rfl, rfl, ?_⟩⟩
      rw [hsplit]
      simp

end MsftTodo

namespace MsftTodo

/-! ## The expected `packEntry` output relation -/

mutual

/-- The expected `packEntry` output for a value's tokens arriving in the
idle state, with tracker stack `st` (top at the head, already incremented
for the value's own slot) in effect: scalars, strings and numbers pass
through; containers recurse, with objects deciding each entry against the
configured key paths. -/
def PEVOut (cfg : PEConfig) (f : Flags) (st : List StackElem) :
    JVal → List JsonToken → List Chunk → Prop
  | .jnull, ts, out => ts = [⟨.nullValue, ""⟩] ∧ out = ts.map .tok
  | .jbool true, ts, out => ts = [⟨.trueValue, ""⟩] ∧ out = ts.map .tok
  | .jbool false, ts, out => ts = [⟨.falseValue, ""⟩] ∧ out = ts.map .tok
  | .jstr v, ts, out => StrTokens f.strings v ts ∧ out = ts.map .tok
  | .jnum v, ts, out => NumTokens f.numbers v ts ∧ out = ts.map .tok
  | .jarr xs, ts, out => ∃ inner iout,
      PEElemsOut cfg f (-1) st xs inner iout ∧
      ts = ⟨.startArray, ""⟩ :: (inner ++ [⟨.endArray, ""⟩]) ∧
      out = .tok ⟨.startArray, ""⟩ :: (iout ++ [.tok ⟨.endArray, ""⟩])
  | .jobj es, ts, out => ∃ inner iout,
      PEEntriesOut cfg f st es inner iout ∧
      ts = ⟨.startObject, ""⟩ :: (inner ++ [⟨.endObject, ""⟩]) ∧
      out = .tok ⟨.startObject, ""⟩ :: (iout ++ [.tok ⟨.endObject, ""⟩])

/-- The expected output of consecutive array elements (the element slot
carries index `n` before each element's increment). -/
def PEElemsOut (cfg : PEConfig) (f : Flags) (n : Int) (st : List StackElem) :
    List JVal → List JsonToken → List Chunk → Prop
  | [], ts, out => ts = [] ∧ out = []
  | x :: xs, ts, out => ∃ ts1 o1 ts2 o2,
      PEVOut cfg f (.idx (n + 1) :: st) x ts1 o1 ∧
      PEElemsOut cfg f (n + 1) st xs ts2 o2 ∧
      ts = ts1 ++ ts2 ∧ out = o1 ++ o2

/-- The expected output of consecutive object entries sitting above the
stack `below`: a matched entry contributes its bracketed key buffer and its
value's contribution (sparse brackets / forwarded tokens / end-of-entry
token); an unmatched entry passes its key tokens through and recurses into
its value. -/
def PEEntriesOut (cfg : PEConfig) (f : Flags) (below : List StackElem) :
    List (String × JVal) → List JsonToken → List Chunk → Prop
  | [], ts, out => ts = [] ∧ out = []
  | (k, v) :: es, ts, out => ∃ kts vts rest2 o2,
      KeyTokens f.keys k kts ∧ ValueTokens f v vts ∧
      PEEntriesOut cfg f below es rest2 o2 ∧
      ts = kts ++ (vts ++ rest2) ∧
      (match cfg.keys.findIdx?
          (fun q => pathOf ((StackElem.key k :: below).reverse) = q) with
       | some i =>
          out = keyFlush cfg
              ⟨k, (StackElem.key k :: below).reverse, i, cfg.owner⟩
              (kts.map .tok)
            ++ (matchedValOut cfg
              ⟨k, (StackElem.key k :: below).reverse, i, cfg.owner⟩
              vts v ++ o2)
       | none => ∃ vout,
          PEVOut cfg f (.key k :: below) v vts vout ∧
          out = kts.map .tok ++ (vout ++ o2))

end

/-- A key's token sequence starts with `startKey` or `keyValue`. -/
theorem keyTokensHead (m : TokMode) (k : String) (kts : List JsonToken)
    (h : KeyTokens m k kts) :
    ∃ c cs, kts = c :: cs ∧
      (c.name = TokName.startKey ∨ c.name = TokName.keyValue) := by
  cases m <;> simp only [KeyTokens] at h
  · obtain ⟨cs, _, rfl⟩ := h
    exact ⟨_, _, rfl, Or.inl rfl⟩
  · subst h
    exact ⟨_, _, rfl, Or.inr rfl⟩
  · obtain ⟨cs, _, rfl⟩ := h
    exact ⟨_, _, rfl, Or.inl rfl⟩

/-- A value's token sequence is nonempty and never starts with `keyValue`. -/
theorem valueTokensHead (f : Flags) (V : JVal) (ts : List JsonToken)
    (h : ValueTokens f V ts) :
    ∃ c cs, ts = c :: cs ∧ c.name ≠ TokName.keyValue := by
  cases V with
  | jnull =>
      simp only [ValueTokens] at h
      subst h
      exact ⟨_, _, rfl, by simp⟩
  | jbool b =>
      cases b <;> simp only [ValueTokens] at h <;> subst h
      · exact ⟨_, _, rfl, by simp⟩
      · exact ⟨_, _, rfl, by simp⟩
  | jstr v =>
      simp only [ValueTokens] at h
      cases hm : f.strings <;> rw [hm] at h <;> simp only [StrTokens] at h
      · obtain ⟨cs, _, rfl⟩ := h
        exact ⟨_, _, rfl, by simp⟩
      · subst h
        exact ⟨_, _, rfl, by simp⟩
      · obtain ⟨cs, _, rfl⟩ := h
        exact ⟨_, _, rfl, by simp⟩
  | jnum v =>
      simp only [ValueTokens] at h
      cases hm : f.numbers <;> rw [hm] at h <;> simp only [NumTokens] at h
      · obtain ⟨cs, _, rfl⟩ := h
        exact ⟨_, _, rfl, by simp⟩
      · subst h
        exact ⟨_, _, rfl, by simp⟩
      · obtain ⟨cs, _, rfl⟩ := h
        exact ⟨_, _, rfl, by simp⟩
  | jarr xs =>
      simp only [ValueTokens] at h
      obtain ⟨inner, _, rfl⟩ := h
      exact ⟨_, _, rfl, by simp⟩
  | jobj es =>
      simp only [ValueTokens] at h
      obtain ⟨inner, _, rfl⟩ := h
      exact ⟨_, _, rfl, by simp⟩

/-- A non-key token run passes through the idle machine unchanged. -/
theorem peIdleRunPass (cfg : PEConfig) (s : PEState) (ts : List JsonToken)
    (hps : s.packingState = .idle)
    (hk : ∀ t ∈ ts, isKeyChunk (Chunk.tok t) = false) :
    peRun cfg s (ts.map .tok)
      = some ({ s with
            tracker := List.foldl updateStack s.tracker (ts.map .tok) },
          ts.map .tok) := by
  induction ts generalizing s with
  | nil =>
      simp only [List.map_nil, peRun, List.foldl_nil]
  | cons t ts ih =>
      have hstep := peIdle_pass cfg s (.tok t) hps (hk t (by simp))
      have ihs := ih ({ s with tracker := updateStack s.tracker (.tok t) })
        hps (fun t2 ht2 => hk t2 (by simp [ht2]))
      simp only [List.map_cons]
      rw [peStepCons cfg s _ _ _ _ _ _ hstep ihs]
      simp

/-- String-value tokens are never key tokens. -/
theorem strTokens_not_key (m : TokMode) (v : String) (ts : List JsonToken)
    (h : StrTokens m v ts) :
    ∀ t ∈ ts, isKeyChunk (Chunk.tok t) = false := by
  cases m <;> simp only [StrTokens] at h
  · obtain ⟨cs, _, rfl⟩ := h
    intro t ht
    rcases List.mem_cons.mp ht with rfl | ht
    · rfl
    · rcases List.mem_append.mp ht with ht | ht
      · obtain ⟨c, _, rfl⟩ := List.mem_map.mp ht
        rfl
      · rw [List.mem_singleton.mp ht]
        rfl
  · subst h
    intro t ht
    rw [List.mem_singleton.mp ht]
    rfl
  · obtain ⟨cs, _, rfl⟩ := h
    intro t ht
    rcases List.mem_cons.mp ht with rfl | ht
    · rfl
    · rcases List.mem_append.mp ht with ht | ht
      · obtain ⟨c, _, rfl⟩ := List.mem_map.mp ht
        rfl
      · rcases List.mem_cons.mp ht with rfl | ht
        · rfl
        · rw [List.mem_singleton.mp ht]
          rfl

/-- Number-value tokens are never key tokens. -/
theorem numTokens_not_key (m : TokMode) (v : String) (ts : List JsonToken)
    (h : NumTokens m v ts) :
    ∀ t ∈ ts, isKeyChunk (Chunk.tok t) = false := by
  cases m <;> simp only [NumTokens] at h
  · obtain ⟨cs, _, rfl⟩ := h
    intro t ht
    rcases List.mem_cons.mp ht with rfl | ht
    · rfl
    · rcases List.mem_append.mp ht with ht | ht
      · obtain ⟨c, _, rfl⟩ := List.mem_map.mp ht
        rfl
      · rw [List.mem_singleton.mp ht]
        rfl
  · subst h
    intro t ht
    rw [List.mem_singleton.mp ht]
    rfl
  · obtain ⟨cs, _, rfl⟩ := h
    intro t ht
    rcases List.mem_cons.mp ht with rfl | ht
    · rfl
    · rcases List.mem_append.mp ht with ht | ht
      · obtain ⟨c, _, rfl⟩ := List.mem_map.mp ht
        rfl
      · rcases List.mem_cons.mp ht with rfl | ht
        · rfl
        · rw [List.mem_singleton.mp ht]
          rfl

end MsftTodo

namespace MsftTodo

/-! ## The machine theorem: `packEntry` realizes the output relation -/

mutual

/-- Running a value's tokens from idle produces the expected output and
returns to idle. -/
theorem peVRun (cfg : PEConfig) (f : Flags) (V : JVal)
    (vts : List JsonToken) (s : PEState)
    (h : ValueTokens f V vts) (hw : wfV V)
    (hps : s.packingState = .idle) (hbuf : s.keyTokenBuffer = [])
    (ha : AsmReady f cfg.sparseMode s.asm)
    (hkb : s.tracker.keyBuffer = none)
    (hsafe : PrevTrackSafe f s.tracker) :
    ∃ s2 out, peRun cfg s (vts.map .tok) = some (s2, out) ∧
      PEVOut cfg f (incrementIfHeadIsArray s.tracker).stack V vts out ∧
      s2.packingState = .idle ∧ s2.keyTokenBuffer = [] ∧
      AsmReady f cfg.sparseMode s2.asm ∧
      s2.tracker = List.foldl updateStack s.tracker (vts.map .tok) := by
  cases V with
  | jnull =>
      simp only [ValueTokens] at h
      subst h
      refine ⟨_, _, peIdleRunPass cfg s _ hps ?_, ⟨rfl, rfl⟩, hps, hbuf, ha,
        rfl⟩
      intro t ht
      rw [List.mem_singleton.mp ht]
      rfl
  | jbool b =>
      cases b <;> simp only [ValueTokens] at h <;> subst h
      · refine ⟨_, _, peIdleRunPass cfg s _ hps ?_, ⟨rfl, rfl⟩, hps, hbuf,
          ha, rfl⟩
        intro t ht
        rw [List.mem_singleton.mp ht]
        rfl
      · refine ⟨_, _, peIdleRunPass cfg s _ hps ?_, ⟨rfl, rfl⟩, hps, hbuf,
          ha, rfl⟩
        intro t ht
        rw [List.mem_singleton.mp ht]
        rfl
  | jstr v =>
      simp only [ValueTokens] at h
      exact ⟨_, _, peIdleRunPass cfg s _ hps (strTokens_not_key _ v _ h),
        ⟨h, rfl⟩, hps, hbuf, ha, rfl⟩
  | jnum v =>
      simp only [ValueTokens] at h
      exact ⟨_, _, peIdleRunPass cfg s _ hps (numTokens_not_key _ v _ h),
        ⟨h, rfl⟩, hps, hbuf, ha, rfl⟩
  | jarr xs =>
      simp only [ValueTokens] at h
      obtain ⟨inner, hin, rfl⟩ := h
      simp only [wfV] at hw
      have hstep1 := peIdle_pass cfg s (.tok ⟨.startArray, ""⟩) hps rfl
      have htr1 : updateStack s.tracker (.tok ⟨.startArray, ""⟩)
          = { incrementIfHeadIsArray s.tracker with
                stack := .idx (-1) :: (incrementIfHeadIsArray s.tracker).stack,
                previousToken := some (.tok ⟨.startArray, ""⟩) } := by
        simp [updateStack, updateStackStructure, updateStackIncrement]
      have hrecl := peElemsRun cfg f xs inner
        ({ s with tracker := updateStack s.tracker (.tok ⟨.startArray, ""⟩) })
        (-1) (incrementIfHeadIsArray s.tracker).stack hin hw hps hbuf ha
        (by
          show (updateStack s.tracker (.tok ⟨.startArray, ""⟩)).keyBuffer
            = none
          rw [htr1]
          simp [incr_keyBuffer, hkb])
        (by
          show PrevTrackSafe f (updateStack s.tracker (.tok ⟨.startArray, ""⟩))
          exact prevTrackSafe_of_prev f _ .startArray ""
            (by rw [htr1]) (by simp) (by simp))
        (by
          show (updateStack s.tracker (.tok ⟨.startArray, ""⟩)).stack = _
          rw [htr1])
      obtain ⟨s2, oute, hrune, hpeoe, hips2, hbuf2, ha2, htre2⟩ := hrecl
      have hstep3 := peIdle_pass cfg s2 (.tok ⟨.endArray, ""⟩) hips2 rfl
      have hrun3 : peRun cfg s2 [Chunk.tok ⟨.endArray, ""⟩]
          = some ({ s2 with
                tracker := updateStack s2.tracker (.tok ⟨.endArray, ""⟩) },
              [Chunk.tok ⟨.endArray, ""⟩]) := by
        rw [peRun, hstep3]
        simp [peRun]
      have hcomb1 := peRun_append_some cfg _ (inner.map .tok)
        [Chunk.tok ⟨.endArray, ""⟩] _ _ _ _ hrune hrun3
      have hcomb := peStepCons cfg s (Chunk.tok ⟨.startArray, ""⟩) _ _ _ _ _
        hstep1 hcomb1
      simp only [List.map_cons, List.map_append, List.map_nil]
      refine ⟨_, _, hcomb, ⟨inner, oute, hpeoe, rfl, by simp⟩, hips2, hbuf2,
        ha2, ?_⟩
      show updateStack s2.tracker (.tok ⟨.endArray, ""⟩) = _
      rw [htre2]
      simp
  | jobj es =>
      simp only [ValueTokens] at h
      obtain ⟨inner, hin, rfl⟩ := h
      simp only [wfV] at hw
      have hstep1 := peIdle_pass cfg s (.tok ⟨.startObject, ""⟩) hps rfl
      have htr1 : updateStack s.tracker (.tok ⟨.startObject, ""⟩)
          = { incrementIfHeadIsArray s.tracker with
                stack := .nul :: (incrementIfHeadIsArray s.tracker).stack,
                previousToken := some (.tok ⟨.startObject, ""⟩) } := by
        simp [updateStack, updateStackStructure, updateStackIncrement]
      have hrece := peEntriesRun cfg f es inner
        ({ s with tracker := updateStack s.tracker (.tok ⟨.startObject, ""⟩) })
        (incrementIfHeadIsArray s.tracker).stack .nul hin hw.2 hps hbuf ha
        (by
          show (updateStack s.tracker (.tok ⟨.startObject, ""⟩)).keyBuffer
            = none
          rw [htr1]
          simp [incr_keyBuffer, hkb])
        (by
          show PrevTrackSafe f
            (updateStack s.tracker (.tok ⟨.startObject, ""⟩))
          exact prevTrackSafe_of_prev f _ .startObject ""
            (by rw [htr1]) (by simp) (by simp))
        (by
          show (updateStack s.tracker (.tok ⟨.startObject, ""⟩)).stack = _
          rw [htr1])
      obtain ⟨s2, oute, eout, hrune, hacce, hpeoe, hore, hbufe2, hae2, htre2⟩ :=
        hrece
      have hrend : ∃ s3, peRun cfg s2 [Chunk.tok ⟨.endObject, ""⟩]
          = some (s3, pendChunks cfg s2 ++ [Chunk.tok ⟨.endObject, ""⟩]) ∧
          s3.packingState = .idle ∧ s3.keyTokenBuffer = [] ∧
          AsmReady f cfg.sparseMode s3.asm ∧
          s3.tracker = updateStack s2.tracker (.tok ⟨.endObject, ""⟩) := by
        rcases hore with hid | hpend
        · have hstep := peIdle_pass cfg s2 (.tok ⟨.endObject, ""⟩) hid rfl
          refine ⟨{ s2 with
              tracker := updateStack s2.tracker (.tok ⟨.endObject, ""⟩) },
            ?_, hid, hbufe2, hae2, rfl⟩
          rw [peRun, hstep]
          simp [peRun, pendChunks, hid]
        · have hnorm := peRun_finalizingValue cfg s2 (.tok ⟨.endObject, ""⟩)
            [] hpend rfl
          have hstep := peIdle_pass cfg ({ s2 with packingState := .idle })
            (.tok ⟨.endObject, ""⟩) rfl rfl
          refine ⟨{ s2 with
              tracker := updateStack s2.tracker (.tok ⟨.endObject, ""⟩),
              packingState := .idle },
            ?_, rfl, hbufe2, hae2, rfl⟩
          rw [hnorm]
          rw [peRun, hstep]
          simp [peRun, pendChunks, hpend]
      obtain ⟨s3, hrun3, hips3, hbuf3, ha3, htr3⟩ := hrend
      have hcomb1 := peRun_append_some cfg _ (inner.map .tok)
        [Chunk.tok ⟨.endObject, ""⟩] _ _ _ _ hrune hrun3
      have hcomb := peStepCons cfg s (Chunk.tok ⟨.startObject, ""⟩) _ _ _ _ _
        hstep1 hcomb1
      simp only [List.map_cons, List.map_append, List.map_nil]
      refine ⟨s3, _, hcomb,
        ⟨inner, eout, hpeoe, rfl, by rw [hacce]; simp [List.append_assoc]⟩,
        hips3, hbuf3, ha3, ?_⟩
      rw [htr3, htre2]
      simp

/-- Running consecutive array elements from idle. -/
theorem peElemsRun (cfg : PEConfig) (f : Flags) (xs : List JVal)
    (ts : List JsonToken) (s : PEState) (n : Int) (rest : List StackElem)
    (h : ElemsTokens f xs ts) (hw : wfL xs)
    (hps : s.packingState = .idle) (hbuf : s.keyTokenBuffer = [])
    (ha : AsmReady f cfg.sparseMode s.asm)
    (hkb : s.tracker.keyBuffer = none)
    (hsafe : PrevTrackSafe f s.tracker)
    (hst : s.tracker.stack = .idx n :: rest) :
    ∃ s2 out, peRun cfg s (ts.map .tok) = some (s2, out) ∧
      PEElemsOut cfg f n rest xs ts out ∧
      s2.packingState = .idle ∧ s2.keyTokenBuffer = [] ∧
      AsmReady f cfg.sparseMode s2.asm ∧
      s2.tracker = List.foldl updateStack s.tracker (ts.map .tok) := by
  cases xs with
  | nil =>
      simp only [ElemsTokens] at h
      subst h
      exact ⟨s, [], rfl, ⟨rfl, rfl⟩, hps, hbuf, ha, rfl⟩
  | cons x xs =>
      simp only [ElemsTokens] at h
      obtain ⟨ts1, ts2, hx, hxs, rfl⟩ := h
      simp only [wfL] at hw
      have hv := peVRun cfg f x ts1 s hx hw.1 hps hbuf ha hkb hsafe
      obtain ⟨sv, ov, hrunv, hpev, hipsv, hbufv, hav, htrv⟩ := hv
      rw [incr_stack_idx s.tracker n rest hst] at hpev
      obtain ⟨g1, g2, g3⟩ := trackV f x ts1 s.tracker hx hkb hsafe
      rw [incr_stack_idx s.tracker n rest hst] at g1
      have hrec := peElemsRun cfg f xs ts2 sv (n + 1) rest hxs hw.2 hipsv
        hbufv hav (by rw [htrv]; exact g2) (by rw [htrv]; exact g3)
        (by rw [htrv]; exact g1)
      obtain ⟨s2, o2, hrun2, hpeo2, hips2, hbuf2, ha2, htr2⟩ := hrec
      have hcomb := peRun_append_some cfg s (ts1.map .tok) (ts2.map .tok)
        _ _ _ _ hrunv hrun2
      simp only [List.map_append]
      refine ⟨_, _, hcomb, ⟨ts1, ov, ts2, o2, hpev, hpeo2, rfl, rfl⟩, hips2,
        hbuf2, ha2, ?_⟩
      rw [htr2, htrv]
      simp [List.foldl_append]

/-- Running consecutive object entries from idle: the output realizes the
entries relation once the end-of-entry token still pending in the final
state is appended. -/
theorem peEntriesRun (cfg : PEConfig) (f : Flags)
    (es : List (String × JVal)) (ts : List JsonToken) (s : PEState)
    (below : List StackElem) (h0 : StackElem)
    (h : EntriesTokens f es ts) (hw : wfE es)
    (hps : s.packingState = .idle) (hbuf : s.keyTokenBuffer = [])
    (ha : AsmReady f cfg.sparseMode s.asm)
    (hkb : s.tracker.keyBuffer = none)
    (hsafe : PrevTrackSafe f s.tracker)
    (hst : s.tracker.stack = h0 :: below) :
    ∃ s2 out eout, peRun cfg s (ts.map .tok) = some (s2, out) ∧
      eout = out ++ pendChunks cfg s2 ∧
      PEEntriesOut cfg f below es ts eout ∧
      (s2.packingState = .idle ∨ s2.packingState = .finalizingValue) ∧
      s2.keyTokenBuffer = [] ∧ AsmReady f cfg.sparseMode s2.asm ∧
      s2.tracker = List.foldl updateStack s.tracker (ts.map .tok) := by
  cases es with
  | nil =>
      simp only [EntriesTokens] at h
      subst h
      exact ⟨s, [], [], rfl, by simp [pendChunks, hps], ⟨rfl, rfl⟩,
        Or.inl hps, hbuf, ha, rfl⟩
  | cons e es =>
      obtain ⟨k, v⟩ := e
      simp only [EntriesTokens] at h
      obtain ⟨kts, vts, rest2, hkt, hvt, hes, rfl⟩ := h
      simp only [wfE] at hw
      have hkr := peKeyRun cfg f k kts s hkt hps hbuf ha hkb h0 below hst
      obtain ⟨sk, outk, hrunk, hktr, hkst, hkkb, hksafe, hka, hkmatch⟩ := hkr
      obtain ⟨c, csv, rfl, hcnkv⟩ := valueTokensHead f v vts hvt
      obtain ⟨gv1, gv2, gv3⟩ := trackV f v (c :: csv) sk.tracker hvt hkkb
        hksafe
      rw [incr_stack_key sk.tracker k below hkst, hkst] at gv1
      rcases hfind : cfg.keys.findIdx?
          (fun q => pathOf ((StackElem.key k :: below).reverse) = q) with _ | i
      · simp only [hfind] at hkmatch
        obtain ⟨hkidle, hkbuf0, hkout⟩ := hkmatch
        have hv := peVRun cfg f v (c :: csv) sk hvt hw.1 hkidle hkbuf0 hka
          hkkb hksafe
        obtain ⟨sv, ov, hrunv, hpev, hipsv, hbufv, hav, htrv⟩ := hv
        rw [incr_stack_key sk.tracker k below hkst, hkst] at hpev
        have hrec := peEntriesRun cfg f es rest2 sv below (.key k) hes hw.2
          hipsv hbufv hav (by rw [htrv]; exact gv2)
          (by rw [htrv]; exact gv3) (by rw [htrv]; exact gv1)
        obtain ⟨s2, o2, eout2, hrun2, heq2, hpeo2, hor2, hbuf2, ha2, htr2⟩ :=
          hrec
        have hcomb1 := peRun_append_some cfg sk ((c :: csv).map .tok)
          (rest2.map .tok) _ _ _ _ hrunv hrun2
        have hcomb := peRun_append_some cfg s (kts.map .tok)
          ((c :: csv).map .tok ++ rest2.map .tok) _ _ _ _ hrunk hcomb1
        simp only [List.map_append]
        refine ⟨s2, _, kts.map .tok ++ (ov ++ eout2), hcomb, ?_, ?_, hor2,
          hbuf2, ha2, ?_⟩
        · rw [hkout, heq2]
          simp [List.append_assoc]
        · refine ⟨kts, c :: csv, rest2, eout2, hkt, hvt, hpeo2, rfl, ?_⟩
          simp only [hfind]
          exact ⟨ov, hpev, rfl⟩
        · rw [htr2, htrv, hktr]
          simp [List.foldl_append]
      · simp only [hfind] at hkmatch
        obtain ⟨hkbase, hkalt⟩ := hkmatch
        have hval : ∃ sv ovAll,
            peRun cfg sk ((c :: csv).map .tok) = some (sv, ovAll) ∧
            outk ++ (ovAll ++ pendChunks cfg sv)
              = keyFlush cfg
                  ⟨k, (StackElem.key k :: below).reverse, i, cfg.owner⟩
                  (kts.map .tok)
                ++ matchedValOut cfg
                  ⟨k, (StackElem.key k :: below).reverse, i, cfg.owner⟩
                  (c :: csv) v ∧
            (sv.packingState = .idle ∨ sv.packingState = .finalizingValue) ∧
            sv.keyTokenBuffer = [] ∧ AsmReady f cfg.sparseMode sv.asm ∧
            sv.tracker = List.foldl updateStack sk.tracker
              ((c :: csv).map .tok) := by
          rcases hkalt with ⟨hkfin, hkout0, hkbufk⟩ |
            ⟨hkpv, hksaw, hkbufe, hkoutflush⟩
          · have hkvf : isKeyValueChunk (Chunk.tok c) = false := by
              simp [isKeyValueChunk, hcnkv]
            have hmv := peMatchedValue cfg f v (c :: csv) ({ sk with
                keyTokenBuffer := [], sawFirstValueChunk := false,
                packingState := .packingValue }) hvt hw.1 rfl rfl rfl hka
            obtain ⟨sv, ov, hrunv0, hovp, hipsv, hbufv, hbasev, hav, htrv⟩ :=
              hmv
            simp only [] at hrunv0 hovp htrv
            rw [hkbase] at hovp
            have hnorm := peRun_finalizingKey cfg sk (Chunk.tok c)
              (csv.map .tok) hkfin hkvf
            have hrunv : peRun cfg sk (Chunk.tok c :: csv.map Chunk.tok)
                = some (sv,
                    keyFlush cfg sk.entryTokenBase sk.keyTokenBuffer ++ ov) := by
              rw [hnorm]
              rw [show (Chunk.tok c :: csv.map Chunk.tok)
                = (c :: csv).map Chunk.tok from rfl]
              rw [hrunv0]
            refine ⟨sv, keyFlush cfg sk.entryTokenBase sk.keyTokenBuffer ++ ov,
              hrunv, ?_, hipsv, hbufv, hav, htrv⟩
            rw [hkout0, hkbufk, hkbase]
            simp [List.append_assoc, hovp]
          · have hmv := peMatchedValue cfg f v (c :: csv) sk hvt hw.1 hkpv
              hksaw hkbufe hka
            obtain ⟨sv, ov, hrunv0, hovp, hipsv, hbufv, hbasev, hav, htrv⟩ :=
              hmv
            rw [hkbase] at hovp
            refine ⟨sv, ov, hrunv0, ?_, hipsv, hbufv, hav, htrv⟩
            rw [hkoutflush]
            simp [List.append_assoc, hovp]
        obtain ⟨sv, ovAll, hrunv, hacc, horsv, hbufv, hav, htrv⟩ := hval
        have hrest : ∃ s2 orest eout2,
            peRun cfg sv (rest2.map .tok) = some (s2, orest) ∧
            pendChunks cfg sv ++ eout2 = orest ++ pendChunks cfg s2 ∧
            PEEntriesOut cfg f below es rest2 eout2 ∧
            (s2.packingState = .idle ∨ s2.packingState = .finalizingValue) ∧
            s2.keyTokenBuffer = [] ∧ AsmReady f cfg.sparseMode s2.asm ∧
            s2.tracker = List.foldl updateStack sv.tracker
              (rest2.map .tok) := by
          rcases horsv with hsvidle | hsvpend
          · have hrec := peEntriesRun cfg f es rest2 sv below (.key k) hes
              hw.2 hsvidle hbufv hav (by rw [htrv]; exact gv2)
              (by rw [htrv]; exact gv3) (by rw [htrv]; exact gv1)
            obtain ⟨s2, o2, eout2, hrun2, heq2, hpeo2, hor2, hbuf2, ha2,
              htr2⟩ := hrec
            refine ⟨s2, o2, eout2, hrun2, ?_, hpeo2, hor2, hbuf2, ha2, htr2⟩
            simp [pendChunks, hsvidle, heq2]
          · cases es with
            | nil =>
                simp only [EntriesTokens] at hes
                subst hes
                exact ⟨sv, [], [], rfl, by simp, ⟨rfl, rfl⟩, Or.inr hsvpend,
                  hbufv, hav, rfl⟩
            | cons e2 es2 =>
                obtain ⟨k2, v2⟩ := e2
                simp only [EntriesTokens] at hes
                obtain ⟨kts2, vts2, rest3, hkt2, hvt2, hes3, rfl⟩ := hes
                obtain ⟨c2, cs2, rfl, hc2⟩ := keyTokensHead f.keys k2 kts2
                  hkt2
                have hc2nv : isOurValueChunk (Chunk.tok c2) = false := by
                  rcases hc2 with h2 | h2 <;> simp [isOurValueChunk, h2]
                have hnorm2 := peRun_finalizingValue cfg sv (Chunk.tok c2)
                  (cs2.map .tok ++ (vts2.map .tok ++ rest3.map .tok)) hsvpend
                  hc2nv
                have hrec := peEntriesRun cfg f ((k2, v2) :: es2)
                  ((c2 :: cs2) ++ (vts2 ++ rest3))
                  ({ sv with packingState := .idle }) below (.key k)
                  ⟨c2 :: cs2, vts2, rest3, hkt2, hvt2, hes3, rfl⟩ hw.2 rfl
                  hbufv hav
                  (by
                    show sv.tracker.keyBuffer = none
                    rw [htrv]
                    exact gv2)
                  (by
                    show PrevTrackSafe f sv.tracker
                    rw [htrv]
                    exact gv3)
                  (by
                    show sv.tracker.stack = _
                    rw [htrv]
                    exact gv1)
                obtain ⟨s2, o2, eout2, hrun2, heq2, hpeo2, hor2, hbuf2, ha2,
                  htr2⟩ := hrec
                simp only [List.map_cons, List.map_append, List.cons_append]
                  at hrun2
                refine ⟨s2, finalValueTok cfg sv :: o2, eout2, ?_, ?_, hpeo2,
                  hor2, hbuf2, ha2, ?_⟩
                · simp only [List.map_cons, List.map_append, List.cons_append]
                  rw [hnorm2, hrun2]
                · simp [pendChunks, hsvpend, heq2]
                · exact htr2
        obtain ⟨s2, orest, eout2, hrunrest, haccr, hpeo2, hor2, hbuf2, ha2,
          htr2⟩ := hrest
        have hcomb1 := peRun_append_some cfg sk ((c :: csv).map .tok)
          (rest2.map .tok) _ _ _ _ hrunv hrunrest
        have hcomb := peRun_append_some cfg s (kts.map .tok)
          ((c :: csv).map .tok ++ rest2.map .tok) _ _ _ _ hrunk hcomb1
        simp only [List.map_append]
        refine ⟨s2, _,
          keyFlush cfg ⟨k, (StackElem.key k :: below).reverse, i, cfg.owner⟩
              (kts.map .tok)
            ++ (matchedValOut cfg
              ⟨k, (StackElem.key k :: below).reverse, i, cfg.owner⟩
              (c :: csv) v ++ eout2),
          hcomb, ?_, ?_, hor2, hbuf2, ha2, ?_⟩
        · have hx := congrArg (fun l => l ++ eout2) hacc
          simp only [List.append_assoc] at hx
          simp only [List.append_assoc]
          rw [← haccr]
          exact hx.symm
        · refine ⟨kts, c :: csv, rest2, eout2, hkt, hvt, hpeo2, rfl, ?_⟩
          simp only [hfind]
        · rw [htr2, htrv, hktr]
          simp [List.foldl_append]

end

end MsftTodo

namespace MsftTodo

/-! ## Claim C2, amended -/

theorem asmReady_init (f : Flags) (sp : Bool) : AsmReady f sp (initFA sp) :=
  ⟨rfl, rfl, rfl, rfl, fun _ => rfl, prevSafeV_none f⟩

theorem prevTrackSafe_init (f : Flags) :
    PrevTrackSafe f ({} : TrackerState) :=
  ⟨fun _ => by simp [prevTokName], fun _ => by simp [prevTokName]⟩

/-- Claim C2, amended: for a well-formed root value under one lexer
configuration, the `packEntry` machine runs without error and its output is
exactly the `PEVOut` relation — in which every entry matched while the
machine is idle contributes its (bracketed) key tokens followed by its value
tokens followed by the `packedEntry` token, i.e. the `packedEntry` token is
emitted immediately after the final token of that entry's value (after any
`endX` token and any trailing packed duplicate) and no other token of the
entry follows it; entries nested inside an already-matched entry's value are
consumed into that entry's packed value and get no `packedEntry` token of
their own. -/
theorem C2_packed_entry_amended (cfg : PEConfig) (f : Flags) (V : JVal)
    (vts : List JsonToken) (h : ValueTokens f V vts) (hw : wfV V) :
    ∃ s2 out, peRun cfg (initPE cfg) (vts.map .tok) = some (s2, out) ∧
      PEVOut cfg f [] V vts out ∧ s2.packingState = .idle := by
  obtain ⟨s2, out, hrun, hpev, hips, _, _, _⟩ :=
    peVRun cfg f V vts (initPE cfg) h hw rfl rfl
      (asmReady_init f cfg.sparseMode) rfl (prevTrackSafe_init f)
  exact ⟨s2, out, hrun, hpev, hips⟩

/-- The tokens of `{"name":"x"}` under the all-packed configuration. -/
theorem C2_packed_entry_amended_witness :
    ∃ s2 out,
      peRun ⟨["name"], false, some 0, false⟩
          (initPE ⟨["name"], false, some 0, false⟩)
          ([⟨.startObject, ""⟩, ⟨.keyValue, "name"⟩, ⟨.stringValue, "x"⟩,
            ⟨.endObject, ""⟩].map .tok) = some (s2, out) ∧
      PEVOut ⟨["name"], false, some 0, false⟩ fPacked []
        (.jobj [("name", .jstr "x")])
        [⟨.startObject, ""⟩, ⟨.keyValue, "name"⟩, ⟨.stringValue, "x"⟩,
         ⟨.endObject, ""⟩] out ∧
      s2.packingState = .idle :=
  C2_packed_entry_amended ⟨["name"], false, some 0, false⟩ fPacked
    (.jobj [("name", .jstr "x")])
    [⟨.startObject, ""⟩, ⟨.keyValue, "name"⟩, ⟨.stringValue, "x"⟩,
     ⟨.endObject, ""⟩]
    ⟨[⟨.keyValue, "name"⟩, ⟨.stringValue, "x"⟩],
     ⟨[⟨.keyValue, "name"⟩], [⟨.stringValue, "x"⟩], [], rfl, rfl, rfl, rfl⟩,
     rfl⟩
    ⟨by simp, trivial, trivial⟩

end MsftTodo

namespace MsftTodo

/-! ## Claim C4, amended -/

mutual

/-- The expected `omitEntry` output for a value: matched entries (key and
value tokens alike, nested content included) vanish; everything else passes
through in order. -/
def OmitVOut (K : List String) (f : Flags) (st : List StackElem) :
    JVal → List JsonToken → List Chunk → Prop
  | .jnull, ts, out => ts = [⟨.nullValue, ""⟩] ∧ out = ts.map .tok
  | .jbool true, ts, out => ts = [⟨.trueValue, ""⟩] ∧ out = ts.map .tok
  | .jbool false, ts, out => ts = [⟨.falseValue, ""⟩] ∧ out = ts.map .tok
  | .jstr v, ts, out => StrTokens f.strings v ts ∧ out = ts.map .tok
  | .jnum v, ts, out => NumTokens f.numbers v ts ∧ out = ts.map .tok
  | .jarr xs, ts, out => ∃ inner iout,
      OmitElemsOut K f (-1) st xs inner iout ∧
      ts = ⟨.startArray, ""⟩ :: (inner ++ [⟨.endArray, ""⟩]) ∧
      out = .tok ⟨.startArray, ""⟩ :: (iout ++ [.tok ⟨.endArray, ""⟩])
  | .jobj es, ts, out => ∃ inner iout,
      OmitEntriesOut K f st es inner iout ∧
      ts = ⟨.startObject, ""⟩ :: (inner ++ [⟨.endObject, ""⟩]) ∧
      out = .tok ⟨.startObject, ""⟩ :: (iout ++ [.tok ⟨.endObject, ""⟩])

/-- Expected `omitEntry` output of consecutive array elements. -/
def OmitElemsOut (K : List String) (f : Flags) (n : Int)
    (st : List StackElem) : List JVal → List JsonToken → List Chunk → Prop
  | [], ts, out => ts = [] ∧ out = []
  | x :: xs, ts, out => ∃ ts1 o1 ts2 o2,
      OmitVOut K f (.idx (n + 1) :: st) x ts1 o1 ∧
      OmitElemsOut K f (n + 1) st xs ts2 o2 ∧
      ts = ts1 ++ ts2 ∧ out = o1 ++ o2

/-- Expected `omitEntry` output of consecutive object entries: an entry
whose key path matches a configured key contributes nothing at all. -/
def OmitEntriesOut (K : List String) (f : Flags) (below : List StackElem) :
    List (String × JVal) → List JsonToken → List Chunk → Prop
  | [], ts, out => ts = [] ∧ out = []
  | (k, v) :: es, ts, out => ∃ kts vts rest2 o2,
      KeyTokens f.keys k kts ∧ ValueTokens f v vts ∧
      OmitEntriesOut K f below es rest2 o2 ∧
      ts = kts ++ (vts ++ rest2) ∧
      (match K.findIdx?
          (fun q => pathOf ((StackElem.key k :: below).reverse) = q) with
       | some _ => out = o2
       | none => ∃ vout,
          OmitVOut K f (.key k :: below) v vts vout ∧
          out = kts.map .tok ++ (vout ++ o2))

end

theorem omitKeep_tok (o : Owner) (t : JsonToken) :
    omitKeep o (.tok t) = true := rfl

theorem filter_omitKeep_toks (o : Owner) (ts : List JsonToken) :
    (ts.map Chunk.tok).filter (omitKeep o) = ts.map Chunk.tok := by
  rw [List.filter_eq_self]
  intro c hc
  obtain ⟨t, _, rfl⟩ := List.mem_map.mp hc
  rfl

mutual

/-- Filtering `packEntry`'s sparse discarding output by the owner filter
yields the omit relation: every matched entry's four owned bracket chunks
are dropped, everything else is an ordinary token and survives. -/
theorem omitFilterV (K : List String) (o : Owner) (f : Flags)
    (st : List StackElem) (V : JVal) (ts : List JsonToken)
    (mout : List Chunk)
    (h : PEVOut ⟨K, true, o, true⟩ f st V ts mout) :
    OmitVOut K f st V ts (mout.filter (omitKeep o)) := by
  cases V with
  | jnull =>
      obtain ⟨h1, rfl⟩ := h
      exact ⟨h1, filter_omitKeep_toks o ts⟩
  | jbool b =>
      cases b with
      | true =>
          obtain ⟨h1, rfl⟩ := h
          exact ⟨h1, filter_omitKeep_toks o ts⟩
      | false =>
          obtain ⟨h1, rfl⟩ := h
          exact ⟨h1, filter_omitKeep_toks o ts⟩
  | jstr v =>
      obtain ⟨h1, rfl⟩ := h
      exact ⟨h1, filter_omitKeep_toks o ts⟩
  | jnum v =>
      obtain ⟨h1, rfl⟩ := h
      exact ⟨h1, filter_omitKeep_toks o ts⟩
  | jarr xs =>
      obtain ⟨inner, iout, hin, rfl, rfl⟩ := h
      refine ⟨inner, iout.filter (omitKeep o),
        omitFilterElems K o f st (-1) xs inner iout hin, rfl, ?_⟩
      simp [List.filter_append, filter_omitKeep_toks, omitKeep_tok,
        List.filter_cons]
  | jobj es =>
      obtain ⟨inner, iout, hin, rfl, rfl⟩ := h
      refine ⟨inner, iout.filter (omitKeep o),
        omitFilterEntries K o f st es inner iout hin, rfl, ?_⟩
      simp [List.filter_append, filter_omitKeep_toks, omitKeep_tok,
        List.filter_cons]

theorem omitFilterElems (K : List String) (o : Owner) (f : Flags)
    (st : List StackElem) (n : Int) (xs : List JVal)
    (ts : List JsonToken) (mout : List Chunk)
    (h : PEElemsOut ⟨K, true, o, true⟩ f n st xs ts mout) :
    OmitElemsOut K f n st xs ts (mout.filter (omitKeep o)) := by
  cases xs with
  | nil =>
      obtain ⟨rfl, rfl⟩ := h
      exact ⟨rfl, rfl⟩
  | cons x xs =>
      obtain ⟨ts1, o1, ts2, o2, hx, hxs, rfl, rfl⟩ := h
      exact ⟨ts1, o1.filter (omitKeep o), ts2, o2.filter (omitKeep o),
        omitFilterV K o f _ x ts1 o1 hx,
        omitFilterElems K o f st (n + 1) xs ts2 o2 hxs, rfl,
        List.filter_append _ _⟩

theorem omitFilterEntries (K : List String) (o : Owner) (f : Flags)
    (below : List StackElem) (es : List (String × JVal))
    (ts : List JsonToken) (mout : List Chunk)
    (h : PEEntriesOut ⟨K, true, o, true⟩ f below es ts mout) :
    OmitEntriesOut K f below es ts (mout.filter (omitKeep o)) := by
  cases es with
  | nil =>
      obtain ⟨rfl, rfl⟩ := h
      exact ⟨rfl, rfl⟩
  | cons e es =>
      obtain ⟨k, v⟩ := e
      obtain ⟨kts, vts, rest2, o2, hkt, hvt, hes, rfl, hm⟩ := h
      refine ⟨kts, vts, rest2, o2.filter (omitKeep o), hkt, hvt,
        omitFilterEntries K o f below es rest2 o2 hes, rfl, ?_⟩
      rcases hfind : (⟨K, true, o, true⟩ : PEConfig).keys.findIdx?
          (fun q => pathOf ((StackElem.key k :: below).reverse) = q)
        with _ | i
      · rw [hfind] at hm
        obtain ⟨vout, hv, rfl⟩ := hm
        exact ⟨vout.filter (omitKeep o),
          omitFilterV K o f _ v vts vout hv, by
            simp [List.filter_append, filter_omitKeep_toks]⟩
      · rw [hfind] at hm
        subst hm
        simp [keyFlush, matchedValOut, List.filter_append, List.filter_cons,
          omitKeep, isSynthetic, chunkOwner]

end

/-- Claim C4, amended: `omitEntry` removes every token of every entry whose
joined key path matches a configured key — key tokens, value tokens, and
the entry's entire nested content, so entries nested inside a matched entry
disappear too even when their own paths match nothing — and every token not
belonging to some matched entry passes through unchanged and in order, as
stated by the `OmitVOut` relation. -/
theorem C4_omit_entry_amended (K : List String) (o : Owner) (f : Flags)
    (V : JVal) (vts : List JsonToken) (h : ValueTokens f V vts)
    (hw : wfV V) :
    ∃ out, omitEntryRun K o (vts.map .tok) = some out ∧
      OmitVOut K f [] V vts out := by
  obtain ⟨s2, mo, hrun, hpev, _, _, _, _⟩ :=
    peVRun ⟨K, true, o, true⟩ f V vts (initPE ⟨K, true, o, true⟩) h hw rfl
      rfl (asmReady_init f true) rfl (prevTrackSafe_init f)
  refine ⟨mo.filter (omitKeep o), ?_, ?_⟩
  · unfold omitEntryRun
    rw [hrun]
  · exact omitFilterV K o f [] V vts mo hpev

/-- `{"a":1,"b":"two"}` with `omitEntry("a")`. -/
theorem C4_omit_entry_amended_witness :
    ∃ out,
      omitEntryRun ["a"] (some 0)
          ([⟨.startObject, ""⟩, ⟨.keyValue, "a"⟩, ⟨.numberValue, "1"⟩,
            ⟨.keyValue, "b"⟩, ⟨.stringValue, "two"⟩,
            ⟨.endObject, ""⟩].map .tok) = some out ∧
      OmitVOut ["a"] fPacked []
        (.jobj [("a", .jnum "1"), ("b", .jstr "two")])
        [⟨.startObject, ""⟩, ⟨.keyValue, "a"⟩, ⟨.numberValue, "1"⟩,
         ⟨.keyValue, "b"⟩, ⟨.stringValue, "two"⟩, ⟨.endObject, ""⟩] out :=
  C4_omit_entry_amended ["a"] (some 0) fPacked
    (.jobj [("a", .jnum "1"), ("b", .jstr "two")])
    [⟨.startObject, ""⟩, ⟨.keyValue, "a"⟩, ⟨.numberValue, "1"⟩,
     ⟨.keyValue, "b"⟩, ⟨.stringValue, "two"⟩, ⟨.endObject, ""⟩]
    ⟨[⟨.keyValue, "a"⟩, ⟨.numberValue, "1"⟩, ⟨.keyValue, "b"⟩,
      ⟨.stringValue, "two"⟩],
     ⟨[⟨.keyValue, "a"⟩], [⟨.numberValue, "1"⟩],
      [⟨.keyValue, "b"⟩, ⟨.stringValue, "two"⟩], rfl, rfl,
      ⟨[⟨.keyValue, "b"⟩], [⟨.stringValue, "two"⟩], [], rfl, rfl, rfl, rfl⟩,
      rfl⟩,
     rfl⟩
    ⟨by simp, trivial, trivial, trivial⟩

end MsftTodo

namespace MsftTodo

/-! ## Claim C5, amended -/

/-- Scalar (non-container) JSON values. -/
def scalarJ : JVal → Prop
  | .jarr _ => False
  | .jobj _ => False
  | _ => True

/-- A scalar value's tokens contain no `endObject`. -/
theorem scalarTokens_no_endObject (f : Flags) (v : JVal)
    (ts : List JsonToken) (hs : scalarJ v) (h : ValueTokens f v ts) :
    ∀ t ∈ ts, t.name ≠ TokName.endObject := by
  cases v with
  | jarr xs => exact absurd hs (by simp [scalarJ])
  | jobj es => exact absurd hs (by simp [scalarJ])
  | jnull =>
      simp only [ValueTokens] at h
      subst h
      intro t ht
      rw [List.mem_singleton.mp ht]
      simp
  | jbool b =>
      cases b <;> simp only [ValueTokens] at h <;> subst h <;>
        intro t ht <;> rw [List.mem_singleton.mp ht] <;> simp
  | jstr v =>
      simp only [ValueTokens] at h
      cases hm : f.strings <;> rw [hm] at h <;> simp only [StrTokens] at h
      · obtain ⟨cs, _, rfl⟩ := h
        intro t ht
        rcases List.mem_cons.mp ht with rfl | ht
        · simp
        · rcases List.mem_append.mp ht with ht | ht
          · obtain ⟨c, _, rfl⟩ := List.mem_map.mp ht
            simp
          · rw [List.mem_singleton.mp ht]
            simp
      · subst h
        intro t ht
        rw [List.mem_singleton.mp ht]
        simp
      · obtain ⟨cs, _, rfl⟩ := h
        intro t ht
        rcases List.mem_cons.mp ht with rfl | ht
        · simp
        · rcases List.mem_append.mp ht with ht | ht
          · obtain ⟨c, _, rfl⟩ := List.mem_map.mp ht
            simp
          · rcases List.mem_cons.mp ht with rfl | ht
            · simp
            · rw [List.mem_singleton.mp ht]
              simp
  | jnum v =>
      simp only [ValueTokens] at h
      cases hm : f.numbers <;> rw [hm] at h <;> simp only [NumTokens] at h
      · obtain ⟨cs, _, rfl⟩ := h
        intro t ht
        rcases List.mem_cons.mp ht with rfl | ht
        · simp
        · rcases List.mem_append.mp ht with ht | ht
          · obtain ⟨c, _, rfl⟩ := List.mem_map.mp ht
            simp
          · rw [List.mem_singleton.mp ht]
            simp
      · subst h
        intro t ht
        rw [List.mem_singleton.mp ht]
        simp
      · obtain ⟨cs, _, rfl⟩ := h
        intro t ht
        rcases List.mem_cons.mp ht with rfl | ht
        · simp
        · rcases List.mem_append.mp ht with ht | ht
          · obtain ⟨c, _, rfl⟩ := List.mem_map.mp ht
            simp
          · rcases List.mem_cons.mp ht with rfl | ht
            · simp
            · rw [List.mem_singleton.mp ht]
              simp

/-- A key's tokens contain no `endObject`. -/
theorem keyTokens_no_endObject (m : TokMode) (k : String)
    (kts : List JsonToken) (h : KeyTokens m k kts) :
    ∀ t ∈ kts, t.name ≠ TokName.endObject := by
  cases m <;> simp only [KeyTokens] at h
  · obtain ⟨cs, _, rfl⟩ := h
    intro t ht
    rcases List.mem_cons.mp ht with rfl | ht
    · simp
    · rcases List.mem_append.mp ht with ht | ht
      · obtain ⟨c, _, rfl⟩ := List.mem_map.mp ht
        simp
      · rw [List.mem_singleton.mp ht]
        simp
  · subst h
    intro t ht
    rw [List.mem_singleton.mp ht]
    simp
  · obtain ⟨cs, _, rfl⟩ := h
    intro t ht
    rcases List.mem_cons.mp ht with rfl | ht
    · simp
    · rcases List.mem_append.mp ht with ht | ht
      · obtain ⟨c, _, rfl⟩ := List.mem_map.mp ht
        simp
      · rcases List.mem_cons.mp ht with rfl | ht
        · simp
        · rw [List.mem_singleton.mp ht]
          simp

/-- The entry tokens of a flat object contain no `endObject`. -/
theorem flatEntries_no_endObject (f : Flags) (es : List (String × JVal))
    (ts : List JsonToken) (h : EntriesTokens f es ts)
    (hflat : ∀ e ∈ es, scalarJ e.2) :
    ∀ t ∈ ts, t.name ≠ TokName.endObject := by
  induction es generalizing ts with
  | nil =>
      simp only [EntriesTokens] at h
      subst h
      intro t ht
      simp at ht
  | cons e es ih =>
      obtain ⟨k, v⟩ := e
      simp only [EntriesTokens] at h
      obtain ⟨kts, vts, rest2, hkt, hvt, hes, rfl⟩ := h
      intro t ht
      rcases List.mem_append.mp ht with ht | ht
      · exact keyTokens_no_endObject f.keys k kts hkt t ht
      · rcases List.mem_append.mp ht with ht | ht
        · exact scalarTokens_no_endObject f v vts
            (hflat (k, v) (by simp)) hvt t ht
        · exact ih rest2 hes (fun e he => hflat e (by simp [he])) t ht

end MsftTodo

namespace MsftTodo

theorem omitVOut_scalar (K : List String) (f : Flags) (st : List StackElem)
    (v : JVal) (ts : List JsonToken) (out : List Chunk) (hs : scalarJ v)
    (h : OmitVOut K f st v ts out) : out = ts.map .tok := by
  cases v with
  | jarr xs => exact absurd hs (by simp [scalarJ])
  | jobj es => exact absurd hs (by simp [scalarJ])
  | jnull => exact h.2
  | jbool b => cases b <;> exact h.2
  | jstr v => exact h.2
  | jnum v => exact h.2

/-- For a flat object, the omit output is itself the tokenization of the
object with the matching entries deleted. -/
theorem omitFlatEntries (K : List String) (f : Flags)
    (es : List (String × JVal)) (ts : List JsonToken) (out : List Chunk)
    (h : OmitEntriesOut K f [] es ts out)
    (hflat : ∀ e ∈ es, scalarJ e.2) :
    ∃ inner2, out = inner2.map .tok ∧
      EntriesTokens f (es.filter (fun e =>
        (K.findIdx? (fun q => pathOf [StackElem.key e.1] = q)).isNone))
        inner2 := by
  induction es generalizing ts out with
  | nil =>
      obtain ⟨rfl, rfl⟩ := h
      exact ⟨[], rfl, rfl⟩
  | cons e es ih =>
      obtain ⟨k, v⟩ := e
      obtain ⟨kts, vts, rest2, o2, hkt, hvt, hes, rfl, hm⟩ := h
      simp only [List.reverse_cons, List.reverse_nil, List.nil_append] at hm
      obtain ⟨inner2, rfl, hent⟩ := ih rest2 o2 hes
        (fun e he => hflat e (by simp [he]))
      rcases hfind : K.findIdx? (fun q => pathOf [StackElem.key k] = q)
        with _ | i
      · rw [hfind] at hm
        obtain ⟨vout, hv, rfl⟩ := hm
        have hvs := omitVOut_scalar K f _ v vts vout
          (hflat (k, v) (by simp)) hv
        subst hvs
        refine ⟨kts ++ (vts ++ inner2), by simp, ?_⟩
        have hfilter : ((k, v) :: es).filter (fun e =>
            (K.findIdx? (fun q => pathOf [StackElem.key e.1] = q)).isNone)
            = (k, v) :: es.filter (fun e =>
              (K.findIdx? (fun q => pathOf [StackElem.key e.1] = q)).isNone) := by
          simp [List.filter_cons, hfind]
        rw [hfilter]
        exact ⟨kts, vts, inner2, hkt, hvt, hent, rfl⟩
      · rw [hfind] at hm
        subst hm
        refine ⟨inner2, rfl, ?_⟩
        have hfilter : ((k, v) :: es).filter (fun e =>
            (K.findIdx? (fun q => pathOf [StackElem.key e.1] = q)).isNone)
            = es.filter (fun e =>
              (K.findIdx? (fun q => pathOf [StackElem.key e.1] = q)).isNone) := by
          simp [List.filter_cons, hfind]
        rw [hfilter]
        exact hent

/-- While waiting for its object's end, the injection stream passes any
non-`endObject` chunk through unchanged. -/
theorem injStepPass (ip : Option String) (key : String) (sk pk : Bool)
    (ivts : List JsonToken) (w : List StackElem) (tr : TrackerState)
    (c : Chunk)
    (hc : (match c with
      | Chunk.tok t => t.name = TokName.endObject
      | _ => false) = false) :
    injStep ip key sk pk ivts ⟨tr, some w⟩ c
      = (⟨updateStack tr c, some w⟩, [c]) := by
  simp [injStep, hc]

theorem injPassThen (ip : Option String) (key : String) (sk pk : Bool)
    (ivts : List JsonToken) (w : List StackElem) (tr : TrackerState)
    (cs b : List Chunk)
    (hcs : ∀ c ∈ cs, (match c with
      | Chunk.tok t => t.name = TokName.endObject
      | _ => false) = false) :
    injRun ip key sk pk ivts ⟨tr, some w⟩ (cs ++ b)
      = ((injRun ip key sk pk ivts
            ⟨List.foldl updateStack tr cs, some w⟩ b).1,
         cs ++ (injRun ip key sk pk ivts
            ⟨List.foldl updateStack tr cs, some w⟩ b).2) := by
  induction cs generalizing tr with
  | nil => simp
  | cons c cs ih =>
      have hstep := injStepPass ip key sk pk ivts w tr c (hcs c (by simp))
      simp only [List.cons_append, injRun, hstep, List.append_eq]
      rw [ih (updateStack tr c) (fun c2 hc2 => hcs c2 (by simp [hc2]))]
      simp

/-- The injection stream on one root object (with no inner `endObject`):
the injected key and value tokens are spliced in just before the closing
`endObject`. -/
theorem injRootObject (key : String) (ivts : List JsonToken)
    (inner2 : List JsonToken) (h1 : StackElem)
    (hne : ∀ t ∈ inner2, t.name ≠ TokName.endObject)
    (hstk : (List.foldl updateStack
        (updateStack ({} : TrackerState) (.tok ⟨.startObject, ""⟩))
        (inner2.map .tok)).stack = [h1]) :
    (injRun none key true true ivts ⟨{}, none⟩
        (.tok ⟨.startObject, ""⟩ :: (inner2.map .tok
          ++ [.tok ⟨.endObject, ""⟩]))).2
      = .tok ⟨.startObject, ""⟩ :: (inner2.map .tok ++
          (([(⟨.startKey, ""⟩ : JsonToken), ⟨.stringChunk, key⟩,
            ⟨.endKey, ""⟩, ⟨.keyValue, key⟩] ++ ivts).map Chunk.tok
            ++ [.tok ⟨.endObject, ""⟩])) := by
  have hstep1 : injStep none key true true ivts ⟨{}, none⟩
      (.tok ⟨.startObject, ""⟩)
      = (⟨updateStack {} (.tok ⟨.startObject, ""⟩), some []⟩,
        [.tok ⟨.startObject, ""⟩]) := by
    rfl
  have hcs : ∀ c ∈ inner2.map Chunk.tok, (match c with
      | Chunk.tok t => t.name = TokName.endObject
      | _ => false) = false := by
    intro c hc
    obtain ⟨t, ht, rfl⟩ := List.mem_map.mp hc
    simp [hne t ht]
  have hmid := injPassThen none key true true ivts []
    (updateStack {} (.tok ⟨.startObject, ""⟩)) (inner2.map .tok)
    [.tok ⟨.endObject, ""⟩] hcs
  have htail : ∀ t : TrackerState,
      (updateStack t (.tok ⟨.endObject, ""⟩)).stack = t.stack.tail := by
    intro t
    simp [updateStack, updateStackStructure, updateStackIncrement]
  have hpop : (updateStack (List.foldl updateStack
      (updateStack ({} : TrackerState) (.tok ⟨.startObject, ""⟩))
      (inner2.map .tok)) (.tok ⟨.endObject, ""⟩)).stack = [] := by
    rw [htail, hstk]
    rfl
  have hgs : getStack (updateStack (List.foldl updateStack
      (updateStack ({} : TrackerState) (.tok ⟨.startObject, ""⟩))
      (inner2.map .tok)) (.tok ⟨.endObject, ""⟩)) = [] := by
    unfold getStack
    rw [hpop]
    rfl
  have hstep3 : injStep none key true true ivts
      ⟨List.foldl updateStack
        (updateStack ({} : TrackerState) (.tok ⟨.startObject, ""⟩))
        (inner2.map .tok), some []⟩ (.tok ⟨.endObject, ""⟩)
      = (⟨updateStack (List.foldl updateStack
            (updateStack ({} : TrackerState) (.tok ⟨.startObject, ""⟩))
            (inner2.map .tok)) (.tok ⟨.endObject, ""⟩), none⟩,
        ([(⟨.startKey, ""⟩ : JsonToken), ⟨.stringChunk, key⟩,
          ⟨.endKey, ""⟩, ⟨.keyValue, key⟩] ++ ivts).map Chunk.tok
          ++ [.tok ⟨.endObject, ""⟩]) := by
    simp [injStep, hgs, joinSep]
  have hrun3 : injRun none key true true ivts
      ⟨List.foldl updateStack
        (updateStack ({} : TrackerState) (.tok ⟨.startObject, ""⟩))
        (inner2.map .tok), some []⟩ [.tok ⟨.endObject, ""⟩]
      = (⟨updateStack (List.foldl updateStack
            (updateStack ({} : TrackerState) (.tok ⟨.startObject, ""⟩))
            (inner2.map .tok)) (.tok ⟨.endObject, ""⟩), none⟩,
        ([(⟨.startKey, ""⟩ : JsonToken), ⟨.stringChunk, key⟩,
          ⟨.endKey, ""⟩, ⟨.keyValue, key⟩] ++ ivts).map Chunk.tok
          ++ [.tok ⟨.endObject, ""⟩]) := by
    simp [injRun, hstep3]
  simp only [injRun, hstep1]
  rw [hmid, hrun3]
  simp

end MsftTodo

namespace MsftTodo

/-- Claim C5, amended, for streams carrying a flat root object (every value
a scalar, so the object has no inner `endObject` to collide with): with
`autoOmitInjectionKey = true` the output object consists of the original
entries minus every entry whose key equals the injected key, followed by
exactly one injected entry; with `autoOmitInjectionKey = false` every
pre-existing entry survives — a pre-existing entry with the same key
included — alongside the injected one. -/
theorem C5_inject_entry_amended (key : String) (o : Owner) (f : Flags)
    (es : List (String × JVal)) (ts : List JsonToken)
    (ivts : List JsonToken)
    (h : ValueTokens f (.jobj es) ts) (hw : wfV (.jobj es))
    (hflat : ∀ e ∈ es, scalarJ e.2) :
    ∃ inner, EntriesTokens f es inner ∧
      ts = ⟨.startObject, ""⟩ :: (inner ++ [⟨.endObject, ""⟩]) ∧
      (∃ inner2, EntriesTokens f (es.filter (fun e =>
          (([key] : List String).findIdx?
            (fun q => pathOf [StackElem.key e.1] = q)).isNone)) inner2 ∧
        injectEntryRun true key ivts o (ts.map .tok)
          = some (.tok ⟨.startObject, ""⟩ :: (inner2.map .tok ++
              (([(⟨.startKey, ""⟩ : JsonToken), ⟨.stringChunk, key⟩,
                ⟨.endKey, ""⟩, ⟨.keyValue, key⟩] ++ ivts).map Chunk.tok
                ++ [.tok ⟨.endObject, ""⟩])))) ∧
      injectEntryRun false key ivts o (ts.map .tok)
        = some (.tok ⟨.startObject, ""⟩ :: (inner.map .tok ++
            (([(⟨.startKey, ""⟩ : JsonToken), ⟨.stringChunk, key⟩,
              ⟨.endKey, ""⟩, ⟨.keyValue, key⟩] ++ ivts).map Chunk.tok
              ++ [.tok ⟨.endObject, ""⟩]))) := by
  simp only [ValueTokens] at h
  obtain ⟨inner, hin, rfl⟩ := h
  refine ⟨inner, hin, rfl, ?_, ?_⟩
  · obtain ⟨s2, mo, hrun, hpev, _, _, _, _⟩ :=
      peVRun ⟨[key], true, o, true⟩ f (.jobj es)
        ((⟨.startObject, ""⟩ : JsonToken) :: (inner ++ [⟨.endObject, ""⟩]))
        (initPE ⟨[key], true, o, true⟩) ⟨inner, hin, rfl⟩ hw rfl rfl
        (asmReady_init f true) rfl (prevTrackSafe_init f)
    have homv := omitFilterV [key] o f [] (.jobj es) _ mo hpev
    obtain ⟨innerX, ioutX, homite, htsX, houtX⟩ := homv
    have hinnerEq : innerX = inner := by
      have h2 := htsX
      simp only [List.cons.injEq, true_and] at h2
      exact (List.append_cancel_right h2).symm
    subst hinnerEq
    obtain ⟨inner2, hout2, hent2⟩ :=
      omitFlatEntries [key] f es innerX ioutX homite hflat
    subst hout2
    have homr : omitEntryRun [key] o
        (((⟨.startObject, ""⟩ : JsonToken)
          :: (innerX ++ [⟨.endObject, ""⟩])).map .tok)
        = some (mo.filter (omitKeep o)) := by
      unfold omitEntryRun
      rw [hrun]
    have hflat2 : ∀ e ∈ es.filter (fun e =>
        (([key] : List String).findIdx?
          (fun q => pathOf [StackElem.key e.1] = q)).isNone), scalarJ e.2 :=
      fun e he => hflat e (List.mem_of_mem_filter he)
    obtain ⟨⟨h1, hstk⟩, _, _⟩ := trackE f _ inner2
      (updateStack {} (.tok ⟨.startObject, ""⟩)) .nul [] hent2 rfl
      (prevTrackSafe_of_prev f _ .startObject "" rfl (by simp) (by simp)) rfl
    have hinj := injRootObject key ivts inner2 h1
      (flatEntries_no_endObject f _ inner2 hent2 hflat2) hstk
    refine ⟨inner2, hent2, ?_⟩
    have hpipe : injectEntryRun true key ivts o
        (((⟨.startObject, ""⟩ : JsonToken)
          :: (innerX ++ [⟨.endObject, ""⟩])).map .tok)
        = some ((injRun none key true true ivts ⟨{}, none⟩
            (mo.filter (omitKeep o))).2) := by
      unfold injectEntryRun
      rw [homr]
      rfl
    rw [hpipe, houtX, hinj]
  · obtain ⟨⟨h1, hstk⟩, _, _⟩ := trackE f es inner
      (updateStack {} (.tok ⟨.startObject, ""⟩)) .nul [] hin rfl
      (prevTrackSafe_of_prev f _ .startObject "" rfl (by simp) (by simp)) rfl
    have hinj := injRootObject key ivts inner h1
      (flatEntries_no_endObject f es inner hin hflat) hstk
    have hpipe : injectEntryRun false key ivts o
        (((⟨.startObject, ""⟩ : JsonToken)
          :: (inner ++ [⟨.endObject, ""⟩])).map .tok)
        = some ((injRun none key true true ivts ⟨{}, none⟩
            (((⟨.startObject, ""⟩ : JsonToken)
              :: (inner ++ [⟨.endObject, ""⟩])).map .tok)).2) := rfl
    rw [hpipe]
    simp only [List.map_cons, List.map_append, List.map_nil]
    rw [hinj]
    simp

/-- `{"name":"object-1"}` with `injectEntry` injecting key `children` with
value `null`. -/
theorem C5_inject_entry_amended_witness :
    ∃ inner, EntriesTokens fPacked [("name", JVal.jstr "object-1")] inner ∧
      [(⟨.startObject, ""⟩ : JsonToken), ⟨.keyValue, "name"⟩,
        ⟨.stringValue, "object-1"⟩, ⟨.endObject, ""⟩]
        = ⟨.startObject, ""⟩ :: (inner ++ [⟨.endObject, ""⟩]) ∧
      (∃ inner2, EntriesTokens fPacked
          ([("name", JVal.jstr "object-1")].filter (fun e =>
            ((["children"] : List String).findIdx?
              (fun q => pathOf [StackElem.key e.1] = q)).isNone)) inner2 ∧
        injectEntryRun true "children" [⟨.nullValue, ""⟩] (some 0)
            ([(⟨.startObject, ""⟩ : JsonToken), ⟨.keyValue, "name"⟩,
              ⟨.stringValue, "object-1"⟩, ⟨.endObject, ""⟩].map .tok)
          = some (.tok ⟨.startObject, ""⟩ :: (inner2.map .tok ++
              (([(⟨.startKey, ""⟩ : JsonToken), ⟨.stringChunk, "children"⟩,
                ⟨.endKey, ""⟩, ⟨.keyValue, "children"⟩]
                ++ ([⟨.nullValue, ""⟩] : List JsonToken)).map Chunk.tok
                ++ [.tok ⟨.endObject, ""⟩])))) ∧
      injectEntryRun false "children" [⟨.nullValue, ""⟩] (some 0)
          ([(⟨.startObject, ""⟩ : JsonToken), ⟨.keyValue, "name"⟩,
            ⟨.stringValue, "object-1"⟩, ⟨.endObject, ""⟩].map .tok)
        = some (.tok ⟨.startObject, ""⟩ :: (inner.map .tok ++
            (([(⟨.startKey, ""⟩ : JsonToken), ⟨.stringChunk, "children"⟩,
              ⟨.endKey, ""⟩, ⟨.keyValue, "children"⟩]
              ++ ([⟨.nullValue, ""⟩] : List JsonToken)).map Chunk.tok
              ++ [.tok ⟨.endObject, ""⟩]))) :=
  C5_inject_entry_amended "children" (some 0) fPacked
    [("name", JVal.jstr "object-1")]
    [⟨.startObject, ""⟩, ⟨.keyValue, "name"⟩, ⟨.stringValue, "object-1"⟩,
     ⟨.endObject, ""⟩]
    [⟨.nullValue, ""⟩]
    ⟨[⟨.keyValue, "name"⟩, ⟨.stringValue, "object-1"⟩],
     ⟨[⟨.keyValue, "name"⟩], [⟨.stringValue, "object-1"⟩], [], rfl, rfl,
      rfl, rfl⟩,
     rfl⟩
    ⟨by simp, trivial, trivial⟩
    (by
      intro e he
      simp at he
      rw [he]
      trivial)

end MsftTodo

namespace MsftTodo

/-! ## Claim C6: objectSieve on streams of root objects -/

/-- Non-container token names (no depth effect). -/
def tokNonContainer (t : JsonToken) : Bool :=
  match t.name with
  | .startObject | .endObject | .startArray | .endArray => false
  | _ => true

theorem updateDepth_tok_neutral (d : Int) (t : JsonToken)
    (h : tokNonContainer t = true) : updateDepth d (.tok t) = d := by
  unfold updateDepth
  unfold tokNonContainer at h
  rcases hn : t.name <;> rw [hn] at h <;> simp_all

theorem updateDepth_synthetic (d : Int) (c : Chunk)
    (h : isSynthetic c = true) : updateDepth d c = d := by
  cases c <;> simp_all [isSynthetic, updateDepth]

/-- A scalar value's tokens are non-container tokens. -/
theorem scalarTokens_nonContainer (f : Flags) (v : JVal)
    (ts : List JsonToken) (hs : scalarJ v) (h : ValueTokens f v ts) :
    ∀ t ∈ ts, tokNonContainer t = true := by
  cases v with
  | jarr xs => exact absurd hs (by simp [scalarJ])
  | jobj es => exact absurd hs (by simp [scalarJ])
  | jnull =>
      simp only [ValueTokens] at h
      subst h
      intro t ht
      rw [List.mem_singleton.mp ht]
      rfl
  | jbool b =>
      cases b <;> simp only [ValueTokens] at h <;> subst h <;>
        intro t ht <;> rw [List.mem_singleton.mp ht] <;> rfl
  | jstr v =>
      simp only [ValueTokens] at h
      cases hm : f.strings <;> rw [hm] at h <;> simp only [StrTokens] at h
      · obtain ⟨cs, _, rfl⟩ := h
        intro t ht
        rcases List.mem_cons.mp ht with rfl | ht
        · rfl
        · rcases List.mem_append.mp ht with ht | ht
          · obtain ⟨c, _, rfl⟩ := List.mem_map.mp ht
            rfl
          · rw [List.mem_singleton.mp ht]
            rfl
      · subst h
        intro t ht
        rw [List.mem_singleton.mp ht]
        rfl
      · obtain ⟨cs, _, rfl⟩ := h
        intro t ht
        rcases List.mem_cons.mp ht with rfl | ht
        · rfl
        · rcases List.mem_append.mp ht with ht | ht
          · obtain ⟨c, _, rfl⟩ := List.mem_map.mp ht
            rfl
          · rcases List.mem_cons.mp ht with rfl | ht
            · rfl
            · rw [List.mem_singleton.mp ht]
              rfl
  | jnum v =>
      simp only [ValueTokens] at h
      cases hm : f.numbers <;> rw [hm] at h <;> simp only [NumTokens] at h
      · obtain ⟨cs, _, rfl⟩ := h
        intro t ht
        rcases List.mem_cons.mp ht with rfl | ht
        · rfl
        · rcases List.mem_append.mp ht with ht | ht
          · obtain ⟨c, _, rfl⟩ := List.mem_map.mp ht
            rfl
          · rw [List.mem_singleton.mp ht]
            rfl
      · subst h
        intro t ht
        rw [List.mem_singleton.mp ht]
        rfl
      · obtain ⟨cs, _, rfl⟩ := h
        intro t ht
        rcases List.mem_cons.mp ht with rfl | ht
        · rfl
        · rcases List.mem_append.mp ht with ht | ht
          · obtain ⟨c, _, rfl⟩ := List.mem_map.mp ht
            rfl
          · rcases List.mem_cons.mp ht with rfl | ht
            · rfl
            · rw [List.mem_singleton.mp ht]
              rfl

/-- A key's tokens are non-container tokens. -/
theorem keyTokens_nonContainer (m : TokMode) (k : String)
    (kts : List JsonToken) (h : KeyTokens m k kts) :
    ∀ t ∈ kts, tokNonContainer t = true := by
  cases m <;> simp only [KeyTokens] at h
  · obtain ⟨cs, _, rfl⟩ := h
    intro t ht
    rcases List.mem_cons.mp ht with rfl | ht
    · rfl
    · rcases List.mem_append.mp ht with ht | ht
      · obtain ⟨c, _, rfl⟩ := List.mem_map.mp ht
        rfl
      · rw [List.mem_singleton.mp ht]
        rfl
  · subst h
    intro t ht
    rw [List.mem_singleton.mp ht]
    rfl
  · obtain ⟨cs, _, rfl⟩ := h
    intro t ht
    rcases List.mem_cons.mp ht with rfl | ht
    · rfl
    · rcases List.mem_append.mp ht with ht | ht
      · obtain ⟨c, _, rfl⟩ := List.mem_map.mp ht
        rfl
      · rcases List.mem_cons.mp ht with rfl | ht
        · rfl
        · rw [List.mem_singleton.mp ht]
          rfl

/-- The sieve decision's effect on the two flags, as a pure function of the
matcher index and the packed value. -/
def sieveDecideFlags (pairs : List (String × (JVal → Bool)))
    (m : MatcherId) (v : JVal) (fl : Bool × Bool) : Bool × Bool :=
  match (pairs.map Prod.fst).get? m with
  | none => fl
  | some mk =>
      match pairs.find? (fun p => p.1 = mk) with
      | none => fl
      | some pr =>
          if pr.2 v then (fl.1, true)
          else if pairs.length = 1 then (true, fl.2) else fl

theorem sieveDecide_depth (pairs : List (String × (JVal → Bool)))
    (b : EntryBase) (v : JVal) (st : SieveState) :
    (sieveDecide pairs b v st).depth = st.depth := by
  unfold sieveDecide
  repeat first | rfl | split

theorem sieveDecide_buffer (pairs : List (String × (JVal → Bool)))
    (b : EntryBase) (v : JVal) (st : SieveState) :
    (sieveDecide pairs b v st).buffer = st.buffer := by
  unfold sieveDecide
  repeat first | rfl | split

theorem sieveDecide_flag_pair (pairs : List (String × (JVal → Bool)))
    (b : EntryBase) (v : JVal) (st : SieveState) :
    ((sieveDecide pairs b v st).isDiscarding,
      (sieveDecide pairs b v st).isReleasing)
      = sieveDecideFlags pairs b.matcher v
          (st.isDiscarding, st.isReleasing) := by
  unfold sieveDecide sieveDecideFlags
  repeat first | rfl | split

/-- The sieve's verdict on a flat object's entry list: the first deciding
owned packed entry wins; afterwards the flags are frozen. -/
def sieveVerdict (pairs : List (String × (JVal → Bool))) :
    List (String × JVal) → Bool × Bool → Bool × Bool
  | [], fl => fl
  | (k, v) :: es, fl =>
      if fl.1 || fl.2 then fl
      else
        match (pairs.map Prod.fst).findIdx?
            (fun q => pathOf [StackElem.key k] = q) with
        | some i =>
            sieveVerdict pairs es (sieveDecideFlags pairs i v fl)
        | none => sieveVerdict pairs es fl

end MsftTodo

namespace MsftTodo

/-- Chunks that can appear inside a flat object's entry run: non-container
ordinary tokens and synthetic chunks. -/
def entryNeutral : Chunk → Bool
  | .tok t => tokNonContainer t
  | _ => true

theorem entryNeutral_depth (d : Int) (c : Chunk)
    (h : entryNeutral c = true) : updateDepth d c = d := by
  cases c with
  | tok t => exact updateDepth_tok_neutral d t h
  | packedEntry b v => rfl
  | sparseEntryKeyStart b => rfl
  | sparseEntryKeyEnd b => rfl
  | sparseEntryValueStart b => rfl
  | sparseEntryValueEnd b => rfl

theorem entryNeutral_notStart (c : Chunk) (h : entryNeutral c = true) :
    (match c with
      | Chunk.tok t => decide (t.name = TokName.startObject)
      | _ => false) = false := by
  cases c with
  | tok t =>
      simp only [entryNeutral] at h
      show decide (t.name = TokName.startObject) = false
      unfold tokNonContainer at h
      rcases hn : t.name <;> rw [hn] at h <;> simp_all
  | packedEntry b v => rfl
  | sparseEntryKeyStart b => rfl
  | sparseEntryKeyEnd b => rfl
  | sparseEntryValueStart b => rfl
  | sparseEntryValueEnd b => rfl

theorem entryNeutral_notEnd (c : Chunk) (h : entryNeutral c = true) :
    (match c with
      | Chunk.tok t => decide (t.name = TokName.endObject)
      | _ => false) = false := by
  cases c with
  | tok t =>
      simp only [entryNeutral] at h
      show decide (t.name = TokName.endObject) = false
      unfold tokNonContainer at h
      rcases hn : t.name <;> rw [hn] at h <;> simp_all
  | packedEntry b v => rfl
  | sparseEntryKeyStart b => rfl
  | sparseEntryKeyEnd b => rfl
  | sparseEntryValueStart b => rfl
  | sparseEntryValueEnd b => rfl

theorem sieveRunCons (pairs : List (String × (JVal → Bool))) (ow : Owner)
    (st : SieveState) (c : Chunk) (cs : List Chunk) (st1 : SieveState)
    (o1 : List Chunk) (st2 : SieveState) (o2 : List Chunk)
    (h1 : sieveStep pairs ow st c = (st1, o1))
    (h2 : sieveRun pairs ow st1 cs = (st2, o2)) :
    sieveRun pairs ow st (c :: cs) = (st2, o1 ++ o2) := by
  simp [sieveRun, h1, h2]

theorem sieveRun_append2 (pairs : List (String × (JVal → Bool))) (ow : Owner)
    (st : SieveState) (a b : List Chunk) (st1 : SieveState) (o1 : List Chunk)
    (st2 : SieveState) (o2 : List Chunk)
    (h1 : sieveRun pairs ow st a = (st1, o1))
    (h2 : sieveRun pairs ow st1 b = (st2, o2)) :
    sieveRun pairs ow st (a ++ b) = (st2, o1 ++ o2) := by
  induction a generalizing st o1 with
  | nil =>
      simp only [sieveRun] at h1
      injection h1 with e1 e2
      subst e1
      subst e2
      simpa using h2
  | cons c a ih =>
      rcases hs : sieveStep pairs ow st c with ⟨sa, oa⟩
      rcases hr : sieveRun pairs ow sa a with ⟨sb, ob⟩
      rw [sieveRunCons pairs ow st c a sa oa sb ob hs hr] at h1
      injection h1 with e1 e2
      subst e1
      subst e2
      rw [List.cons_append,
        sieveRunCons pairs ow st c (a ++ b) sa oa st2 (ob ++ o2) hs
          (ih sa ob hr)]
      simp [List.append_assoc]

/-- One undecided step on a neutral chunk that is not an owned packed
entry: buffer it. -/
theorem sieveStep_buffer (pairs : List (String × (JVal → Bool))) (ow : Owner)
    (st : SieveState) (c : Chunk)
    (hd : st.depth = 1) (hdisc : st.isDiscarding = false)
    (hrel : st.isReleasing = false) (hc : entryNeutral c = true)
    (hown : isOwnPackedEntry ow c = false) :
    sieveStep pairs ow st c
      = ({ st with buffer := st.buffer ++ [c] }, []) := by
  unfold sieveStep
  simp [entryNeutral_depth _ _ hc, entryNeutral_notStart _ hc,
    entryNeutral_notEnd _ hc, hd, hdisc, hrel, hown]

end MsftTodo

namespace MsftTodo

theorem sieveStep_decide (pairs : List (String × (JVal → Bool))) (ow : Owner)
    (st : SieveState) (b : EntryBase) (v : JVal)
    (hd : st.depth = 1) (hdisc : st.isDiscarding = false)
    (hrel : st.isReleasing = false) (hown : b.owner = ow) :
    sieveStep pairs ow st (.packedEntry b v)
      = (sieveDecide pairs b v { st with depth := 1 }, []) := by
  unfold sieveStep
  simp [updateDepth, hd, hdisc, hrel, isOwnPackedEntry, hown]

theorem sieveStep_release (pairs : List (String × (JVal → Bool))) (ow : Owner)
    (st : SieveState) (c : Chunk)
    (hd : st.depth = 1) (hdisc : st.isDiscarding = false)
    (hrel : st.isReleasing = true) (hc : entryNeutral c = true) :
    sieveStep pairs ow st c
      = ({ st with buffer := [] },
        st.buffer ++ (if isOwnPackedEntry ow c then [] else [c])) := by
  cases c with
  | tok t =>
      have hn : tokNonContainer t = true := by simpa [entryNeutral] using hc
      unfold sieveStep
      unfold tokNonContainer at hn
      rcases he : t.name <;> rw [he] at hn <;>
        simp_all [updateDepth, isOwnPackedEntry]
  | packedEntry b v =>
      unfold sieveStep
      simp [updateDepth, isOwnPackedEntry, hd, hdisc, hrel]
  | sparseEntryKeyStart b =>
      unfold sieveStep
      simp [updateDepth, isOwnPackedEntry, hd, hdisc, hrel]
  | sparseEntryKeyEnd b =>
      unfold sieveStep
      simp [updateDepth, isOwnPackedEntry, hd, hdisc, hrel]
  | sparseEntryValueStart b =>
      unfold sieveStep
      simp [updateDepth, isOwnPackedEntry, hd, hdisc, hrel]
  | sparseEntryValueEnd b =>
      unfold sieveStep
      simp [updateDepth, isOwnPackedEntry, hd, hdisc, hrel]

theorem sieveStep_discard (pairs : List (String × (JVal → Bool))) (ow : Owner)
    (st : SieveState) (c : Chunk)
    (hd : st.depth = 1) (hdisc : st.isDiscarding = true)
    (hc : entryNeutral c = true) :
    sieveStep pairs ow st c = ({ st with buffer := [] }, []) := by
  cases c with
  | tok t =>
      have hn : tokNonContainer t = true := by simpa [entryNeutral] using hc
      unfold sieveStep
      unfold tokNonContainer at hn
      rcases he : t.name <;> rw [he] at hn <;>
        simp_all [updateDepth, isOwnPackedEntry]
  | packedEntry b v =>
      unfold sieveStep
      simp [updateDepth, isOwnPackedEntry, hd, hdisc]
  | sparseEntryKeyStart b =>
      unfold sieveStep
      simp [updateDepth, isOwnPackedEntry, hd, hdisc]
  | sparseEntryKeyEnd b =>
      unfold sieveStep
      simp [updateDepth, isOwnPackedEntry, hd, hdisc]
  | sparseEntryValueStart b =>
      unfold sieveStep
      simp [updateDepth, isOwnPackedEntry, hd, hdisc]
  | sparseEntryValueEnd b =>
      unfold sieveStep
      simp [updateDepth, isOwnPackedEntry, hd, hdisc]

theorem sieveRun_buffer (pairs : List (String × (JVal → Bool))) (ow : Owner)
    (st : SieveState) (cs : List Chunk)
    (hd : st.depth = 1) (hdisc : st.isDiscarding = false)
    (hrel : st.isReleasing = false)
    (hcs : ∀ c ∈ cs, entryNeutral c = true ∧ isOwnPackedEntry ow c = false) :
    sieveRun pairs ow st cs = ({ st with buffer := st.buffer ++ cs }, []) := by
  induction cs generalizing st with
  | nil => simp [sieveRun]
  | cons c cs ih =>
      have hstep := sieveStep_buffer pairs ow st c hd hdisc hrel
        (hcs c (by simp)).1 (hcs c (by simp)).2
      have ihs := ih ({ st with buffer := st.buffer ++ [c] }) hd hdisc hrel
        (fun c2 hc2 => hcs c2 (by simp [hc2]))
      rw [sieveRunCons pairs ow st c cs _ _ _ _ hstep ihs]
      simp [List.append_assoc]

theorem sieveRun_discard (pairs : List (String × (JVal → Bool))) (ow : Owner)
    (st : SieveState) (cs : List Chunk)
    (hd : st.depth = 1) (hdisc : st.isDiscarding = true)
    (hcs : ∀ c ∈ cs, entryNeutral c = true) :
    ∃ st2, sieveRun pairs ow st cs = (st2, []) ∧
      st2.depth = 1 ∧ st2.isDiscarding = true ∧
      st2.isReleasing = st.isReleasing := by
  induction cs generalizing st with
  | nil => exact ⟨st, rfl, hd, hdisc, rfl⟩
  | cons c cs ih =>
      have hstep := sieveStep_discard pairs ow st c hd hdisc (hcs c (by simp))
      obtain ⟨st2, hrun, g1, g2, g3⟩ := ih ({ st with buffer := [] }) hd hdisc
        (fun c2 hc2 => hcs c2 (by simp [hc2]))
      refine ⟨st2, ?_, g1, g2, by simpa using g3⟩
      rw [sieveRunCons pairs ow st c cs _ _ _ _ hstep hrun]
      simp

theorem sieveRun_release (pairs : List (String × (JVal → Bool))) (ow : Owner)
    (st : SieveState) (cs : List Chunk)
    (hd : st.depth = 1) (hdisc : st.isDiscarding = false)
    (hrel : st.isReleasing = true)
    (hcs : ∀ c ∈ cs, entryNeutral c = true) :
    ∃ st2 out2, sieveRun pairs ow st cs = (st2, out2) ∧
      st2.depth = 1 ∧ st2.isDiscarding = false ∧ st2.isReleasing = true ∧
      out2 ++ st2.buffer
        = st.buffer ++ cs.filter (fun c => !(isOwnPackedEntry ow c)) := by
  induction cs generalizing st with
  | nil => exact ⟨st, [], rfl, hd, hdisc, hrel, by simp⟩
  | cons c cs ih =>
      have hstep := sieveStep_release pairs ow st c hd hdisc hrel
        (hcs c (by simp))
      obtain ⟨st2, out2, hrun, g1, g2, g3, g4⟩ := ih ({ st with buffer := [] })
        hd hdisc hrel (fun c2 hc2 => hcs c2 (by simp [hc2]))
      have g4s : out2 ++ st2.buffer
          = cs.filter (fun c => !(isOwnPackedEntry ow c)) := by
        simpa using g4
      refine ⟨st2, _, sieveRunCons pairs ow st c cs _ _ _ _ hstep hrun,
        g1, g2, g3, ?_⟩
      by_cases ho : isOwnPackedEntry ow c = true
      · simp [ho, List.filter_cons, List.append_assoc, g4s]
      · simp [ho, List.filter_cons, List.append_assoc, g4s]

theorem sieveStep_end_undecided (pairs : List (String × (JVal → Bool)))
    (ow : Owner) (st : SieveState)
    (hd : st.depth = 1) (hdisc : st.isDiscarding = false)
    (hrel : st.isReleasing = false) :
    sieveStep pairs ow st (.tok ⟨.endObject, ""⟩)
      = (⟨0, [], false, true⟩, []) := by
  unfold sieveStep
  simp [updateDepth, hd, hdisc, hrel, isOwnPackedEntry]

theorem sieveStep_end_discard (pairs : List (String × (JVal → Bool)))
    (ow : Owner) (st : SieveState)
    (hd : st.depth = 1) (hdisc : st.isDiscarding = true) :
    sieveStep pairs ow st (.tok ⟨.endObject, ""⟩)
      = (⟨0, [], false, true⟩, []) := by
  unfold sieveStep
  simp [updateDepth, hd, hdisc]

theorem sieveStep_end_release (pairs : List (String × (JVal → Bool)))
    (ow : Owner) (st : SieveState)
    (hd : st.depth = 1) (hdisc : st.isDiscarding = false)
    (hrel : st.isReleasing = true) :
    sieveStep pairs ow st (.tok ⟨.endObject, ""⟩)
      = (⟨0, [], false, true⟩, st.buffer ++ [.tok ⟨.endObject, ""⟩]) := by
  unfold sieveStep
  simp [updateDepth, hd, hdisc, hrel, isOwnPackedEntry]

theorem sieveVerdict_frozen (pairs : List (String × (JVal → Bool)))
    (es : List (String × JVal)) (fl : Bool × Bool)
    (h : (fl.1 || fl.2) = true) :
    sieveVerdict pairs es fl = fl := by
  cases es with
  | nil => rfl
  | cons e es =>
      obtain ⟨k, v⟩ := e
      simp [sieveVerdict, h]

theorem pevOut_scalar (cfg : PEConfig) (f : Flags) (st : List StackElem)
    (v : JVal) (ts : List JsonToken) (out : List Chunk) (hs : scalarJ v)
    (h : PEVOut cfg f st v ts out) : out = ts.map .tok := by
  cases v with
  | jarr xs => exact absurd hs (by simp [scalarJ])
  | jobj es => exact absurd hs (by simp [scalarJ])
  | jnull => exact h.2
  | jbool b => cases b <;> exact h.2
  | jstr v => exact h.2
  | jnum v => exact h.2

end MsftTodo

namespace MsftTodo

/-- Chunks made of JSON tokens keep the filter predicate of the sieve's
final stage: a plain token is never an owned packed entry. -/
theorem filter_notOwn_toks (ow : Owner) (ts : List JsonToken) :
    (ts.map Chunk.tok).filter (fun c => !(isOwnPackedEntry ow c))
      = ts.map Chunk.tok := by
  induction ts with
  | nil => rfl
  | cons t ts ih => simp [List.filter_cons, isOwnPackedEntry, ih]

/-- For a flat object's entries, the `packEntry` output filtered of the
owner's packed entries is exactly the original token stream, and every
produced chunk is depth-neutral. -/
theorem sieveFlatFilter (pairs : List (String × (JVal → Bool))) (ow : Owner)
    (f : Flags) (es : List (String × JVal)) (inner : List JsonToken)
    (eout : List Chunk)
    (h : PEEntriesOut ⟨pairs.map Prod.fst, false, ow, false⟩ f [] es inner eout)
    (hflat : ∀ e ∈ es, scalarJ e.2) :
    eout.filter (fun c => !(isOwnPackedEntry ow c)) = inner.map Chunk.tok ∧
    ∀ c ∈ eout, entryNeutral c = true := by
  induction es generalizing inner eout with
  | nil =>
      obtain ⟨rfl, rfl⟩ := h
      exact ⟨rfl, fun c hc => absurd hc (by simp)⟩
  | cons e es ih =>
      obtain ⟨k, v⟩ := e
      obtain ⟨kts, vts, rest2, o2, hk, hv, he, rfl, hm⟩ := h
      have hkn := keyTokens_nonContainer f.keys k kts hk
      have hvn := scalarTokens_nonContainer f v vts (hflat (k, v) (by simp)) hv
      obtain ⟨ihf, ihn⟩ := ih rest2 o2 he (fun e2 he2 => hflat e2 (by simp [he2]))
      rcases hfind : (⟨pairs.map Prod.fst, false, ow, false⟩ : PEConfig).keys.findIdx?
          (fun q => pathOf ((StackElem.key k :: ([] : List StackElem)).reverse) = q)
        with _ | i
      · rw [hfind] at hm
        obtain ⟨vout, hpv, rfl⟩ := hm
        have hvout := pevOut_scalar ⟨pairs.map Prod.fst, false, ow, false⟩ f
          [StackElem.key k] v vts vout (hflat (k, v) (by simp)) hpv
        subst hvout
        constructor
        · simp [List.filter_append, filter_notOwn_toks, ihf, List.map_append]
        · intro c hc
          rcases List.mem_append.mp hc with h1 | h2
          · obtain ⟨t, ht, rfl⟩ := List.mem_map.mp h1
            exact hkn t ht
          · rcases List.mem_append.mp h2 with h3 | h4
            · obtain ⟨t, ht, rfl⟩ := List.mem_map.mp h3
              exact hvn t ht
            · exact ihn c h4
      · rw [hfind] at hm
        have hout2 : eout = (kts.map Chunk.tok ++ vts.map Chunk.tok)
            ++ (Chunk.packedEntry ⟨k, [StackElem.key k], i, ow⟩ v :: o2) := by
          rw [hm]
          simp [keyFlush, matchedValOut]
        subst hout2
        have hpe : isOwnPackedEntry ow
            (Chunk.packedEntry ⟨k, [StackElem.key k], i, ow⟩ v) = true := by
          simp [isOwnPackedEntry]
        constructor
        · simp [List.filter_append, List.filter_cons, filter_notOwn_toks, ihf,
            hpe, List.map_append]
        · intro c hc
          rcases List.mem_append.mp hc with h1 | h2
          · rcases List.mem_append.mp h1 with h3 | h4
            · obtain ⟨t, ht, rfl⟩ := List.mem_map.mp h3
              exact hkn t ht
            · obtain ⟨t, ht, rfl⟩ := List.mem_map.mp h4
              exact hvn t ht
          · rcases List.mem_cons.mp h2 with rfl | h5
            · rfl
            · exact ihn c h5

/-- Running the sieve's second stage over the `packEntry` output of a flat
object's entries, from depth 1: the flags evolve exactly by `sieveVerdict`,
a discarding end state has emitted nothing, and a non-discarding end state
accounts for every original entry token between its output and its
buffer. -/
theorem sieveFlatEntriesRun (pairs : List (String × (JVal → Bool)))
    (ow : Owner) (f : Flags) (es : List (String × JVal))
    (inner : List JsonToken) (eout : List Chunk) (st : SieveState)
    (h : PEEntriesOut ⟨pairs.map Prod.fst, false, ow, false⟩ f [] es inner eout)
    (hflat : ∀ e ∈ es, scalarJ e.2)
    (hd : st.depth = 1) :
    ∃ st2 out2, sieveRun pairs ow st eout = (st2, out2) ∧
      st2.depth = 1 ∧
      (st2.isDiscarding, st2.isReleasing)
        = sieveVerdict pairs es (st.isDiscarding, st.isReleasing) ∧
      (st2.isDiscarding = true → out2 = []) ∧
      (st2.isReleasing = false → out2 = []) ∧
      (st2.isDiscarding = false →
        out2 ++ st2.buffer = st.buffer ++ inner.map Chunk.tok) := by
  induction es generalizing inner eout st with
  | nil =>
      obtain ⟨rfl, rfl⟩ := h
      exact ⟨st, [], rfl, hd, rfl, fun _ => rfl, fun _ => rfl, fun _ => by simp⟩
  | cons e es ih =>
      obtain ⟨k, v⟩ := e
      cases hA : st.isDiscarding with
      | true =>
          obtain ⟨hfilter, hneutral⟩ := sieveFlatFilter pairs ow f ((k, v) :: es)
            inner eout h hflat
          obtain ⟨st2, hrun, g1, g2, g3⟩ := sieveRun_discard pairs ow st eout
            hd hA hneutral
          refine ⟨st2, [], hrun, g1, ?_, fun _ => rfl, fun _ => rfl, ?_⟩
          · rw [sieveVerdict_frozen pairs _ _ (by simp)]
            rw [g2, g3]
          · intro hdf
            simp [g2] at hdf
      | false =>
          cases hB : st.isReleasing with
          | true =>
              obtain ⟨hfilter, hneutral⟩ := sieveFlatFilter pairs ow f
                ((k, v) :: es) inner eout h hflat
              obtain ⟨st2, out2, hrun, g1, g2, g3, g4⟩ := sieveRun_release pairs
                ow st eout hd hA hB hneutral
              refine ⟨st2, out2, hrun, g1, ?_, ?_, ?_, fun _ => ?_⟩
              · rw [sieveVerdict_frozen pairs _ _ (by simp)]
                rw [g2, g3]
              · intro hdt
                simp [g2] at hdt
              · intro hrf
                simp [g3] at hrf
              · rw [g4, hfilter]
          | false =>
              obtain ⟨kts, vts, rest2, o2, hk, hv, he, rfl, hm⟩ := h
              have hkn := keyTokens_nonContainer f.keys k kts hk
              have hvn := scalarTokens_nonContainer f v vts
                (hflat (k, v) (by simp)) hv
              have hcs : ∀ c ∈ kts.map Chunk.tok ++ vts.map Chunk.tok,
                  entryNeutral c = true ∧ isOwnPackedEntry ow c = false := by
                intro c hcm
                rcases List.mem_append.mp hcm with h1 | h2
                · obtain ⟨t, ht, rfl⟩ := List.mem_map.mp h1
                  exact ⟨hkn t ht, rfl⟩
                · obtain ⟨t, ht, rfl⟩ := List.mem_map.mp h2
                  exact ⟨hvn t ht, rfl⟩
              have hrun1 := sieveRun_buffer pairs ow st
                (kts.map Chunk.tok ++ vts.map Chunk.tok) hd hA hB hcs
              rcases hfind : (⟨pairs.map Prod.fst, false, ow, false⟩ :
                    PEConfig).keys.findIdx?
                  (fun q => pathOf
                    ((StackElem.key k :: ([] : List StackElem)).reverse) = q)
                with _ | i
              · rw [hfind] at hm
                obtain ⟨vout, hpv, rfl⟩ := hm
                have hfind2 : (pairs.map Prod.fst).findIdx?
                    (fun q => pathOf [StackElem.key k] = q) = none := by
                  simpa using hfind
                have hvout := pevOut_scalar
                  ⟨pairs.map Prod.fst, false, ow, false⟩ f
                  [StackElem.key k] v vts vout (hflat (k, v) (by simp)) hpv
                subst hvout
                obtain ⟨st2, out2, hrun2, g1, g2, g3, g5, g4⟩ :=
                  ih rest2 o2 ({ st with buffer := st.buffer ++ (kts.map Chunk.tok ++ vts.map Chunk.tok) } : SieveState) he
                    (fun e2 he2 => hflat e2 (by simp [he2])) hd
                refine ⟨st2, out2, ?_, g1, ?_, g3, g5, ?_⟩
                · rw [← List.append_assoc]
                  rw [sieveRun_append2 pairs ow st _ o2 _ [] st2 out2
                    hrun1 hrun2]
                  simp
                · have hv2 : sieveVerdict pairs ((k, v) :: es) (false, false)
                      = sieveVerdict pairs es (false, false) := by
                    simp [sieveVerdict, hfind2]
                  rw [hv2]
                  simpa [hA, hB] using g2
                · intro hdf
                  have g4h := g4 hdf
                  simpa [List.map_append, List.append_assoc] using g4h
              · rw [hfind] at hm
                have hfind2 : (pairs.map Prod.fst).findIdx?
                    (fun q => pathOf [StackElem.key k] = q) = some i := by
                  simpa using hfind
                have hout2 : eout = (kts.map Chunk.tok ++ vts.map Chunk.tok)
                    ++ (Chunk.packedEntry ⟨k, [StackElem.key k], i, ow⟩ v
                      :: o2) := by
                  rw [hm]
                  simp [keyFlush, matchedValOut]
                subst hout2
                have hdec := sieveStep_decide pairs ow ({ st with buffer := st.buffer ++ (kts.map Chunk.tok ++ vts.map Chunk.tok) } : SieveState)
                  ⟨k, [StackElem.key k], i, ow⟩ v hd hA hB rfl
                have hstcd : (sieveDecide pairs ⟨k, [StackElem.key k], i, ow⟩ v
              { ({ st with buffer := st.buffer ++ (kts.map Chunk.tok ++ vts.map Chunk.tok) } : SieveState) with depth := 1 }).depth = 1 := by
                  simpa using sieveDecide_depth pairs
                    ⟨k, [StackElem.key k], i, ow⟩ v
                    { ({ st with buffer := st.buffer ++ (kts.map Chunk.tok ++ vts.map Chunk.tok) } : SieveState) with depth := 1 }
                have hstcb : (sieveDecide pairs ⟨k, [StackElem.key k], i, ow⟩ v
              { ({ st with buffer := st.buffer ++ (kts.map Chunk.tok ++ vts.map Chunk.tok) } : SieveState) with depth := 1 }).buffer
                    = st.buffer ++ (kts.map Chunk.tok ++ vts.map Chunk.tok) := by
                  simpa using sieveDecide_buffer pairs
                    ⟨k, [StackElem.key k], i, ow⟩ v
                    { ({ st with buffer := st.buffer ++ (kts.map Chunk.tok ++ vts.map Chunk.tok) } : SieveState) with depth := 1 }
                have hstcf : ((sieveDecide pairs ⟨k, [StackElem.key k], i, ow⟩ v
              { ({ st with buffer := st.buffer ++ (kts.map Chunk.tok ++ vts.map Chunk.tok) } : SieveState) with depth := 1 }).isDiscarding, (sieveDecide pairs ⟨k, [StackElem.key k], i, ow⟩ v
              { ({ st with buffer := st.buffer ++ (kts.map Chunk.tok ++ vts.map Chunk.tok) } : SieveState) with depth := 1 }).isReleasing)
                    = sieveDecideFlags pairs i v (false, false) := by
                  have hp := sieveDecide_flag_pair pairs
                    ⟨k, [StackElem.key k], i, ow⟩ v
                    { ({ st with buffer := st.buffer ++ (kts.map Chunk.tok ++ vts.map Chunk.tok) } : SieveState) with depth := 1 }
                  simpa [hA, hB] using hp
                obtain ⟨st2, out2, hrun2, g1, g2, g3, g5, g4⟩ :=
                  ih rest2 o2 (sieveDecide pairs ⟨k, [StackElem.key k], i, ow⟩ v
              { ({ st with buffer := st.buffer ++ (kts.map Chunk.tok ++ vts.map Chunk.tok) } : SieveState) with depth := 1 }) he
                    (fun e2 he2 => hflat e2 (by simp [he2])) hstcd
                refine ⟨st2, out2, ?_, g1, ?_, g3, g5, ?_⟩
                · rw [sieveRun_append2 pairs ow st _ _ _ [] st2 ([] ++ out2)
                    hrun1 (sieveRunCons pairs ow ({ st with buffer := st.buffer ++ (kts.map Chunk.tok ++ vts.map Chunk.tok) } : SieveState) _ o2 (sieveDecide pairs ⟨k, [StackElem.key k], i, ow⟩ v
              { ({ st with buffer := st.buffer ++ (kts.map Chunk.tok ++ vts.map Chunk.tok) } : SieveState) with depth := 1 }) []
                      st2 out2 hdec hrun2)]
                  simp
                · have hv2 : sieveVerdict pairs ((k, v) :: es) (false, false)
                      = sieveVerdict pairs es
                        (sieveDecideFlags pairs i v (false, false)) := by
                    simp [sieveVerdict, hfind2]
                  rw [hv2, g2, hstcf]
                · intro hdf
                  have g4h := g4 hdf
                  rw [hstcb] at g4h
                  simpa [List.map_append, List.append_assoc] using g4h

end MsftTodo

namespace MsftTodo

/-- A single sieve decision starting undecided never sets both flags. -/
theorem sieveDecideFlags_excl (pairs : List (String × (JVal → Bool)))
    (i : MatcherId) (v : JVal) :
    ((sieveDecideFlags pairs i v (false, false)).1
      && (sieveDecideFlags pairs i v (false, false)).2) = false := by
  unfold sieveDecideFlags
  repeat first | rfl | split

/-- The sieve verdict never sets both flags when they do not start both
set. -/
theorem sieveVerdict_excl (pairs : List (String × (JVal → Bool)))
    (es : List (String × JVal)) (fl : Bool × Bool)
    (h : (fl.1 && fl.2) = false) :
    ((sieveVerdict pairs es fl).1 && (sieveVerdict pairs es fl).2)
      = false := by
  induction es generalizing fl with
  | nil => exact h
  | cons e es ih =>
      obtain ⟨k, v⟩ := e
      obtain ⟨f1, f2⟩ := fl
      cases f1 <;> cases f2
      · rcases hfind : (pairs.map Prod.fst).findIdx?
            (fun q => pathOf [StackElem.key k] = q) with _ | i
        · rw [show sieveVerdict pairs ((k, v) :: es) (false, false)
              = sieveVerdict pairs es (false, false) from by
            simp [sieveVerdict, hfind]]
          exact ih (false, false) rfl
        · rw [show sieveVerdict pairs ((k, v) :: es) (false, false)
              = sieveVerdict pairs es
                (sieveDecideFlags pairs i v (false, false)) from by
            simp [sieveVerdict, hfind]]
          exact ih _ (sieveDecideFlags_excl pairs i v)
      · rw [sieveVerdict_frozen pairs _ _ (by simp)]
        rfl
      · rw [sieveVerdict_frozen pairs _ _ (by simp)]
        rfl
      · exact absurd h (by simp)

/-- Sieving one flat object's chunk stream from the resting state: the
object comes out whole exactly when the verdict releases it, and vanishes
otherwise; the sieve returns to its resting state either way. -/
theorem sieveFlatObjectRun (pairs : List (String × (JVal → Bool)))
    (ow : Owner) (f : Flags) (es : List (String × JVal))
    (inner : List JsonToken) (iout : List Chunk)
    (h : PEEntriesOut ⟨pairs.map Prod.fst, false, ow, false⟩ f [] es inner iout)
    (hflat : ∀ e ∈ es, scalarJ e.2) :
    sieveRun pairs ow ⟨0, [], false, true⟩
        (Chunk.tok ⟨.startObject, ""⟩ :: (iout ++ [Chunk.tok ⟨.endObject, ""⟩]))
      = (⟨0, [], false, true⟩,
        if (sieveVerdict pairs es (false, false)).2 = true
        then Chunk.tok ⟨.startObject, ""⟩ ::
          (inner.map Chunk.tok ++ [Chunk.tok ⟨.endObject, ""⟩])
        else []) := by
  have hstart : sieveStep pairs ow ⟨0, [], false, true⟩
      (Chunk.tok ⟨.startObject, ""⟩)
      = (⟨1, [Chunk.tok ⟨.startObject, ""⟩], false, false⟩, []) := by
    rfl
  obtain ⟨st2, out2, hrun2, g1, g2, g3, g5, g4⟩ :=
    sieveFlatEntriesRun pairs ow f es inner iout
      ⟨1, [Chunk.tok ⟨.startObject, ""⟩], false, false⟩ h hflat rfl
  simp only [] at g2
  have hx0 := sieveVerdict_excl pairs es (false, false) rfl
  rcases hver : sieveVerdict pairs es (false, false) with ⟨d2, r2⟩
  rw [hver] at g2 hx0
  have gd : st2.isDiscarding = d2 := congrArg Prod.fst g2
  have gr : st2.isReleasing = r2 := congrArg Prod.snd g2
  have hx : (d2 && r2) = false := by simpa using hx0
  cases d2 with
  | true =>
      have hr2 : r2 = false := by
        cases r2
        · rfl
        · simp at hx
      subst hr2
      have hout2 : out2 = [] := g3 gd
      have hend := sieveStep_end_discard pairs ow st2 g1 gd
      rw [sieveRunCons pairs ow ⟨0, [], false, true⟩
        (Chunk.tok ⟨.startObject, ""⟩)
        (iout ++ [Chunk.tok ⟨.endObject, ""⟩])
        ⟨1, [Chunk.tok ⟨.startObject, ""⟩], false, false⟩ []
        ⟨0, [], false, true⟩ (out2 ++ (([]) ++ [])) hstart
        (sieveRun_append2 pairs ow
          ⟨1, [Chunk.tok ⟨.startObject, ""⟩], false, false⟩ iout
          [Chunk.tok ⟨.endObject, ""⟩] st2 out2 ⟨0, [], false, true⟩
          (([]) ++ []) hrun2
          (sieveRunCons pairs ow st2 (Chunk.tok ⟨.endObject, ""⟩) []
            ⟨0, [], false, true⟩ [] ⟨0, [], false, true⟩ [] hend rfl))]
      simp [hout2]
  | false =>
      cases r2 with
      | true =>
          have hend := sieveStep_end_release pairs ow st2 g1 gd gr
          have hacct := g4 gd
          have hacct2 : out2 ++ st2.buffer
              = Chunk.tok ⟨.startObject, ""⟩ :: inner.map Chunk.tok := by
            simpa using hacct
          rw [sieveRunCons pairs ow ⟨0, [], false, true⟩
            (Chunk.tok ⟨.startObject, ""⟩)
            (iout ++ [Chunk.tok ⟨.endObject, ""⟩])
            ⟨1, [Chunk.tok ⟨.startObject, ""⟩], false, false⟩ []
            ⟨0, [], false, true⟩
            (out2 ++ ((st2.buffer ++ [Chunk.tok ⟨.endObject, ""⟩]) ++ []))
            hstart
            (sieveRun_append2 pairs ow
              ⟨1, [Chunk.tok ⟨.startObject, ""⟩], false, false⟩ iout
              [Chunk.tok ⟨.endObject, ""⟩] st2 out2 ⟨0, [], false, true⟩
              ((st2.buffer ++ [Chunk.tok ⟨.endObject, ""⟩]) ++ []) hrun2
              (sieveRunCons pairs ow st2 (Chunk.tok ⟨.endObject, ""⟩) []
                ⟨0, [], false, true⟩
                (st2.buffer ++ [Chunk.tok ⟨.endObject, ""⟩])
                ⟨0, [], false, true⟩ [] hend rfl))]
          simp only [List.append_nil, List.nil_append]
          rw [← List.append_assoc, hacct2]
          simp
      | false =>
          have hout2 : out2 = [] := g5 gr
          have hend := sieveStep_end_undecided pairs ow st2 g1 gd gr
          rw [sieveRunCons pairs ow ⟨0, [], false, true⟩
            (Chunk.tok ⟨.startObject, ""⟩)
            (iout ++ [Chunk.tok ⟨.endObject, ""⟩])
            ⟨1, [Chunk.tok ⟨.startObject, ""⟩], false, false⟩ []
            ⟨0, [], false, true⟩ (out2 ++ (([]) ++ [])) hstart
            (sieveRun_append2 pairs ow
              ⟨1, [Chunk.tok ⟨.startObject, ""⟩], false, false⟩ iout
              [Chunk.tok ⟨.endObject, ""⟩] st2 out2 ⟨0, [], false, true⟩
              (([]) ++ []) hrun2
              (sieveRunCons pairs ow st2 (Chunk.tok ⟨.endObject, ""⟩) []
                ⟨0, [], false, true⟩ [] ⟨0, [], false, true⟩ [] hend rfl))]
          simp [hout2]

end MsftTodo

namespace MsftTodo

/-- Running `packEntry` (packed mode, components kept) over a stream of
flat root objects and sieving the result: every object whose verdict
releases survives whole, every other object vanishes. -/
theorem flatStreamRun (pairs : List (String × (JVal → Bool))) (ow : Owner)
    (f : Flags) (objs : List (List (String × JVal) × List JsonToken))
    (s : PEState)
    (h : ∀ p ∈ objs, ValueTokens f (.jobj p.1) p.2 ∧ wfV (.jobj p.1)
      ∧ ∀ e ∈ p.1, scalarJ e.2)
    (hps : s.packingState = .idle) (hbuf : s.keyTokenBuffer = [])
    (ha : AsmReady f false s.asm) (hkb : s.tracker.keyBuffer = none)
    (hsafe : PrevTrackSafe f s.tracker) (hstk : s.tracker.stack = []) :
    ∃ s2 mid, peRun ⟨pairs.map Prod.fst, false, ow, false⟩ s
        ((objs.map Prod.snd).flatten.map .tok) = some (s2, mid) ∧
      sieveRun pairs ow ⟨0, [], false, true⟩ mid
        = (⟨0, [], false, true⟩,
          (objs.map (fun p =>
            if (sieveVerdict pairs p.1 (false, false)).2 = true
            then p.2.map Chunk.tok else [])).flatten) := by
  induction objs generalizing s with
  | nil => exact ⟨s, [], rfl, rfl⟩
  | cons p objs ih =>
      obtain ⟨es, ts⟩ := p
      obtain ⟨hv, hw, hfl⟩ := h (es, ts) (by simp)
      obtain ⟨s2, out, hrun1, hpev, hps2, hbuf2, ha2, htr⟩ :=
        peVRun ⟨pairs.map Prod.fst, false, ow, false⟩ f (.jobj es) ts s hv hw
          hps hbuf ha hkb hsafe
      have hst0 : (incrementIfHeadIsArray s.tracker).stack = [] := by
        simp [incrementIfHeadIsArray, hstk]
      obtain ⟨inner, iout, hent, hts, hout⟩ := hpev
      rw [hst0] at hent
      obtain ⟨htk1, htk2, htk3⟩ := trackV f (.jobj es) ts s.tracker hv hkb hsafe
      rw [← htr] at htk1 htk2 htk3
      rw [hst0] at htk1
      obtain ⟨s3, mid2, hrun2, hsieve2⟩ :=
        ih s2 (fun p2 hp2 => h p2 (by simp [hp2])) hps2 hbuf2 ha2 htk2 htk3
          htk1
      refine ⟨s3, out ++ mid2, ?_, ?_⟩
      · rw [show (((es, ts) :: objs).map Prod.snd).flatten.map Chunk.tok
            = ts.map Chunk.tok
              ++ (objs.map Prod.snd).flatten.map Chunk.tok from by simp]
        exact peRun_append_some ⟨pairs.map Prod.fst, false, ow, false⟩ s
          (ts.map .tok) ((objs.map Prod.snd).flatten.map .tok) s2 out s3 mid2
          hrun1 hrun2
      · have hobj := sieveFlatObjectRun pairs ow f es inner iout hent hfl
        rw [hout]
        rw [sieveRun_append2 pairs ow ⟨0, [], false, true⟩
          (Chunk.tok ⟨.startObject, ""⟩
            :: (iout ++ [Chunk.tok ⟨.endObject, ""⟩])) mid2
          ⟨0, [], false, true⟩ _ ⟨0, [], false, true⟩ _ hobj hsieve2]
        rw [hts]
        simp

end MsftTodo

namespace MsftTodo

/-- The verdict the sieve's second stage reaches while scanning a chunk
sequence: the first decision on an owned packed entry wins
(`filter.find` + predicate / single-string-filter discard), everything
else is scanned past. -/
def chunkVerdict (pairs : List (String × (JVal → Bool))) (ow : Owner) :
    List Chunk → Bool × Bool → Bool × Bool
  | [], fl => fl
  | c :: cs, fl =>
      if fl.1 || fl.2 then fl
      else
        match c with
        | .packedEntry b v =>
            if b.owner = ow then
              chunkVerdict pairs ow cs (sieveDecideFlags pairs b.matcher v fl)
            else chunkVerdict pairs ow cs fl
        | _ => chunkVerdict pairs ow cs fl

/-- A chunk sequence that never lets the sieve's depth counter drop back
to the root while it is consumed. -/
def innerSafe : Int → List Chunk → Prop
  | _, [] => True
  | d, c :: cs => 1 ≤ updateDepth d c ∧ innerSafe (updateDepth d c) cs

mutual

/-- The verdict determined by a value's own content: decisions come from
the packed entries that `packEntry` emits for its matched entries, in
document order. -/
def vVerdict (pairs : List (String × (JVal → Bool)))
    (st : List StackElem) : JVal → Bool × Bool → Bool × Bool
  | .jarr xs, fl => lVerdict pairs (-1) st xs fl
  | .jobj es, fl => eVerdict pairs st es fl
  | _, fl => fl

/-- The verdict over consecutive array elements. -/
def lVerdict (pairs : List (String × (JVal → Bool))) (n : Int)
    (st : List StackElem) : List JVal → Bool × Bool → Bool × Bool
  | [], fl => fl
  | x :: xs, fl =>
      lVerdict pairs (n + 1) st xs
        (vVerdict pairs (.idx (n + 1) :: st) x fl)

/-- The verdict over consecutive object entries: a matched entry decides
through the sieve's predicate lookup, an unmatched entry recurses into its
value. -/
def eVerdict (pairs : List (String × (JVal → Bool)))
    (below : List StackElem) :
    List (String × JVal) → Bool × Bool → Bool × Bool
  | [], fl => fl
  | (k, v) :: es, fl =>
      if fl.1 || fl.2 then fl
      else
        match (pairs.map Prod.fst).findIdx?
            (fun q => pathOf ((StackElem.key k :: below).reverse) = q) with
        | some i => eVerdict pairs below es (sieveDecideFlags pairs i v fl)
        | none =>
            eVerdict pairs below es (vVerdict pairs (.key k :: below) v fl)

end

theorem chunkVerdict_frozen (pairs : List (String × (JVal → Bool)))
    (ow : Owner) (cs : List Chunk) (fl : Bool × Bool)
    (h : (fl.1 || fl.2) = true) : chunkVerdict pairs ow cs fl = fl := by
  cases cs with
  | nil => rfl
  | cons c cs => simp [chunkVerdict, h]

mutual

theorem vVerdict_frozen (pairs : List (String × (JVal → Bool)))
    (st : List StackElem) (v : JVal) (fl : Bool × Bool)
    (h : (fl.1 || fl.2) = true) : vVerdict pairs st v fl = fl := by
  cases v with
  | jarr xs => exact lVerdict_frozen pairs (-1) st xs fl h
  | jobj es => exact eVerdict_frozen pairs st es fl h
  | jnull => rfl
  | jbool b => rfl
  | jstr s => rfl
  | jnum s => rfl

theorem lVerdict_frozen (pairs : List (String × (JVal → Bool))) (n : Int)
    (st : List StackElem) (xs : List JVal) (fl : Bool × Bool)
    (h : (fl.1 || fl.2) = true) : lVerdict pairs n st xs fl = fl := by
  cases xs with
  | nil => rfl
  | cons x xs =>
      rw [show lVerdict pairs n st (x :: xs) fl
          = lVerdict pairs (n + 1) st xs
            (vVerdict pairs (.idx (n + 1) :: st) x fl) from rfl]
      rw [vVerdict_frozen pairs (.idx (n + 1) :: st) x fl h]
      exact lVerdict_frozen pairs (n + 1) st xs fl h

theorem eVerdict_frozen (pairs : List (String × (JVal → Bool)))
    (below : List StackElem) (es : List (String × JVal)) (fl : Bool × Bool)
    (h : (fl.1 || fl.2) = true) : eVerdict pairs below es fl = fl := by
  cases es with
  | nil => rfl
  | cons e es =>
      obtain ⟨k, v⟩ := e
      simp [eVerdict, h]

end

theorem chunkVerdict_cons_skip (pairs : List (String × (JVal → Bool)))
    (ow : Owner) (c : Chunk) (cs : List Chunk) (fl : Bool × Bool)
    (hc : isOwnPackedEntry ow c = false) :
    chunkVerdict pairs ow (c :: cs) fl = chunkVerdict pairs ow cs fl := by
  by_cases h : (fl.1 || fl.2) = true
  · rw [chunkVerdict_frozen pairs ow _ fl h,
      chunkVerdict_frozen pairs ow cs fl h]
  · cases c with
    | packedEntry b v =>
        have ho : ¬(b.owner = ow) := by simpa [isOwnPackedEntry] using hc
        simp [chunkVerdict, h, ho]
    | tok t => simp [chunkVerdict, h]
    | sparseEntryKeyStart b => simp [chunkVerdict, h]
    | sparseEntryKeyEnd b => simp [chunkVerdict, h]
    | sparseEntryValueStart b => simp [chunkVerdict, h]
    | sparseEntryValueEnd b => simp [chunkVerdict, h]

theorem chunkVerdict_cons_pe_own (pairs : List (String × (JVal → Bool)))
    (ow : Owner) (b : EntryBase) (v : JVal) (cs : List Chunk)
    (fl : Bool × Bool) (hown : b.owner = ow)
    (h : (fl.1 || fl.2) = false) :
    chunkVerdict pairs ow (.packedEntry b v :: cs) fl
      = chunkVerdict pairs ow cs
        (sieveDecideFlags pairs b.matcher v fl) := by
  simp [chunkVerdict, h, hown]

theorem chunkVerdict_toks (pairs : List (String × (JVal → Bool)))
    (ow : Owner) (ts : List JsonToken) (fl : Bool × Bool) :
    chunkVerdict pairs ow (ts.map Chunk.tok) fl = fl := by
  induction ts with
  | nil => rfl
  | cons t ts ih =>
      rw [List.map_cons,
        chunkVerdict_cons_skip pairs ow (Chunk.tok t) (ts.map Chunk.tok)
          fl rfl]
      exact ih

theorem chunkVerdict_append (pairs : List (String × (JVal → Bool)))
    (ow : Owner) (a b : List Chunk) (fl : Bool × Bool) :
    chunkVerdict pairs ow (a ++ b) fl
      = chunkVerdict pairs ow b (chunkVerdict pairs ow a fl) := by
  induction a generalizing fl with
  | nil => rfl
  | cons c a ih =>
      by_cases hoc : isOwnPackedEntry ow c = true
      · cases c with
        | packedEntry bb vv =>
            have ho : bb.owner = ow := by simpa [isOwnPackedEntry] using hoc
            by_cases h : (fl.1 || fl.2) = true
            · rw [List.cons_append, chunkVerdict_frozen pairs ow _ fl h,
                chunkVerdict_frozen pairs ow _ fl h,
                chunkVerdict_frozen pairs ow b fl h]
            · have h0 : (fl.1 || fl.2) = false := by simpa using h
              rw [List.cons_append,
                chunkVerdict_cons_pe_own pairs ow bb vv _ _ ho h0,
                chunkVerdict_cons_pe_own pairs ow bb vv a _ ho h0, ih]
        | tok t => simp [isOwnPackedEntry] at hoc
        | sparseEntryKeyStart b2 => simp [isOwnPackedEntry] at hoc
        | sparseEntryKeyEnd b2 => simp [isOwnPackedEntry] at hoc
        | sparseEntryValueStart b2 => simp [isOwnPackedEntry] at hoc
        | sparseEntryValueEnd b2 => simp [isOwnPackedEntry] at hoc
      · have hoc2 : isOwnPackedEntry ow c = false := by simpa using hoc
        rw [List.cons_append, chunkVerdict_cons_skip pairs ow c _ fl hoc2,
          chunkVerdict_cons_skip pairs ow c a fl hoc2, ih]

theorem chunkVerdict_excl (pairs : List (String × (JVal → Bool)))
    (ow : Owner) (cs : List Chunk) (fl : Bool × Bool)
    (h : (fl.1 && fl.2) = false) :
    ((chunkVerdict pairs ow cs fl).1
      && (chunkVerdict pairs ow cs fl).2) = false := by
  induction cs generalizing fl with
  | nil => exact h
  | cons c cs ih =>
      by_cases hf : (fl.1 || fl.2) = true
      · rw [chunkVerdict_frozen pairs ow _ fl hf]
        exact h
      · have h0 : (fl.1 || fl.2) = false := by simpa using hf
        obtain ⟨f1, f2⟩ := fl
        simp only [] at h0
        have hf1 : f1 = false := by
          cases f1
          · rfl
          · simp at h0
        have hf2 : f2 = false := by
          cases f2
          · rfl
          · simp at h0
        subst hf1
        subst hf2
        by_cases hoc : isOwnPackedEntry ow c = true
        · cases c with
          | packedEntry bb vv =>
              have ho : bb.owner = ow := by simpa [isOwnPackedEntry] using hoc
              rw [chunkVerdict_cons_pe_own pairs ow bb vv cs (false, false)
                ho rfl]
              exact ih _ (sieveDecideFlags_excl pairs bb.matcher vv)
          | tok t => simp [isOwnPackedEntry] at hoc
          | sparseEntryKeyStart b2 => simp [isOwnPackedEntry] at hoc
          | sparseEntryKeyEnd b2 => simp [isOwnPackedEntry] at hoc
          | sparseEntryValueStart b2 => simp [isOwnPackedEntry] at hoc
          | sparseEntryValueEnd b2 => simp [isOwnPackedEntry] at hoc
        · have hoc2 : isOwnPackedEntry ow c = false := by simpa using hoc
          rw [chunkVerdict_cons_skip pairs ow c cs (false, false) hoc2]
          exact ih (false, false) rfl

theorem foldl_depth_neutral (ts : List JsonToken) (d : Int)
    (h : ∀ t ∈ ts, tokNonContainer t = true) :
    List.foldl updateDepth d (ts.map Chunk.tok) = d := by
  induction ts generalizing d with
  | nil => rfl
  | cons t ts ih =>
      rw [List.map_cons, List.foldl_cons,
        updateDepth_tok_neutral d t (h t (by simp))]
      exact ih d (fun t2 ht2 => h t2 (by simp [ht2]))

theorem innerSafe_neutral (ts : List JsonToken) (d : Int) (hd : 1 ≤ d)
    (h : ∀ t ∈ ts, tokNonContainer t = true) :
    innerSafe d (ts.map Chunk.tok) := by
  induction ts with
  | nil => trivial
  | cons t ts ih =>
      refine ⟨?_, ?_⟩
      · rw [updateDepth_tok_neutral d t (h t (by simp))]
        exact hd
      · rw [updateDepth_tok_neutral d t (h t (by simp))]
        exact ih (fun t2 ht2 => h t2 (by simp [ht2]))

theorem innerSafe_append (a b : List Chunk) (d : Int)
    (ha : innerSafe d a) (hb : innerSafe (List.foldl updateDepth d a) b) :
    innerSafe d (a ++ b) := by
  induction a generalizing d with
  | nil => exact hb
  | cons c a ih => exact ⟨ha.1, ih (updateDepth d c) ha.2 hb⟩

theorem depth_profile_filter (ow : Owner) (cs : List Chunk) (d : Int) :
    List.foldl updateDepth d cs
      = List.foldl updateDepth d
        (cs.filter (fun c => !(isOwnPackedEntry ow c))) := by
  induction cs generalizing d with
  | nil => rfl
  | cons c cs ih =>
      by_cases hoc : isOwnPackedEntry ow c = true
      · cases c with
        | packedEntry bb vv =>
            rw [List.filter_cons]
            simp only [hoc]
            rw [List.foldl_cons]
            exact ih d
        | tok t => simp [isOwnPackedEntry] at hoc
        | sparseEntryKeyStart b2 => simp [isOwnPackedEntry] at hoc
        | sparseEntryKeyEnd b2 => simp [isOwnPackedEntry] at hoc
        | sparseEntryValueStart b2 => simp [isOwnPackedEntry] at hoc
        | sparseEntryValueEnd b2 => simp [isOwnPackedEntry] at hoc
      · have hoc2 : isOwnPackedEntry ow c = false := by simpa using hoc
        rw [List.filter_cons]
        simp only [hoc2]
        rw [List.foldl_cons]
        exact ih (updateDepth d c)

theorem innerSafe_filter (ow : Owner) (cs : List Chunk) (d : Int)
    (hd : 1 ≤ d)
    (h : innerSafe d (cs.filter (fun c => !(isOwnPackedEntry ow c)))) :
    innerSafe d cs := by
  induction cs generalizing d with
  | nil => trivial
  | cons c cs ih =>
      by_cases hoc : isOwnPackedEntry ow c = true
      · cases c with
        | packedEntry bb vv =>
            rw [List.filter_cons] at h
            simp only [hoc] at h
            exact ⟨hd, ih d hd h⟩
        | tok t => simp [isOwnPackedEntry] at hoc
        | sparseEntryKeyStart b2 => simp [isOwnPackedEntry] at hoc
        | sparseEntryKeyEnd b2 => simp [isOwnPackedEntry] at hoc
        | sparseEntryValueStart b2 => simp [isOwnPackedEntry] at hoc
        | sparseEntryValueEnd b2 => simp [isOwnPackedEntry] at hoc
      · have hoc2 : isOwnPackedEntry ow c = false := by simpa using hoc
        rw [List.filter_cons] at h
        simp only [hoc2] at h
        obtain ⟨h1, h2⟩ := h
        exact ⟨h1, ih (updateDepth d c) h1 h2⟩

end MsftTodo

namespace MsftTodo

theorem updateDepth_startO (d : Int) :
    updateDepth d (Chunk.tok ⟨.startObject, ""⟩) = d + 1 := rfl

theorem updateDepth_endO (d : Int) :
    updateDepth d (Chunk.tok ⟨.endObject, ""⟩) = d - 1 := rfl

theorem updateDepth_startA (d : Int) :
    updateDepth d (Chunk.tok ⟨.startArray, ""⟩) = d + 1 := rfl

theorem updateDepth_endA (d : Int) :
    updateDepth d (Chunk.tok ⟨.endArray, ""⟩) = d - 1 := rfl

mutual

/-- A value's token stream is depth-balanced and, below an open container,
never closes more than it opened. -/
theorem tbV (f : Flags) (v : JVal) (ts : List JsonToken)
    (h : ValueTokens f v ts) :
    (∀ d : Int, List.foldl updateDepth d (ts.map Chunk.tok) = d) ∧
    (∀ d : Int, 1 ≤ d → innerSafe d (ts.map Chunk.tok)) := by
  cases v with
  | jnull =>
      have hn := scalarTokens_nonContainer f .jnull ts trivial h
      exact ⟨fun d => foldl_depth_neutral ts d hn,
        fun d hd => innerSafe_neutral ts d hd hn⟩
  | jbool b =>
      have hn := scalarTokens_nonContainer f (.jbool b) ts trivial h
      exact ⟨fun d => foldl_depth_neutral ts d hn,
        fun d hd => innerSafe_neutral ts d hd hn⟩
  | jstr s =>
      have hn := scalarTokens_nonContainer f (.jstr s) ts trivial h
      exact ⟨fun d => foldl_depth_neutral ts d hn,
        fun d hd => innerSafe_neutral ts d hd hn⟩
  | jnum s =>
      have hn := scalarTokens_nonContainer f (.jnum s) ts trivial h
      exact ⟨fun d => foldl_depth_neutral ts d hn,
        fun d hd => innerSafe_neutral ts d hd hn⟩
  | jarr xs =>
      obtain ⟨inner, hin, rfl⟩ := h
      obtain ⟨ih1, ih2⟩ := tbL f xs inner hin
      constructor
      · intro d
        rw [List.map_cons, List.foldl_cons, updateDepth_startA,
          List.map_append, List.foldl_append, ih1 (d + 1),
          List.map_cons, List.map_nil, List.foldl_cons, List.foldl_nil,
          updateDepth_endA]
        omega
      · intro d hd
        rw [List.map_cons, List.map_append, List.map_cons, List.map_nil]
        refine ⟨?_, ?_⟩
        · rw [updateDepth_startA]
          omega
        · rw [updateDepth_startA]
          refine innerSafe_append (inner.map Chunk.tok)
            [Chunk.tok ⟨.endArray, ""⟩] (d + 1) (ih2 (d + 1) (by omega)) ?_
          rw [ih1 (d + 1)]
          refine ⟨?_, trivial⟩
          rw [updateDepth_endA]
          omega
  | jobj es =>
      obtain ⟨inner, hin, rfl⟩ := h
      obtain ⟨ih1, ih2⟩ := tbE f es inner hin
      constructor
      · intro d
        rw [List.map_cons, List.foldl_cons, updateDepth_startO,
          List.map_append, List.foldl_append, ih1 (d + 1),
          List.map_cons, List.map_nil, List.foldl_cons, List.foldl_nil,
          updateDepth_endO]
        omega
      · intro d hd
        rw [List.map_cons, List.map_append, List.map_cons, List.map_nil]
        refine ⟨?_, ?_⟩
        · rw [updateDepth_startO]
          omega
        · rw [updateDepth_startO]
          refine innerSafe_append (inner.map Chunk.tok)
            [Chunk.tok ⟨.endObject, ""⟩] (d + 1) (ih2 (d + 1) (by omega)) ?_
          rw [ih1 (d + 1)]
          refine ⟨?_, trivial⟩
          rw [updateDepth_endO]
          omega

/-- Array elements' tokens are depth-balanced and close nothing beyond
their own openings. -/
theorem tbL (f : Flags) (xs : List JVal) (ts : List JsonToken)
    (h : ElemsTokens f xs ts) :
    (∀ d : Int, List.foldl updateDepth d (ts.map Chunk.tok) = d) ∧
    (∀ d : Int, 1 ≤ d → innerSafe d (ts.map Chunk.tok)) := by
  cases xs with
  | nil =>
      subst h
      exact ⟨fun d => rfl, fun d hd => trivial⟩
  | cons x xs =>
      obtain ⟨ts1, ts2, h1, h2, rfl⟩ := h
      obtain ⟨a1, a2⟩ := tbV f x ts1 h1
      obtain ⟨b1, b2⟩ := tbL f xs ts2 h2
      constructor
      · intro d
        rw [List.map_append, List.foldl_append, a1 d, b1 d]
      · intro d hd
        rw [List.map_append]
        exact innerSafe_append (ts1.map Chunk.tok) (ts2.map Chunk.tok) d
          (a2 d hd) (by rw [a1 d]; exact b2 d hd)

/-- Object entries' tokens are depth-balanced and close nothing beyond
their own openings. -/
theorem tbE (f : Flags) (es : List (String × JVal)) (ts : List JsonToken)
    (h : EntriesTokens f es ts) :
    (∀ d : Int, List.foldl updateDepth d (ts.map Chunk.tok) = d) ∧
    (∀ d : Int, 1 ≤ d → innerSafe d (ts.map Chunk.tok)) := by
  cases es with
  | nil =>
      subst h
      exact ⟨fun d => rfl, fun d hd => trivial⟩
  | cons e es =>
      obtain ⟨k, v⟩ := e
      obtain ⟨kts, vts, rest, hk, hv, he, rfl⟩ := h
      have hkn := keyTokens_nonContainer f.keys k kts hk
      obtain ⟨a1, a2⟩ := tbV f v vts hv
      obtain ⟨b1, b2⟩ := tbE f es rest he
      constructor
      · intro d
        rw [List.map_append, List.foldl_append,
          foldl_depth_neutral kts d hkn, List.map_append,
          List.foldl_append, a1 d, b1 d]
      · intro d hd
        rw [List.map_append, List.map_append]
        refine innerSafe_append (kts.map Chunk.tok) _ d
          (innerSafe_neutral kts d hd hkn) ?_
        rw [foldl_depth_neutral kts d hkn]
        refine innerSafe_append (vts.map Chunk.tok) (rest.map Chunk.tok) d
          (a2 d hd) ?_
        rw [a1 d]
        exact b2 d hd

end

end MsftTodo

namespace MsftTodo

theorem notOwn_tok (ow : Owner) (t : JsonToken) :
    isOwnPackedEntry ow (Chunk.tok t) = false := rfl

theorem own_pe_chunk (ow : Owner) (k : String) (stk : List StackElem)
    (i : Nat) (v : JVal) :
    isOwnPackedEntry ow (Chunk.packedEntry ⟨k, stk, i, ow⟩ v) = true := by
  simp [isOwnPackedEntry]

mutual

/-- Filtering the non-sparse, component-keeping `packEntry` output of any
value by the owner's packed entries recovers exactly the original token
stream. -/
theorem genFilterV (K : List String) (ow : Owner) (f : Flags)
    (st : List StackElem) (V : JVal) (ts : List JsonToken)
    (mout : List Chunk)
    (h : PEVOut ⟨K, false, ow, false⟩ f st V ts mout) :
    mout.filter (fun c => !(isOwnPackedEntry ow c)) = ts.map Chunk.tok := by
  cases V with
  | jnull =>
      obtain ⟨h1, rfl⟩ := h
      exact filter_notOwn_toks ow ts
  | jbool b =>
      cases b with
      | true =>
          obtain ⟨h1, rfl⟩ := h
          exact filter_notOwn_toks ow ts
      | false =>
          obtain ⟨h1, rfl⟩ := h
          exact filter_notOwn_toks ow ts
  | jstr v =>
      obtain ⟨h1, rfl⟩ := h
      exact filter_notOwn_toks ow ts
  | jnum v =>
      obtain ⟨h1, rfl⟩ := h
      exact filter_notOwn_toks ow ts
  | jarr xs =>
      obtain ⟨inner, iout, hin, rfl, rfl⟩ := h
      have ih := genFilterElems K ow f st (-1) xs inner iout hin
      simp [List.filter_cons, List.filter_append, notOwn_tok, ih,
        List.map_append]
  | jobj es =>
      obtain ⟨inner, iout, hin, rfl, rfl⟩ := h
      have ih := genFilterEntries K ow f st es inner iout hin
      simp [List.filter_cons, List.filter_append, notOwn_tok, ih,
        List.map_append]

/-- Element-list version of `genFilterV`. -/
theorem genFilterElems (K : List String) (ow : Owner) (f : Flags)
    (st : List StackElem) (n : Int) (xs : List JVal)
    (ts : List JsonToken) (mout : List Chunk)
    (h : PEElemsOut ⟨K, false, ow, false⟩ f n st xs ts mout) :
    mout.filter (fun c => !(isOwnPackedEntry ow c)) = ts.map Chunk.tok := by
  cases xs with
  | nil =>
      obtain ⟨rfl, rfl⟩ := h
      rfl
  | cons x xs =>
      obtain ⟨ts1, o1, ts2, o2, hx, hxs, rfl, rfl⟩ := h
      have ihv := genFilterV K ow f (.idx (n + 1) :: st) x ts1 o1 hx
      have ihl := genFilterElems K ow f st (n + 1) xs ts2 o2 hxs
      simp [List.filter_append, ihv, ihl, List.map_append]

/-- Entry-list version of `genFilterV`. -/
theorem genFilterEntries (K : List String) (ow : Owner) (f : Flags)
    (below : List StackElem) (es : List (String × JVal))
    (ts : List JsonToken) (mout : List Chunk)
    (h : PEEntriesOut ⟨K, false, ow, false⟩ f below es ts mout) :
    mout.filter (fun c => !(isOwnPackedEntry ow c)) = ts.map Chunk.tok := by
  cases es with
  | nil =>
      obtain ⟨rfl, rfl⟩ := h
      rfl
  | cons e es =>
      obtain ⟨k, v⟩ := e
      obtain ⟨kts, vts, rest2, o2, hkt, hvt, hes, rfl, hm⟩ := h
      have ihe := genFilterEntries K ow f below es rest2 o2 hes
      rcases hfind : (⟨K, false, ow, false⟩ : PEConfig).keys.findIdx?
          (fun q => pathOf ((StackElem.key k :: below).reverse) = q)
        with _ | i
      · rw [hfind] at hm
        obtain ⟨vout, hv2, rfl⟩ := hm
        have ihv := genFilterV K ow f (.key k :: below) v vts vout hv2
        simp [List.filter_append, filter_notOwn_toks, ihv, ihe,
          List.map_append]
      · rw [hfind] at hm
        subst hm
        simp [keyFlush, matchedValOut, List.filter_append, List.filter_cons,
          filter_notOwn_toks, own_pe_chunk, ihe, List.map_append]

end

mutual

/-- The `packEntry` output relation embeds a valid tokenization. -/
theorem pevTokensV (cfg : PEConfig) (f : Flags) (st : List StackElem)
    (V : JVal) (ts : List JsonToken) (mout : List Chunk)
    (h : PEVOut cfg f st V ts mout) : ValueTokens f V ts := by
  cases V with
  | jnull => exact h.1
  | jbool b => cases b <;> exact h.1
  | jstr v => exact h.1
  | jnum v => exact h.1
  | jarr xs =>
      obtain ⟨inner, iout, hin, rfl, rfl⟩ := h
      exact ⟨inner, pevTokensElems cfg f st (-1) xs inner iout hin, rfl⟩
  | jobj es =>
      obtain ⟨inner, iout, hin, rfl, rfl⟩ := h
      exact ⟨inner, pevTokensEntries cfg f st es inner iout hin, rfl⟩

/-- Element-list version of `pevTokensV`. -/
theorem pevTokensElems (cfg : PEConfig) (f : Flags) (st : List StackElem)
    (n : Int) (xs : List JVal) (ts : List JsonToken) (mout : List Chunk)
    (h : PEElemsOut cfg f n st xs ts mout) : ElemsTokens f xs ts := by
  cases xs with
  | nil => exact h.1
  | cons x xs =>
      obtain ⟨ts1, o1, ts2, o2, hx, hxs, rfl, rfl⟩ := h
      exact ⟨ts1, ts2, pevTokensV cfg f (.idx (n + 1) :: st) x ts1 o1 hx,
        pevTokensElems cfg f st (n + 1) xs ts2 o2 hxs, rfl⟩

/-- Entry-list version of `pevTokensV`. -/
theorem pevTokensEntries (cfg : PEConfig) (f : Flags)
    (below : List StackElem) (es : List (String × JVal))
    (ts : List JsonToken) (mout : List Chunk)
    (h : PEEntriesOut cfg f below es ts mout) : EntriesTokens f es ts := by
  cases es with
  | nil => exact h.1
  | cons e es =>
      obtain ⟨k, v⟩ := e
      obtain ⟨kts, vts, rest2, o2, hkt, hvt, hes, rfl, hm⟩ := h
      exact ⟨kts, vts, rest2, hkt, hvt,
        pevTokensEntries cfg f below es rest2 o2 hes, rfl⟩

end

end MsftTodo

namespace MsftTodo

mutual

/-- Scanning a value's `packEntry` output for sieve decisions computes the
value-level verdict. -/
theorem cvV (pairs : List (String × (JVal → Bool))) (ow : Owner)
    (f : Flags) (st : List StackElem) (V : JVal) (ts : List JsonToken)
    (mout : List Chunk)
    (h : PEVOut ⟨pairs.map Prod.fst, false, ow, false⟩ f st V ts mout)
    (fl : Bool × Bool) :
    chunkVerdict pairs ow mout fl = vVerdict pairs st V fl := by
  cases V with
  | jnull =>
      obtain ⟨h1, rfl⟩ := h
      exact chunkVerdict_toks pairs ow ts fl
  | jbool b =>
      cases b with
      | true =>
          obtain ⟨h1, rfl⟩ := h
          exact chunkVerdict_toks pairs ow ts fl
      | false =>
          obtain ⟨h1, rfl⟩ := h
          exact chunkVerdict_toks pairs ow ts fl
  | jstr v =>
      obtain ⟨h1, rfl⟩ := h
      exact chunkVerdict_toks pairs ow ts fl
  | jnum v =>
      obtain ⟨h1, rfl⟩ := h
      exact chunkVerdict_toks pairs ow ts fl
  | jarr xs =>
      obtain ⟨inner, iout, hin, rfl, rfl⟩ := h
      rw [chunkVerdict_cons_skip pairs ow _ _ fl
          (notOwn_tok ow ⟨.startArray, ""⟩),
        chunkVerdict_append,
        cvL pairs ow f st (-1) xs inner iout hin fl,
        chunkVerdict_cons_skip pairs ow _ _ _
          (notOwn_tok ow ⟨.endArray, ""⟩)]
      rfl
  | jobj es =>
      obtain ⟨inner, iout, hin, rfl, rfl⟩ := h
      rw [chunkVerdict_cons_skip pairs ow _ _ fl
          (notOwn_tok ow ⟨.startObject, ""⟩),
        chunkVerdict_append,
        cvE pairs ow f st es inner iout hin fl,
        chunkVerdict_cons_skip pairs ow _ _ _
          (notOwn_tok ow ⟨.endObject, ""⟩)]
      rfl

/-- Element-list version of `cvV`. -/
theorem cvL (pairs : List (String × (JVal → Bool))) (ow : Owner)
    (f : Flags) (st : List StackElem) (n : Int) (xs : List JVal)
    (ts : List JsonToken) (mout : List Chunk)
    (h : PEElemsOut ⟨pairs.map Prod.fst, false, ow, false⟩ f n st xs ts mout)
    (fl : Bool × Bool) :
    chunkVerdict pairs ow mout fl = lVerdict pairs n st xs fl := by
  cases xs with
  | nil =>
      obtain ⟨rfl, rfl⟩ := h
      rfl
  | cons x xs =>
      obtain ⟨ts1, o1, ts2, o2, hx, hxs, rfl, rfl⟩ := h
      rw [chunkVerdict_append,
        cvV pairs ow f (.idx (n + 1) :: st) x ts1 o1 hx fl,
        cvL pairs ow f st (n + 1) xs ts2 o2 hxs _]
      rfl

/-- Entry-list version of `cvV`. -/
theorem cvE (pairs : List (String × (JVal → Bool))) (ow : Owner)
    (f : Flags) (below : List StackElem) (es : List (String × JVal))
    (ts : List JsonToken) (mout : List Chunk)
    (h : PEEntriesOut ⟨pairs.map Prod.fst, false, ow, false⟩ f below es ts
      mout)
    (fl : Bool × Bool) :
    chunkVerdict pairs ow mout fl = eVerdict pairs below es fl := by
  cases es with
  | nil =>
      obtain ⟨rfl, rfl⟩ := h
      rfl
  | cons e es =>
      obtain ⟨k, v⟩ := e
      obtain ⟨kts, vts, rest2, o2, hkt, hvt, hes, rfl, hm⟩ := h
      by_cases hfr : (fl.1 || fl.2) = true
      · rw [chunkVerdict_frozen pairs ow _ fl hfr,
          eVerdict_frozen pairs below ((k, v) :: es) fl hfr]
      · have h0 : (fl.1 || fl.2) = false := by simpa using hfr
        rcases hfind : (⟨pairs.map Prod.fst, false, ow, false⟩ :
              PEConfig).keys.findIdx?
            (fun q => pathOf ((StackElem.key k :: below).reverse) = q)
          with _ | i
        · rw [hfind] at hm
          obtain ⟨vout, hv2, rfl⟩ := hm
          have hfind2 : (pairs.map Prod.fst).findIdx?
              (fun q => pathOf ((StackElem.key k :: below).reverse) = q)
              = none := by
            simpa using hfind
          rw [show eVerdict pairs below ((k, v) :: es) fl
              = eVerdict pairs below es
                (vVerdict pairs (.key k :: below) v fl) from by
            simp only [eVerdict, h0]
            rw [hfind2]
            rfl]
          rw [chunkVerdict_append, chunkVerdict_toks,
            chunkVerdict_append,
            cvV pairs ow f (.key k :: below) v vts vout hv2 fl,
            cvE pairs ow f below es rest2 o2 hes _]
        · rw [hfind] at hm
          have hfind2 : (pairs.map Prod.fst).findIdx?
              (fun q => pathOf ((StackElem.key k :: below).reverse) = q)
              = some i := by
            simpa using hfind
          have hout2 : mout = kts.map Chunk.tok ++ (vts.map Chunk.tok
              ++ (Chunk.packedEntry
                ⟨k, (StackElem.key k :: below).reverse, i, ow⟩ v :: o2)) := by
            rw [hm]
            simp [keyFlush, matchedValOut]
          subst hout2
          rw [show eVerdict pairs below ((k, v) :: es) fl
              = eVerdict pairs below es
                (sieveDecideFlags pairs i v fl) from by
            simp only [eVerdict, h0]
            rw [hfind2]
            rfl]
          rw [chunkVerdict_append, chunkVerdict_toks,
            chunkVerdict_append, chunkVerdict_toks,
            chunkVerdict_cons_pe_own pairs ow
              ⟨k, (StackElem.key k :: below).reverse, i, ow⟩ v o2 fl rfl h0,
            cvE pairs ow f below es rest2 o2 hes _]

end

end MsftTodo

namespace MsftTodo

/-- One sieve step while undecided below the root on a chunk that is not an
owned packed entry: the chunk is buffered and the depth tracked. -/
theorem sieveStepInner_buffer (pairs : List (String × (JVal → Bool)))
    (ow : Owner) (st : SieveState) (c : Chunk)
    (hd : 1 ≤ st.depth) (hdc : 1 ≤ updateDepth st.depth c)
    (hdisc : st.isDiscarding = false) (hrel : st.isReleasing = false)
    (hown : isOwnPackedEntry ow c = false) :
    sieveStep pairs ow st c
      = ({ st with
          depth := updateDepth st.depth c
          buffer := st.buffer ++ [c] }, []) := by
  cases c with
  | tok t =>
      cases hn : t.name with
      | startObject =>
          unfold sieveStep
          simp [updateDepth, hn, hdisc, hrel, hown]
      | endObject =>
          simp only [updateDepth, hn] at hdc
          have h3 : ¬(st.depth - (1 : Int) = 0) := by omega
          unfold sieveStep
          simp [updateDepth, hn, h3, hdisc, hrel, hown]
      | startArray =>
          unfold sieveStep
          simp [updateDepth, hn, hdisc, hrel, hown]
      | endArray =>
          unfold sieveStep
          simp [updateDepth, hn, hdisc, hrel, hown]
      | startKey =>
          unfold sieveStep
          simp [updateDepth, hn, hdisc, hrel, hown]
      | endKey =>
          unfold sieveStep
          simp [updateDepth, hn, hdisc, hrel, hown]
      | startString =>
          unfold sieveStep
          simp [updateDepth, hn, hdisc, hrel, hown]
      | endString =>
          unfold sieveStep
          simp [updateDepth, hn, hdisc, hrel, hown]
      | stringChunk =>
          unfold sieveStep
          simp [updateDepth, hn, hdisc, hrel, hown]
      | startNumber =>
          unfold sieveStep
          simp [updateDepth, hn, hdisc, hrel, hown]
      | endNumber =>
          unfold sieveStep
          simp [updateDepth, hn, hdisc, hrel, hown]
      | numberChunk =>
          unfold sieveStep
          simp [updateDepth, hn, hdisc, hrel, hown]
      | keyValue =>
          unfold sieveStep
          simp [updateDepth, hn, hdisc, hrel, hown]
      | stringValue =>
          unfold sieveStep
          simp [updateDepth, hn, hdisc, hrel, hown]
      | numberValue =>
          unfold sieveStep
          simp [updateDepth, hn, hdisc, hrel, hown]
      | trueValue =>
          unfold sieveStep
          simp [updateDepth, hn, hdisc, hrel, hown]
      | falseValue =>
          unfold sieveStep
          simp [updateDepth, hn, hdisc, hrel, hown]
      | nullValue =>
          unfold sieveStep
          simp [updateDepth, hn, hdisc, hrel, hown]
  | packedEntry b2 v2 =>
      unfold sieveStep
      simp [updateDepth, hdisc, hrel, hown]
  | sparseEntryKeyStart b2 =>
      unfold sieveStep
      simp [updateDepth, hdisc, hrel, hown]
  | sparseEntryKeyEnd b2 =>
      unfold sieveStep
      simp [updateDepth, hdisc, hrel, hown]
  | sparseEntryValueStart b2 =>
      unfold sieveStep
      simp [updateDepth, hdisc, hrel, hown]
  | sparseEntryValueEnd b2 =>
      unfold sieveStep
      simp [updateDepth, hdisc, hrel, hown]

/-- One sieve step while undecided on an owned packed entry: the sieve
decides and emits nothing. -/
theorem sieveStepInner_decide (pairs : List (String × (JVal → Bool)))
    (ow : Owner) (st : SieveState) (b : EntryBase) (v : JVal)
    (hdisc : st.isDiscarding = false) (hrel : st.isReleasing = false)
    (hown : b.owner = ow) :
    sieveStep pairs ow st (.packedEntry b v)
      = (sieveDecide pairs b v { st with depth := st.depth }, []) := by
  unfold sieveStep
  simp [updateDepth, isOwnPackedEntry, hdisc, hrel, hown]

/-- One sieve step while releasing below the root: the buffer is flushed
followed by the chunk itself unless it is an owned packed entry. -/
theorem sieveStepInner_release (pairs : List (String × (JVal → Bool)))
    (ow : Owner) (st : SieveState) (c : Chunk)
    (hd : 1 ≤ st.depth) (hdc : 1 ≤ updateDepth st.depth c)
    (hdisc : st.isDiscarding = false) (hrel : st.isReleasing = true) :
    sieveStep pairs ow st c
      = ({ st with
          depth := updateDepth st.depth c
          buffer := [] },
        st.buffer ++ (if isOwnPackedEntry ow c then [] else [c])) := by
  cases c with
  | tok t =>
      cases hn : t.name with
      | startObject =>
          have h1 : ¬(st.depth + (1 : Int) = 1) := by omega
          unfold sieveStep
          simp [updateDepth, hn, h1, hdisc, hrel]
      | endObject =>
          simp only [updateDepth, hn] at hdc
          have h3 : ¬(st.depth - (1 : Int) = 0) := by omega
          unfold sieveStep
          simp [updateDepth, hn, h3, hdisc, hrel]
      | startArray =>
          unfold sieveStep
          simp [updateDepth, hn, hdisc, hrel]
      | endArray =>
          unfold sieveStep
          simp [updateDepth, hn, hdisc, hrel]
      | startKey =>
          unfold sieveStep
          simp [updateDepth, hn, hdisc, hrel]
      | endKey =>
          unfold sieveStep
          simp [updateDepth, hn, hdisc, hrel]
      | startString =>
          unfold sieveStep
          simp [updateDepth, hn, hdisc, hrel]
      | endString =>
          unfold sieveStep
          simp [updateDepth, hn, hdisc, hrel]
      | stringChunk =>
          unfold sieveStep
          simp [updateDepth, hn, hdisc, hrel]
      | startNumber =>
          unfold sieveStep
          simp [updateDepth, hn, hdisc, hrel]
      | endNumber =>
          unfold sieveStep
          simp [updateDepth, hn, hdisc, hrel]
      | numberChunk =>
          unfold sieveStep
          simp [updateDepth, hn, hdisc, hrel]
      | keyValue =>
          unfold sieveStep
          simp [updateDepth, hn, hdisc, hrel]
      | stringValue =>
          unfold sieveStep
          simp [updateDepth, hn, hdisc, hrel]
      | numberValue =>
          unfold sieveStep
          simp [updateDepth, hn, hdisc, hrel]
      | trueValue =>
          unfold sieveStep
          simp [updateDepth, hn, hdisc, hrel]
      | falseValue =>
          unfold sieveStep
          simp [updateDepth, hn, hdisc, hrel]
      | nullValue =>
          unfold sieveStep
          simp [updateDepth, hn, hdisc, hrel]
  | packedEntry b2 v2 =>
      unfold sieveStep
      simp [updateDepth, hdisc, hrel]
  | sparseEntryKeyStart b2 =>
      unfold sieveStep
      simp [updateDepth, hdisc, hrel]
  | sparseEntryKeyEnd b2 =>
      unfold sieveStep
      simp [updateDepth, hdisc, hrel]
  | sparseEntryValueStart b2 =>
      unfold sieveStep
      simp [updateDepth, hdisc, hrel]
  | sparseEntryValueEnd b2 =>
      unfold sieveStep
      simp [updateDepth, hdisc, hrel]

/-- One sieve step while discarding below the root: everything is dropped
and the buffer stays empty. -/
theorem sieveStepInner_discard (pairs : List (String × (JVal → Bool)))
    (ow : Owner) (st : SieveState) (c : Chunk)
    (hd : 1 ≤ st.depth) (hdc : 1 ≤ updateDepth st.depth c)
    (hdisc : st.isDiscarding = true) :
    sieveStep pairs ow st c
      = ({ st with
          depth := updateDepth st.depth c
          buffer := [] }, []) := by
  cases c with
  | tok t =>
      cases hn : t.name with
      | startObject =>
          have h1 : ¬(st.depth + (1 : Int) = 1) := by omega
          unfold sieveStep
          simp [updateDepth, hn, h1, hdisc]
      | endObject =>
          simp only [updateDepth, hn] at hdc
          have h3 : ¬(st.depth - (1 : Int) = 0) := by omega
          unfold sieveStep
          simp [updateDepth, hn, h3, hdisc]
      | startArray =>
          unfold sieveStep
          simp [updateDepth, hn, hdisc]
      | endArray =>
          unfold sieveStep
          simp [updateDepth, hn, hdisc]
      | startKey =>
          unfold sieveStep
          simp [updateDepth, hn, hdisc]
      | endKey =>
          unfold sieveStep
          simp [updateDepth, hn, hdisc]
      | startString =>
          unfold sieveStep
          simp [updateDepth, hn, hdisc]
      | endString =>
          unfold sieveStep
          simp [updateDepth, hn, hdisc]
      | stringChunk =>
          unfold sieveStep
          simp [updateDepth, hn, hdisc]
      | startNumber =>
          unfold sieveStep
          simp [updateDepth, hn, hdisc]
      | endNumber =>
          unfold sieveStep
          simp [updateDepth, hn, hdisc]
      | numberChunk =>
          unfold sieveStep
          simp [updateDepth, hn, hdisc]
      | keyValue =>
          unfold sieveStep
          simp [updateDepth, hn, hdisc]
      | stringValue =>
          unfold sieveStep
          simp [updateDepth, hn, hdisc]
      | numberValue =>
          unfold sieveStep
          simp [updateDepth, hn, hdisc]
      | trueValue =>
          unfold sieveStep
          simp [updateDepth, hn, hdisc]
      | falseValue =>
          unfold sieveStep
          simp [updateDepth, hn, hdisc]
      | nullValue =>
          unfold sieveStep
          simp [updateDepth, hn, hdisc]
  | packedEntry b2 v2 =>
      unfold sieveStep
      simp [updateDepth, hdisc]
  | sparseEntryKeyStart b2 =>
      unfold sieveStep
      simp [updateDepth, hdisc]
  | sparseEntryKeyEnd b2 =>
      unfold sieveStep
      simp [updateDepth, hdisc]
  | sparseEntryValueStart b2 =>
      unfold sieveStep
      simp [updateDepth, hdisc]
  | sparseEntryValueEnd b2 =>
      unfold sieveStep
      simp [updateDepth, hdisc]

end MsftTodo

namespace MsftTodo

/-- Running the sieve's second stage below the root over any depth-safe
chunk sequence: the depth is tracked, the flags evolve by `chunkVerdict`,
nothing is emitted unless the sieve is releasing, and while not discarding
the output and buffer together account for every chunk that is not an
owned packed entry. -/
theorem sieveInnerRun (pairs : List (String × (JVal → Bool))) (ow : Owner)
    (cs : List Chunk) (st : SieveState)
    (hd : 1 ≤ st.depth) (hsafe : innerSafe st.depth cs) :
    ∃ st2 out2, sieveRun pairs ow st cs = (st2, out2) ∧
      st2.depth = List.foldl updateDepth st.depth cs ∧
      (st2.isDiscarding, st2.isReleasing)
        = chunkVerdict pairs ow cs (st.isDiscarding, st.isReleasing) ∧
      (st2.isDiscarding = true → out2 = []) ∧
      (st2.isReleasing = false → out2 = []) ∧
      (st2.isDiscarding = false →
        out2 ++ st2.buffer
          = st.buffer ++ cs.filter (fun c => !(isOwnPackedEntry ow c))) := by
  induction cs generalizing st with
  | nil =>
      exact ⟨st, [], rfl, rfl, rfl, fun _ => rfl, fun _ => rfl,
        fun _ => by simp⟩
  | cons c cs ih =>
      obtain ⟨hdc, hsafe2⟩ := hsafe
      cases hA : st.isDiscarding with
      | true =>
          have hstep := sieveStepInner_discard pairs ow st c hd hdc hA
          obtain ⟨st2, out2, hrun2, g1, g2, g3, g5, g4⟩ :=
            ih ({ st with
              depth := updateDepth st.depth c
              buffer := [] }) hdc hsafe2
          have g2f : (st2.isDiscarding, st2.isReleasing)
              = (true, st.isReleasing) := by
            rw [g2, chunkVerdict_frozen pairs ow cs _ (by simp [hA])]
            simp [hA]
          have hst2d : st2.isDiscarding = true := congrArg Prod.fst g2f
          have hout2 : out2 = [] := g3 hst2d
          refine ⟨st2, [] ++ out2,
            sieveRunCons pairs ow st c cs _ [] st2 out2 hstep hrun2,
            g1, ?_, fun _ => by simp [hout2], fun _ => by simp [hout2], ?_⟩
          · rw [chunkVerdict_frozen pairs ow (c :: cs) _ (by simp)]
            exact g2f
          · intro hdf
            simp [hst2d] at hdf
      | false =>
          cases hB : st.isReleasing with
          | true =>
              have hstep := sieveStepInner_release pairs ow st c hd hdc hA hB
              obtain ⟨st2, out2, hrun2, g1, g2, g3, g5, g4⟩ :=
                ih ({ st with
                  depth := updateDepth st.depth c
                  buffer := [] }) hdc hsafe2
              have g2f : (st2.isDiscarding, st2.isReleasing)
                  = (false, true) := by
                rw [g2, chunkVerdict_frozen pairs ow cs _ (by simp [hB])]
                simp [hA, hB]
              have hst2d : st2.isDiscarding = false := congrArg Prod.fst g2f
              have hst2r : st2.isReleasing = true := congrArg Prod.snd g2f
              have g4h : out2 ++ st2.buffer
                  = cs.filter (fun c => !(isOwnPackedEntry ow c)) := by
                simpa using g4 hst2d
              refine ⟨st2,
                (st.buffer ++ (if isOwnPackedEntry ow c then [] else [c]))
                  ++ out2,
                sieveRunCons pairs ow st c cs _ _ st2 out2 hstep hrun2,
                g1, ?_, ?_, ?_, fun _ => ?_⟩
              · rw [chunkVerdict_frozen pairs ow (c :: cs) _ (by simp)]
                exact g2f
              · intro hdt
                simp [hst2d] at hdt
              · intro hrf
                simp [hst2r] at hrf
              · by_cases ho : isOwnPackedEntry ow c = true
                · simp [ho, List.filter_cons, List.append_assoc, g4h]
                · simp [ho, List.filter_cons, List.append_assoc, g4h]
          | false =>
              by_cases hoc : isOwnPackedEntry ow c = true
              · cases c with
                | packedEntry b v =>
                    have ho : b.owner = ow := by
                      simpa [isOwnPackedEntry] using hoc
                    have hstep := sieveStepInner_decide pairs ow st b v hA hB ho
                    obtain ⟨st2, out2, hrun2, g1, g2, g3, g5, g4⟩ :=
                      ih (sieveDecide pairs b v { st with depth := st.depth })
                        (by rw [sieveDecide_depth]; exact hd)
                        (by rw [sieveDecide_depth]; exact hsafe2)
                    have hfl : ((sieveDecide pairs b v
                          { st with depth := st.depth }).isDiscarding,
                        (sieveDecide pairs b v
                          { st with depth := st.depth }).isReleasing)
                        = sieveDecideFlags pairs b.matcher v (false, false) := by
                      rw [sieveDecide_flag_pair]
                      simp [hA, hB]
                    have hbuf : (sieveDecide pairs b v
                        { st with depth := st.depth }).buffer = st.buffer := by
                      rw [sieveDecide_buffer]
                    refine ⟨st2, [] ++ out2,
                      sieveRunCons pairs ow st _ cs _ [] st2 out2 hstep hrun2,
                      ?_, ?_, g3, g5, ?_⟩
                    · rw [g1, sieveDecide_depth]
                      rfl
                    · rw [chunkVerdict_cons_pe_own pairs ow b v cs
                        (false, false) ho rfl, g2, hfl]
                    · intro hdf
                      have g4h := g4 hdf
                      rw [hbuf] at g4h
                      have hpe : isOwnPackedEntry ow (Chunk.packedEntry b v)
                          = true := by
                        simp [isOwnPackedEntry, ho]
                      simp [List.filter_cons, hpe, g4h]
                | tok t => simp [isOwnPackedEntry] at hoc
                | sparseEntryKeyStart b2 => simp [isOwnPackedEntry] at hoc
                | sparseEntryKeyEnd b2 => simp [isOwnPackedEntry] at hoc
                | sparseEntryValueStart b2 => simp [isOwnPackedEntry] at hoc
                | sparseEntryValueEnd b2 => simp [isOwnPackedEntry] at hoc
              · have hoc2 : isOwnPackedEntry ow c = false := by simpa using hoc
                have hstep := sieveStepInner_buffer pairs ow st c hd hdc hA hB
                  hoc2
                obtain ⟨st2, out2, hrun2, g1, g2, g3, g5, g4⟩ :=
                  ih ({ st with
                    depth := updateDepth st.depth c
                    buffer := st.buffer ++ [c] }) hdc hsafe2
                refine ⟨st2, [] ++ out2,
                  sieveRunCons pairs ow st c cs _ [] st2 out2 hstep hrun2,
                  g1, ?_, g3, g5, ?_⟩
                · rw [chunkVerdict_cons_skip pairs ow c cs _ hoc2, g2]
                  simp [hA, hB]
                · intro hdf
                  have g4h := g4 hdf
                  simp only [] at g4h
                  simp [List.filter_cons, hoc2, List.append_assoc, g4h]

end MsftTodo

namespace MsftTodo

/-- Sieving one root object's `packEntry` chunk stream from the resting
state: the object comes out whole — exactly its original tokens — when the
verdict over its entries releases it, and contributes nothing otherwise
(in particular when no decision was ever reached); the sieve returns to
its resting state either way. -/
theorem sieveObjectRunGen (pairs : List (String × (JVal → Bool)))
    (ow : Owner) (f : Flags) (es : List (String × JVal))
    (inner : List JsonToken) (iout : List Chunk)
    (hent : PEEntriesOut ⟨pairs.map Prod.fst, false, ow, false⟩ f [] es
      inner iout) :
    sieveRun pairs ow ⟨0, [], false, true⟩
        (Chunk.tok ⟨.startObject, ""⟩ :: (iout ++ [Chunk.tok ⟨.endObject, ""⟩]))
      = (⟨0, [], false, true⟩,
        if (eVerdict pairs [] es (false, false)).2 = true
        then Chunk.tok ⟨.startObject, ""⟩ ::
          (inner.map Chunk.tok ++ [Chunk.tok ⟨.endObject, ""⟩])
        else []) := by
  have hstart : sieveStep pairs ow ⟨0, [], false, true⟩
      (Chunk.tok ⟨.startObject, ""⟩)
      = (⟨1, [Chunk.tok ⟨.startObject, ""⟩], false, false⟩, []) := by
    rfl
  have htok := pevTokensEntries ⟨pairs.map Prod.fst, false, ow, false⟩ f []
    es inner iout hent
  obtain ⟨tb1, tb2⟩ := tbE f es inner htok
  have hfilter := genFilterEntries (pairs.map Prod.fst) ow f [] es inner
    iout hent
  have hbal : List.foldl updateDepth (1 : Int) iout = 1 := by
    rw [depth_profile_filter ow iout 1, hfilter]
    exact tb1 1
  have hsafe : innerSafe (1 : Int) iout := by
    refine innerSafe_filter ow iout 1 (by omega) ?_
    rw [hfilter]
    exact tb2 1 (by omega)
  obtain ⟨st2, out2, hrun2, g1, g2, g3, g5, g4⟩ :=
    sieveInnerRun pairs ow iout
      ⟨1, [Chunk.tok ⟨.startObject, ""⟩], false, false⟩ (le_refl 1) hsafe
  have g1d : st2.depth = 1 := by
    rw [g1]
    exact hbal
  have hcv := cvE pairs ow f [] es inner iout hent (false, false)
  have hx0 := chunkVerdict_excl pairs ow iout (false, false) rfl
  rw [hcv] at hx0
  simp only [] at g2
  rw [hcv] at g2
  rcases hver : eVerdict pairs [] es (false, false) with ⟨d2, r2⟩
  rw [hver] at g2 hx0
  have gd : st2.isDiscarding = d2 := congrArg Prod.fst g2
  have gr : st2.isReleasing = r2 := congrArg Prod.snd g2
  have hx : (d2 && r2) = false := by simpa using hx0
  cases d2 with
  | true =>
      have hr2 : r2 = false := by
        cases r2
        · rfl
        · simp at hx
      subst hr2
      have hout2 : out2 = [] := g3 gd
      have hend := sieveStep_end_discard pairs ow st2 g1d gd
      rw [sieveRunCons pairs ow ⟨0, [], false, true⟩
        (Chunk.tok ⟨.startObject, ""⟩)
        (iout ++ [Chunk.tok ⟨.endObject, ""⟩])
        ⟨1, [Chunk.tok ⟨.startObject, ""⟩], false, false⟩ []
        ⟨0, [], false, true⟩ (out2 ++ (([]) ++ [])) hstart
        (sieveRun_append2 pairs ow
          ⟨1, [Chunk.tok ⟨.startObject, ""⟩], false, false⟩ iout
          [Chunk.tok ⟨.endObject, ""⟩] st2 out2 ⟨0, [], false, true⟩
          (([]) ++ []) hrun2
          (sieveRunCons pairs ow st2 (Chunk.tok ⟨.endObject, ""⟩) []
            ⟨0, [], false, true⟩ [] ⟨0, [], false, true⟩ [] hend rfl))]
      simp [hout2]
  | false =>
      cases r2 with
      | true =>
          have hend := sieveStep_end_release pairs ow st2 g1d gd gr
          have hacct : out2 ++ st2.buffer
              = Chunk.tok ⟨.startObject, ""⟩ :: inner.map Chunk.tok := by
            have h0 := g4 gd
            simp only [] at h0
            rw [hfilter] at h0
            simpa using h0
          rw [sieveRunCons pairs ow ⟨0, [], false, true⟩
            (Chunk.tok ⟨.startObject, ""⟩)
            (iout ++ [Chunk.tok ⟨.endObject, ""⟩])
            ⟨1, [Chunk.tok ⟨.startObject, ""⟩], false, false⟩ []
            ⟨0, [], false, true⟩
            (out2 ++ ((st2.buffer ++ [Chunk.tok ⟨.endObject, ""⟩]) ++ []))
            hstart
            (sieveRun_append2 pairs ow
              ⟨1, [Chunk.tok ⟨.startObject, ""⟩], false, false⟩ iout
              [Chunk.tok ⟨.endObject, ""⟩] st2 out2 ⟨0, [], false, true⟩
              ((st2.buffer ++ [Chunk.tok ⟨.endObject, ""⟩]) ++ []) hrun2
              (sieveRunCons pairs ow st2 (Chunk.tok ⟨.endObject, ""⟩) []
                ⟨0, [], false, true⟩
                (st2.buffer ++ [Chunk.tok ⟨.endObject, ""⟩])
                ⟨0, [], false, true⟩ [] hend rfl))]
          simp only [List.append_nil, List.nil_append]
          rw [← List.append_assoc, hacct]
          simp
      | false =>
          have hout2 : out2 = [] := g5 gr
          have hend := sieveStep_end_undecided pairs ow st2 g1d gd gr
          rw [sieveRunCons pairs ow ⟨0, [], false, true⟩
            (Chunk.tok ⟨.startObject, ""⟩)
            (iout ++ [Chunk.tok ⟨.endObject, ""⟩])
            ⟨1, [Chunk.tok ⟨.startObject, ""⟩], false, false⟩ []
            ⟨0, [], false, true⟩ (out2 ++ (([]) ++ [])) hstart
            (sieveRun_append2 pairs ow
              ⟨1, [Chunk.tok ⟨.startObject, ""⟩], false, false⟩ iout
              [Chunk.tok ⟨.endObject, ""⟩] st2 out2 ⟨0, [], false, true⟩
              (([]) ++ []) hrun2
              (sieveRunCons pairs ow st2 (Chunk.tok ⟨.endObject, ""⟩) []
                ⟨0, [], false, true⟩ [] ⟨0, [], false, true⟩ [] hend rfl))]
          simp [hout2]

end MsftTodo

namespace MsftTodo

/-- Running `packEntry` (packed mode, components kept) over a stream of
root objects and sieving the result from the resting state: every object
whose entry verdict releases survives as exactly its original tokens,
every other object contributes nothing. -/
theorem streamRunGen (pairs : List (String × (JVal → Bool))) (ow : Owner)
    (f : Flags) (objs : List (List (String × JVal) × List JsonToken))
    (s : PEState)
    (h : ∀ p ∈ objs, ValueTokens f (.jobj p.1) p.2 ∧ wfV (.jobj p.1))
    (hps : s.packingState = .idle) (hbuf : s.keyTokenBuffer = [])
    (ha : AsmReady f false s.asm) (hkb : s.tracker.keyBuffer = none)
    (hsafe : PrevTrackSafe f s.tracker) (hstk : s.tracker.stack = []) :
    ∃ s2 mid, peRun ⟨pairs.map Prod.fst, false, ow, false⟩ s
        ((objs.map Prod.snd).flatten.map .tok) = some (s2, mid) ∧
      sieveRun pairs ow ⟨0, [], false, true⟩ mid
        = (⟨0, [], false, true⟩,
          (objs.map (fun p =>
            if (eVerdict pairs [] p.1 (false, false)).2 = true
            then p.2.map Chunk.tok else [])).flatten) := by
  induction objs generalizing s with
  | nil => exact ⟨s, [], rfl, rfl⟩
  | cons p objs ih =>
      obtain ⟨es, ts⟩ := p
      obtain ⟨hv, hw⟩ := h (es, ts) (by simp)
      obtain ⟨s2, out, hrun1, hpev, hps2, hbuf2, ha2, htr⟩ :=
        peVRun ⟨pairs.map Prod.fst, false, ow, false⟩ f (.jobj es) ts s hv hw
          hps hbuf ha hkb hsafe
      have hst0 : (incrementIfHeadIsArray s.tracker).stack = [] := by
        simp [incrementIfHeadIsArray, hstk]
      obtain ⟨inner, iout, hent, hts, hout⟩ := hpev
      rw [hst0] at hent
      obtain ⟨htk1, htk2, htk3⟩ := trackV f (.jobj es) ts s.tracker hv hkb hsafe
      rw [← htr] at htk1 htk2 htk3
      rw [hst0] at htk1
      obtain ⟨s3, mid2, hrun2, hsieve2⟩ :=
        ih s2 (fun p2 hp2 => h p2 (by simp [hp2])) hps2 hbuf2 ha2 htk2 htk3
          htk1
      refine ⟨s3, out ++ mid2, ?_, ?_⟩
      · rw [show (((es, ts) :: objs).map Prod.snd).flatten.map Chunk.tok
            = ts.map Chunk.tok
              ++ (objs.map Prod.snd).flatten.map Chunk.tok from by simp]
        exact peRun_append_some ⟨pairs.map Prod.fst, false, ow, false⟩ s
          (ts.map .tok) ((objs.map Prod.snd).flatten.map .tok) s2 out s3 mid2
          hrun1 hrun2
      · have hobj := sieveObjectRunGen pairs ow f es inner iout hent
        rw [hout]
        rw [sieveRun_append2 pairs ow ⟨0, [], false, true⟩
          (Chunk.tok ⟨.startObject, ""⟩
            :: (iout ++ [Chunk.tok ⟨.endObject, ""⟩])) mid2
          ⟨0, [], false, true⟩ _ ⟨0, [], false, true⟩ _ hobj hsieve2]
        rw [hts]
        simp

/-- Claim C6: for every valid stream of root-level objects, each object
the sieve discards — including every object still undecided at its
`endObject`, discarded by default — contributes zero tokens downstream,
and each released object contributes exactly its original tokens in their
original order with no synthetic chunks added: the output is the
concatenation, object by object, of either nothing or the object's
original token stream, as decided by the entry verdict. -/
theorem C6_object_sieve (pairs : List (String × (JVal → Bool))) (ow : Owner)
    (f : Flags) (objs : List (List (String × JVal) × List JsonToken))
    (h : ∀ p ∈ objs, ValueTokens f (.jobj p.1) p.2 ∧ wfV (.jobj p.1)) :
    objectSieveRun pairs ow ((objs.map Prod.snd).flatten.map .tok)
      = some ((objs.map (fun p =>
          if (eVerdict pairs [] p.1 (false, false)).2 = true
          then p.2.map Chunk.tok else [])).flatten) := by
  obtain ⟨s2, mid, hrun, hsieve⟩ := streamRunGen pairs ow f objs
    (initPE ⟨pairs.map Prod.fst, false, ow, false⟩) h rfl rfl
    (asmReady_init f false) rfl (prevTrackSafe_init f) rfl
  unfold objectSieveRun
  rw [hrun]
  show some ((sieveRun pairs ow {} mid).2) = _
  rw [hsieve]

/-- Two objects `{"name":"object-1"}` and `{"name":"object-3"}` through
`objectSieve` with the single filter `[["name", name === "object-3"]]`:
the first is discarded, the second released verbatim. -/
theorem C6_object_sieve_witness :
    objectSieveRun
        [("name", fun v => match v with
          | JVal.jstr s => decide (s = "object-3")
          | _ => false)] (some 0)
        (([⟨.startObject, ""⟩, ⟨.keyValue, "name"⟩,
            ⟨.stringValue, "object-1"⟩, ⟨.endObject, ""⟩,
            ⟨.startObject, ""⟩, ⟨.keyValue, "name"⟩,
            ⟨.stringValue, "object-3"⟩, ⟨.endObject, ""⟩] :
          List JsonToken).map .tok)
      = some (([⟨.startObject, ""⟩, ⟨.keyValue, "name"⟩,
          ⟨.stringValue, "object-3"⟩, ⟨.endObject, ""⟩] :
          List JsonToken).map .tok) := by
  have h := C6_object_sieve
    [("name", fun v => match v with
      | JVal.jstr s => decide (s = "object-3")
      | _ => false)] (some 0) fPacked
    [([("name", JVal.jstr "object-1")],
      [⟨.startObject, ""⟩, ⟨.keyValue, "name"⟩,
       ⟨.stringValue, "object-1"⟩, ⟨.endObject, ""⟩]),
     ([("name", JVal.jstr "object-3")],
      [⟨.startObject, ""⟩, ⟨.keyValue, "name"⟩,
       ⟨.stringValue, "object-3"⟩, ⟨.endObject, ""⟩])]
    (by
      intro p hp
      simp only [List.mem_cons, List.not_mem_nil, or_false] at hp
      rcases hp with rfl | rfl
      · exact ⟨⟨[⟨.keyValue, "name"⟩, ⟨.stringValue, "object-1"⟩],
          ⟨[⟨.keyValue, "name"⟩], [⟨.stringValue, "object-1"⟩], [],
            rfl, rfl, rfl, rfl⟩, rfl⟩, by simp, trivial, trivial⟩
      · exact ⟨⟨[⟨.keyValue, "name"⟩, ⟨.stringValue, "object-3"⟩],
          ⟨[⟨.keyValue, "name"⟩], [⟨.stringValue, "object-3"⟩], [],
            rfl, rfl, rfl, rfl⟩, rfl⟩, by simp, trivial, trivial⟩)
  exact h

end MsftTodo
